import Mathlib

/-!
# pixel: image processing (`lib/imageProcessing.c`)

A shallow embedding of the stroke-to-polygon pipeline of
`lib/imageProcessing.c` (flood fill, spur eraser, boundary tracer,
Douglas-Peucker simplifier, orchestrator) and theorems about it.

Conventions of the embedding.

* C `int` values are `Int`; no computation of the pipeline leaves the 32-bit
  range for images within the capacity `baseWidth x maxHeight`.
* An `unsigned char` array (the padded mask `buffer`, the RGBA bytes `data`) is
  the natural number whose digit `i` in base 256 is the byte at index `i`;
  beyond the cells written every byte is `0`, the value `memset` leaves in the
  rest of the C array.
* `int* stack` together with its `stackSize` counter is a `List Int`.
* A `while`/`for` loop is a function recursive on a fuel or on its trip count.
* `double` arithmetic is a parameter (`Doubles`); `exactDoubles` is its
  instance with exact rational arithmetic.
-/

namespace Pixel

/-! ## Memory access -/

/-- The C read `buffer[i]` of a byte array: digit `i` in base 256. -/
def rd (buffer : Nat) (i : Int) : Nat :=
  if 0 ≤ i then buffer / 256 ^ i.toNat % 256 else 0

/-- The C write `buffer[i] = v` to a byte array: digit `i` becomes `v % 256`,
the other digits stay. -/
def wr (buffer : Nat) (i : Int) (v : Nat) : Nat :=
  if 0 ≤ i then
    buffer / 256 ^ (i.toNat + 1) * 256 ^ (i.toNat + 1) + v % 256 * 256 ^ i.toNat
      + buffer % 256 ^ i.toNat
  else buffer

/-- The number of base-256 digits of `n`, counted in at most `fuel` steps. -/
def memSizeAux : Nat → Nat → Nat
  | 0, _ => 0
  | fuel + 1, n => if n = 0 then 0 else memSizeAux fuel (n / 256) + 1

/-- The number of bytes up to the last non-zero byte of the array: the bytes
at the indices `memSize buffer` and above are 0. -/
def memSize (buffer : Nat) : Nat := memSizeAux buffer buffer

/-- The byte array with the bytes `bytes`, first byte at index 0. -/
def packBytes : List Nat → Nat
  | [] => 0
  | b :: bs => b % 256 + 256 * packBytes bs

/-! ## Region analyzer: `floodFill` -/

/-- The mutable state of `floodFill`: the mask, the live part of the stack
(top first) and the running `area`. -/
structure Fill where
  buffer : Nat
  stack : List Int
  area : Int
deriving DecidableEq, Repr

/-- The block
`if (buffer[i] == from) { buffer[i] = to; area++; stack[stackSize++] = i; }`. -/
def Fill.check (s : Fill) (i : Int) (cFrom cTo : Nat) : Fill :=
  if rd s.buffer i = cFrom then
    { buffer := wr s.buffer i cTo, stack := i :: s.stack, area := s.area + 1 }
  else s

/-- The loop `while (x >= 1 && buffer[i] == from) { ... i = oldI - 1; x--; }`
of `floodFill`; the trip count is at most `x`. -/
def fillLeft (bufferStride : Int) (cFrom cTo : Nat) : Nat → Int → Int → Fill → Fill
  | 0, _, _, s => s
  | fuel + 1, i, x, s =>
    if x ≥ 1 ∧ rd s.buffer i = cFrom then
      let s1 : Fill := { s with buffer := wr s.buffer i cTo, area := s.area + 1 }
      let s2 := s1.check (i - bufferStride) cFrom cTo
      let s3 := s2.check (i + bufferStride) cFrom cTo
      fillLeft bufferStride cFrom cTo fuel (i - 1) (x - 1) s3
    else s

/-- The loop `while (x <= w && buffer[i] == from) { ... i = oldI + 1; x++; }`
of `floodFill`; the trip count is at most `w + 1 - x`. -/
def fillRight (w bufferStride : Int) (cFrom cTo : Nat) : Nat → Int → Int → Fill → Fill
  | 0, _, _, s => s
  | fuel + 1, i, x, s =>
    if x ≤ w ∧ rd s.buffer i = cFrom then
      let s1 : Fill := { s with buffer := wr s.buffer i cTo, area := s.area + 1 }
      let s2 := s1.check (i - bufferStride) cFrom cTo
      let s3 := s2.check (i + bufferStride) cFrom cTo
      fillRight w bufferStride cFrom cTo fuel (i + 1) (x + 1) s3
    else s

/-- One trip of the outer `while (stackSize)` loop of `floodFill`, for the
popped index `stackI`. -/
def floodFillBody (w bufferStride : Int) (cFrom cTo : Nat) (stackI : Int) (s : Fill) : Fill :=
  let s1 := s.check (stackI - bufferStride) cFrom cTo
  let s2 := s1.check (stackI + bufferStride) cFrom cTo
  let xl := Int.tmod (stackI - 1) bufferStride
  let s3 := fillLeft bufferStride cFrom cTo xl.toNat (stackI - 1) xl s2
  let xr := Int.tmod (stackI + 1) bufferStride
  fillRight w bufferStride cFrom cTo (w + 1 - xr).toNat (stackI + 1) xr s3

/-- The outer loop `while (stackSize) { const int stackI = stack[--stackSize]; ... }`. -/
def floodFillLoop (w bufferStride : Int) (cFrom cTo : Nat) : Nat → Fill → Fill
  | 0, s => s
  | fuel + 1, s =>
    match s.stack with
    | [] => s
    | stackI :: rest =>
      floodFillLoop w bufferStride cFrom cTo fuel
        (floodFillBody w bufferStride cFrom cTo stackI { s with stack := rest })

/-- The function `floodFill`. `stack` is the C array, of which `stack[0]` is
live on entry (`stackSize = 1`); the result carries the returned `area` and the
mask after the call. Every trip of the outer loop lowers
`2 * (number of from-cells) + stackSize`, which bounds the fuel. -/
def floodFill (w h : Int) (buffer : Nat) (bufferStride : Int) (cFrom cTo : Nat)
    (stack : List Int) : Fill :=
  let _ := h
  floodFillLoop w bufferStride cFrom cTo (2 * memSize buffer + 2)
    { buffer := buffer, stack := stack.take 1, area := 1 }

/-! ### The reference: a naive 4-way flood fill -/

/-- One trip of the naive fill: look at the four neighbours of the popped cell. -/
def naiveFillBody (bufferStride : Int) (cFrom cTo : Nat) (c : Int) (s : Fill) : Fill :=
  (((s.check (c - bufferStride) cFrom cTo).check (c + 1) cFrom cTo).check
    (c + bufferStride) cFrom cTo).check (c - 1) cFrom cTo

/-- The work loop of the naive fill. -/
def naiveFillLoop (bufferStride : Int) (cFrom cTo : Nat) : Nat → Fill → Fill
  | 0, s => s
  | fuel + 1, s =>
    match s.stack with
    | [] => s
    | c :: rest =>
      naiveFillLoop bufferStride cFrom cTo fuel
        (naiveFillBody bufferStride cFrom cTo c { s with stack := rest })

/-- The naive reference 4-connected flood fill over `seed`, run on the mask in
which the seed still has the colour `cFrom`: recolour the seed, count it, and
recolour and count every `cFrom` cell met through the four neighbours; at the end
`area` is the number of cells recoloured. -/
def naiveFloodFill (mask : Nat) (bufferStride : Int) (seed : Int) (cFrom cTo : Nat) : Fill :=
  if rd mask seed = cFrom then
    naiveFillLoop bufferStride cFrom cTo (2 * memSize mask + 2)
      { buffer := wr mask seed cTo, stack := [seed], area := 1 }
  else { buffer := mask, stack := [], area := 0 }

/-- The 4-connected component of `cFrom`-coloured cells of `mask` that holds
`seed`: the cells joined to the seed by a path of `cFrom` cells whose steps go
to the cell above, below, left or right. (In a padded mask the first and the
last column hold no `cFrom` cell, so a step left or right stays in its row.) -/
inductive Conn (mask : Nat) (bufferStride : Int) (cFrom : Nat) (seed : Int) : Int → Prop
  | seed : rd mask seed = cFrom → Conn mask bufferStride cFrom seed seed
  | up {c : Int} : Conn mask bufferStride cFrom seed c → rd mask (c - bufferStride) = cFrom →
      Conn mask bufferStride cFrom seed (c - bufferStride)
  | down {c : Int} : Conn mask bufferStride cFrom seed c → rd mask (c + bufferStride) = cFrom →
      Conn mask bufferStride cFrom seed (c + bufferStride)
  | left {c : Int} : Conn mask bufferStride cFrom seed c → rd mask (c - 1) = cFrom →
      Conn mask bufferStride cFrom seed (c - 1)
  | right {c : Int} : Conn mask bufferStride cFrom seed c → rd mask (c + 1) = cFrom →
      Conn mask bufferStride cFrom seed (c + 1)

/-- A padded mask of a `w x h` image: a grid of `(w + 2) * (h + 2)` cells, row
`y` column `x` at index `y * (w + 2) + x`, whose first and last row and column
are `Background` (0); every byte after the grid is 0. -/
def PaddedMask (w h : Int) (mask : Nat) : Prop :=
  0 ≤ w ∧ 0 ≤ h ∧ mask < 256 ^ ((w + 2) * (h + 2)).toNat ∧
  ∀ x : Int, 0 ≤ x → x ≤ w + 1 → ∀ y : Int, 0 ≤ y → y ≤ h + 1 →
    (x = 0 ∨ x = w + 1 ∨ y = 0 ∨ y = h + 1) → rd mask (y * (w + 2) + x) = 0

instance (w h : Int) (mask : Nat) : Decidable (PaddedMask w h mask) := by
  unfold PaddedMask
  infer_instance

/-! ## Polygon simplifier: `perpendicularDistance`, `douglasPeucker` -/

/-- The C `struct PointStructure`. -/
structure Point where
  x : Int
  y : Int
deriving DecidableEq, Repr

/-- The C read `pointList[i]`. -/
def getP (pointList : List Point) (i : Int) : Point :=
  if 0 ≤ i then pointList.getD i.toNat ⟨0, 0⟩ else ⟨0, 0⟩

/-- The C write `pointList[i] = p`. -/
def setP (pointList : List Point) (i : Int) (p : Point) : List Point :=
  if 0 ≤ i then pointList.set i.toNat p else pointList

/-- The `double` arithmetic the simplifier relies on: the type of the values,
the constant `0`, the comparison `a > b`, and the function
`perpendicularDistance`, whose values exceed every tolerance below zero (a
distance is not negative). Theorems stated for every `Doubles` hold whatever
the rounding of the machine arithmetic is. -/
structure Doubles where
  D : Type
  zero : D
  gt : D → D → Bool
  perpendicularDistance : Int → Int → Int → Int → Int → Int → D
  exceedsNegative : ∀ (e : D) (x y x1 y1 x2 y2 : Int),
    gt zero e = true → gt (perpendicularDistance x y x1 y1 x2 y2) e = true

/-- An exact fraction `num / den` with `den > 0`, not normalised. -/
structure Frac where
  num : Int
  den : Int
  pos : 0 < den

/-- The integer `a` as a fraction. -/
def Frac.ofInt (a : Int) : Frac := ⟨a, 1, Int.one_pos⟩

/-- Exact `a + b`. -/
def Frac.add (a b : Frac) : Frac :=
  ⟨a.num * b.den + b.num * a.den, a.den * b.den, Int.mul_pos a.pos b.pos⟩

/-- Exact `a - b`. -/
def Frac.sub (a b : Frac) : Frac :=
  ⟨a.num * b.den - b.num * a.den, a.den * b.den, Int.mul_pos a.pos b.pos⟩

/-- Exact `a * b`. -/
def Frac.mul (a b : Frac) : Frac := ⟨a.num * b.num, a.den * b.den, Int.mul_pos a.pos b.pos⟩

/-- Exact `a / b` for an integer `b > 0`. -/
def Frac.divPos (a : Frac) (b : Int) (hb : 0 < b) : Frac :=
  ⟨a.num, a.den * b, Int.mul_pos a.pos hb⟩

/-- Exact `a < b`. -/
def Frac.lt (a b : Frac) : Bool := decide (a.num * b.den < b.num * a.den)

/-- The function `perpendicularDistance` in exact arithmetic, without its final
`sqrt`: the result is the square of the distance the C function returns.
`len_sq` is a sum of two squares, so `if (len_sq)` is `0 < len_sq`. -/
def perpendicularDistanceSq (x y x1 y1 x2 y2 : Int) : Frac :=
  let A := x - x1
  let B := y - y1
  let C := x2 - x1
  let D := y2 - y1
  let dot := Frac.ofInt (A * C + B * D)
  let len_sq := C * C + D * D
  let param := if h : 0 < len_sq then dot.divPos len_sq h else Frac.ofInt (-1)
  let xxyy : Frac × Frac :=
    if param.lt (Frac.ofInt 0) then (Frac.ofInt x1, Frac.ofInt y1)
    else if (Frac.ofInt 1).lt param then (Frac.ofInt x2, Frac.ofInt y2)
    else ((Frac.ofInt x1).add (param.mul (Frac.ofInt C)),
          (Frac.ofInt y1).add (param.mul (Frac.ofInt D)))
  let dx := (Frac.ofInt x).sub xxyy.1
  let dy := (Frac.ofInt y).sub xxyy.2
  (dx.mul dx).add (dy.mul dy)

/-- A fraction below zero is below every sum of two squares. -/
theorem Frac.lt_squares (e dx dy : Frac) (h : e.lt (Frac.ofInt 0) = true) :
    e.lt ((dx.mul dx).add (dy.mul dy)) = true := by
  simp only [Frac.lt, Frac.ofInt, Frac.add, Frac.mul, decide_eq_true_eq] at h ⊢
  have he := e.pos
  have hx := dx.pos
  have hy := dy.pos
  have h1 : e.num < 0 := by linarith
  have h2 : 0 < dx.den * dx.den * (dy.den * dy.den) := by positivity
  have h3 : 0 ≤ dx.num * dx.num * (dy.den * dy.den) + dy.num * dy.num * (dx.den * dx.den) := by
    have := mul_self_nonneg dx.num
    have := mul_self_nonneg dy.num
    positivity
  have h4 : e.num * (dx.den * dx.den * (dy.den * dy.den)) < 0 := mul_neg_of_neg_of_pos h1 h2
  have h5 : 0 ≤ (dx.num * dx.num * (dy.den * dy.den) + dy.num * dy.num * (dx.den * dx.den)) * e.den :=
    mul_nonneg h3 he.le
  linarith

/-- Exact arithmetic as `Doubles`: a non-negative `double` `d` is held as the
fraction `d * d`, which orders the values as their square roots. -/
def exactDoubles : Doubles where
  D := Frac
  zero := Frac.ofInt 0
  gt := fun a b => b.lt a
  perpendicularDistance := perpendicularDistanceSq
  exceedsNegative := fun e _ _ _ _ _ _ h => Frac.lt_squares e _ _ h

/-- The tolerance `1.5` of `trace4` in `exactDoubles` (`1.5 * 1.5 = 9 / 4`). -/
def epsilon1_5 : exactDoubles.D := (⟨9, 4, by decide⟩ : Frac)

/-- The loop `for (int i = start + 1; i < end; i++)` of `douglasPeucker`: `n`
trips from index `i`, carrying `(maxD, maxDIndex)`. -/
def dpScan (M : Doubles) (pointList : List Point) (pStart pEnd : Point) :
    Nat → Int → M.D × Int → M.D × Int
  | 0, _, acc => acc
  | n + 1, i, acc =>
    let p := getP pointList i
    let d := M.perpendicularDistance p.x p.y pStart.x pStart.y pEnd.x pEnd.y
    dpScan M pointList pStart pEnd n (i + 1) (if M.gt d acc.1 then (d, i) else acc)

/-- The call `memcpy(pointList + dst, pointList + src, sizeof(Point) * n)` as a
forward copy, one point after the other. -/
def memcpyPoints : Nat → List Point → Int → Int → List Point
  | 0, pointList, _, _ => pointList
  | n + 1, pointList, dst, src =>
    memcpyPoints n (setP pointList dst (getP pointList src)) (dst + 1) (src + 1)

/-- The recursion of `douglasPeucker`, at most `fuel` calls deep; `none` stands
for a recursion that does not return. The result is the returned count and
`pointList` after the call. -/
def douglasPeuckerAux (M : Doubles) (epsilon : M.D) :
    Nat → List Point → Int → Int → Option (Int × List Point)
  | 0, _, _, _ => none
  | fuel + 1, pointList, start, end_ =>
    if end_ - start ≤ 1 then some (end_ - start + 1, pointList)
    else
      let pStart := getP pointList start
      let pEnd := getP pointList end_
      let m := dpScan M pointList pStart pEnd (end_ - start - 1).toNat (start + 1) (M.zero, start)
      let maxD := m.1
      let maxDIndex := m.2
      if M.gt maxD epsilon then
        let tmp := getP pointList maxDIndex
        match douglasPeuckerAux M epsilon fuel pointList start maxDIndex with
        | none => none
        | some (r1, pointList1) =>
          let size1 := r1 - 1
          let pointList2 := setP pointList1 maxDIndex tmp
          match douglasPeuckerAux M epsilon fuel pointList2 maxDIndex end_ with
          | none => none
          | some (size2, pointList3) =>
            some (size1 + size2,
              memcpyPoints size2.toNat pointList3 (start + size1) maxDIndex)
      else some (2, setP pointList (start + 1) pEnd)

/-- The function `douglasPeucker`. A run that returns recurses on strictly
shorter ranges, so it is at most `end - start + 1` calls deep. -/
def douglasPeucker (M : Doubles) (pointList : List Point) (start end_ : Int) (epsilon : M.D) :
    Option (Int × List Point) :=
  douglasPeuckerAux M epsilon ((end_ - start).toNat + 1) pointList start end_

/-! ## Constants (`shared.h`, `imageProcessing.c`) -/

/-- `#define baseWidth 420`. -/
def baseWidth : Int := 420

/-- `#define maxHeight (baseWidth << 1)`. -/
def maxHeight : Int := baseWidth * 2

/-- `#define maxPixelCount ((baseWidth + 2) * (maxHeight + 2))`. -/
def maxPixelCount : Int := (baseWidth + 2) * (maxHeight + 2)

/-- `#define maxPointCount (maxPixelCount >> 1)`. -/
def maxPointCount : Int := maxPixelCount / 2

/-- `#define maxRevisited (baseWidth + maxHeight)`. -/
def maxRevisited : Int := baseWidth + maxHeight

/-- `#define maxStackSize maxPixelCount`. -/
def maxStackSize : Int := maxPixelCount

/-- The table `cwNeighborOffsets4` of `processImage`. -/
def cwNeighborOffsets4 (bufferStride : Int) : List Int :=
  [-bufferStride, 1, bufferStride, -1]

/-- The table `cwNeighborOffsets8` of `processImage`. -/
def cwNeighborOffsets8 (bufferStride : Int) : List Int :=
  [-bufferStride, -bufferStride + 1, 1, bufferStride + 1, bufferStride, bufferStride - 1, -1,
    -bufferStride - 1]

/-- The C read `table[k]` of an offset table. -/
def offsetAt (table : List Int) (k : Int) : Int :=
  if 0 ≤ k then table.getD k.toNat 0 else 0

/-! ## Boundary tracer: `isNewEdgePixel4`, `trace4`, `traceUndo` -/

/-- The function `isNewEdgePixel4`: the cell is `Visited` (2) and one of its 8
neighbours is `Background`. -/
def isNewEdgePixel4 (i : Int) (buffer : Nat) (cwNeighborOffsets8 : List Int) : Bool :=
  decide (rd buffer i = 2) &&
    ([7, 6, 5, 4, 3, 2, 1, 0].any fun j : Int =>
      decide (rd buffer (i + offsetAt cwNeighborOffsets8 j) = 0))

/-- The first `do ... while (offsetIndex != initialOffsetIndex)` loop of
`trace4`, from `offsetIndex`: the new edge pixel found with its direction, if
any, and the value of `offsetIndex` when the loop is left. For `cwDir` 1 or -1
the loop makes at most 4 trips. -/
def searchNew (prevI cwDir : Int) (off4 off8 : List Int) (buffer : Nat)
    (initialOffsetIndex : Int) : Nat → Int → Option (Int × Int) × Int
  | 0, offsetIndex => (none, offsetIndex)
  | n + 1, offsetIndex =>
    let i := prevI + offsetAt off4 offsetIndex
    if isNewEdgePixel4 i buffer off8 then (some (i, offsetIndex), offsetIndex)
    else
      let next := (offsetIndex + cwDir) % 4
      if next ≠ initialOffsetIndex then
        searchNew prevI cwDir off4 off8 buffer initialOffsetIndex n next
      else (none, next)

/-- The second `do ... while` loop of `trace4` (the fallback): the first
`Traced` (3) neighbour in search order, with its direction. -/
def searchTraced (prevI cwDir : Int) (off4 : List Int) (buffer : Nat)
    (initialOffsetIndex : Int) : Nat → Int → Option (Int × Int)
  | 0, _ => none
  | n + 1, offsetIndex =>
    let i := prevI + offsetAt off4 offsetIndex
    if rd buffer i = 3 then some (i, offsetIndex)
    else
      let next := (offsetIndex + cwDir) % 4
      if next ≠ initialOffsetIndex then
        searchTraced prevI cwDir off4 buffer initialOffsetIndex n next
      else none

/-- The variables of the main loop of `trace4`; `stack` holds
`stack[0 .. stackSize - 1]` in order. The list is a stack of its own and can
grow without bound: it is the C array `stack[maxStackSize]` of `ImageInfo` for
as long as `stackSize ≤ maxStackSize`. A store past the end of the C array,
which the loop can make (`traceLoop_push_unguarded`), lands in the array `data`
that follows it in `ImageInfo`; the model does not follow such a store. -/
structure Trace where
  buffer : Nat
  stack : List Int
  prevI : Int
  dir : Int
  visitingAlreadyVisited : Int
deriving DecidableEq, Repr

/-- How the main loop of `trace4` is left: by `break` (the path is closed), by
one of its `return`s (the trace is given up), or not within the fuel. -/
inductive TraceExit where
  | closed
  | aborted
  | outOfFuel
deriving DecidableEq, Repr

/-- The main loop `for (;;)` of `trace4`. As in the C code, the test
`stackSize >= maxStackSize` is made in the fallback branch only; the store
`stack[stackSize++] = nextI` at the end of the body is not guarded. -/
def traceLoop (initialI cwDir : Int) (off4 off8 : List Int) : Nat → Trace → Trace × TraceExit
  | 0, t => (t, TraceExit.outOfFuel)
  | fuel + 1, t =>
    let initialOffsetIndex := (t.dir - cwDir) % 4
    match searchNew t.prevI cwDir off4 off8 t.buffer initialOffsetIndex 4 initialOffsetIndex with
    | (some (nextI, dir), _) =>
      traceLoop initialI cwDir off4 off8 fuel
        { buffer := wr t.buffer nextI 3, stack := t.stack ++ [nextI], prevI := nextI, dir := dir,
          visitingAlreadyVisited := 0 }
    | (none, offsetIndex) =>
      if t.visitingAlreadyVisited ≥ maxRevisited ∨ (t.stack.length : Int) ≥ maxStackSize then
        (t, TraceExit.aborted)
      else
        match searchTraced t.prevI cwDir off4 t.buffer initialOffsetIndex 4 offsetIndex with
        | none => (t, TraceExit.aborted)
        | some (nextI, dir) =>
          if nextI = initialI then
            ({ t with dir := dir, visitingAlreadyVisited := t.visitingAlreadyVisited + 1 },
              TraceExit.closed)
          else
            traceLoop initialI cwDir off4 off8 fuel
              { buffer := wr t.buffer nextI 3, stack := t.stack ++ [nextI], prevI := nextI,
                dir := dir, visitingAlreadyVisited := t.visitingAlreadyVisited + 1 }

/-- The coordinates `(i % bufferStride, (i / bufferStride) | 0)` of a cell. -/
def cellPoint (bufferStride i : Int) : Point :=
  ⟨Int.tmod i bufferStride, Int.tdiv i bufferStride⟩

/-- The test `(x != prevX || x != nextX) && (y != prevY || y != nextY)`. -/
def isCorner (prev cur next : Point) : Bool :=
  (decide (cur.x ≠ prev.x) || decide (cur.x ≠ next.x)) &&
    (decide (cur.y ≠ prev.y) || decide (cur.y ≠ next.y))

/-- The loop `for (int nextI = 1; nextI < stackSize; nextI++)` of `trace4` over
`stack[1 ..]`, carrying `(prev, next)` and the points written so far. -/
def cornerLoop (bufferStride : Int) : List Int → Point → Point → List Point →
    List Point × Point × Point
  | [], prev, next, acc => (acc, prev, next)
  | i :: rest, prev, next, acc =>
    let cur := next
    let next1 := cellPoint bufferStride i
    cornerLoop bufferStride rest cur next1 (if isCorner prev cur next1 then acc ++ [cur] else acc)

/-- The corner points `trace4` writes to `points` before it closes and
simplifies the polygon: the cells of the closed path at which the path
changes both row and column. -/
def cornerPoints (bufferStride : Int) (stack : List Int) : List Point :=
  let first := cellPoint bufferStride (stack.headD 0)
  let last := cellPoint bufferStride (stack.getLastD 0)
  let r := cornerLoop bufferStride stack.tail last first []
  if isCorner r.2.1 r.2.2 first then r.1 ++ [r.2.2] else r.1

/-- What `trace4` leaves behind: the mask, the stack array, the `points`
array, and the values stored through `outPointCount` and `outStackSize`;
`fallbacks` is the final `visitingAlreadyVisited` and `exit` the way the main
loop was left. -/
structure TraceResult where
  buffer : Nat
  stack : List Int
  points : List Point
  pointCount : Int
  stackSize : Int
  fallbacks : Int
  exit : TraceExit
deriving DecidableEq, Repr

/-- The function `trace4`. A trip of the main loop either turns a `Visited`
cell into `Traced` or raises `visitingAlreadyVisited`, which bounds the fuel.
The simplifier is run in `exactDoubles`; with the tolerance 1.5 it returns. -/
def trace4 (initialI cwDir : Int) (off4 off8 : List Int) (buffer : Nat)
    (bufferStride : Int) (points : List Point) : TraceResult :=
  let fuel := (memSize buffer + 1) * (maxRevisited.toNat + 2)
  let r := traceLoop initialI cwDir off4 off8 fuel
    { buffer := wr buffer initialI 3, stack := [initialI], prevI := initialI, dir := 1,
      visitingAlreadyVisited := 0 }
  let t := r.1
  let stackSize : Int := t.stack.length
  match r.2 with
  | TraceExit.closed =>
    if stackSize < 3 ∨ stackSize ≥ maxPointCount then
      { buffer := t.buffer, stack := t.stack, points := points, pointCount := 0,
        stackSize := stackSize, fallbacks := t.visitingAlreadyVisited, exit := r.2 }
    else
      let corners := cornerPoints bufferStride t.stack
      let written := corners ++ points.drop corners.length
      let closedPoints := corners ++ [getP written 0] ++ points.drop (corners.length + 1)
      let pointCount : Int := corners.length + 1
      let simplified :=
        (douglasPeucker exactDoubles closedPoints 0 (pointCount - 1) epsilon1_5).getD
          (1, closedPoints)
      { buffer := t.buffer, stack := t.stack, points := simplified.2,
        pointCount := simplified.1 - 1, stackSize := stackSize,
        fallbacks := t.visitingAlreadyVisited, exit := r.2 }
  | _ =>
    { buffer := t.buffer, stack := t.stack, points := points, pointCount := 0,
      stackSize := stackSize - t.visitingAlreadyVisited, fallbacks := t.visitingAlreadyVisited,
      exit := r.2 }

/-- The function `traceUndo`: `stack[stackSize - 1]`, ..., `stack[0]` are set
back to `Visited` (2). -/
def traceUndo (buffer : Nat) (stack : List Int) (stackSize : Int) : Nat :=
  (stack.take stackSize.toNat).reverse.foldl (fun b i => wr b i 2) buffer

/-! ## Spur eraser: `erase1` -/

/-- The test `buffer[j] && ((!buffer[j - 1] && !buffer[j + 1]) ||
(!buffer[j - bufferStride] && !buffer[j + bufferStride]))`. -/
def isSpur (buffer : Nat) (bufferStride j : Int) : Bool :=
  decide (rd buffer j ≠ 0) &&
    ((decide (rd buffer (j - 1) = 0) && decide (rd buffer (j + 1) = 0)) ||
      (decide (rd buffer (j - bufferStride) = 0) && decide (rd buffer (j + bufferStride) = 0)))

/-- The loop `for (int n = 0; n < 4; n++)` of `erase1` around the erased cell
`i`: the neighbours that are spurs are pushed. -/
def erase1Push (off4 : List Int) (buffer : Nat) (bufferStride i : Int) :
    List Int → List Int → List Int
  | [], stack => stack
  | n :: ns, stack =>
    let j := i + offsetAt off4 n
    erase1Push off4 buffer bufferStride i ns
      (if isSpur buffer bufferStride j then j :: stack else stack)

/-- The loop `while (stackSize > 0)` of `erase1`; the stack has its top first. -/
def erase1Loop (off4 : List Int) (bufferStride : Int) : Nat → Nat → List Int → Nat
  | 0, buffer, _ => buffer
  | _ + 1, buffer, [] => buffer
  | fuel + 1, buffer, i :: rest =>
    let buffer1 := wr buffer i 0
    erase1Loop off4 bufferStride fuel buffer1
      (erase1Push off4 buffer1 bufferStride i [0, 1, 2, 3] rest)

/-- The function `erase1`. A cell is pushed only while it is not `Background`
and a cell popped a second time pushes nothing, so the loop makes at most
`5 * (number of cells) + 5` trips. -/
def erase1 (initialI : Int) (off4 : List Int) (buffer : Nat) (bufferStride : Int) :
    Nat :=
  erase1Loop off4 bufferStride (5 * memSize buffer + 5) buffer [initialI]

/-! ## Pipeline orchestrator: `polygonFound`, `processImage` -/

/-- A polygon handed to the consumer by `call_createPolygon`: the first
`pointCount` entries of `points`, together with the winding `cwDir` of the
trace it comes from and the `stackSize` that trace reported. -/
structure Emitted where
  cwDir : Int
  stackSize : Int
  points : List Point
deriving DecidableEq, Repr

/-- The loop of `polygonFound`: the 1-pixel border is removed from
`points[0 .. pointCount - 1]`. -/
def polygonFound (points : List Point) (pointCount : Int) : List Point :=
  (points.take pointCount.toNat).map (fun p => (⟨p.x - 1, p.y - 1⟩ : Point)) ++
    points.drop pointCount.toNat

/-- The inner loop of the mask construction: `n` trips
`buffer[j] = ((data[i + 3] == 255) ? 1 : 0)` with `i -= 4, j--`. -/
def maskCols (data : Nat) : Nat → Int → Int → Nat → Nat
  | 0, _, _, buffer => buffer
  | n + 1, i, j, buffer =>
    maskCols data n (i - 4) (j - 1) (wr buffer j (if rd data (i + 3) = 255 then 1 else 0))

/-- The outer loop of the mask construction, for `y = n - 1` down to `0`; `i`
is the data index of the last pixel of row `y`. -/
def maskRows (w bufferStride : Int) (data : Nat) : Nat → Int → Nat → Nat
  | 0, _, buffer => buffer
  | n + 1, i, buffer =>
    let y : Int := n
    maskRows w bufferStride data n (i - 4 * w)
      (maskCols data w.toNat i ((y + 1) * bufferStride + w) buffer)

/-- The mask construction of `processImage`: `memset` and the thresholding
loops. -/
def buildMask (w h : Int) (data : Nat) : Nat :=
  maskRows w (w + 2) data h.toNat (w * h * 4 - 4) 0

/-- The inner loop of the spur scan: `n` trips from cell `j`, `j--`. -/
def spurCols (bufferStride : Int) : Nat → Int → Nat → Nat
  | 0, _, buffer => buffer
  | n + 1, j, buffer =>
    spurCols bufferStride n (j - 1)
      (if isSpur buffer bufferStride j then
        erase1 j (cwNeighborOffsets4 bufferStride) buffer bufferStride
      else buffer)

/-- The outer loop of the spur scan, for `y = n - 1` down to `0`. -/
def spurRows (w bufferStride : Int) : Nat → Nat → Nat
  | 0, buffer => buffer
  | n + 1, buffer =>
    let y : Int := n
    spurRows w bufferStride n (spurCols bufferStride w.toNat ((y + 1) * bufferStride + w) buffer)

/-- The spur-erasing phase of `processImage`. -/
def eraseSpurs (w h : Int) (buffer : Nat) : Nat :=
  spurRows w (w + 2) h.toNat buffer

/-- The state of the main scan of `processImage`: the mask, the `points`
array and the polygons handed to the consumer so far. -/
structure Scan where
  buffer : Nat
  points : List Point
  polygons : List Emitted
deriving DecidableEq, Repr

/-- The body of the main scan of `processImage` at cell `i`. -/
def scanCell (w h bufferStride i : Int) (s : Scan) : Scan :=
  let off4 := cwNeighborOffsets4 bufferStride
  let off8 := cwNeighborOffsets8 bufferStride
  if rd s.buffer i = 1 then
    let f := floodFill w h (wr s.buffer i 2) bufferStride 1 2 [i]
    if f.area > 10 then
      let t := trace4 i 1 off4 off8 f.buffer bufferStride s.points
      if t.pointCount > 1 then
        let points := polygonFound t.points t.pointCount
        { buffer := t.buffer, points := points,
          polygons := s.polygons ++ [⟨1, t.stackSize, points.take t.pointCount.toNat⟩] }
      else
        let undone := traceUndo t.buffer t.stack t.stackSize
        { s with
          buffer := (floodFill w h (wr undone i 2) bufferStride 2 0 [i]).buffer
          points := t.points }
    else
      { s with buffer := (floodFill w h (wr f.buffer i 0) bufferStride 2 0 [i]).buffer }
  else if rd s.buffer i = 2 ∧ rd s.buffer (i + bufferStride) = 0 then
    let t := trace4 i (-1) off4 off8 s.buffer bufferStride s.points
    if t.pointCount > 1 ∧ t.stackSize > 8 then
      let points := polygonFound t.points t.pointCount
      { buffer := t.buffer, points := points,
        polygons := s.polygons ++ [⟨-1, t.stackSize, points.take t.pointCount.toNat⟩] }
    else { s with buffer := t.buffer, points := t.points }
  else s

/-- The inner loop of the main scan: `n` trips from cell `i`, `i++`. -/
def scanCols (w h bufferStride : Int) : Nat → Int → Scan → Scan
  | 0, _, s => s
  | n + 1, i, s => scanCols w h bufferStride n (i + 1) (scanCell w h bufferStride i s)

/-- The outer loop of the main scan: `n` rows from row `y`. -/
def scanRows (w h bufferStride : Int) : Nat → Int → Scan → Scan
  | 0, _, s => s
  | n + 1, y, s =>
    scanRows w h bufferStride n (y + 1) (scanCols w h bufferStride w.toNat (y * bufferStride + 1) s)

/-- The loop that computes `maxY`: `n` trips from index `i`, `i--`. -/
def maxYLoop (buffer : Nat) (bufferStride : Int) : Nat → Int → Int
  | 0, _ => 0
  | n + 1, i => if rd buffer i ≠ 0 then Int.tdiv i bufferStride - 1
      else maxYLoop buffer bufferStride n (i - 1)

/-- The body of the overlay loop of `processImage` for the pixel `(x, y)` with
data index `i` and mask index `j`. -/
def overlayCell (w h bufferStride : Int) (buffer : Nat) (x y i j : Int)
    (data : Nat) : Nat :=
  if rd buffer j = 0 then
    wr (wr (wr (wr data i 0) (i + 1) 0) (i + 2) 0) (i + 3) 0
  else if rd buffer j = 3 ∧
      (rd buffer (j - 1) = 0 ∨ rd buffer (j + 1) = 0 ∨ rd buffer (j - bufferStride) = 0 ∨
        rd buffer (j + bufferStride) = 0 ∨
        (((x > 1 ∧ rd buffer (j - 1) = 3 ∧ rd buffer (j - 2) = 3) ∨
            (x < w - 1 ∧ rd buffer (j + 1) = 3 ∧ rd buffer (j + 2) = 3)) ∧
          ((y > 1 ∧ rd buffer (j - bufferStride) = 3 ∧ rd buffer (j - bufferStride * 2) = 3) ∨
            (y < h - 1 ∧ rd buffer (j + bufferStride) = 3 ∧
              rd buffer (j + bufferStride * 2) = 3)))) then
    wr (wr (wr (wr data i (rd data i / 2)) (i + 1) (rd data (i + 1) / 2)) (i + 2)
      (rd data (i + 2) / 2)) (i + 3) 255
  else data

/-- The inner loop of the overlay: `n` trips for `x = n - 1` down to `0`. -/
def overlayCols (w h bufferStride : Int) (buffer : Nat) (y : Int) :
    Nat → Int → Int → Nat → Nat
  | 0, _, _, data => data
  | n + 1, i, j, data =>
    overlayCols w h bufferStride buffer y n (i - 4) (j - 1)
      (overlayCell w h bufferStride buffer n y i j data)

/-- The outer loop of the overlay, for `y = n - 1` down to `0`. -/
def overlayRows (w h bufferStride : Int) (buffer : Nat) : Nat → Int → Nat → Nat
  | 0, _, data => data
  | n + 1, i, data =>
    let y : Int := n
    overlayRows w h bufferStride buffer n (i - 4 * w)
      (overlayCols w h bufferStride buffer y w.toNat i ((y + 1) * bufferStride + w) data)

/-- What `processImage` produces: the value it returns (`maxY`), the `data`
buffer with the overlay, the final mask, and the polygons handed to the
consumer, in order. -/
structure Processed where
  maxY : Int
  data : Nat
  buffer : Nat
  points : List Point
  polygons : List Emitted
deriving DecidableEq, Repr

/-- The function `processImage` for an image of `w x h` pixels with the RGBA
bytes `data`; `points` is the content of the `points` array on entry. -/
def processImage (w h : Int) (data : Nat) (points : List Point) : Processed :=
  let bufferStride := w + 2
  let mask := eraseSpurs w h (buildMask w h data)
  let s := scanRows w h bufferStride h.toNat 1 { buffer := mask, points := points, polygons := [] }
  let maxY := maxYLoop s.buffer bufferStride (h * bufferStride + w + 1).toNat (h * bufferStride + w)
  { maxY := maxY,
    data := overlayRows w h bufferStride s.buffer h.toNat (w * h * 4 - 4) data,
    buffer := s.buffer, points := s.points, polygons := s.polygons }

/-! ## Test images and measures used by the theorems -/

/-- The RGBA bytes of a `w x h` image whose pixel `(x, y)` has alpha 255 when
`ink x y` holds and alpha 0 otherwise (colour 200, 100, 50). -/
def imageOf (w h : Nat) (ink : Nat → Nat → Bool) : Nat :=
  packBytes ((List.range (w * h)).flatMap fun k =>
    [200, 100, 50, if ink (k % w) (k / w) then 255 else 0])

/-- The image of a filled `n x n` square with the square hole of the pixels
`(x, y)`, `a ≤ x < b`, `a ≤ y < b`. -/
def annulusImage (n a b : Nat) : Nat :=
  imageOf n n fun x y => !(decide (a ≤ x) && decide (x < b) && decide (a ≤ y) && decide (y < b))

/-- The 5x5 padded mask whose 3x3 interior is all `Visited` (2). -/
def square3Mask : Nat :=
  packBytes [0, 0, 0, 0, 0, 0, 2, 2, 2, 0, 0, 2, 2, 2, 0, 0, 2, 2, 2, 0, 0, 0, 0, 0, 0]

/-- The shoelace sum `x0 * y1 - x1 * y0 + x1 * y2 - x2 * y1 + ...` over the
edges `p, q`, ... of an open path ending at `last`. -/
def shoelacePath : List Point → Point → Int
  | [], _ => 0
  | [p], last => p.x * last.y - last.x * p.y
  | p :: q :: rest, last => p.x * q.y - q.x * p.y + shoelacePath (q :: rest) last

/-- Twice the signed area of the closed polygon `points` (shoelace formula).
In image coordinates (`y` grows downwards) it is positive for a clockwise
polygon and negative for a counter-clockwise one. -/
def shoelace2 (points : List Point) : Int :=
  shoelacePath points (points.headD ⟨0, 0⟩)

/-! ## Notions used to state the theorems -/

/-- The value `perpendicularDistance` gives for the point `pointList[i]` and
the chord from `pointList[start]` to `pointList[end]`. -/
def chordDistance (M : Doubles) (pointList : List Point) (start end_ i : Int) : M.D :=
  M.perpendicularDistance (getP pointList i).x (getP pointList i).y
    (getP pointList start).x (getP pointList start).y
    (getP pointList end_).x (getP pointList end_).y

/-- What a returning call `douglasPeucker(pointList, start, end, epsilon)` leaves: it
returns `m ≥ 1`, the array `out` has in `out[start .. start + m - 1]` the
points `pointList[idx 0]`, ..., `pointList[idx (m - 1)]` for indices
`start = idx 0 < idx 1 < ... < idx (m - 1) = end`, and it is unchanged outside
`start .. end`. -/
def DPResult (pointList : List Point) (start end_ : Int) (m : Nat) (out : List Point)
    (idx : Nat → Int) : Prop :=
  out.length = pointList.length ∧ 1 ≤ m ∧ idx 0 = start ∧ idx (m - 1) = end_ ∧
  (∀ k : Nat, k + 1 < m → idx k < idx (k + 1)) ∧
  (∀ k : Nat, k < m → start + k ≤ idx k ∧ idx k + ((m : Int) - 1 - k) ≤ end_) ∧
  (∀ k : Nat, k < m → getP out (start + k) = getP pointList (idx k)) ∧
  (∀ i : Int, i < start ∨ end_ < i → getP out i = getP pointList i)

/-- The number of cells with value `v` among the first `n` cells of `buffer`. -/
def cnt (buffer : Nat) (v : Nat) : Nat → Nat
  | 0 => 0
  | n + 1 => cnt buffer v n + (if rd buffer (n : Int) = v then 1 else 0)

/-- None of the four neighbours of cell `c` has the colour `cFrom`. -/
def Closed (bufferStride : Int) (cFrom : Nat) (buffer : Nat) (c : Int) : Prop :=
  rd buffer (c - bufferStride) ≠ cFrom ∧ rd buffer (c + bufferStride) ≠ cFrom ∧
  rd buffer (c - 1) ≠ cFrom ∧ rd buffer (c + 1) ≠ cFrom

/-- The setting of a fill from `cFrom` to `cTo` on `mask`: the two colours
differ, `cTo` is a byte, `w` is not negative, and the `cFrom` cells lie among the first `n` cells,
in the columns `1 .. w` of the grid of stride `w + 2`. -/
structure FillCtx (mask : Nat) (w bufferStride : Int) (cFrom cTo : Nat) (n : Nat) : Prop where
  hne : cFrom ≠ cTo
  hto : cTo < 256
  hstride : bufferStride = w + 2
  hw : 0 ≤ w
  interior : ∀ c : Int, rd mask c = cFrom →
    0 ≤ c ∧ c < n ∧ 1 ≤ Int.tmod c bufferStride ∧ Int.tmod c bufferStride ≤ w

/-- The invariant of a fill of the component of `seed` in `mask`: the cells
changed so far are cells of the component, recoloured from `cFrom` to `cTo`;
`area` counts them; the stack holds recoloured cells; and every recoloured
cell is in `pend`, on the stack, or has no `cFrom` neighbour left. -/
structure FillInv (mask : Nat) (bufferStride : Int) (cFrom cTo : Nat) (seed : Int) (n : Nat)
    (pend : List Int) (s : Fill) : Prop where
  frame : ∀ c : Int, rd s.buffer c = rd mask c ∨
    (rd mask c = cFrom ∧ rd s.buffer c = cTo ∧ Conn mask bufferStride cFrom seed c)
  seedDone : rd mask seed = cFrom ∧ rd s.buffer seed = cTo
  count : s.area + (cnt s.buffer cFrom n : Int) = (cnt mask cFrom n : Int)
  stackDone : ∀ c ∈ s.stack, rd mask c = cFrom ∧ rd s.buffer c = cTo
  closed : ∀ c : Int, rd mask c = cFrom → rd s.buffer c = cTo →
    c ∈ pend ∨ c ∈ s.stack ∨ Closed bufferStride cFrom s.buffer c

/-- The next state differs from the previous one only in cells recoloured
from `cFrom` to `cTo`, and `2 * (number of cFrom cells) + stackSize` has not
grown. -/
structure FillStep (cFrom cTo : Nat) (n : Nat) (s t : Fill) : Prop where
  paints : ∀ c : Int, rd t.buffer c = rd s.buffer c ∨ (rd s.buffer c = cFrom ∧ rd t.buffer c = cTo)
  measure : 2 * cnt t.buffer cFrom n + t.stack.length ≤ 2 * cnt s.buffer cFrom n + s.stack.length

/-- The invariant of a walk of `floodFill` along a row in direction `delta`
from the popped cell `stackI`: `cur` is the last cell recoloured, its
neighbours above, below and behind have no colour `cFrom` any more, and of the
recoloured cells only `stackI` and `cur` are pending. -/
structure WalkInv (mask : Nat) (bufferStride : Int) (cFrom cTo : Nat) (seed : Int) (n : Nat)
    (delta stackI cur : Int) (s : Fill) : Prop where
  inv : FillInv mask bufferStride cFrom cTo seed n [stackI, cur] s
  curDone : rd mask cur = cFrom ∧ rd s.buffer cur = cTo
  curUp : rd s.buffer (cur - bufferStride) ≠ cFrom
  curDown : rd s.buffer (cur + bufferStride) ≠ cFrom
  back : cur = stackI ∨
    (rd s.buffer (cur - delta) ≠ cFrom ∧ rd s.buffer (stackI + delta) ≠ cFrom)
  topDone : rd mask stackI = cFrom ∧ rd s.buffer stackI = cTo
  topUp : rd s.buffer (stackI - bufferStride) ≠ cFrom
  topDown : rd s.buffer (stackI + bufferStride) ≠ cFrom

/-- What holds when a fill has emptied its stack: exactly the cells of the
component of the seed are recoloured, and `area` is the number of `cFrom` cells
that are gone. -/
def FillDone (mask : Nat) (bufferStride : Int) (cFrom cTo : Nat) (seed : Int) (n : Nat)
    (s : Fill) : Prop :=
  s.stack = [] ∧
  (∀ c : Int, Conn mask bufferStride cFrom seed c → rd s.buffer c = cTo) ∧
  (∀ c : Int, ¬ Conn mask bufferStride cFrom seed c → rd s.buffer c = rd mask c) ∧
  s.area + (cnt s.buffer cFrom n : Int) = (cnt mask cFrom n : Int)

/-- The cells among the first `n` that have the colour `cFrom` in `mask` and
the colour `cTo` in `buffer`. -/
def recoloured (mask buffer : Nat) (cFrom cTo : Nat) : Nat → List Int
  | 0 => []
  | n + 1 =>
    if rd mask (n : Int) = cFrom ∧ rd buffer (n : Int) = cTo then
      (n : Int) :: recoloured mask buffer cFrom cTo n
    else recoloured mask buffer cFrom cTo n

/-- A 5x5 padded mask with a 5-cell region of `Foreground` (1) cells around the
cell 6 and a separate `Foreground` cell that touches it by a corner only. -/
def fillMask : Nat :=
  packBytes [0, 0, 0, 0, 0, 0, 1, 1, 0, 0, 0, 0, 1, 1, 0, 0, 1, 0, 1, 0, 0, 0, 0, 0, 0]

/-- The number of cells that are not `Background` among the first `n` cells
of `buffer`. -/
def inkCount (buffer : Nat) : Nat → Nat
  | 0 => 0
  | n + 1 => inkCount buffer n + (if rd buffer (n : Int) = 0 then 0 else 1)

/-- The invariant of the stack of `erase1`, top first: a stacked cell that is
`Background` already has its spur neighbours above it on the stack (`above`
lists the cells above the current one). -/
def StackInv (buffer : Nat) (bufferStride : Int) : List Int → List Int → Prop
  | _, [] => True
  | above, e :: below =>
    (rd buffer e = 0 → ∀ c : Int,
      (c = e - bufferStride ∨ c = e + 1 ∨ c = e + bufferStride ∨ c = e - 1) →
      isSpur buffer bufferStride c = true → c ∈ above) ∧
    StackInv buffer bufferStride (e :: above) below

/-- The cell `c` is the cell of the pixel `(x, y)` of a `w x h` image in the
padded mask, for some `0 ≤ x < w` and `0 ≤ y < h`. -/
def Interior (w h : Int) (c : Int) : Prop :=
  ∃ x y : Int, 0 ≤ x ∧ x < w ∧ 0 ≤ y ∧ y < h ∧ c = (y + 1) * (w + 2) + x + 1

/-- The 4x4 image of the comment on the spur scan in `processImage`: the
pixels A = (0, 1), B = (0, 2), C = (0, 3) hang below each other at the left of
a region; A becomes a spur only once C and B are erased. -/
def spurExampleImage : Nat :=
  imageOf 4 4 fun x y =>
    decide (2 ≤ x) || (decide (x = 0) && decide (1 ≤ y)) || (decide (x = 1) && decide (y ≤ 1))

/-! ## Notions used to state the theorems about the orchestrator -/

/-- Every cell of `b` has its value in `a`, but for cells that had the value
`u` in `a` and have the value `v` in `b`. -/
def Repaint (u v : Nat) (a b : Nat) : Prop :=
  ∀ c : Int, rd b c = rd a c ∨ (rd a c = u ∧ rd b c = v)

/-- A change of the mask by one call made after the mask construction: some
`Foreground` cells erased, some `Foreground` cells visited, some `Visited`
cells traced, some `Traced` cells set back to `Visited`, or some `Visited`
cells erased. -/
def LegalStep (a b : Nat) : Prop :=
  Repaint 1 0 a b ∨ Repaint 1 2 a b ∨ Repaint 2 3 a b ∨ Repaint 3 2 a b ∨ Repaint 2 0 a b

/-- The masks the body of the main scan at cell `i` leaves after each of its
writes to the mask (a single store or a call of `floodFill`, `trace4` or
`traceUndo`), in order. -/
def scanCellSteps (w h bufferStride i : Int) (s : Scan) : List Nat :=
  let off4 := cwNeighborOffsets4 bufferStride
  let off8 := cwNeighborOffsets8 bufferStride
  if rd s.buffer i = 1 then
    let b1 := wr s.buffer i 2
    let f := floodFill w h b1 bufferStride 1 2 [i]
    if f.area > 10 then
      let t := trace4 i 1 off4 off8 f.buffer bufferStride s.points
      if t.pointCount > 1 then [b1, f.buffer, t.buffer]
      else
        let undone := traceUndo t.buffer t.stack t.stackSize
        [b1, f.buffer, t.buffer, undone, wr undone i 2,
          (floodFill w h (wr undone i 2) bufferStride 2 0 [i]).buffer]
    else
      [b1, f.buffer, wr f.buffer i 0, (floodFill w h (wr f.buffer i 0) bufferStride 2 0 [i]).buffer]
  else if rd s.buffer i = 2 ∧ rd s.buffer (i + bufferStride) = 0 then
    [(trace4 i (-1) off4 off8 s.buffer bufferStride s.points).buffer]
  else []

/-- The masks after each write of the inner loop of the main scan. -/
def scanColsSteps (w h bufferStride : Int) : Nat → Int → Scan → List Nat
  | 0, _, _ => []
  | n + 1, i, s =>
    scanCellSteps w h bufferStride i s ++
      scanColsSteps w h bufferStride n (i + 1) (scanCell w h bufferStride i s)

/-- The masks after each write of the main scan. -/
def scanRowsSteps (w h bufferStride : Int) : Nat → Int → Scan → List Nat
  | 0, _, _ => []
  | n + 1, y, s =>
    scanColsSteps w h bufferStride w.toNat (y * bufferStride + 1) s ++
      scanRowsSteps w h bufferStride n (y + 1)
        (scanCols w h bufferStride w.toNat (y * bufferStride + 1) s)

/-- The masks after each call of `erase1` of the inner loop of the spur
scan. -/
def spurColsSteps (bufferStride : Int) : Nat → Int → Nat → List Nat
  | 0, _, _ => []
  | n + 1, j, buffer =>
    if isSpur buffer bufferStride j then
      erase1 j (cwNeighborOffsets4 bufferStride) buffer bufferStride ::
        spurColsSteps bufferStride n (j - 1)
          (erase1 j (cwNeighborOffsets4 bufferStride) buffer bufferStride)
    else spurColsSteps bufferStride n (j - 1) buffer

/-- The masks after each call of `erase1` of the spur scan. -/
def spurRowsSteps (w bufferStride : Int) : Nat → Nat → List Nat
  | 0, _ => []
  | n + 1, buffer =>
    let y : Int := n
    spurColsSteps bufferStride w.toNat ((y + 1) * bufferStride + w) buffer ++
      spurRowsSteps w bufferStride n
        (spurCols bufferStride w.toNat ((y + 1) * bufferStride + w) buffer)

/-- The masks `processImage` goes through after the mask construction: the
mask after each call of `erase1` of the spur scan and after each write of the
main scan, in order. -/
def maskSteps (w h : Int) (data : Nat) (points : List Point) : List Nat :=
  spurRowsSteps w (w + 2) h.toNat (buildMask w h data) ++
    scanRowsSteps w h (w + 2) h.toNat 1
      { buffer := eraseSpurs w h (buildMask w h data), points := points, polygons := [] }

/-- The border predicate of the padded mask of a `w x h` image: every cell in
row 0, row `h + 1`, column 0 and column `w + 1` is `Background`. -/
def BorderClear (w h : Int) (mask : Nat) : Prop :=
  ∀ x : Int, 0 ≤ x → x ≤ w + 1 → ∀ y : Int, 0 ≤ y → y ≤ h + 1 →
    (x = 0 ∨ x = w + 1 ∨ y = 0 ∨ y = h + 1) → rd mask (y * (w + 2) + x) = 0

instance (w h : Int) (mask : Nat) : Decidable (BorderClear w h mask) := by
  unfold BorderClear
  infer_instance

/-- The state of the main scan on an image of small regions only, before cell
`pos`: the mask has `Background` and `Foreground` cells only, the latter among
the `Foreground` cells of `mask0` and not before `pos`, and no polygon has
been handed over. -/
structure NoiseInv (mask0 : Nat) (st : Scan) (pos : Int) : Prop where
  bits : ∀ c : Int, rd st.buffer c ≤ 1
  sub : ∀ c : Int, rd st.buffer c = 1 → rd mask0 c = 1
  silent : st.polygons = []
  ahead : ∀ c : Int, rd st.buffer c = 1 → pos ≤ c

/-- The image of `w x h` pixels with a filled block: alpha 255 at the pixels
`(x, y)` with `x0 ≤ x < x1` and `y0 ≤ y < y1`, alpha 0 elsewhere. -/
def blockImage (w h x0 x1 y0 y1 : Nat) : Nat :=
  imageOf w h fun x y => decide (x0 ≤ x) && decide (x < x1) && decide (y0 ≤ y) && decide (y < y1)

/-- The changes of the value of a mask cell that `processImage` makes after
the mask construction: `Foreground` to `Background` (spur eraser),
`Foreground` to `Visited`, `Visited` to `Traced`, `Traced` back to `Visited`
(`traceUndo`), `Visited` to `Background`. -/
def CellChange (u v : Nat) : Prop :=
  (u = 1 ∧ v = 0) ∨ (u = 1 ∧ v = 2) ∨ (u = 2 ∧ v = 3) ∨ (u = 3 ∧ v = 2) ∨ (u = 2 ∧ v = 0)

/-- The padded mask of a `w x h` image whose cell in column `x` and row `y` of
the grid has the value `f x y`. -/
def cellsMask (w h : Nat) (f : Nat → Nat → Nat) : Nat :=
  packBytes ((List.range ((w + 2) * (h + 2))).map fun k => f (k % (w + 2)) (k / (w + 2)))

/-- The padded mask of the 24x24 image with the 20x20 square of the pixels
`2 ≤ x, y < 22`: the cells of the square are `Foreground`. -/
def square24Mask : Nat :=
  cellsMask 24 24 fun x y => if 3 ≤ x ∧ x ≤ 22 ∧ 3 ≤ y ∧ y ≤ 22 then 1 else 0

/-- The mask `square24Mask` with its region visited and traced: the cells on
the edge of the square are `Traced`, the cells inside are `Visited`. -/
def square24Traced : Nat :=
  cellsMask 24 24 fun x y =>
    if 3 ≤ x ∧ x ≤ 22 ∧ 3 ≤ y ∧ y ≤ 22 then
      (if x = 3 ∨ x = 22 ∨ y = 3 ∨ y = 22 then 3 else 2)
    else 0

/-- The padded mask of the 20x20 image all of whose pixels are `Foreground`. -/
def square20Mask : Nat :=
  cellsMask 20 20 fun x y => if 1 ≤ x ∧ x ≤ 20 ∧ 1 ≤ y ∧ y ≤ 20 then 1 else 0

/-- The mask `square20Mask` with its region visited and traced: the cells on
the edge of the square are `Traced`, the cells inside are `Visited`. -/
def square20Traced : Nat :=
  cellsMask 20 20 fun x y =>
    if 1 ≤ x ∧ x ≤ 20 ∧ 1 ≤ y ∧ y ≤ 20 then
      (if x = 1 ∨ x = 20 ∨ y = 1 ∨ y = 20 then 3 else 2)
    else 0

/-- The body of the main scan has nothing to do at cell `i`: the cell is not
`Foreground`, and it is not a `Visited` cell with `Background` below. -/
def IdleAt (buffer : Nat) (bufferStride i : Int) : Prop :=
  rd buffer i ≠ 1 ∧ ¬ (rd buffer i = 2 ∧ rd buffer (i + bufferStride) = 0)

instance (buffer : Nat) (bufferStride i : Int) : Decidable (IdleAt buffer bufferStride i) := by
  unfold IdleAt
  infer_instance

/-- The padded mask of the 20x20 square with the 6x6 hole of the pixels
`7 ≤ x, y < 13`. -/
def annulus20Mask : Nat :=
  cellsMask 20 20 fun x y =>
    if 1 ≤ x ∧ x ≤ 20 ∧ 1 ≤ y ∧ y ≤ 20 ∧ ¬ (8 ≤ x ∧ x ≤ 13 ∧ 8 ≤ y ∧ y ≤ 13) then 1 else 0

/-- The mask `annulus20Mask` after the outer trace: the cells on the outer edge
are `Traced`, the other cells of the region are `Visited`. -/
def annulus20Outer : Nat :=
  cellsMask 20 20 fun x y =>
    if 1 ≤ x ∧ x ≤ 20 ∧ 1 ≤ y ∧ y ≤ 20 ∧ ¬ (8 ≤ x ∧ x ≤ 13 ∧ 8 ≤ y ∧ y ≤ 13) then
      (if x = 1 ∨ x = 20 ∨ y = 1 ∨ y = 20 then 3 else 2)
    else 0

/-- The mask `annulus20Outer` after the trace of the hole: the cells around
the hole are `Traced` too. -/
def annulus20Inner : Nat :=
  cellsMask 20 20 fun x y =>
    if 1 ≤ x ∧ x ≤ 20 ∧ 1 ≤ y ∧ y ≤ 20 ∧ ¬ (8 ≤ x ∧ x ≤ 13 ∧ 8 ≤ y ∧ y ≤ 13) then
      (if x = 1 ∨ x = 20 ∨ y = 1 ∨ y = 20 ∨ (7 ≤ x ∧ x ≤ 14 ∧ 7 ≤ y ∧ y ≤ 14) then 3 else 2)
    else 0

/-! ## Notions used to state the theorems about paths and sets of cells -/

/-- The cell `b` is the neighbour of the cell `a` above, to the right, below
or to the left in a grid of stride `bufferStride`. -/
def Adjacent4 (bufferStride a b : Int) : Prop :=
  b = a - bufferStride ∨ b = a + 1 ∨ b = a + bufferStride ∨ b = a - 1

/-- Every entry of the list but the first is a 4-neighbour of the entry
before it. -/
def Walk4 (bufferStride : Int) (l : List Int) : Prop :=
  ∀ k : Nat, k + 1 < l.length → Adjacent4 bufferStride (l.getD k 0) (l.getD (k + 1) 0)

/-- No cell of the set `S` has both its horizontal neighbours outside `S` or
both its vertical neighbours outside `S`. -/
def SpurFree (bufferStride : Int) (S : Int → Prop) : Prop :=
  ∀ c : Int, S c → ¬ (¬ S (c - 1) ∧ ¬ S (c + 1)) ∧
    ¬ (¬ S (c - bufferStride) ∧ ¬ S (c + bufferStride))

/-- The comparison `a > b` of the doubles is a strict weak order, as that of
the machine doubles other than NaN is: `a > b` excludes `b > a`, and "not
greater than" is transitive. -/
def Doubles.Ordered (M : Doubles) : Prop :=
  (∀ a b : M.D, M.gt a b = true → M.gt b a = false) ∧
  (∀ a b c : M.D, M.gt a b = false → M.gt b c = false → M.gt a c = false)

/-- The error bound of a simplification that keeps the points with the
original indices `idx 0 < idx 1 < ...`: every point strictly between two
consecutive kept points is within the tolerance of the segment joining
them. -/
def DPBound (M : Doubles) (epsilon : M.D) (pointList : List Point) (m : Nat)
    (idx : Nat → Int) : Prop :=
  ∀ k : Nat, k + 1 < m → ∀ j : Int, idx k < j → j < idx (k + 1) →
    M.gt (chordDistance M pointList (idx k) (idx (k + 1)) j) epsilon = false

/-- The kept points of a simplification, wherever they are stored, are left as
they are by `douglasPeucker`: on an array `L` that holds the points
`pointList[idx 0]`, ..., `pointList[idx (m - 1)]` from index `s` on, the call on the
range `s .. s + m - 1` returns `m` and leaves `L` as it was. -/
def DPIdem (M : Doubles) (epsilon : M.D) (pointList : List Point) (m : Nat)
    (idx : Nat → Int) : Prop :=
  ∀ (L : List Point) (s : Int) (fuel : Nat),
    (∀ k : Nat, k < m → getP L (s + k) = getP pointList (idx k)) → m ≤ fuel →
    douglasPeuckerAux M epsilon fuel L s (s + m - 1) = some ((m : Int), L)

/-! ## Notions used to state the theorems about the failure branch of the outer trace -/

/-- A fill whose seed `i` still has the colour `cFrom`, state `A`, beside the
fill whose seed was recoloured before the call, state `T`: the masks agree
but for the seed, which is recoloured in `T`, and the stack of `T` is that of
`A` without the seed. -/
structure SeedSim (i : Int) (cFrom cTo : Nat) (A T : Fill) : Prop where
  off : ∀ c : Int, c ≠ i → rd T.buffer c = rd A.buffer c
  seedT : rd T.buffer i = cTo
  seedA : rd A.buffer i = cFrom ∨ rd A.buffer i = cTo
  stack : T.stack = A.stack.filter (fun c => decide (c ≠ i))

/-- The number of times the seed `i` is on the stack, plus one while the seed
has the colour `cFrom`. -/
def seedDebt (i : Int) (cFrom : Nat) (A : Fill) : Nat :=
  A.stack.count i + (if rd A.buffer i = cFrom then 1 else 0)

/-- The state of the main scan before cell `pos`, on the mask `mask0` the spur
scan left: a `Background` cell of `mask0` is `Background`; a cell that is
still `Foreground` has its `Foreground` neighbours of `mask0` still
`Foreground` (its region is untouched as a whole); and no `Foreground` cell is
left before `pos`. -/
structure RegionInv (w : Int) (mask0 : Nat) (st : Scan) (pos : Int) : Prop where
  blank : ∀ c : Int, rd mask0 c = 0 → rd st.buffer c = 0
  whole : ∀ c : Int, rd st.buffer c = 1 → ∀ n : Int, Adjacent4 (w + 2) c n → rd mask0 n = 1 →
    rd st.buffer n = 1
  later : ∀ c : Int, rd st.buffer c = 1 → pos ≤ c

/-- The state of the main scan of `processImage` when it reaches the pixel
`(x, y)`: the rows `0 .. y - 1` and the pixels `0 .. x - 1` of row `y` are
done. -/
def scanBefore (w h : Int) (data : Nat) (points : List Point) (x y : Nat) : Scan :=
  scanCols w h (w + 2) x (((y : Int) + 1) * (w + 2) + 1)
    (scanRows w h (w + 2) y 1
      { buffer := eraseSpurs w h (buildMask w h data), points := points, polygons := [] })

/-- The padded mask of the 5x5 square with the 1x1 hole in its middle: the 24
cells of the region are `Foreground`. -/
def ring5Mask : Nat :=
  cellsMask 5 5 fun x y => if 1 ≤ x ∧ x ≤ 5 ∧ 1 ≤ y ∧ y ≤ 5 ∧ ¬ (x = 3 ∧ y = 3) then 1 else 0

/-- The mask `ring5Mask` with its region visited. -/
def ring5Visited : Nat :=
  cellsMask 5 5 fun x y => if 1 ≤ x ∧ x ≤ 5 ∧ 1 ≤ y ∧ y ≤ 5 ∧ ¬ (x = 3 ∧ y = 3) then 2 else 0

/-- The mask `ring5Mask` with all the cells of its region traced. -/
def ring5Traced : Nat :=
  cellsMask 5 5 fun x y => if 1 ≤ x ∧ x ≤ 5 ∧ 1 ≤ y ∧ y ≤ 5 ∧ ¬ (x = 3 ∧ y = 3) then 3 else 0

/-! ## Notions used to state the theorems about squares with a square hole -/

/-- The index of the cell in column `x` and row `y` of a padded mask of stride
`bufferStride`. -/
def cellAt (bufferStride x y : Int) : Int := y * bufferStride + x

/-- The column of the cell reached after `j` steps along the sides of the
rectangle of the columns `x0 .. x0 + a` and the rows `y0 .. y0 + b`, clockwise
from its top left corner: right along the top, down the right side, left along
the bottom and up the left side. -/
def rectX (x0 a b j : Int) : Int :=
  if j ≤ a then x0 + j
  else if j ≤ a + b then x0 + a
  else if j ≤ 2 * a + b then x0 + a - (j - a - b)
  else x0

/-- The row of the cell reached after `j` steps along the sides of the
rectangle. -/
def rectY (y0 a b j : Int) : Int :=
  if j ≤ a then y0
  else if j ≤ a + b then y0 + (j - a)
  else if j ≤ 2 * a + b then y0 + b
  else y0 + b - (j - 2 * a - b)

/-- The direction (index into `cwNeighborOffsets4`) in which the cell after `j`
steps along the sides of the rectangle is entered; the start is taken as
entered to the right, the initial direction of `trace4`. -/
def rectDir (a b j : Int) : Int :=
  if j ≤ a then 1 else if j ≤ a + b then 2 else if j ≤ 2 * a + b then 3 else 0

/-- The cell reached after `j` steps along the sides of a rectangle from the
cell after `j0` steps. -/
def rectCell (s x0 y0 a b j0 : Int) (j : Nat) : Int :=
  cellAt s (rectX x0 a b (j0 + j)) (rectY y0 a b (j0 + j))

/-- The direction in which the cell `rectCell s x0 y0 a b j0 j` is entered. -/
def rectHeading (a b j0 : Int) (j : Nat) : Int := rectDir a b (j0 + j)

/-- The number of candidates the first search loop of `trace4` passes over at
the cell `rectCell s x0 y0 a b j0 j`: `atCorner` of them at a corner of the
rectangle and one on a side. -/
def rectSkips (a b j0 : Int) (atCorner : Nat) (j : Nat) : Nat :=
  if j0 + (j : Int) = a ∨ j0 + (j : Int) = a + b ∨ j0 + (j : Int) = 2 * a + b then atCorner
  else 1

/-- The padded mask of the 6x6 square with the 2x2 hole of the pixels
`2 ≤ x, y < 4`: the 32 cells of the region are `Foreground`. -/
def ring6Mask : Nat :=
  cellsMask 6 6 fun x y =>
    if 1 ≤ x ∧ x ≤ 6 ∧ 1 ≤ y ∧ y ≤ 6 ∧ ¬ (3 ≤ x ∧ x ≤ 4 ∧ 3 ≤ y ∧ y ≤ 4) then 1 else 0

/-- The mask `ring6Mask` with its region visited. -/
def ring6Visited : Nat :=
  cellsMask 6 6 fun x y =>
    if 1 ≤ x ∧ x ≤ 6 ∧ 1 ≤ y ∧ y ≤ 6 ∧ ¬ (3 ≤ x ∧ x ≤ 4 ∧ 3 ≤ y ∧ y ≤ 4) then 2 else 0

/-- The mask `ring6Mask` with all the cells of its region traced. -/
def ring6Traced : Nat :=
  cellsMask 6 6 fun x y =>
    if 1 ≤ x ∧ x ≤ 6 ∧ 1 ≤ y ∧ y ≤ 6 ∧ ¬ (3 ≤ x ∧ x ≤ 4 ∧ 3 ≤ y ∧ y ≤ 4) then 3 else 0

/-! # Theorems -/

/-! ## Bytes of a natural number -/

/-- Digit `j` of `hi * 256 ^ (k + 1) + v * 256 ^ k + lo` for `j < k`. -/
theorem digit_compose_lt (hi v lo k j : Nat) (hlo : lo < 256 ^ k) (hj : j < k) :
    (hi * 256 ^ (k + 1) + v * 256 ^ k + lo) / 256 ^ j % 256 = lo / 256 ^ j % 256 := by
  obtain ⟨d, rfl⟩ : ∃ d, k = j + 1 + d := ⟨k - (j + 1), by omega⟩
  have e1 : hi * 256 ^ (j + 1 + d + 1) + v * 256 ^ (j + 1 + d) + lo
      = lo + 256 ^ j * (256 * ((hi * 256 + v) * 256 ^ d)) := by ring
  rw [e1, Nat.add_mul_div_left _ _ (by positivity : 0 < 256 ^ j), Nat.add_mul_mod_self_left]

/-- Digit `k` of `hi * 256 ^ (k + 1) + v * 256 ^ k + lo`. -/
theorem digit_compose_eq (hi v lo k : Nat) (hlo : lo < 256 ^ k) (hv : v < 256) :
    (hi * 256 ^ (k + 1) + v * 256 ^ k + lo) / 256 ^ k % 256 = v := by
  have e1 : hi * 256 ^ (k + 1) + v * 256 ^ k + lo = lo + 256 ^ k * (v + 256 * hi) := by ring
  rw [e1, Nat.add_mul_div_left _ _ (by positivity : 0 < 256 ^ k), Nat.div_eq_of_lt hlo,
    Nat.zero_add, Nat.add_mul_mod_self_left, Nat.mod_eq_of_lt hv]

/-- Digit `j` of `hi * 256 ^ (k + 1) + v * 256 ^ k + lo` for `j > k`. -/
theorem digit_compose_gt (hi v lo k j : Nat) (hlo : lo < 256 ^ k) (hv : v < 256) (hj : k < j) :
    (hi * 256 ^ (k + 1) + v * 256 ^ k + lo) / 256 ^ j % 256 = hi / 256 ^ (j - (k + 1)) % 256 := by
  obtain ⟨d, rfl⟩ : ∃ d, j = k + 1 + d := ⟨j - (k + 1), by omega⟩
  have hlt : v * 256 ^ k + lo < 256 ^ (k + 1) := by
    have : v * 256 ^ k ≤ 255 * 256 ^ k := Nat.mul_le_mul_right _ (by omega)
    have e : 256 ^ (k + 1) = 255 * 256 ^ k + 256 ^ k := by ring
    omega
  have e1 : hi * 256 ^ (k + 1) + v * 256 ^ k + lo = (v * 256 ^ k + lo) + 256 ^ (k + 1) * hi := by
    ring
  have e2 : k + 1 + d - (k + 1) = d := by omega
  have e3 : (256 : Nat) ^ (k + 1 + d) = 256 ^ (k + 1) * 256 ^ d := pow_add _ _ _
  rw [e2, e3, ← Nat.div_div_eq_div_mul, e1,
    Nat.add_mul_div_left _ _ (by positivity : 0 < 256 ^ (k + 1)), Nat.div_eq_of_lt hlt,
    Nat.zero_add]

/-- A number split at digit `k`. -/
theorem digit_split (b k : Nat) :
    b = b / 256 ^ (k + 1) * 256 ^ (k + 1) + b / 256 ^ k % 256 * 256 ^ k + b % 256 ^ k := by
  have h1 := Nat.div_add_mod b (256 ^ k)
  have h2 := Nat.div_add_mod (b / 256 ^ k) 256
  have h3 : b / 256 ^ (k + 1) = b / 256 ^ k / 256 := by
    rw [pow_succ, Nat.div_div_eq_div_mul]
  rw [h3]
  calc b = 256 ^ k * (b / 256 ^ k) + b % 256 ^ k := h1.symm
    _ = 256 ^ k * (256 * (b / 256 ^ k / 256) + b / 256 ^ k % 256) + b % 256 ^ k := by rw [h2]
    _ = _ := by ring

theorem rd_neg (b : Nat) (i : Int) (h : i < 0) : rd b i = 0 := by
  simp [rd, not_le.mpr h]

theorem rd_lt (b : Nat) (i : Int) : rd b i < 256 := by
  unfold rd
  split
  · exact Nat.mod_lt _ (by norm_num)
  · norm_num

theorem rd_zero (i : Int) : rd 0 i = 0 := by
  unfold rd
  split <;> simp

theorem wr_neg (b : Nat) (i : Int) (v : Nat) (h : i < 0) : wr b i v = b := by
  simp [wr, not_le.mpr h]

/-- Reading the byte just written. -/
theorem rd_wr_same (b : Nat) (i : Int) (v : Nat) (h : 0 ≤ i) : rd (wr b i v) i = v % 256 := by
  simp only [rd, wr, if_pos h]
  exact digit_compose_eq _ _ _ _ (Nat.mod_lt _ (by positivity)) (Nat.mod_lt _ (by norm_num))

/-- Reading another byte than the one written. -/
theorem rd_wr_ne (b : Nat) (i j : Int) (v : Nat) (h : i ≠ j) : rd (wr b i v) j = rd b j := by
  by_cases hi : 0 ≤ i
  swap
  · rw [wr_neg _ _ _ (by omega)]
  by_cases hj : 0 ≤ j
  swap
  · rw [rd_neg _ _ (by omega), rd_neg _ _ (by omega)]
  simp only [rd, wr, if_pos hi, if_pos hj]
  have hlo : b % 256 ^ i.toNat < 256 ^ i.toNat := Nat.mod_lt _ (by positivity)
  have hv : v % 256 < 256 := Nat.mod_lt _ (by norm_num)
  have hd : b / 256 ^ i.toNat % 256 < 256 := Nat.mod_lt _ (by norm_num)
  rcases lt_or_gt_of_ne (show i.toNat ≠ j.toNat by omega) with hlt | hgt
  · rw [digit_compose_gt _ _ _ _ _ hlo hv hlt]
    conv_rhs => rw [digit_split b i.toNat]
    rw [digit_compose_gt _ _ _ _ _ hlo hd hlt]
  · rw [digit_compose_lt _ _ _ _ _ hlo hgt]
    conv_rhs => rw [digit_split b i.toNat]
    rw [digit_compose_lt _ _ _ _ _ hlo hgt]

theorem rd_wr (b : Nat) (i j : Int) (v : Nat) :
    rd (wr b i v) j = if i = j ∧ 0 ≤ i then v % 256 else rd b j := by
  by_cases h : i = j
  · subst h
    by_cases hi : 0 ≤ i
    · simp [hi, rd_wr_same]
    · simp [hi, wr_neg _ _ _ (not_le.mp hi)]
  · simp [h, rd_wr_ne _ _ _ _ h]

/-- `memSizeAux` counts enough digits. -/
theorem lt_pow_memSizeAux (fuel n : Nat) (h : n ≤ fuel) : n < 256 ^ memSizeAux fuel n := by
  induction fuel generalizing n with
  | zero =>
    have : n = 0 := by omega
    subst this
    simp [memSizeAux]
  | succ f ih =>
    unfold memSizeAux
    split
    · rename_i h0
      subst h0
      simp
    · rename_i h0
      have h1 : n / 256 ≤ f := by omega
      have h2 := ih (n / 256) h1
      rw [pow_succ]
      omega

/-- Every byte at index `memSize b` or above is 0. -/
theorem rd_eq_zero_of_memSize_le (b : Nat) (i : Int) (h : (memSize b : Int) ≤ i) : rd b i = 0 := by
  have h0 : 0 ≤ i := by omega
  simp only [rd, if_pos h0]
  have h1 : b < 256 ^ memSize b := lt_pow_memSizeAux b b le_rfl
  have h2 : 256 ^ memSize b ≤ 256 ^ i.toNat := Nat.pow_le_pow_right (by norm_num) (by omega)
  rw [Nat.div_eq_of_lt (by omega)]

theorem lt_memSize_of_rd_ne_zero (b : Nat) (i : Int) (h : rd b i ≠ 0) :
    0 ≤ i ∧ i < (memSize b : Int) := by
  constructor
  · by_contra hc
    exact h (rd_neg _ _ (by omega))
  · by_contra hc
    exact h (rd_eq_zero_of_memSize_le _ _ (by omega))

/-! ## Point arrays -/

theorem length_setP (l : List Point) (i : Int) (p : Point) : (setP l i p).length = l.length := by
  unfold setP
  split <;> simp

theorem getP_setP (l : List Point) (i j : Int) (p : Point) :
    getP (setP l i p) j = if i = j ∧ 0 ≤ i ∧ i < l.length then p else getP l j := by
  unfold getP setP
  by_cases hi : 0 ≤ i
  · by_cases hj : 0 ≤ j
    · simp only [if_pos hi, if_pos hj, List.getD_eq_getElem?_getD, List.getElem?_set]
      by_cases hij : i = j
      · subst hij
        by_cases hlt : i < l.length
        · have : i.toNat < l.length := by omega
          simp [hi, hlt, this]
        · have : ¬ i.toNat < l.length := by omega
          have hn : l[i.toNat]? = none := List.getElem?_eq_none (by omega)
          simp [hlt, this, hn]
      · have : i.toNat ≠ j.toNat := by omega
        simp [hij, this]
    · have : i ≠ j := by omega
      simp [hi, hj, this]
  · simp [hi]

theorem setP_getP_self (l : List Point) (i : Int) : setP l i (getP l i) = l := by
  unfold getP setP
  by_cases hi : 0 ≤ i
  · simp only [if_pos hi]
    apply List.ext_getElem?
    intro n
    rw [List.getElem?_set]
    by_cases hn : i.toNat = n
    · subst hn
      by_cases hlt : i.toNat < l.length
      · simp [hlt, List.getD_eq_getElem?_getD]
      · simp [hlt]
        omega
    · simp [hn]
  · simp [hi]

/-- The forward copy moves `n` points from `src` to `dst ≤ src`. -/
theorem memcpyPoints_spec (n : Nat) : ∀ (l : List Point) (dst src : Int),
    0 ≤ dst → dst ≤ src → src + n ≤ l.length →
    (memcpyPoints n l dst src).length = l.length ∧
    ∀ i : Int, getP (memcpyPoints n l dst src) i =
      if dst ≤ i ∧ i < dst + n then getP l (src + (i - dst)) else getP l i := by
  induction n with
  | zero =>
    intro l dst src _ _ _
    refine ⟨rfl, fun i => ?_⟩
    have : ¬ (dst ≤ i ∧ i < dst) := by omega
    simp [memcpyPoints, this]
  | succ n ih =>
    intro l dst src h0 h1 h2
    have hlen := length_setP l dst (getP l src)
    obtain ⟨hl, hg⟩ := ih (setP l dst (getP l src)) (dst + 1) (src + 1) (by omega) (by omega)
      (by rw [hlen]; push_cast at h2 ⊢; omega)
    refine ⟨by simp only [memcpyPoints]; rw [hl, hlen], fun i => ?_⟩
    simp only [memcpyPoints]
    rw [hg i]
    push_cast
    by_cases hc : dst + 1 ≤ i ∧ i < dst + 1 + n
    · rw [if_pos hc, if_pos (by omega), getP_setP, if_neg (by omega)]
      congr 1
      omega
    · rw [if_neg hc, getP_setP]
      by_cases hd : dst = i
      · subst hd
        push_cast at h2
        rw [if_pos ⟨rfl, h0, by omega⟩, if_pos (by omega)]
        congr 1
        omega
      · rw [if_neg (by tauto), if_neg (by omega)]

/-! ## The simplifier -/

/-- The scan keeps `(maxD, maxDIndex)` either at its initial value or at the
distance and index of a point it has passed. -/
theorem dpScan_inv (M : Doubles) (pl : List Point) (pS pE : Point) (start : Int) (n : Nat) :
    ∀ (i : Int) (acc : M.D × Int), start < i →
      (acc = (M.zero, start) ∨ ∃ j, start < j ∧ j < i ∧
        acc = (M.perpendicularDistance (getP pl j).x (getP pl j).y pS.x pS.y pE.x pE.y, j)) →
      (dpScan M pl pS pE n i acc = (M.zero, start) ∨ ∃ j, start < j ∧ j < i + n ∧
        dpScan M pl pS pE n i acc =
          (M.perpendicularDistance (getP pl j).x (getP pl j).y pS.x pS.y pE.x pE.y, j)) := by
  induction n with
  | zero =>
    intro i acc hi h
    simpa [dpScan] using h
  | succ n ih =>
    intro i acc hi h
    simp only [dpScan]
    have key := ih (i + 1)
      (if M.gt (M.perpendicularDistance (getP pl i).x (getP pl i).y pS.x pS.y pE.x pE.y) acc.1 = true
        then (M.perpendicularDistance (getP pl i).x (getP pl i).y pS.x pS.y pE.x pE.y, i)
        else acc) (by omega) (by
        split
        · exact Or.inr ⟨i, hi, by omega, rfl⟩
        · rcases h with h | ⟨j, h1, h2, h3⟩
          · exact Or.inl h
          · exact Or.inr ⟨j, h1, by omega, h3⟩)
    rcases key with key | ⟨j, h1, h2, h3⟩
    · exact Or.inl key
    · exact Or.inr ⟨j, h1, by push_cast; omega, h3⟩

/-- Once the scan holds the distance of a point, it ends holding one. -/
theorem dpScan_updated (M : Doubles) (pl : List Point) (pS pE : Point) (start : Int) (n : Nat) :
    ∀ (i : Int) (acc : M.D × Int),
      (∃ j, start < j ∧ j < i ∧
        acc = (M.perpendicularDistance (getP pl j).x (getP pl j).y pS.x pS.y pE.x pE.y, j)) →
      ∃ j, start < j ∧ j < i + n ∧ dpScan M pl pS pE n i acc =
          (M.perpendicularDistance (getP pl j).x (getP pl j).y pS.x pS.y pE.x pE.y, j) := by
  intro i acc h
  obtain ⟨j0, hj0, hj1, _⟩ := id h
  rcases dpScan_inv M pl pS pE start n i acc (by omega) (Or.inr h) with h1 | h1
  · exfalso
    -- the index of the result is the initial one, which no passed point has
    have aux : ∀ (n : Nat) (i : Int) (acc : M.D × Int), start < acc.2 →
        start < i → start < (dpScan M pl pS pE n i acc).2 := by
      intro n
      induction n with
      | zero => intro i acc h _; simpa [dpScan] using h
      | succ n ih =>
        intro i acc h hi
        simp only [dpScan]
        apply ih
        · split
          · exact hi
          · exact h
        · omega
    obtain ⟨j, hj, _, hacc⟩ := h
    have := aux n i acc (by rw [hacc]; exact hj) (by omega)
    rw [h1] at this
    simp at this
  · exact h1

/-- The result for a range without interior points, and for any range the
indices `start + k`. -/
theorem DPResult_base (pl : List Point) (start end_ : Int) (h0 : start ≤ end_) :
    DPResult pl start end_ (end_ - start + 1).toNat pl (fun k => start + k) := by
  refine ⟨rfl, by omega, by simp, ?_, ?_, ?_, ?_, ?_⟩
  · have : (((end_ - start + 1).toNat - 1 : Nat) : Int) = end_ - start := by omega
    simp only [this]
    omega
  · intro k _; simp
  · intro k hk
    constructor
    · simp
    · have : ((end_ - start + 1).toNat : Int) = end_ - start + 1 := by omega
      rw [this]
      have hk2 : (k : Int) < end_ - start + 1 := by omega
      show start + (k : Int) + (end_ - start + 1 - 1 - k) ≤ end_
      omega
  · intro k _; rfl
  · intro i _; rfl

/-- The result of the collapse of a range to its two endpoints. -/
theorem DPResult_collapse (pl : List Point) (start end_ : Int) (h0 : 0 ≤ start)
    (h1 : start + 2 ≤ end_) (h2 : end_ < pl.length) :
    DPResult pl start end_ 2 (setP pl (start + 1) (getP pl end_))
      (fun k => if k = 0 then start else end_) := by
  refine ⟨length_setP _ _ _, by omega, by simp, by simp, ?_, ?_, ?_, ?_⟩
  · intro k hk
    have : k = 0 := by omega
    subst this
    simp; omega
  · intro k hk
    have : k = 0 ∨ k = 1 := by omega
    rcases this with rfl | rfl <;> simp <;> omega
  · intro k hk
    have : k = 0 ∨ k = 1 := by omega
    rcases this with rfl | rfl
    · rw [getP_setP, if_neg (by omega)]; simp
    · rw [getP_setP, if_pos ⟨by simp, by omega, by omega⟩]; simp
  · intro i hi
    rw [getP_setP, if_neg (by omega)]

/-- The result of a split at `mid`: the two recursive results spliced. -/
theorem DPResult_splice (pl out1 out3 : List Point) (start mid end_ : Int) (m1 m2 : Nat)
    (idx1 idx2 : Nat → Int) (h0 : 0 ≤ start) (h1 : start < mid) (h2 : mid < end_)
    (h3 : end_ < pl.length)
    (r1 : DPResult pl start mid m1 out1 idx1)
    (r2 : DPResult (setP out1 mid (getP pl mid)) mid end_ m2 out3 idx2) :
    DPResult pl start end_ (m1 - 1 + m2)
      (memcpyPoints m2 out3 (start + ((m1 : Int) - 1)) mid)
      (fun k => if k < m1 - 1 then idx1 k else idx2 (k - (m1 - 1))) := by
  obtain ⟨l1, p1, a1, b1, c1, d1, e1, f1⟩ := r1
  obtain ⟨l2, p2, a2, b2, c2, d2, e2, f2⟩ := r2
  rw [length_setP] at l2
  have hm1 : 2 ≤ m1 := by
    by_contra hc
    have : m1 = 1 := by omega
    subst this
    simp at b1
    omega
  have hsz1 := d1 (m1 - 1) (by omega)
  have hsz2 := d2 0 (by omega)
  have hsz3 := d2 (m2 - 1) (by omega)
  -- agreement of the second input with the original on mid .. end
  have agree : ∀ i : Int, mid ≤ i → getP (setP out1 mid (getP pl mid)) i = getP pl i := by
    intro i hi
    rw [getP_setP]
    split
    · rename_i h; rw [← h.1]
    · exact f1 i (Or.inr (by
        by_contra hc
        have : i = mid := by omega
        subst this
        rename_i h
        exact h ⟨rfl, by omega, by rw [l1]; omega⟩))
  obtain ⟨lc, gc⟩ := memcpyPoints_spec m2 out3 (start + ((m1 : Int) - 1)) mid (by omega)
    (by omega) (by rw [l2, l1]; omega)
  refine ⟨by rw [lc, l2, l1], by omega, ?_, ?_, ?_, ?_, ?_, ?_⟩
  · simp only [if_pos (show 0 < m1 - 1 by omega)]; exact a1
  · have e : m1 - 1 + m2 - 1 - (m1 - 1) = m2 - 1 := by omega
    simp only [if_neg (show ¬ (m1 - 1 + m2 - 1 < m1 - 1) by omega), e]; exact b2
  · intro k hk
    by_cases hk1 : k + 1 < m1 - 1
    · simp only [if_pos hk1, if_pos (show k < m1 - 1 by omega)]
      exact c1 k (by omega)
    · by_cases hk2 : k < m1 - 1
      · have e : k + 1 - (m1 - 1) = 0 := by omega
        simp only [if_neg hk1, if_pos hk2, e, a2]
        have := c1 k (by omega)
        have hk3 : k + 1 = m1 - 1 := by omega
        rw [hk3, b1] at this
        exact this
      · have e : k + 1 - (m1 - 1) = (k - (m1 - 1)) + 1 := by omega
        simp only [if_neg hk1, if_neg hk2, e]
        exact c2 _ (by omega)
  · intro k hk
    by_cases hk2 : k < m1 - 1
    · simp only [if_pos hk2]
      have := d1 k (by omega)
      push_cast at this hsz2 hsz3 ⊢
      omega
    · simp only [if_neg hk2]
      have := d2 (k - (m1 - 1)) (by omega)
      push_cast at this hsz1 ⊢
      omega
  · intro k hk
    rw [gc]
    by_cases hk2 : k < m1 - 1
    · simp only [if_pos hk2]
      rw [if_neg (by omega), f2 _ (Or.inl (by omega)), getP_setP,
        if_neg (by omega)]
      exact e1 k (by omega)
    · simp only [if_neg hk2]
      rw [if_pos (by omega)]
      have := e2 (k - (m1 - 1)) (by omega)
      have e : mid + (start + (k : Int) - (start + ((m1 : Int) - 1))) = mid + ((k - (m1 - 1) : Nat) : Int) := by
        omega
      rw [e, this]
      exact agree _ (by have := d2 (k - (m1 - 1)) (by omega); omega)
  · intro i hi
    rw [gc, if_neg (by omega), f2 i (by omega), getP_setP,
      if_neg (by omega)]
    exact f1 i (by omega)


/-- For a tolerance that is not negative the recursion of `douglasPeucker`
returns, and what it leaves is a `DPResult`. -/
theorem douglasPeuckerAux_spec (M : Doubles) (epsilon : M.D)
    (hε : M.gt M.zero epsilon = false) (fuel : Nat) :
    ∀ (pl : List Point) (start end_ : Int), 0 ≤ start → start ≤ end_ →
      end_ < pl.length → (end_ - start).toNat + 1 ≤ fuel →
      ∃ (m : Nat) (out : List Point) (idx : Nat → Int),
        douglasPeuckerAux M epsilon fuel pl start end_ = some ((m : Int), out) ∧
        DPResult pl start end_ m out idx := by
  induction fuel with
  | zero => intro pl start end_ _ _ _ h; omega
  | succ fuel ih =>
    intro pl start end_ h0 h1 h2 hf
    rw [douglasPeuckerAux]
    by_cases hshort : end_ - start ≤ 1
    · rw [if_pos hshort]
      refine ⟨(end_ - start + 1).toNat, pl, fun k => start + k, ?_, DPResult_base pl start end_ h1⟩
      have : ((end_ - start + 1).toNat : Int) = end_ - start + 1 := by omega
      rw [this]
    · rw [if_neg hshort]
      simp only []
      by_cases hgt : M.gt (dpScan M pl (getP pl start) (getP pl end_) (end_ - start - 1).toNat
          (start + 1) (M.zero, start)).1 epsilon = true
      · rw [if_pos hgt]
        rcases dpScan_inv M pl (getP pl start) (getP pl end_) start (end_ - start - 1).toNat
          (start + 1) (M.zero, start) (by omega) (Or.inl rfl) with hs | ⟨mid, hm1, hm2, hs⟩
        · rw [hs] at hgt
          rw [hε] at hgt
          exact absurd hgt (by simp)
        · rw [hs]
          simp only []
          have hm3 : mid < end_ := by omega
          obtain ⟨m1, out1, idx1, e1, r1⟩ := ih pl start mid h0 (by omega) (by omega) (by omega)
          rw [e1]
          simp only []
          have l1 : out1.length = pl.length := r1.1
          obtain ⟨m2, out3, idx2, e2, r2⟩ := ih (setP out1 mid (getP pl mid)) mid end_ (by omega)
            (by omega) (by rw [length_setP, l1]; exact h2) (by omega)
          rw [e2]
          simp only []
          have hm1pos : 1 ≤ m1 := r1.2.1
          refine ⟨m1 - 1 + m2, _, _, ?_, DPResult_splice pl out1 out3 start mid end_ m1 m2 idx1 idx2
            h0 hm1 hm3 h2 r1 r2⟩
          have c1 : ((m1 : Int) - 1 + (m2 : Int)) = ((m1 - 1 + m2 : Nat) : Int) := by omega
          rw [c1, Int.toNat_ofNat]
      · rw [if_neg hgt]
        exact ⟨2, _, _, rfl, DPResult_collapse pl start end_ h0 (by omega) h2⟩

/-- C4: the output of `douglasPeucker` is an order-preserving subsequence of
its input. For every model of the doubles, every point list, every range
`0 ≤ start ≤ end < length` and every tolerance that is not negative, the call
returns some `n`, and the points left in `pointList[start .. start + n - 1]`
are the points of the original `pointList[start .. end]` at a strictly
increasing sequence of indices `idx 0 < idx 1 < ...`; consequently
`n ≤ end - start + 1`. -/
theorem douglasPeucker_subsequence (M : Doubles) (pointList : List Point) (start end_ : Int)
    (epsilon : M.D) (h0 : 0 ≤ start) (h1 : start ≤ end_) (h2 : end_ < pointList.length)
    (hε : M.gt M.zero epsilon = false) :
    ∃ (n : Nat) (out : List Point) (idx : Nat → Int),
      douglasPeucker M pointList start end_ epsilon = some ((n : Int), out) ∧
      (∀ k : Nat, k < n → start ≤ idx k ∧ idx k ≤ end_) ∧
      (∀ k : Nat, k + 1 < n → idx k < idx (k + 1)) ∧
      (∀ k : Nat, k < n → getP out (start + k) = getP pointList (idx k)) ∧
      (n : Int) ≤ end_ - start + 1 := by
  obtain ⟨m, out, idx, e, r⟩ := douglasPeuckerAux_spec M epsilon hε _ pointList start end_ h0 h1 h2
    (le_refl _)
  obtain ⟨_, p, _, _, c, d, g, _⟩ := r
  refine ⟨m, out, idx, e, ?_, c, g, ?_⟩
  · intro k hk
    have := d k hk
    omega
  · have := d (m - 1) (by omega)
    omega

/-- C5: `douglasPeucker` never removes or alters the endpoints of its range.
For every model of the doubles, every point list, every range
`0 ≤ start < end < length` and every tolerance that is not negative, the call
returns some `n`, and then `pointList[start]` is the original `pointList[start]`
and `pointList[start + n - 1]` is the original `pointList[end]`. -/
theorem douglasPeucker_endpoints (M : Doubles) (pointList : List Point) (start end_ : Int)
    (epsilon : M.D) (h0 : 0 ≤ start) (h1 : start < end_) (h2 : end_ < pointList.length)
    (hε : M.gt M.zero epsilon = false) :
    ∃ (n : Int) (out : List Point),
      douglasPeucker M pointList start end_ epsilon = some (n, out) ∧
      getP out start = getP pointList start ∧
      getP out (start + n - 1) = getP pointList end_ := by
  obtain ⟨m, out, idx, e, r⟩ := douglasPeuckerAux_spec M epsilon hε _ pointList start end_ h0
    (le_of_lt h1) h2 (le_refl _)
  obtain ⟨_, p, a, b, _, _, g, _⟩ := r
  refine ⟨m, out, e, ?_, ?_⟩
  · have := g 0 (by omega)
    simpa [a] using this
  · have := g (m - 1) (by omega)
    rw [b] at this
    rw [← this]
    congr 1
    omega

/-- C7: with a tolerance not smaller than the distance of every interior
point to the chord (as `+infinity` is), `douglasPeucker` collapses the range to
its two endpoints. For every model of the doubles, every point list and every
range `0 ≤ start < end < length`: if no interior point has a distance greater
than `epsilon`, the call returns 2, and afterwards `pointList[start]` is the
original start point and `pointList[start + 1]` the original end point. -/
theorem douglasPeucker_collapse (M : Doubles) (pointList : List Point) (start end_ : Int)
    (epsilon : M.D) (h0 : 0 ≤ start) (h1 : start < end_) (h2 : end_ < pointList.length)
    (hε : ∀ i : Int, start < i → i < end_ →
      M.gt (chordDistance M pointList start end_ i) epsilon = false) :
    ∃ out : List Point,
      douglasPeucker M pointList start end_ epsilon = some (2, out) ∧
      getP out start = getP pointList start ∧
      getP out (start + 1) = getP pointList end_ := by
  unfold douglasPeucker
  rw [douglasPeuckerAux]
  by_cases hshort : end_ - start ≤ 1
  · rw [if_pos hshort]
    have : end_ = start + 1 := by omega
    subst this
    exact ⟨pointList, by simp, rfl, rfl⟩
  · rw [if_neg hshort]
    simp only []
    have hnot : ¬ M.gt (dpScan M pointList (getP pointList start) (getP pointList end_)
        (end_ - start - 1).toNat (start + 1) (M.zero, start)).1 epsilon = true := by
      rcases dpScan_inv M pointList (getP pointList start) (getP pointList end_) start
        (end_ - start - 1).toNat (start + 1) (M.zero, start) (by omega) (Or.inl rfl)
        with hs | ⟨j, hj1, hj2, hs⟩
      · rw [hs]
        intro hz
        have := M.exceedsNegative epsilon (getP pointList (start + 1)).x
          (getP pointList (start + 1)).y (getP pointList start).x (getP pointList start).y
          (getP pointList end_).x (getP pointList end_).y hz
        have h3 := hε (start + 1) (by omega) (by omega)
        unfold chordDistance at h3
        rw [h3] at this
        exact absurd this (by simp)
      · rw [hs]
        have h3 := hε j hj1 (by omega)
        unfold chordDistance at h3
        simp [h3]
    rw [if_neg hnot]
    refine ⟨_, rfl, ?_, ?_⟩
    · rw [getP_setP, if_neg (by omega)]
    · rw [getP_setP, if_pos ⟨rfl, by omega, by omega⟩]

/-- With the tolerance 0 the recursion is the identity on a range in which no
point lies at distance 0 from the chord of an earlier and a later point. -/
theorem douglasPeuckerAux_zero (M : Doubles) (pl : List Point) (fuel : Nat) :
    ∀ (start end_ : Int), 0 ≤ start → start ≤ end_ →
      end_ < pl.length → (end_ - start).toNat + 1 ≤ fuel →
      (∀ i j k : Int, start ≤ i → i < j → j < k → k ≤ end_ →
        M.gt (chordDistance M pl i k j) M.zero = true) →
      douglasPeuckerAux M M.zero fuel pl start end_ = some (end_ - start + 1, pl) := by
  induction fuel with
  | zero => intro start end_ _ _ _ h; omega
  | succ fuel ih =>
    intro start end_ h0 h1 h2 hf hpos
    rw [douglasPeuckerAux]
    by_cases hshort : end_ - start ≤ 1
    · rw [if_pos hshort]
    · rw [if_neg hshort]
      simp only []
      obtain ⟨n, hn⟩ : ∃ n : Nat, (end_ - start - 1).toNat = n + 1 :=
        ⟨(end_ - start - 1).toNat - 1, by omega⟩
      have hfirst := hpos start (start + 1) end_ (le_refl _) (by omega) (by omega) (le_refl _)
      unfold chordDistance at hfirst
      obtain ⟨mid, hm1, hm2, hs⟩ := dpScan_updated M pl (getP pl start) (getP pl end_) start n
        (start + 1 + 1)
        (M.perpendicularDistance (getP pl (start + 1)).x (getP pl (start + 1)).y
          (getP pl start).x (getP pl start).y (getP pl end_).x (getP pl end_).y, start + 1)
        ⟨start + 1, by omega, by omega, rfl⟩
      have hscan : dpScan M pl (getP pl start) (getP pl end_) (end_ - start - 1).toNat (start + 1)
          (M.zero, start) = (M.perpendicularDistance (getP pl mid).x (getP pl mid).y
          (getP pl start).x (getP pl start).y (getP pl end_).x (getP pl end_).y, mid) := by
        rw [hn, dpScan]
        simp only [hfirst, if_true]
        exact hs
      rw [hscan]
      simp only []
      have hmid := hpos start mid end_ (le_refl _) hm1 (by omega) (le_refl _)
      unfold chordDistance at hmid
      rw [if_pos hmid]
      rw [ih start mid h0 (by omega) (by omega) (by omega)
        (fun i j k a b c d => hpos i j k a b c (by omega))]
      simp only []
      rw [setP_getP_self]
      rw [ih mid end_ (by omega) (by omega) h2 (by omega)
        (fun i j k a b c d => hpos i j k (by omega) b c d)]
      simp only []
      have hcopy := memcpyPoints_spec (end_ - mid + 1).toNat pl (start + (mid - start + 1 - 1)) mid
        (by omega) (by omega) (by omega)
      congr 1
      refine Prod.ext (by simp; omega) ?_
      simp only []
      apply List.ext_getElem? 
      intro a
      have h3 := hcopy.2 a
      unfold getP at h3
      simp only [Int.natCast_nonneg, if_true, Int.toNat_ofNat, List.getD_eq_getElem?_getD] at h3
      have hlen := hcopy.1
      by_cases ha : a < pl.length
      · rw [List.getElem?_eq_getElem (by omega), List.getElem?_eq_getElem ha]
        rw [List.getElem?_eq_getElem (by omega), List.getElem?_eq_getElem ha] at h3
        simp only [Option.getD_some] at h3
        rw [h3]
        split
        · rename_i hc
          have e : (mid + ((a : Int) - (start + (mid - start + 1 - 1)))).toNat = a := by omega
          have hnn : 0 ≤ mid + ((a : Int) - (start + (mid - start + 1 - 1))) := by omega
          simp only [if_pos hnn, e, List.getElem?_eq_getElem ha, Option.getD_some]
        · rfl
      · rw [List.getElem?_eq_none (by omega), List.getElem?_eq_none (by omega)]


/-- C4, witness: the closed path of the corners of a 20x20 square. -/
theorem douglasPeucker_subsequence_witness :
    ∃ (n : Nat) (out : List Point) (idx : Nat → Int),
      douglasPeucker exactDoubles [⟨1, 1⟩, ⟨20, 1⟩, ⟨20, 20⟩, ⟨1, 20⟩, ⟨1, 1⟩] 0 4 epsilon1_5 =
        some ((n : Int), out) ∧
      (∀ k : Nat, k < n → 0 ≤ idx k ∧ idx k ≤ 4) ∧
      (∀ k : Nat, k + 1 < n → idx k < idx (k + 1)) ∧
      (∀ k : Nat, k < n → getP out (0 + k) =
        getP [⟨1, 1⟩, ⟨20, 1⟩, ⟨20, 20⟩, ⟨1, 20⟩, ⟨1, 1⟩] (idx k)) ∧
      (n : Int) ≤ 4 - 0 + 1 :=
  douglasPeucker_subsequence exactDoubles [⟨1, 1⟩, ⟨20, 1⟩, ⟨20, 20⟩, ⟨1, 20⟩, ⟨1, 1⟩] 0 4
    epsilon1_5 (by decide) (by decide) (by decide) (by decide)

/-- C5, witness: the closed path of the corners of a 3x3 square. -/
theorem douglasPeucker_endpoints_witness :
    ∃ (n : Int) (out : List Point),
      douglasPeucker exactDoubles [⟨1, 1⟩, ⟨3, 1⟩, ⟨3, 3⟩, ⟨1, 3⟩, ⟨1, 1⟩] 0 4 epsilon1_5 =
        some (n, out) ∧
      getP out 0 = getP [⟨1, 1⟩, ⟨3, 1⟩, ⟨3, 3⟩, ⟨1, 3⟩, ⟨1, 1⟩] 0 ∧
      getP out (0 + n - 1) = getP [⟨1, 1⟩, ⟨3, 1⟩, ⟨3, 3⟩, ⟨1, 3⟩, ⟨1, 1⟩] 4 :=
  douglasPeucker_endpoints exactDoubles [⟨1, 1⟩, ⟨3, 1⟩, ⟨3, 3⟩, ⟨1, 3⟩, ⟨1, 1⟩] 0 4
    epsilon1_5 (by decide) (by decide) (by decide) (by decide)

/-- C7, witness: three points of which the middle one is at distance 1 from
the chord, with the tolerance 1.5. -/
theorem douglasPeucker_collapse_witness :
    ∃ out : List Point,
      douglasPeucker exactDoubles [⟨0, 0⟩, ⟨1, 1⟩, ⟨2, 0⟩] 0 2 epsilon1_5 = some (2, out) ∧
      getP out 0 = getP [⟨0, 0⟩, ⟨1, 1⟩, ⟨2, 0⟩] 0 ∧
      getP out (0 + 1) = getP [⟨0, 0⟩, ⟨1, 1⟩, ⟨2, 0⟩] 2 :=
  douglasPeucker_collapse exactDoubles [⟨0, 0⟩, ⟨1, 1⟩, ⟨2, 0⟩] 0 2 epsilon1_5 (by decide)
    (by decide) (by decide) (by
      intro i h1 h2
      have : i = 1 := by omega
      subst this
      decide)


/-- C6, counterexample: with the tolerance 0, the three collinear points
(0,0), (1,0), (2,0) are not left as they are; the middle one, whose computed
distance to the chord is 0 (`param = 2 / 4` and the projection `(1, 0)` are
exact in binary floating point too), is dropped and the call returns 2. -/
theorem douglasPeucker_zero_drops_collinear :
    douglasPeucker exactDoubles [⟨0, 0⟩, ⟨1, 0⟩, ⟨2, 0⟩] 0 2 exactDoubles.zero =
        some (2, [⟨0, 0⟩, ⟨2, 0⟩, ⟨2, 0⟩]) ∧
      douglasPeucker exactDoubles [⟨0, 0⟩, ⟨1, 0⟩, ⟨2, 0⟩] 0 2 exactDoubles.zero ≠
        some (2 - 0 + 1, [⟨0, 0⟩, ⟨1, 0⟩, ⟨2, 0⟩]) := by
  decide!

/-- With the tolerance 0, a range of more than two points in which no interior
point has a computed distance to the chord of the endpoints greater than 0 is
collapsed to its two endpoints. -/
theorem douglasPeucker_zero_flat (M : Doubles) (pointList : List Point) (start end_ : Int)
    (h1 : start + 2 ≤ end_)
    (hε : ∀ j : Int, start < j → j < end_ →
      M.gt (chordDistance M pointList start end_ j) M.zero = false) :
    douglasPeucker M pointList start end_ M.zero =
      some (2, setP pointList (start + 1) (getP pointList end_)) := by
  unfold douglasPeucker
  rw [douglasPeuckerAux]
  rw [if_neg (by omega)]
  simp only []
  have hnot : ¬ M.gt (dpScan M pointList (getP pointList start) (getP pointList end_)
      (end_ - start - 1).toNat (start + 1) (M.zero, start)).1 M.zero = true := by
    rcases dpScan_inv M pointList (getP pointList start) (getP pointList end_) start
      (end_ - start - 1).toNat (start + 1) (M.zero, start) (by omega) (Or.inl rfl)
      with hs | ⟨j, hj1, hj2, hs⟩
    · rw [hs]
      intro hz
      have := M.exceedsNegative M.zero (getP pointList (start + 1)).x
        (getP pointList (start + 1)).y (getP pointList start).x (getP pointList start).y
        (getP pointList end_).x (getP pointList end_).y hz
      have h3 := hε (start + 1) (by omega) (by omega)
      unfold chordDistance at h3
      rw [h3] at this
      exact absurd this (by simp)
    · rw [hs]
      have h3 := hε j hj1 (by omega)
      unfold chordDistance at h3
      simp [h3]
  rw [if_neg hnot]

/-- C6, amended: with the tolerance 0, what `douglasPeucker` does is decided by
the distances that `perpendicularDistance` computes, in whatever arithmetic of
the doubles. For every model of the doubles, every point list and every range
`0 ≤ start ≤ end < length`: (1) if the computed distance of every point of the
range to the chord that joins an earlier and a later point of the range is
greater than 0, the call returns `end - start + 1` and leaves the point list
as it was; (2) if the range has more than two points and no interior point has
a computed distance to the chord of the endpoints greater than 0, the interior
points are dropped: the call returns 2 and has written the end point to
`pointList[start + 1]`. -/
theorem douglasPeucker_zero_identity (M : Doubles) (pointList : List Point) (start end_ : Int)
    (h0 : 0 ≤ start) (h1 : start ≤ end_) (h2 : end_ < pointList.length) :
    ((∀ i j k : Int, start ≤ i → i < j → j < k → k ≤ end_ →
        M.gt (chordDistance M pointList i k j) M.zero = true) →
      douglasPeucker M pointList start end_ M.zero = some (end_ - start + 1, pointList)) ∧
    (start + 2 ≤ end_ →
      (∀ j : Int, start < j → j < end_ →
        M.gt (chordDistance M pointList start end_ j) M.zero = false) →
      douglasPeucker M pointList start end_ M.zero =
        some (2, setP pointList (start + 1) (getP pointList end_))) :=
  ⟨douglasPeuckerAux_zero M pointList _ start end_ h0 h1 h2 (le_refl _),
    douglasPeucker_zero_flat M pointList start end_⟩

/-- C6, witness: four points of a parabola, no three of them on a line, are
left as they are; of the three points (0,0), (1,0), (2,0), whose middle point
has the computed distance 0, the middle one is dropped. -/
theorem douglasPeucker_zero_identity_witness :
    douglasPeucker exactDoubles [⟨0, 0⟩, ⟨1, 1⟩, ⟨2, 4⟩, ⟨3, 9⟩] 0 3 exactDoubles.zero =
      some (3 - 0 + 1, [⟨0, 0⟩, ⟨1, 1⟩, ⟨2, 4⟩, ⟨3, 9⟩]) ∧
    douglasPeucker exactDoubles [⟨0, 0⟩, ⟨1, 0⟩, ⟨2, 0⟩] 0 2 exactDoubles.zero =
      some (2, setP [⟨0, 0⟩, ⟨1, 0⟩, ⟨2, 0⟩] (0 + 1) (getP [⟨0, 0⟩, ⟨1, 0⟩, ⟨2, 0⟩] 2)) :=
  ⟨(douglasPeucker_zero_identity exactDoubles [⟨0, 0⟩, ⟨1, 1⟩, ⟨2, 4⟩, ⟨3, 9⟩] 0 3 (by decide)
    (by decide) (by decide)).1 (by
      intro i j k a b c d
      have hi : i = 0 ∨ i = 1 := by omega
      have hj : j = 1 ∨ j = 2 := by omega
      have hk : k = 2 ∨ k = 3 := by omega
      rcases hi with rfl | rfl <;> rcases hj with rfl | rfl <;> rcases hk with rfl | rfl <;>
        first
        | decide
        | omega),
   (douglasPeucker_zero_identity exactDoubles [⟨0, 0⟩, ⟨1, 0⟩, ⟨2, 0⟩] 0 2 (by decide)
    (by decide) (by decide)).2 (by decide) (by
      intro j a b
      have hj : j = 1 := by omega
      subst hj
      decide)⟩


/-! ## Flood fill -/

theorem tmod_pred (c s : Int) (h0 : 0 ≤ c) (h1 : 1 ≤ Int.tmod c s) (hs : 0 < s) :
    Int.tmod (c - 1) s = Int.tmod c s - 1 := by
  have hc1 : 1 ≤ c := by
    by_contra hc
    have : c = 0 := by omega
    subst this
    simp at h1
  rw [Int.tmod_eq_emod h0 hs.le] at h1 ⊢
  rw [Int.tmod_eq_emod (by omega) hs.le]
  have h2 := Int.emod_add_ediv c s
  have h3 := Int.emod_lt_of_pos c hs
  have e : c - 1 = (c % s - 1) + s * (c / s) := by omega
  rw [e, Int.add_mul_emod_self_left, Int.emod_eq_of_lt (by omega) (by omega)]

theorem tmod_succ (c s : Int) (h0 : 0 ≤ c) (h1 : Int.tmod c s + 1 < s) (hs : 0 < s) :
    Int.tmod (c + 1) s = Int.tmod c s + 1 := by
  rw [Int.tmod_eq_emod h0 hs.le] at h1 ⊢
  rw [Int.tmod_eq_emod (by omega) hs.le]
  have h2 := Int.emod_add_ediv c s
  have h3 := Int.emod_nonneg c (by omega : s ≠ 0)
  have e : c + 1 = (c % s + 1) + s * (c / s) := by omega
  rw [e, Int.add_mul_emod_self_left, Int.emod_eq_of_lt (by omega) (by omega)]

theorem cnt_congr (a b v : Nat) (n : Nat) (h : ∀ c : Int, rd a c = rd b c) :
    cnt a v n = cnt b v n := by
  induction n with
  | zero => rfl
  | succ n ih => simp only [cnt, ih, h]

/-- Recolouring a cell of colour `v` among the first `n` lowers the count by one. -/
theorem cnt_wr (b v u : Nat) (i : Int) (n : Nat) (h0 : 0 ≤ i) (h1 : i < n) (h2 : rd b i = v)
    (h3 : u % 256 ≠ v) : cnt (wr b i u) v n + 1 = cnt b v n := by
  induction n with
  | zero => simp at h1; omega
  | succ n ih =>
    simp only [cnt]
    by_cases hin : i = n
    · have hsame : ∀ m : Nat, (m : Int) ≤ i → cnt (wr b i u) v m = cnt b v m := by
        intro m
        induction m with
        | zero => intro _; rfl
        | succ m ihm =>
          intro hm
          simp only [cnt]
          rw [ihm (by omega), rd_wr_ne _ _ _ _ (by omega)]
      rw [hsame n (by omega), ← hin, rd_wr_same _ _ _ h0, if_neg h3, if_pos h2]
    · have := ih (by push_cast at h1; omega)
      rw [rd_wr_ne _ _ _ _ hin]
      omega

theorem cnt_le_memSize (b v : Nat) (hv : v ≠ 0) (n : Nat) : cnt b v n ≤ memSize b := by
  have key : ∀ n, cnt b v n ≤ min n (memSize b) := by
    intro n
    induction n with
    | zero => simp [cnt]
    | succ n ih =>
      simp only [cnt]
      by_cases hr : rd b (n : Int) = v
      · have := lt_memSize_of_rd_ne_zero b n (by rw [hr]; exact hv)
        rw [if_pos hr]
        omega
      · rw [if_neg hr]
        omega
  exact le_trans (key n) (min_le_right _ _)

theorem FillStep.refl (cFrom cTo n : Nat) (s : Fill) : FillStep cFrom cTo n s s :=
  ⟨fun _ => Or.inl rfl, le_refl _⟩

theorem FillStep.trans {cFrom cTo n : Nat} {s t u : Fill} (h1 : FillStep cFrom cTo n s t)
    (h2 : FillStep cFrom cTo n t u) : FillStep cFrom cTo n s u := by
  refine ⟨fun c => ?_, le_trans h2.measure h1.measure⟩
  rcases h2.paints c with e2 | ⟨e2, e3⟩
  · rcases h1.paints c with e1 | ⟨e1, e1b⟩
    · exact Or.inl (e2.trans e1)
    · exact Or.inr ⟨e1, e2.trans e1b⟩
  · rcases h1.paints c with e1 | ⟨e1, e1b⟩
    · exact Or.inr ⟨e1 ▸ e2, e3⟩
    · exact Or.inr ⟨e1, e3⟩

/-- A cell that has lost the colour `cFrom` does not get it back. -/
theorem FillStep.keeps_ne {cFrom cTo n : Nat} {s t : Fill} (h : FillStep cFrom cTo n s t)
    (c : Int) (hc : rd s.buffer c ≠ cFrom) : rd t.buffer c ≠ cFrom := by
  rcases h.paints c with e | ⟨e, _⟩
  · rw [e]; exact hc
  · exact absurd e hc

/-- A recoloured cell stays recoloured. -/
theorem FillStep.keeps_done {cFrom cTo n : Nat} {s t : Fill} (h : FillStep cFrom cTo n s t)
    (c : Int) (hc : rd s.buffer c = cTo) : rd t.buffer c = cTo := by
  rcases h.paints c with e | ⟨_, e⟩
  · rw [e]; exact hc
  · exact e

theorem Closed.mono_step {bufferStride : Int} {cFrom cTo n : Nat} {s t : Fill}
    (h : FillStep cFrom cTo n s t) {c : Int}
    (hc : Closed bufferStride cFrom s.buffer c) : Closed bufferStride cFrom t.buffer c :=
  ⟨h.keeps_ne _ hc.1, h.keeps_ne _ hc.2.1, h.keeps_ne _ hc.2.2.1, h.keeps_ne _ hc.2.2.2⟩

/-- The pending cells can be listed otherwise, as long as the cells left out
are closed. -/
theorem FillInv.repend {mask : Nat} {bufferStride : Int} {cFrom cTo : Nat} {seed : Int} {n : Nat}
    {pend : List Int} {s : Fill} (h : FillInv mask bufferStride cFrom cTo seed n pend s)
    (pend2 : List Int)
    (hp : ∀ c ∈ pend, c ∈ pend2 ∨ c ∈ s.stack ∨ Closed bufferStride cFrom s.buffer c) :
    FillInv mask bufferStride cFrom cTo seed n pend2 s := by
  refine ⟨h.frame, h.seedDone, h.count, h.stackDone, fun c h1 h2 => ?_⟩
  rcases h.closed c h1 h2 with hc | hc | hc
  · exact hp c hc
  · exact Or.inr (Or.inl hc)
  · exact Or.inr (Or.inr hc)

/-- Recolouring a `cFrom` cell `i` next to a recoloured cell `p`: the general
step of a fill. The new cell is pending (`push = false`) or pushed. -/
theorem FillInv.paint {mask : Nat} {w bufferStride : Int} {cFrom cTo : Nat} {seed : Int} {n : Nat}
    (ctx : FillCtx mask w bufferStride cFrom cTo n)
    {pend : List Int} {s : Fill} (h : FillInv mask bufferStride cFrom cTo seed n pend s)
    (p i : Int) (hp : rd mask p = cFrom ∧ rd s.buffer p = cTo)
    (hadj : i = p - bufferStride ∨ i = p + bufferStride ∨ i = p - 1 ∨ i = p + 1)
    (hi : rd s.buffer i = cFrom) (push : Bool) :
    FillInv mask bufferStride cFrom cTo seed n (if push then pend else i :: pend)
      { buffer := wr s.buffer i cTo, stack := if push then i :: s.stack else s.stack,
        area := s.area + 1 } ∧
    FillStep cFrom cTo n s
      { buffer := wr s.buffer i cTo, stack := if push then i :: s.stack else s.stack,
        area := s.area + 1 } ∧
    rd mask i = cFrom := by
  have hto := Nat.mod_eq_of_lt ctx.hto
  have hmi : rd mask i = cFrom := by
    rcases h.frame i with e | ⟨_, e, _⟩
    · rw [← e]; exact hi
    · rw [hi] at e; exact absurd e ctx.hne
  have hcp : Conn mask bufferStride cFrom seed p := by
    rcases h.frame p with e | ⟨_, _, e⟩
    · rw [hp.1, hp.2] at e; exact absurd e.symm ctx.hne
    · exact e
  have hci : Conn mask bufferStride cFrom seed i := by
    rcases hadj with e | e | e | e <;> subst e
    · exact Conn.up hcp hmi
    · exact Conn.down hcp hmi
    · exact Conn.left hcp hmi
    · exact Conn.right hcp hmi
  obtain ⟨hi0, hin, _, _⟩ := ctx.interior i hmi
  have hcnt := cnt_wr s.buffer cFrom cTo i n hi0 hin hi (by rw [hto]; exact fun e => ctx.hne e.symm)
  have hstep : FillStep cFrom cTo n s
      { buffer := wr s.buffer i cTo, stack := if push then i :: s.stack else s.stack,
        area := s.area + 1 } := by
    constructor
    · intro c
      by_cases hc : i = c
      · subst hc
        exact Or.inr ⟨hi, by simp only []; rw [rd_wr_same _ _ _ hi0, hto]⟩
      · exact Or.inl (by simp only []; rw [rd_wr_ne _ _ _ _ hc])
    · simp only []
      cases push <;> simp <;> omega
  refine ⟨⟨?_, ?_, ?_, ?_, ?_⟩, hstep, hmi⟩
  · intro c
    by_cases hc : i = c
    · subst hc
      exact Or.inr ⟨hmi, by simp only []; rw [rd_wr_same _ _ _ hi0, hto], hci⟩
    · simp only []
      rw [rd_wr_ne _ _ _ _ hc]
      exact h.frame c
  · exact ⟨h.seedDone.1, hstep.keeps_done _ h.seedDone.2⟩
  · simp only []
    have := h.count
    omega
  · intro c hc
    simp only [] at hc ⊢
    have hnew : rd (wr s.buffer i cTo) i = cTo := by rw [rd_wr_same _ _ _ hi0, hto]
    have hold : ∀ c ∈ s.stack, rd mask c = cFrom ∧ rd (wr s.buffer i cTo) c = cTo :=
      fun c hc => ⟨(h.stackDone c hc).1, hstep.keeps_done _ (h.stackDone c hc).2⟩
    cases push
    · exact hold c (by simpa using hc)
    · simp only [if_true, List.mem_cons] at hc
      rcases hc with rfl | hc
      · exact ⟨hmi, hnew⟩
      · exact hold c hc
  · intro c h1 h2
    simp only [] at h2 ⊢
    by_cases hc : i = c
    · subst hc
      cases push <;> simp
    · rw [rd_wr_ne _ _ _ _ hc] at h2
      rcases h.closed c h1 h2 with e | e | e
      · cases push <;> simp [e]
      · cases push <;> simp [e]
      · exact Or.inr (Or.inr (Closed.mono_step hstep e))

/-- The block `if (buffer[i] == from) { ... }` for a neighbour `i` of a
recoloured cell `p`. -/
theorem FillInv.check {mask : Nat} {w bufferStride : Int} {cFrom cTo : Nat} {seed : Int} {n : Nat}
    (ctx : FillCtx mask w bufferStride cFrom cTo n)
    {pend : List Int} {s : Fill} (h : FillInv mask bufferStride cFrom cTo seed n pend s)
    (p i : Int) (hp : rd mask p = cFrom ∧ rd s.buffer p = cTo)
    (hadj : i = p - bufferStride ∨ i = p + bufferStride ∨ i = p - 1 ∨ i = p + 1) :
    FillInv mask bufferStride cFrom cTo seed n pend (s.check i cFrom cTo) ∧
    FillStep cFrom cTo n s (s.check i cFrom cTo) ∧
    rd (s.check i cFrom cTo).buffer i ≠ cFrom := by
  unfold Fill.check
  by_cases hi : rd s.buffer i = cFrom
  · rw [if_pos hi]
    obtain ⟨a, b, c⟩ := h.paint ctx p i hp hadj hi true
    simp only [if_true] at a b
    refine ⟨a, b, ?_⟩
    simp only []
    have hi0 := (ctx.interior i c).1
    rw [rd_wr_same _ _ _ hi0, Nat.mod_eq_of_lt ctx.hto]
    exact fun e => ctx.hne e.symm
  · rw [if_neg hi]
    exact ⟨h, FillStep.refl _ _ _ _, hi⟩


/-- One trip of a walk: the cell `cur + delta` has the colour `cFrom`; it is
recoloured and the cells above and below it are checked. -/
theorem WalkInv.step {mask : Nat} {w bufferStride : Int} {cFrom cTo : Nat} {seed : Int} {n : Nat}
    (ctx : FillCtx mask w bufferStride cFrom cTo n) {delta stackI cur : Int} {s : Fill}
    (hd : delta = 1 ∨ delta = -1)
    (W : WalkInv mask bufferStride cFrom cTo seed n delta stackI cur s)
    (hi : rd s.buffer (cur + delta) = cFrom) :
    WalkInv mask bufferStride cFrom cTo seed n delta stackI (cur + delta)
      ((({ s with buffer := wr s.buffer (cur + delta) cTo, area := s.area + 1 } : Fill).check
        (cur + delta - bufferStride) cFrom cTo).check (cur + delta + bufferStride) cFrom cTo) ∧
    FillStep cFrom cTo n s
      ((({ s with buffer := wr s.buffer (cur + delta) cTo, area := s.area + 1 } : Fill).check
        (cur + delta - bufferStride) cFrom cTo).check (cur + delta + bufferStride) cFrom cTo) := by
  have hne : cTo ≠ cFrom := fun e => ctx.hne e.symm
  obtain ⟨inv1, st1, hmi⟩ := W.inv.paint ctx cur (cur + delta) W.curDone
    (by
      rcases hd with rfl | rfl
      · exact Or.inr (Or.inr (Or.inr rfl))
      · exact Or.inr (Or.inr (Or.inl (by omega)))) hi false
  simp only [Bool.false_eq_true, if_false] at inv1 st1
  have hi0 := (ctx.interior _ hmi).1
  have p1 : rd mask (cur + delta) = cFrom ∧
      rd ({ s with buffer := wr s.buffer (cur + delta) cTo, area := s.area + 1 } : Fill).buffer
        (cur + delta) = cTo :=
    ⟨hmi, by simp only []; rw [rd_wr_same _ _ _ hi0, Nat.mod_eq_of_lt ctx.hto]⟩
  obtain ⟨inv2, st2, nfUp⟩ := inv1.check ctx (cur + delta) (cur + delta - bufferStride) p1
    (Or.inl rfl)
  have p2 := (⟨p1.1, st2.keeps_done _ p1.2⟩ : rd mask (cur + delta) = cFrom ∧ _)
  obtain ⟨inv3, st3, nfDown⟩ := inv2.check ctx (cur + delta) (cur + delta + bufferStride) p2
    (Or.inr (Or.inl rfl))
  have p3 := (⟨p1.1, st3.keeps_done _ p2.2⟩ : rd mask (cur + delta) = cFrom ∧ _)
  have st13 := st1.trans (st2.trans st3)
  have hcurdone := st13.keeps_done _ W.curDone.2
  refine ⟨⟨?_, p3, st3.keeps_ne _ nfUp, nfDown, Or.inr ⟨?_, ?_⟩,
    ⟨W.topDone.1, st13.keeps_done _ W.topDone.2⟩, st13.keeps_ne _ W.topUp, st13.keeps_ne _ W.topDown⟩,
    st13⟩
  · refine inv3.repend _ (fun c hc => ?_)
    simp only [List.mem_cons, List.mem_singleton, List.not_mem_nil, or_false] at hc
    rcases hc with rfl | rfl | rfl
    · simp
    · simp
    · rcases W.back with e | ⟨b1, b2⟩
      · simp [e]
      · refine Or.inr (Or.inr ⟨st13.keeps_ne _ W.curUp, st13.keeps_ne _ W.curDown, ?_, ?_⟩)
        · rcases hd with rfl | rfl
          · exact st13.keeps_ne _ b1
          · have e : c - 1 = c + -1 := by omega
            rw [e, p3.2]; exact hne
        · rcases hd with rfl | rfl
          · rw [p3.2]; exact hne
          · have e : c + 1 = c - -1 := by omega
            rw [e]; exact st13.keeps_ne _ b1
  · have e : cur + delta - delta = cur := by omega
    rw [e, hcurdone]; exact hne
  · rcases W.back with e | ⟨_, b2⟩
    · rw [← e, p3.2]; exact hne
    · exact st13.keeps_ne _ b2

/-- The end of a walk: the cell `cur + delta` has not the colour `cFrom`. -/
theorem WalkInv.exit {mask : Nat} {bufferStride : Int} {cFrom cTo : Nat} {seed : Int} {n : Nat}
    {delta stackI cur : Int} {s : Fill} (hd : delta = 1 ∨ delta = -1)
    (W : WalkInv mask bufferStride cFrom cTo seed n delta stackI cur s)
    (hi : rd s.buffer (cur + delta) ≠ cFrom) :
    FillInv mask bufferStride cFrom cTo seed n [stackI] s ∧
      rd s.buffer (stackI + delta) ≠ cFrom := by
  constructor
  · refine W.inv.repend _ (fun c hc => ?_)
    simp only [List.mem_cons, List.mem_singleton, List.not_mem_nil, or_false] at hc
    rcases hc with rfl | rfl
    · simp
    · rcases W.back with e | ⟨b1, _⟩
      · simp [e]
      · refine Or.inr (Or.inr ⟨W.curUp, W.curDown, ?_, ?_⟩)
        · rcases hd with rfl | rfl
          · exact b1
          · have e : c - 1 = c + -1 := by omega
            rw [e]; exact hi
        · rcases hd with rfl | rfl
          · exact hi
          · have e : c + 1 = c - -1 := by omega
            rw [e]; exact b1
  · rcases W.back with e | ⟨_, b2⟩
    · rw [← e]; exact hi
    · exact b2

/-- The walk to the left of `floodFill`. -/
theorem fillLeft_spec {mask : Nat} {w bufferStride : Int} {cFrom cTo : Nat} {seed : Int} {n : Nat}
    (ctx : FillCtx mask w bufferStride cFrom cTo n) (stackI : Int) (fuel : Nat) :
    ∀ (i x : Int) (s : Fill),
      WalkInv mask bufferStride cFrom cTo seed n (-1) stackI (i + 1) s →
      x = Int.tmod i bufferStride → x.toNat ≤ fuel →
      FillInv mask bufferStride cFrom cTo seed n [stackI]
        (fillLeft bufferStride cFrom cTo fuel i x s) ∧
      rd (fillLeft bufferStride cFrom cTo fuel i x s).buffer (stackI - 1) ≠ cFrom ∧
      FillStep cFrom cTo n s (fillLeft bufferStride cFrom cTo fuel i x s) := by
  have hs : 0 < bufferStride := by
    have := ctx.hstride
    have := ctx.hw
    omega
  -- a cell of colour `cFrom` passes the guard `x >= 1`
  have guard : ∀ (i x : Int) (s : Fill),
      WalkInv mask bufferStride cFrom cTo seed n (-1) stackI (i + 1) s →
      x = Int.tmod i bufferStride → rd s.buffer i = cFrom → x ≥ 1 := by
    intro i x s W hx hi
    have hmi : rd mask i = cFrom := by
      rcases W.inv.frame i with e | ⟨_, e, _⟩
      · rw [← e]; exact hi
      · rw [hi] at e; exact absurd e ctx.hne
    have := ctx.interior i hmi
    omega
  have fin : ∀ (i : Int) (s : Fill),
      WalkInv mask bufferStride cFrom cTo seed n (-1) stackI (i + 1) s →
      rd s.buffer i ≠ cFrom →
      FillInv mask bufferStride cFrom cTo seed n [stackI] s ∧
      rd s.buffer (stackI - 1) ≠ cFrom ∧ FillStep cFrom cTo n s s := by
    intro i s W hi
    have e : i + 1 + -1 = i := by omega
    obtain ⟨a, b⟩ := W.exit (Or.inr rfl) (by rw [e]; exact hi)
    exact ⟨a, b, FillStep.refl _ _ _ _⟩
  induction fuel with
  | zero =>
    intro i x s W hx hf
    simp only [fillLeft]
    refine fin i s W (fun hi => ?_)
    have := guard i x s W hx hi
    omega
  | succ fuel ih =>
    intro i x s W hx hf
    simp only [fillLeft]
    by_cases hg : x ≥ 1 ∧ rd s.buffer i = cFrom
    · rw [if_pos hg]
      have e : i + 1 + -1 = i := by omega
      obtain ⟨W2, st⟩ := W.step ctx (Or.inr rfl) (by rw [e]; exact hg.2)
      rw [e] at W2 st
      have hi0 := ctx.interior i W2.curDone.1
      have hx2 : x - 1 = Int.tmod (i - 1) bufferStride := by
        rw [tmod_pred i bufferStride hi0.1 hi0.2.2.1 hs, hx]
      have e2 : i - 1 + 1 = i := by omega
      obtain ⟨a, b, c⟩ := ih (i - 1) (x - 1) _ (by rw [e2]; exact W2) hx2 (by omega)
      exact ⟨a, b, st.trans c⟩
    · rw [if_neg hg]
      refine fin i s W (fun hi => ?_)
      have := guard i x s W hx hi
      exact hg ⟨this, hi⟩

/-- The walk to the right of `floodFill`. -/
theorem fillRight_spec {mask : Nat} {w bufferStride : Int} {cFrom cTo : Nat} {seed : Int} {n : Nat}
    (ctx : FillCtx mask w bufferStride cFrom cTo n) (stackI : Int) (fuel : Nat) :
    ∀ (i x : Int) (s : Fill),
      WalkInv mask bufferStride cFrom cTo seed n 1 stackI (i - 1) s →
      x = Int.tmod i bufferStride → (w + 1 - x).toNat ≤ fuel →
      FillInv mask bufferStride cFrom cTo seed n [stackI]
        (fillRight w bufferStride cFrom cTo fuel i x s) ∧
      rd (fillRight w bufferStride cFrom cTo fuel i x s).buffer (stackI + 1) ≠ cFrom ∧
      FillStep cFrom cTo n s (fillRight w bufferStride cFrom cTo fuel i x s) := by
  have hs : 0 < bufferStride := by
    have := ctx.hstride
    have := ctx.hw
    omega
  have guard : ∀ (i x : Int) (s : Fill),
      WalkInv mask bufferStride cFrom cTo seed n 1 stackI (i - 1) s →
      x = Int.tmod i bufferStride → rd s.buffer i = cFrom → x ≤ w := by
    intro i x s W hx hi
    have hmi : rd mask i = cFrom := by
      rcases W.inv.frame i with e | ⟨_, e, _⟩
      · rw [← e]; exact hi
      · rw [hi] at e; exact absurd e ctx.hne
    have := ctx.interior i hmi
    omega
  have fin : ∀ (i : Int) (s : Fill),
      WalkInv mask bufferStride cFrom cTo seed n 1 stackI (i - 1) s →
      rd s.buffer i ≠ cFrom →
      FillInv mask bufferStride cFrom cTo seed n [stackI] s ∧
      rd s.buffer (stackI + 1) ≠ cFrom ∧ FillStep cFrom cTo n s s := by
    intro i s W hi
    have e : i - 1 + 1 = i := by omega
    obtain ⟨a, b⟩ := W.exit (Or.inl rfl) (by rw [e]; exact hi)
    exact ⟨a, b, FillStep.refl _ _ _ _⟩
  induction fuel with
  | zero =>
    intro i x s W hx hf
    simp only [fillRight]
    refine fin i s W (fun hi => ?_)
    have := guard i x s W hx hi
    omega
  | succ fuel ih =>
    intro i x s W hx hf
    simp only [fillRight]
    by_cases hg : x ≤ w ∧ rd s.buffer i = cFrom
    · rw [if_pos hg]
      have e : i - 1 + 1 = i := by omega
      obtain ⟨W2, st⟩ := W.step ctx (Or.inl rfl) (by rw [e]; exact hg.2)
      rw [e] at W2 st
      have hi0 := ctx.interior i W2.curDone.1
      have hx2 : x + 1 = Int.tmod (i + 1) bufferStride := by
        rw [tmod_succ i bufferStride hi0.1 (by have := ctx.hstride; omega) hs, hx]
      have e2 : i + 1 - 1 = i := by omega
      obtain ⟨a, b, c⟩ := ih (i + 1) (x + 1) _ (by rw [e2]; exact W2) hx2 (by omega)
      exact ⟨a, b, st.trans c⟩
    · rw [if_neg hg]
      refine fin i s W (fun hi => ?_)
      have := guard i x s W hx hi
      exact hg ⟨this, hi⟩


/-- The state after the pop of `stackI`: `stackI` is the one pending cell. -/
theorem FillInv.pop {mask : Nat} {bufferStride : Int} {cFrom cTo : Nat} {seed : Int} {n : Nat}
    {s : Fill} {stackI : Int} {rest : List Int}
    (h : FillInv mask bufferStride cFrom cTo seed n [] s) (hs : s.stack = stackI :: rest) :
    FillInv mask bufferStride cFrom cTo seed n [stackI] { s with stack := rest } ∧
      (rd mask stackI = cFrom ∧ rd s.buffer stackI = cTo) := by
  refine ⟨⟨h.frame, h.seedDone, h.count, fun c hc => h.stackDone c (by rw [hs]; simp [hc]),
    fun c h1 h2 => ?_⟩, h.stackDone stackI (by rw [hs]; simp)⟩
  rcases h.closed c h1 h2 with e | e | e
  · simp at e
  · rw [hs] at e
    simp only [List.mem_cons] at e
    rcases e with e | e
    · simp [e]
    · exact Or.inr (Or.inl e)
  · exact Or.inr (Or.inr e)

/-- One trip of the outer loop of `floodFill` keeps the invariant and lowers
the measure. -/
theorem floodFillBody_spec {mask : Nat} {w bufferStride : Int} {cFrom cTo : Nat} {seed : Int}
    {n : Nat} (ctx : FillCtx mask w bufferStride cFrom cTo n) {s : Fill} {stackI : Int}
    {rest : List Int} (h : FillInv mask bufferStride cFrom cTo seed n [] s)
    (hs : s.stack = stackI :: rest) :
    FillInv mask bufferStride cFrom cTo seed n []
      (floodFillBody w bufferStride cFrom cTo stackI { s with stack := rest }) ∧
    FillStep cFrom cTo n { s with stack := rest }
      (floodFillBody w bufferStride cFrom cTo stackI { s with stack := rest }) := by
  obtain ⟨inv0, top0⟩ := h.pop hs
  obtain ⟨inv1, st1, nf1⟩ := inv0.check ctx stackI (stackI - bufferStride) top0 (Or.inl rfl)
  have top1 := (⟨top0.1, st1.keeps_done _ top0.2⟩ : rd mask stackI = cFrom ∧ _)
  obtain ⟨inv2, st2, nf2⟩ := inv1.check ctx stackI (stackI + bufferStride) top1
    (Or.inr (Or.inl rfl))
  have top2 := (⟨top0.1, st2.keeps_done _ top1.2⟩ : rd mask stackI = cFrom ∧ _)
  have nf1b := st2.keeps_ne _ nf1
  have WL : WalkInv mask bufferStride cFrom cTo seed n (-1) stackI (stackI - 1 + 1)
      ((({ s with stack := rest } : Fill).check (stackI - bufferStride) cFrom cTo).check
        (stackI + bufferStride) cFrom cTo) := by
    have e : stackI - 1 + 1 = stackI := by omega
    rw [e]
    exact ⟨inv2.repend _ (fun c hc => by simp at hc; simp [hc]), top2, nf1b, nf2, Or.inl rfl,
      top2, nf1b, nf2⟩
  obtain ⟨inv3, nfL, st3⟩ := fillLeft_spec ctx stackI _ (stackI - 1) _ _ WL rfl (le_refl _)
  have top3 := (⟨top0.1, st3.keeps_done _ top2.2⟩ : rd mask stackI = cFrom ∧ _)
  have nfU3 := st3.keeps_ne _ nf1b
  have nfD3 := st3.keeps_ne _ nf2
  have WR : WalkInv mask bufferStride cFrom cTo seed n 1 stackI (stackI + 1 - 1)
      (fillLeft bufferStride cFrom cTo (Int.tmod (stackI - 1) bufferStride).toNat (stackI - 1)
        (Int.tmod (stackI - 1) bufferStride)
        ((({ s with stack := rest } : Fill).check (stackI - bufferStride) cFrom cTo).check
          (stackI + bufferStride) cFrom cTo)) := by
    have e : stackI + 1 - 1 = stackI := by omega
    rw [e]
    exact ⟨inv3.repend _ (fun c hc => by simp at hc; simp [hc]), top3, nfU3, nfD3, Or.inl rfl,
      top3, nfU3, nfD3⟩
  obtain ⟨inv4, nfR, st4⟩ := fillRight_spec ctx stackI _ (stackI + 1) _ _ WR rfl (le_refl _)
  unfold floodFillBody
  simp only []
  refine ⟨inv4.repend _ (fun c hc => ?_), st1.trans (st2.trans (st3.trans st4))⟩
  simp only [List.mem_singleton] at hc
  subst hc
  exact Or.inr (Or.inr ⟨st4.keeps_ne _ nfU3, st4.keeps_ne _ nfD3, st4.keeps_ne _ nfL, nfR⟩)

/-- One trip of the naive fill keeps the invariant and lowers the measure. -/
theorem naiveFillBody_spec {mask : Nat} {w bufferStride : Int} {cFrom cTo : Nat} {seed : Int}
    {n : Nat} (ctx : FillCtx mask w bufferStride cFrom cTo n) {s : Fill} {c : Int}
    {rest : List Int} (h : FillInv mask bufferStride cFrom cTo seed n [] s)
    (hs : s.stack = c :: rest) :
    FillInv mask bufferStride cFrom cTo seed n []
      (naiveFillBody bufferStride cFrom cTo c { s with stack := rest }) ∧
    FillStep cFrom cTo n { s with stack := rest }
      (naiveFillBody bufferStride cFrom cTo c { s with stack := rest }) := by
  obtain ⟨inv0, top0⟩ := h.pop hs
  obtain ⟨inv1, st1, nf1⟩ := inv0.check ctx c (c - bufferStride) top0 (Or.inl rfl)
  have top1 := (⟨top0.1, st1.keeps_done _ top0.2⟩ : rd mask c = cFrom ∧ _)
  obtain ⟨inv2, st2, nf2⟩ := inv1.check ctx c (c + 1) top1 (Or.inr (Or.inr (Or.inr rfl)))
  have top2 := (⟨top0.1, st2.keeps_done _ top1.2⟩ : rd mask c = cFrom ∧ _)
  obtain ⟨inv3, st3, nf3⟩ := inv2.check ctx c (c + bufferStride) top2 (Or.inr (Or.inl rfl))
  have top3 := (⟨top0.1, st3.keeps_done _ top2.2⟩ : rd mask c = cFrom ∧ _)
  obtain ⟨inv4, st4, nf4⟩ := inv3.check ctx c (c - 1) top3 (Or.inr (Or.inr (Or.inl rfl)))
  unfold naiveFillBody
  refine ⟨inv4.repend _ (fun d hd => ?_), st1.trans (st2.trans (st3.trans st4))⟩
  simp only [List.mem_singleton] at hd
  subst hd
  exact Or.inr (Or.inr ⟨st4.keeps_ne _ (st3.keeps_ne _ (st2.keeps_ne _ nf1)),
    st4.keeps_ne _ nf3, nf4, st4.keeps_ne _ (st3.keeps_ne _ nf2)⟩)

/-- With an empty stack the invariant says that exactly the component of the
seed is recoloured. -/
theorem FillInv.done {mask : Nat} {bufferStride : Int} {cFrom cTo : Nat} {seed : Int} {n : Nat}
    {s : Fill}
    (h : FillInv mask bufferStride cFrom cTo seed n [] s) (hs : s.stack = []) :
    FillDone mask bufferStride cFrom cTo seed n s := by
  have hall : ∀ c : Int, Conn mask bufferStride cFrom seed c →
      rd mask c = cFrom ∧ rd s.buffer c = cTo := by
    intro c hc
    have next : ∀ p i : Int, (rd mask p = cFrom ∧ rd s.buffer p = cTo) → rd mask i = cFrom →
        (Closed bufferStride cFrom s.buffer p → rd s.buffer i ≠ cFrom) →
        rd mask i = cFrom ∧ rd s.buffer i = cTo := by
      intro p i hp hi hcl
      rcases h.closed p hp.1 hp.2 with e | e | e
      · simp at e
      · rw [hs] at e; simp at e
      · rcases h.frame i with f | ⟨_, f, _⟩
        · exact absurd (f.trans hi) (hcl e)
        · exact ⟨hi, f⟩
    induction hc with
    | seed _ => exact h.seedDone
    | up _ hm ih => exact next _ _ ih hm (fun e => e.1)
    | down _ hm ih => exact next _ _ ih hm (fun e => e.2.1)
    | left _ hm ih => exact next _ _ ih hm (fun e => e.2.2.1)
    | right _ hm ih => exact next _ _ ih hm (fun e => e.2.2.2)
  refine ⟨hs, fun c hc => (hall c hc).2, fun c hc => ?_, h.count⟩
  rcases h.frame c with e | ⟨_, _, e⟩
  · exact e
  · exact absurd e hc

/-- The outer loop of `floodFill` with enough fuel runs until the stack is
empty, keeping the invariant. -/
theorem floodFillLoop_spec {mask : Nat} {w bufferStride : Int} {cFrom cTo : Nat} {seed : Int}
    {n : Nat} (ctx : FillCtx mask w bufferStride cFrom cTo n) (fuel : Nat) :
    ∀ s : Fill, FillInv mask bufferStride cFrom cTo seed n [] s →
      2 * cnt s.buffer cFrom n + s.stack.length ≤ fuel →
      FillDone mask bufferStride cFrom cTo seed n (floodFillLoop w bufferStride cFrom cTo fuel s) := by
  induction fuel with
  | zero =>
    intro s h hf
    simp only [floodFillLoop]
    exact h.done (List.length_eq_zero.mp (by omega))
  | succ fuel ih =>
    intro s h hf
    simp only [floodFillLoop]
    cases hs : s.stack with
    | nil => exact h.done hs
    | cons stackI rest =>
      simp only []
      obtain ⟨a, b⟩ := floodFillBody_spec ctx h hs
      refine ih _ a ?_
      have := b.measure
      simp only [] at this
      rw [hs] at hf
      simp only [List.length_cons] at hf
      omega

/-- The loop of the naive fill with enough fuel runs until the stack is empty,
keeping the invariant. -/
theorem naiveFillLoop_spec {mask : Nat} {w bufferStride : Int} {cFrom cTo : Nat} {seed : Int}
    {n : Nat} (ctx : FillCtx mask w bufferStride cFrom cTo n) (fuel : Nat) :
    ∀ s : Fill, FillInv mask bufferStride cFrom cTo seed n [] s →
      2 * cnt s.buffer cFrom n + s.stack.length ≤ fuel →
      FillDone mask bufferStride cFrom cTo seed n (naiveFillLoop bufferStride cFrom cTo fuel s) := by
  induction fuel with
  | zero =>
    intro s h hf
    simp only [naiveFillLoop]
    exact h.done (List.length_eq_zero.mp (by omega))
  | succ fuel ih =>
    intro s h hf
    simp only [naiveFillLoop]
    cases hs : s.stack with
    | nil => exact h.done hs
    | cons c rest =>
      simp only []
      obtain ⟨a, b⟩ := naiveFillBody_spec ctx h hs
      refine ih _ a ?_
      have := b.measure
      simp only [] at this
      rw [hs] at hf
      simp only [List.length_cons] at hf
      omega

/-- The state in which a fill starts satisfies the invariant. -/
theorem FillInv.init {mask : Nat} {w bufferStride : Int} {cFrom cTo : Nat} {seed : Int} {n : Nat}
    (ctx : FillCtx mask w bufferStride cFrom cTo n) (hseed : rd mask seed = cFrom) :
    FillInv mask bufferStride cFrom cTo seed n []
      { buffer := wr mask seed cTo, stack := [seed], area := 1 } := by
  obtain ⟨h0, hn, _, _⟩ := ctx.interior seed hseed
  have hto := Nat.mod_eq_of_lt ctx.hto
  have hnew : rd (wr mask seed cTo) seed = cTo := by rw [rd_wr_same _ _ _ h0, hto]
  refine ⟨fun c => ?_, ⟨hseed, hnew⟩, ?_, ?_, fun c h1 h2 => ?_⟩
  · by_cases hc : seed = c
    · subst hc
      exact Or.inr ⟨hseed, hnew, Conn.seed hseed⟩
    · exact Or.inl (rd_wr_ne _ _ _ _ hc)
  · have := cnt_wr mask cFrom cTo seed n h0 hn hseed (by rw [hto]; exact fun e => ctx.hne e.symm)
    simp only []
    omega
  · intro c hc
    simp only [List.mem_singleton] at hc
    subst hc
    exact ⟨hseed, hnew⟩
  · by_cases hc : seed = c
    · subst hc
      simp
    · simp only [] at h2
      rw [rd_wr_ne _ _ _ _ hc, h1] at h2
      exact absurd h2 ctx.hne

/-- A padded mask and a colour 1 or 2 are a setting for a fill. -/
theorem FillCtx.ofPadded {w h : Int} {mask : Nat} (hp : PaddedMask w h mask) (cFrom cTo : Nat)
    (hf : cFrom = 1 ∨ cFrom = 2) (hne : cTo ≠ cFrom) (hto : cTo < 256) :
    FillCtx mask w (w + 2) cFrom cTo ((w + 2) * (h + 2)).toNat := by
  obtain ⟨hw, hh, hsize, hborder⟩ := hp
  have hbeyond : ∀ c : Int, (w + 2) * (h + 2) ≤ c → rd mask c = 0 := by
    intro c hc
    have hc0 : 0 ≤ c := le_trans (by positivity) hc
    simp only [rd, if_pos hc0]
    have : 256 ^ ((w + 2) * (h + 2)).toNat ≤ 256 ^ c.toNat :=
      Nat.pow_le_pow_right (by norm_num) (by omega)
    rw [Nat.div_eq_of_lt (by omega)]
  refine ⟨fun e => hne e.symm, hto, rfl, hw, fun c hc => ?_⟩
  have hc0 : rd mask c ≠ 0 := by rw [hc]; omega
  have h0 : 0 ≤ c := by
    by_contra hneg
    exact hc0 (rd_neg _ _ (by omega))
  have hlt : c < (w + 2) * (h + 2) := by
    by_contra hge
    exact hc0 (hbeyond c (by omega))
  have hs : 0 < w + 2 := by omega
  rw [Int.tmod_eq_emod h0 hs.le]
  have h2 := Int.emod_add_ediv c (w + 2)
  have h3 := Int.emod_lt_of_pos c hs
  have h4 := Int.emod_nonneg c (by omega : w + 2 ≠ 0)
  have h5 : 0 ≤ c / (w + 2) := Int.ediv_nonneg h0 hs.le
  have h6 : c / (w + 2) < h + 2 := Int.ediv_lt_of_lt_mul hs (by rw [mul_comm]; exact hlt)
  have hb := hborder (c % (w + 2)) h4 (by omega) (c / (w + 2)) h5 (by omega)
  have e : c / (w + 2) * (w + 2) + c % (w + 2) = c := by rw [mul_comm]; omega
  rw [e] at hb
  refine ⟨h0, by omega, ?_, ?_⟩
  · by_contra hcon
    exact hc0 (hb (Or.inl (by omega)))
  · by_contra hcon
    exact hc0 (hb (Or.inr (Or.inl (by omega))))


theorem Conn.colour {mask : Nat} {bufferStride : Int} {cFrom : Nat} {seed c : Int}
    (h : Conn mask bufferStride cFrom seed c) : rd mask c = cFrom := by
  cases h <;> assumption

theorem mem_recoloured (mask buffer cFrom cTo : Nat) (n : Nat) (c : Int) :
    c ∈ recoloured mask buffer cFrom cTo n ↔
      0 ≤ c ∧ c < n ∧ rd mask c = cFrom ∧ rd buffer c = cTo := by
  induction n with
  | zero => simp [recoloured]; omega
  | succ n ih =>
    simp only [recoloured]
    split
    · rename_i hn
      simp only [List.mem_cons, ih]
      constructor
      · rintro (rfl | ⟨a, b, d⟩)
        · exact ⟨by omega, by push_cast; omega, hn⟩
        · exact ⟨a, by push_cast; omega, d⟩
      · rintro ⟨a, b, d⟩
        by_cases hc : c = n
        · exact Or.inl hc
        · exact Or.inr ⟨a, by push_cast at b; omega, d⟩
    · rename_i hn
      rw [ih]
      constructor
      · rintro ⟨a, b, d⟩
        exact ⟨a, by push_cast; omega, d⟩
      · rintro ⟨a, b, d⟩
        refine ⟨a, ?_, d⟩
        by_contra hc
        have : c = n := by push_cast at b; omega
        subst this
        exact hn d

theorem nodup_recoloured (mask buffer cFrom cTo : Nat) (n : Nat) :
    (recoloured mask buffer cFrom cTo n).Nodup := by
  induction n with
  | zero => simp [recoloured]
  | succ n ih =>
    simp only [recoloured]
    split
    · refine List.nodup_cons.mpr ⟨fun hm => ?_, ih⟩
      have := (mem_recoloured mask buffer cFrom cTo n n).mp hm
      omega
    · exact ih

/-- The cells recoloured by a finished fill are as many as the `cFrom` cells
that are gone. -/
theorem length_recoloured {mask : Nat} {bufferStride : Int} {cFrom cTo : Nat} {seed : Int}
    {n : Nat} {s : Fill} (hne : cFrom ≠ cTo)
    (h : FillDone mask bufferStride cFrom cTo seed n s) (m : Nat) :
    ((recoloured mask s.buffer cFrom cTo m).length : Int) + cnt s.buffer cFrom m =
      cnt mask cFrom m := by
  induction m with
  | zero => simp [recoloured, cnt]
  | succ m ih =>
    simp only [recoloured, cnt]
    by_cases hc : Conn mask bufferStride cFrom seed (m : Int)
    · have h1 := hc.colour
      have h2 := h.2.1 _ hc
      rw [if_pos ⟨h1, h2⟩, if_pos h1, if_neg (by rw [h2]; exact fun e => hne e.symm)]
      simp only [List.length_cons]
      push_cast
      omega
    · have h2 := h.2.2.1 _ hc
      rw [h2]
      have : ¬ (rd mask (m : Int) = cFrom ∧ rd mask (m : Int) = cTo) := by
        rintro ⟨a, b⟩
        exact hne (a.symm.trans b)
      rw [if_neg this]
      split <;> push_cast <;> omega

/-- The run of `floodFill` on a padded mask ends with exactly the component of
the seed recoloured. -/
theorem floodFill_done (w h : Int) (mask : Nat) (cFrom cTo : Nat) (seed : Int) (rest : List Int)
    (hp : PaddedMask w h mask) (hf : cFrom = 1 ∨ cFrom = 2) (hne : cTo ≠ cFrom) (hto : cTo < 256)
    (hseed : rd mask seed = cFrom) :
    FillDone mask (w + 2) cFrom cTo seed ((w + 2) * (h + 2)).toNat
      (floodFill w h (wr mask seed cTo) (w + 2) cFrom cTo (seed :: rest)) := by
  have ctx := FillCtx.ofPadded hp cFrom cTo hf hne hto
  unfold floodFill
  simp only [List.take_succ_cons, List.take_zero]
  refine floodFillLoop_spec ctx _ _ (FillInv.init ctx hseed) ?_
  have := cnt_le_memSize (wr mask seed cTo) cFrom (by omega) ((w + 2) * (h + 2)).toNat
  simp only [List.length_singleton]
  omega

/-- The run of the naive fill on a padded mask ends with exactly the component
of the seed recoloured. -/
theorem naiveFloodFill_done (w h : Int) (mask : Nat) (cFrom cTo : Nat) (seed : Int)
    (hp : PaddedMask w h mask) (hf : cFrom = 1 ∨ cFrom = 2) (hne : cTo ≠ cFrom) (hto : cTo < 256)
    (hseed : rd mask seed = cFrom) :
    FillDone mask (w + 2) cFrom cTo seed ((w + 2) * (h + 2)).toNat
      (naiveFloodFill mask (w + 2) seed cFrom cTo) := by
  have ctx := FillCtx.ofPadded hp cFrom cTo hf hne hto
  unfold naiveFloodFill
  rw [if_pos hseed]
  refine naiveFillLoop_spec ctx _ _ (FillInv.init ctx hseed) ?_
  have h1 := cnt_le_memSize mask cFrom (by omega) ((w + 2) * (h + 2)).toNat
  obtain ⟨h0, hn, _, _⟩ := ctx.interior seed hseed
  have h2 := cnt_wr mask cFrom cTo seed _ h0 hn hseed
    (by rw [Nat.mod_eq_of_lt hto]; exact hne)
  simp only [List.length_singleton]
  omega

/-- C1: `floodFill` returns the size of the seed's region. For every padded
mask (border `Background`), every colour `cFrom` in {1, 2}, every byte
`cTo ≠ cFrom` and every seed cell of colour `cFrom`: once the caller has
recoloured the seed to `cTo` and put it in `stack[0]`, the area `floodFill`
returns is the area the naive 4-way reference flood fill counts from the same
seed, and it is the number of cells of the 4-connected component of `cFrom`
cells that holds the seed: the length of a list without duplicates whose
members are exactly the cells of the component. -/
theorem floodFill_area (w h : Int) (mask : Nat) (cFrom cTo : Nat) (seed : Int) (rest : List Int)
    (hp : PaddedMask w h mask) (hf : cFrom = 1 ∨ cFrom = 2) (hne : cTo ≠ cFrom) (hto : cTo < 256)
    (hseed : rd mask seed = cFrom) :
    (floodFill w h (wr mask seed cTo) (w + 2) cFrom cTo (seed :: rest)).area =
        (naiveFloodFill mask (w + 2) seed cFrom cTo).area ∧
      ∃ cells : List Int, cells.Nodup ∧
        (∀ c : Int, c ∈ cells ↔ Conn mask (w + 2) cFrom seed c) ∧
        (floodFill w h (wr mask seed cTo) (w + 2) cFrom cTo (seed :: rest)).area = cells.length := by
  have ctx := FillCtx.ofPadded hp cFrom cTo hf hne hto
  have d1 := floodFill_done w h mask cFrom cTo seed rest hp hf hne hto hseed
  have d2 := naiveFloodFill_done w h mask cFrom cTo seed hp hf hne hto hseed
  have hsame : ∀ c : Int,
      rd (floodFill w h (wr mask seed cTo) (w + 2) cFrom cTo (seed :: rest)).buffer c =
        rd (naiveFloodFill mask (w + 2) seed cFrom cTo).buffer c := by
    intro c
    by_cases hc : Conn mask (w + 2) cFrom seed c
    · rw [d1.2.1 c hc, d2.2.1 c hc]
    · rw [d1.2.2.1 c hc, d2.2.2.1 c hc]
  constructor
  · have e := cnt_congr _ _ cFrom ((w + 2) * (h + 2)).toNat hsame
    have c1 := d1.2.2.2
    have c2 := d2.2.2.2
    rw [e] at c1
    omega
  · refine ⟨recoloured mask
      (floodFill w h (wr mask seed cTo) (w + 2) cFrom cTo (seed :: rest)).buffer cFrom cTo
      ((w + 2) * (h + 2)).toNat, nodup_recoloured _ _ _ _ _, fun c => ?_, ?_⟩
    · rw [mem_recoloured]
      constructor
      · rintro ⟨_, _, a, b⟩
        by_contra hc
        rw [d1.2.2.1 c hc, a] at b
        exact hne b.symm
      · intro hc
        obtain ⟨a, b, _, _⟩ := ctx.interior c hc.colour
        exact ⟨a, b, hc.colour, d1.2.1 c hc⟩
    · have := length_recoloured (fun e => hne e.symm) d1 ((w + 2) * (h + 2)).toNat
      have c1 := d1.2.2.2
      omega

/-- C2: `floodFill` recolours exactly the seed's 4-connected component. Under
the preconditions of C1, after `floodFill` every cell of the component of
`cFrom` cells that holds the seed has the value `cTo`, and every other cell has
the value it had before the call. -/
theorem floodFill_recolours_component (w h : Int) (mask : Nat) (cFrom cTo : Nat) (seed : Int)
    (rest : List Int) (hp : PaddedMask w h mask) (hf : cFrom = 1 ∨ cFrom = 2) (hne : cTo ≠ cFrom)
    (hto : cTo < 256) (hseed : rd mask seed = cFrom) (c : Int) :
    (Conn mask (w + 2) cFrom seed c →
        rd (floodFill w h (wr mask seed cTo) (w + 2) cFrom cTo (seed :: rest)).buffer c = cTo) ∧
      (¬ Conn mask (w + 2) cFrom seed c →
        rd (floodFill w h (wr mask seed cTo) (w + 2) cFrom cTo (seed :: rest)).buffer c =
          rd (wr mask seed cTo) c) := by
  have d1 := floodFill_done w h mask cFrom cTo seed rest hp hf hne hto hseed
  refine ⟨d1.2.1 c, fun hc => ?_⟩
  rw [d1.2.2.1 c hc, rd_wr_ne]
  rintro rfl
  exact hc (Conn.seed hseed)


/-- C1, witness: the fill of the region of cell 6 in `fillMask`. -/
theorem floodFill_area_witness :
    PaddedMask 3 3 fillMask ∧
      ((floodFill 3 3 (wr fillMask 6 2) (3 + 2) 1 2 [6]).area =
          (naiveFloodFill fillMask (3 + 2) 6 1 2).area ∧
        ∃ cells : List Int, cells.Nodup ∧
          (∀ c : Int, c ∈ cells ↔ Conn fillMask (3 + 2) 1 6 c) ∧
          (floodFill 3 3 (wr fillMask 6 2) (3 + 2) 1 2 [6]).area = cells.length) :=
  ⟨by decide, floodFill_area 3 3 fillMask 1 2 6 [] (by decide) (by decide) (by decide) (by decide)
    (by decide)⟩

/-- C2, witness: the cell 16 of `fillMask`, which touches the region of cell 6
by a corner only, keeps its value 1. -/
theorem floodFill_recolours_component_witness :
    rd (floodFill 3 3 (wr fillMask 6 2) (3 + 2) 1 2 [6]).buffer 16 = 1 ∧
    (Conn fillMask (3 + 2) 1 6 16 →
        rd (floodFill 3 3 (wr fillMask 6 2) (3 + 2) 1 2 [6]).buffer 16 = 2) ∧
      (¬ Conn fillMask (3 + 2) 1 6 16 →
        rd (floodFill 3 3 (wr fillMask 6 2) (3 + 2) 1 2 [6]).buffer 16 =
          rd (wr fillMask 6 2) 16) :=
  ⟨by decide!, floodFill_recolours_component 3 3 fillMask 1 2 6 [] (by decide) (by decide)
    (by decide) (by decide) (by decide) 16⟩

/-! ## Spur eraser -/

theorem rd_wr_zero (b : Nat) (i c : Int) :
    rd (wr b i 0) c = if i = c then 0 else rd b c := by
  by_cases h : i = c
  · subst h
    by_cases hi : 0 ≤ i
    · rw [rd_wr_same _ _ _ hi]; simp
    · rw [if_pos rfl, rd_neg _ _ (by omega)]
  · rw [rd_wr_ne _ _ _ _ h, if_neg h]

theorem isSpur_iff (b : Nat) (s c : Int) :
    isSpur b s c = true ↔ rd b c ≠ 0 ∧
      ((rd b (c - 1) = 0 ∧ rd b (c + 1) = 0) ∨ (rd b (c - s) = 0 ∧ rd b (c + s) = 0)) := by
  simp [isSpur]

/-- After the erasure of `i` a spur is an old spur or a neighbour of `i`. -/
theorem isSpur_wr_zero (b : Nat) (s i c : Int) (h : isSpur (wr b i 0) s c = true) :
    c ≠ i ∧ rd b c ≠ 0 ∧ (isSpur b s c = true ∨
      (c = i - s ∨ c = i + 1 ∨ c = i + s ∨ c = i - 1)) := by
  rw [isSpur_iff] at h
  obtain ⟨h0, h1⟩ := h
  have hci : c ≠ i := by
    rintro rfl
    rw [rd_wr_zero, if_pos rfl] at h0
    exact h0 rfl
  rw [rd_wr_zero, if_neg (fun e => hci e.symm)] at h0
  refine ⟨hci, h0, ?_⟩
  by_cases hn : c = i - s ∨ c = i + 1 ∨ c = i + s ∨ c = i - 1
  · exact Or.inr hn
  · left
    rw [isSpur_iff]
    refine ⟨h0, ?_⟩
    simp only [rd_wr_zero] at h1
    rw [if_neg (by omega), if_neg (by omega), if_neg (by omega), if_neg (by omega)] at h1
    exact h1

/-- An old spur other than `i` is still a spur after the erasure of `i`. -/
theorem isSpur_mono (b : Nat) (s i c : Int) (h : isSpur b s c = true) (hc : c ≠ i) :
    isSpur (wr b i 0) s c = true := by
  rw [isSpur_iff] at h ⊢
  obtain ⟨h0, h1⟩ := h
  refine ⟨by rw [rd_wr_zero, if_neg (fun e => hc e.symm)]; exact h0, ?_⟩
  have z : ∀ q : Int, rd b q = 0 → rd (wr b i 0) q = 0 := by
    intro q hq
    rw [rd_wr_zero]
    split
    · rfl
    · exact hq
  rcases h1 with ⟨a, b1⟩ | ⟨a, b1⟩
  · exact Or.inl ⟨z _ a, z _ b1⟩
  · exact Or.inr ⟨z _ a, z _ b1⟩

/-- What the push loop of `erase1` puts on the stack: spurs, on top. -/
theorem erase1Push_eq (off4 : List Int) (b : Nat) (s i : Int) (ns : List Int) :
    ∀ stack : List Int, ∃ P : List Int,
      erase1Push off4 b s i ns stack = P ++ stack ∧ P.length ≤ ns.length ∧
      ∀ c : Int, c ∈ P ↔ (∃ n ∈ ns, c = i + offsetAt off4 n) ∧ isSpur b s c = true := by
  induction ns with
  | nil =>
    intro stack
    exact ⟨[], rfl, le_refl _, by simp⟩
  | cons n ns ih =>
    intro stack
    simp only [erase1Push]
    by_cases hn : isSpur b s (i + offsetAt off4 n) = true
    · rw [if_pos hn]
      obtain ⟨P, e, l, m⟩ := ih ((i + offsetAt off4 n) :: stack)
      refine ⟨P ++ [i + offsetAt off4 n], by rw [e]; simp, by simp; omega, fun c => ?_⟩
      simp only [List.mem_append, m, List.mem_singleton, List.mem_cons, exists_eq_or_imp,
        List.not_mem_nil, or_false]
      constructor
      · rintro (⟨⟨k, hk, rfl⟩, h2⟩ | rfl)
        · exact ⟨Or.inr ⟨k, hk, rfl⟩, h2⟩
        · exact ⟨Or.inl rfl, hn⟩
      · rintro ⟨rfl | ⟨k, hk, rfl⟩, h2⟩
        · exact Or.inr rfl
        · exact Or.inl ⟨⟨k, hk, rfl⟩, h2⟩
    · rw [if_neg hn]
      obtain ⟨P, e, l, m⟩ := ih stack
      refine ⟨P, e, by simp; omega, fun c => ?_⟩
      simp only [m, List.mem_cons, exists_eq_or_imp]
      constructor
      · rintro ⟨⟨k, hk, rfl⟩, h2⟩
        exact ⟨Or.inr ⟨k, hk, rfl⟩, h2⟩
      · rintro ⟨rfl | ⟨k, hk, rfl⟩, h2⟩
        · exact absurd h2 hn
        · exact ⟨⟨k, hk, rfl⟩, h2⟩

/-- The cells `erase1` looks at around `i` are its four neighbours. -/
theorem erase1_neighbours (s i c : Int) :
    (∃ n ∈ ([0, 1, 2, 3] : List Int), c = i + offsetAt (cwNeighborOffsets4 s) n) ↔
      (c = i - s ∨ c = i + 1 ∨ c = i + s ∨ c = i - 1) := by
  have e0 : i + offsetAt (cwNeighborOffsets4 s) 0 = i - s := by
    simp [offsetAt, cwNeighborOffsets4]; omega
  have e1 : i + offsetAt (cwNeighborOffsets4 s) 1 = i + 1 := by
    simp [offsetAt, cwNeighborOffsets4]
  have e2 : i + offsetAt (cwNeighborOffsets4 s) 2 = i + s := by
    simp [offsetAt, cwNeighborOffsets4]
  have e3 : i + offsetAt (cwNeighborOffsets4 s) 3 = i - 1 := by
    simp [offsetAt, cwNeighborOffsets4]; omega
  simp only [List.mem_cons, List.mem_singleton, List.not_mem_nil, or_false, exists_eq_or_imp,
    exists_eq_left, e0, e1, e2, e3]


theorem isSpur_congr (a b : Nat) (s c : Int) (h : ∀ q : Int, rd a q = rd b q) :
    isSpur a s c = isSpur b s c := by
  simp only [isSpur, h]

theorem inkCount_congr (a b : Nat) (n : Nat) (h : ∀ q : Int, rd a q = rd b q) :
    inkCount a n = inkCount b n := by
  induction n with
  | zero => rfl
  | succ n ih => simp only [inkCount, ih, h]

theorem inkCount_le (b : Nat) (n : Nat) : inkCount b n ≤ n := by
  induction n with
  | zero => simp [inkCount]
  | succ n ih =>
    simp only [inkCount]
    split <;> omega

/-- Erasing a cell that is not `Background` lowers the ink count by one. -/
theorem inkCount_wr_zero (b : Nat) (i : Int) (n : Nat) (h0 : 0 ≤ i) (h1 : i < n)
    (h2 : rd b i ≠ 0) : inkCount (wr b i 0) n + 1 = inkCount b n := by
  induction n with
  | zero => simp at h1; omega
  | succ n ih =>
    simp only [inkCount]
    by_cases hin : i = n
    · have hsame : ∀ m : Nat, (m : Int) ≤ i → inkCount (wr b i 0) m = inkCount b m := by
        intro m
        induction m with
        | zero => intro _; rfl
        | succ m ihm =>
          intro hm
          simp only [inkCount]
          rw [ihm (by omega), rd_wr_ne _ _ _ _ (by omega)]
      rw [hsame n (by omega), ← hin, rd_wr_zero, if_pos rfl, if_pos rfl, if_neg h2]
    · have := ih (by push_cast at h1; omega)
      rw [rd_wr_ne _ _ _ _ hin]
      omega

/-- The stack invariant looks at `above` through membership only. -/
theorem StackInv.mono_above (b : Nat) (s : Int) (st : List Int) :
    ∀ above above2 : List Int, (∀ c ∈ above, c ∈ above2) →
      StackInv b s above st → StackInv b s above2 st := by
  induction st with
  | nil => intro _ _ _ _; trivial
  | cons e below ih =>
    intro above above2 hsub h
    refine ⟨fun hz c hc hs => hsub c (h.1 hz c hc hs), ih (e :: above) (e :: above2) ?_ h.2⟩
    intro c hc
    simp only [List.mem_cons] at hc ⊢
    rcases hc with rfl | hc
    · exact Or.inl rfl
    · exact Or.inr (hsub c hc)

/-- Cells that are not `Background` can be put on top of the stack. -/
theorem StackInv.push (b : Nat) (s : Int) (rest : List Int) (P : List Int) :
    ∀ acc : List Int, (∀ c ∈ P, rd b c ≠ 0) → StackInv b s (P.reverse ++ acc) rest →
      StackInv b s acc (P ++ rest) := by
  induction P with
  | nil => intro acc _ h; simpa using h
  | cons p P ih =>
    intro acc hP h
    refine ⟨fun hz => absurd hz (hP p (List.mem_cons_self _ _)), ?_⟩
    refine ih (p :: acc) (fun c hc => hP c (List.mem_cons_of_mem _ hc)) ?_
    simpa using h

/-- The stack invariant after the erasure of `i`, when the spur neighbours of
`i` are in `above2`. -/
theorem StackInv.erase (b : Nat) (s i : Int) (above2P : List Int)
    (hP : ∀ c : Int, (c = i - s ∨ c = i + 1 ∨ c = i + s ∨ c = i - 1) →
      isSpur (wr b i 0) s c = true → c ∈ above2P) (rest : List Int) :
    ∀ above above2 : List Int, (∀ c ∈ above, c = i ∨ c ∈ above2) →
      (∀ c ∈ above2P, c ∈ above2) →
      StackInv b s above rest → StackInv (wr b i 0) s above2 rest := by
  induction rest with
  | nil => intro _ _ _ _ _; trivial
  | cons e below ih =>
    intro above above2 h1 h2 h
    constructor
    · intro hz c hc hs
      obtain ⟨hci, _, hor⟩ := isSpur_wr_zero b s i c hs
      by_cases hei : e = i
      · subst hei
        exact h2 c (hP c hc hs)
      · rcases hor with hold | hnb
        · rw [rd_wr_zero, if_neg (fun x => hei x.symm)] at hz
          rcases h1 c (h.1 hz c hc hold) with x | x
          · exact absurd x hci
          · exact x
        · exact h2 c (hP c hnb hs)
    · refine ih (e :: above) (e :: above2) ?_ ?_ h.2
      · intro c hc
        simp only [List.mem_cons] at hc ⊢
        rcases hc with rfl | hc
        · exact Or.inr (Or.inl rfl)
        · rcases h1 c hc with x | x
          · exact Or.inl x
          · exact Or.inr (Or.inr x)
      · intro c hc
        exact List.mem_cons_of_mem _ (h2 c hc)

/-- The loop of `erase1` with enough fuel runs until its stack is empty: it
only erases cells, and the spurs left are spurs that were there before and
were not on the stack (`Q` is what is known of them). -/
theorem erase1Loop_spec (s : Int) (n : Nat) (Q : Int → Prop) (fuel : Nat) :
    ∀ (b : Nat) (st : List Int), (∀ c : Int, rd b c ≠ 0 → 0 ≤ c ∧ c < n) →
      StackInv b s [] st → (∀ c : Int, isSpur b s c = true → Q c ∨ c ∈ st) →
      5 * inkCount b n + st.length ≤ fuel →
      (∀ c : Int, rd (erase1Loop (cwNeighborOffsets4 s) s fuel b st) c = rd b c ∨
        rd (erase1Loop (cwNeighborOffsets4 s) s fuel b st) c = 0) ∧
      (∀ c : Int, isSpur (erase1Loop (cwNeighborOffsets4 s) s fuel b st) s c = true → Q c) := by
  induction fuel with
  | zero =>
    intro b st _ _ hq hf
    have : st = [] := List.length_eq_zero.mp (by omega)
    subst this
    rw [show erase1Loop (cwNeighborOffsets4 s) s 0 b [] = b from rfl]
    exact ⟨fun c => Or.inl rfl, fun c hc => (hq c hc).resolve_right (by simp)⟩
  | succ fuel ih =>
    intro b st hb hst hq hf
    cases st with
    | nil =>
      rw [show erase1Loop (cwNeighborOffsets4 s) s (fuel + 1) b [] = b from rfl]
      exact ⟨fun c => Or.inl rfl, fun c hc => (hq c hc).resolve_right (by simp)⟩
    | cons i rest =>
      simp only [erase1Loop]
      obtain ⟨P, eP, lP, mP⟩ := erase1Push_eq (cwNeighborOffsets4 s) (wr b i 0) s i [0, 1, 2, 3] rest
      simp only [erase1_neighbours] at mP
      rw [eP]
      have hb1 : ∀ c : Int, rd (wr b i 0) c ≠ 0 → 0 ≤ c ∧ c < n := by
        intro c hc
        rw [rd_wr_zero] at hc
        split at hc
        · exact absurd rfl hc
        · exact hb c hc
      have hPnz : ∀ c ∈ P, rd (wr b i 0) c ≠ 0 := by
        intro c hc
        exact ((isSpur_iff _ _ _).mp ((mP c).mp hc).2).1
      have hst1 : StackInv (wr b i 0) s [] (P ++ rest) := by
        refine StackInv.push _ _ _ _ _ hPnz ?_
        refine StackInv.erase b s i P (fun c hc hs => (mP c).mpr ⟨hc, hs⟩) rest [i]
          (P.reverse ++ []) (by simp) (by simp) hst.2
      have hq1 : ∀ c : Int, isSpur (wr b i 0) s c = true → Q c ∨ c ∈ P ++ rest := by
        intro c hs
        obtain ⟨hci, _, hor⟩ := isSpur_wr_zero b s i c hs
        rcases hor with hold | hnb
        · rcases hq c hold with x | x
          · exact Or.inl x
          · simp only [List.mem_cons] at x
            rcases x with x | x
            · exact absurd x hci
            · exact Or.inr (List.mem_append_right _ x)
        · exact Or.inr (List.mem_append_left _ ((mP c).mpr ⟨hnb, hs⟩))
      have hf1 : 5 * inkCount (wr b i 0) n + (P ++ rest).length ≤ fuel := by
        simp only [List.length_append, List.length_cons] at hf ⊢
        by_cases hz : rd b i = 0
        · have hsame : ∀ q : Int, rd (wr b i 0) q = rd b q := by
            intro q
            rw [rd_wr_zero]
            split
            · rename_i e; rw [← e, hz]
            · rfl
          have hPe : P = [] := by
            apply List.eq_nil_iff_forall_not_mem.mpr
            intro c hc
            obtain ⟨hnb, hs⟩ := (mP c).mp hc
            rw [isSpur_congr _ _ _ _ hsame] at hs
            have := hst.1 hz c hnb hs
            simp at this
          rw [hPe, inkCount_congr _ _ _ hsame]
          simp only [List.length_nil]
          omega
        · have := inkCount_wr_zero b i n (hb i hz).1 (hb i hz).2 hz
          simp only [List.length_cons, List.length_nil] at lP
          omega
      obtain ⟨r1, r2⟩ := ih (wr b i 0) (P ++ rest) hb1 hst1 hq1 hf1
      refine ⟨fun c => ?_, r2⟩
      rcases r1 c with e | e
      · rw [e, rd_wr_zero]
        split
        · exact Or.inr rfl
        · exact Or.inl rfl
      · exact Or.inr e

/-- The function `erase1` started on a spur `j`: it only erases cells, and the
spurs left are spurs that were there before, other than `j`. -/
theorem erase1_spec (s j : Int) (b : Nat) (Q : Int → Prop) (hj : isSpur b s j = true)
    (hq : ∀ c : Int, isSpur b s c = true → Q c ∨ c = j) :
    (∀ c : Int, rd (erase1 j (cwNeighborOffsets4 s) b s) c = rd b c ∨
        rd (erase1 j (cwNeighborOffsets4 s) b s) c = 0) ∧
      (∀ c : Int, isSpur (erase1 j (cwNeighborOffsets4 s) b s) s c = true → Q c) := by
  unfold erase1
  refine erase1Loop_spec s (memSize b) Q _ b [j] (fun c hc => lt_memSize_of_rd_ne_zero b c hc)
    ⟨fun hz => absurd hz ((isSpur_iff _ _ _).mp hj).1, trivial⟩
    (fun c hc => by simpa using hq c hc) ?_
  have := inkCount_le b (memSize b)
  simp only [List.length_singleton]
  omega


/-- The inner loop of the mask construction writes the cells `j - n + 1 .. j`. -/
theorem maskCols_ink (data : Nat) (n : Nat) : ∀ (i j : Int) (b : Nat) (c : Int),
    rd (maskCols data n i j b) c ≠ 0 → rd b c ≠ 0 ∨ (j - n < c ∧ c ≤ j) := by
  induction n with
  | zero =>
    intro i j b c h
    exact Or.inl h
  | succ n ih =>
    intro i j b c h
    simp only [maskCols] at h
    rcases ih _ _ _ c h with h1 | h1
    · by_cases hc : j = c
      · exact Or.inr (by push_cast; omega)
      · rw [rd_wr_ne _ _ _ _ hc] at h1
        exact Or.inl h1
    · exact Or.inr (by push_cast; omega)

/-- The mask construction writes interior cells only. -/
theorem maskRows_ink (w : Int) (data : Nat) (hw : 0 ≤ w) (n : Nat) :
    ∀ (i : Int) (b : Nat) (c : Int), rd (maskRows w (w + 2) data n i b) c ≠ 0 →
      rd b c ≠ 0 ∨ ∃ y : Int, 0 ≤ y ∧ y < n ∧ (y + 1) * (w + 2) < c ∧ c ≤ (y + 1) * (w + 2) + w := by
  induction n with
  | zero =>
    intro i b c h
    exact Or.inl h
  | succ n ih =>
    intro i b c h
    simp only [maskRows] at h
    rcases ih _ _ c h with h1 | ⟨y, a1, a2, a3, a4⟩
    · rcases maskCols_ink data _ _ _ _ c h1 with h2 | h2
      · exact Or.inl h2
      · refine Or.inr ⟨n, by omega, by push_cast; omega, ?_, h2.2⟩
        have : ((w.toNat : Nat) : Int) = w := Int.toNat_of_nonneg hw
        rw [this] at h2
        omega
    · exact Or.inr ⟨y, a1, by push_cast; omega, a3, a4⟩

theorem buildMask_ink (w h : Int) (data : Nat) (hw : 0 ≤ w) (hh : 0 ≤ h) (c : Int)
    (hc : rd (buildMask w h data) c ≠ 0) : Interior w h c := by
  unfold buildMask at hc
  rcases maskRows_ink w data hw _ _ _ c hc with h1 | ⟨y, a1, a2, a3, a4⟩
  · exact absurd (rd_zero c) h1
  · exact ⟨c - (y + 1) * (w + 2) - 1, y, by omega, by omega, a1, by omega, by omega⟩

/-- An interior cell below the first cell of row `n + 1` is at most the last
cell of row `n`. -/
theorem Interior.row_below {w h c : Int} (hc : Interior w h c) (n : Int)
    (hlt : c < (n + 1) * (w + 2) + 1) : c < n * (w + 2) + w + 1 := by
  obtain ⟨x, y, x0, x1, y0, y1, rfl⟩ := hc
  have hy : y + 1 ≤ n := by
    by_contra hcon
    have h1 : n + 1 ≤ y + 1 := by omega
    have h2 : (n + 1) * (w + 2) ≤ (y + 1) * (w + 2) :=
      Int.mul_le_mul_of_nonneg_right h1 (by omega)
    omega
  have h2 : (y + 1) * (w + 2) ≤ n * (w + 2) := Int.mul_le_mul_of_nonneg_right hy (by omega)
  omega

/-- The inner loop of the spur scan: after the cells `j`, `j - 1`, ... the
spurs left lie before the cells scanned. -/
theorem spurCols_spec (w h : Int) (n : Nat) : ∀ (j : Int) (b : Nat),
    (∀ c : Int, rd b c ≠ 0 → Interior w h c) →
    (∀ c : Int, isSpur b (w + 2) c = true → c < j + 1) →
    (∀ c : Int, rd (spurCols (w + 2) n j b) c ≠ 0 → Interior w h c) ∧
    (∀ c : Int, isSpur (spurCols (w + 2) n j b) (w + 2) c = true → c < j + 1 - n) := by
  induction n with
  | zero =>
    intro j b h1 h2
    exact ⟨h1, fun c hc => by have := h2 c hc; simpa using this⟩
  | succ n ih =>
    intro j b h1 h2
    simp only [spurCols]
    by_cases hj : isSpur b (w + 2) j = true
    · rw [if_pos hj]
      obtain ⟨r1, r2⟩ := erase1_spec (w + 2) j b (fun c => c < j) hj (fun c hc => by
        have := h2 c hc
        by_cases e : c = j
        · exact Or.inr e
        · exact Or.inl (by omega))
      obtain ⟨a, b2⟩ := ih (j - 1) _ (fun c hc => by
          rcases r1 c with e | e
          · rw [e] at hc; exact h1 c hc
          · exact absurd e hc)
        (fun c hc => by have := r2 c hc; omega)
      exact ⟨a, fun c hc => by have := b2 c hc; push_cast; omega⟩
    · rw [if_neg hj]
      obtain ⟨a, b2⟩ := ih (j - 1) b h1 (fun c hc => by
        have := h2 c hc
        have : c ≠ j := fun e => hj (e ▸ hc)
        omega)
      exact ⟨a, fun c hc => by have := b2 c hc; push_cast; omega⟩

/-- The outer loop of the spur scan over the rows `n - 1`, ..., `0`. -/
theorem spurRows_spec (w h : Int) (hw : 0 ≤ w) (n : Nat) : ∀ b : Nat,
    (∀ c : Int, rd b c ≠ 0 → Interior w h c) →
    (∀ c : Int, isSpur b (w + 2) c = true → c < n * (w + 2) + w + 1) →
    (∀ c : Int, rd (spurRows w (w + 2) n b) c ≠ 0 → Interior w h c) ∧
    (∀ c : Int, isSpur (spurRows w (w + 2) n b) (w + 2) c = true → c < w + 1) := by
  induction n with
  | zero =>
    intro b h1 h2
    exact ⟨h1, fun c hc => by have := h2 c hc; simpa using this⟩
  | succ n ih =>
    intro b h1 h2
    simp only [spurRows]
    obtain ⟨a1, a2⟩ := spurCols_spec w h w.toNat (((n : Int) + 1) * (w + 2) + w) b h1
      (fun c hc => by have := h2 c hc; push_cast at this; omega)
    refine ih _ a1 (fun c hc => ?_)
    have hint := a1 c ((isSpur_iff _ _ _).mp hc).1
    have := a2 c hc
    have e : ((w.toNat : Nat) : Int) = w := Int.toNat_of_nonneg hw
    rw [e] at this
    exact hint.row_below n (by omega)

/-- After the spur-erasing phase no cell of the mask is a spur. -/
theorem eraseSpurs_no_spur (w h : Int) (data : Nat) (hw : 0 ≤ w) (hh : 0 ≤ h) (c : Int) :
    isSpur (eraseSpurs w h (buildMask w h data)) (w + 2) c = false := by
  have hink := buildMask_ink w h data hw hh
  obtain ⟨a1, a2⟩ := spurRows_spec w h hw h.toNat (buildMask w h data) hink (fun c hc => by
    have hint := hink c ((isSpur_iff _ _ _).mp hc).1
    obtain ⟨x, y, x0, x1, y0, y1, rfl⟩ := hint
    have e : ((h.toNat : Nat) : Int) = h := Int.toNat_of_nonneg hh
    rw [e]
    have : (y + 1) * (w + 2) ≤ h * (w + 2) := Int.mul_le_mul_of_nonneg_right (by omega) (by omega)
    omega)
  by_contra hcon
  have hs : isSpur (eraseSpurs w h (buildMask w h data)) (w + 2) c = true := by
    simpa using hcon
  unfold eraseSpurs at hs
  have h1 := a2 c hs
  obtain ⟨x, y, x0, x1, y0, y1, rfl⟩ := a1 c ((isSpur_iff _ _ _).mp hs).1
  have : 1 * (w + 2) ≤ (y + 1) * (w + 2) := Int.mul_le_mul_of_nonneg_right (by omega) (by omega)
  omega

/-- C3: the spur eraser reaches a fixed point. For every input image (`w`,
`h` not negative, any RGBA bytes), after the spur-erasing phase of
`processImage` no cell of the mask that is not `Background` has both its left
and right neighbours `Background`, and none has both its top and bottom
neighbours `Background`. -/
theorem eraseSpurs_fixed_point (w h : Int) (data : Nat) (hw : 0 ≤ w) (hh : 0 ≤ h) (c : Int)
    (hc : rd (eraseSpurs w h (buildMask w h data)) c ≠ 0) :
    ¬ (rd (eraseSpurs w h (buildMask w h data)) (c - 1) = 0 ∧
        rd (eraseSpurs w h (buildMask w h data)) (c + 1) = 0) ∧
      ¬ (rd (eraseSpurs w h (buildMask w h data)) (c - (w + 2)) = 0 ∧
        rd (eraseSpurs w h (buildMask w h data)) (c + (w + 2)) = 0) := by
  have hs := eraseSpurs_no_spur w h data hw hh c
  constructor
  · intro hx
    have : isSpur (eraseSpurs w h (buildMask w h data)) (w + 2) c = true :=
      (isSpur_iff _ _ _).mpr ⟨hc, Or.inl hx⟩
    rw [hs] at this
    exact absurd this (by simp)
  · intro hx
    have : isSpur (eraseSpurs w h (buildMask w h data)) (w + 2) c = true :=
      (isSpur_iff _ _ _).mpr ⟨hc, Or.inr hx⟩
    rw [hs] at this
    exact absurd this (by simp)


/-- C3, witness: the example of the comment in `processImage`. In the padded
mask of stride 6 the pixels A, B, C are the cells 13, 19, 25; all three end
`Background`, and the cell 14 next to A, which stays, is no spur. -/
theorem eraseSpurs_fixed_point_witness :
    rd (eraseSpurs 4 4 (buildMask 4 4 spurExampleImage)) 13 = 0 ∧
      rd (eraseSpurs 4 4 (buildMask 4 4 spurExampleImage)) 19 = 0 ∧
      rd (eraseSpurs 4 4 (buildMask 4 4 spurExampleImage)) 25 = 0 ∧
      (¬ (rd (eraseSpurs 4 4 (buildMask 4 4 spurExampleImage)) (14 - 1) = 0 ∧
          rd (eraseSpurs 4 4 (buildMask 4 4 spurExampleImage)) (14 + 1) = 0) ∧
        ¬ (rd (eraseSpurs 4 4 (buildMask 4 4 spurExampleImage)) (14 - (4 + 2)) = 0 ∧
          rd (eraseSpurs 4 4 (buildMask 4 4 spurExampleImage)) (14 + (4 + 2)) = 0)) :=
  ⟨by decide!, by decide!, by decide!,
    eraseSpurs_fixed_point 4 4 spurExampleImage (by decide) (by decide) 14 (by decide!)⟩

/-! ## Masks as sets of cells -/

/-- Dropping the first byte shifts the indices by one. -/
theorem rd_div (b : Nat) (c : Int) (hc : 0 ≤ c) : rd (b / 256) c = rd b (c + 1) := by
  have h1 : 0 ≤ c + 1 := by omega
  simp only [rd, if_pos hc, if_pos h1]
  have e : (c + 1).toNat = c.toNat + 1 := by omega
  rw [e, pow_succ, mul_comm, Nat.div_div_eq_div_mul]

theorem rd_nat_zero (b : Nat) : rd b 0 = b % 256 := by
  simp [rd]

/-- A byte array all of whose bytes are 0 is the empty array. -/
theorem eq_zero_of_rd (b : Nat) : (∀ c : Int, rd b c = 0) → b = 0 := by
  induction b using Nat.strong_induction_on with
  | _ b ih =>
    intro h
    by_contra hb
    have h0 : b % 256 = 0 := by rw [← rd_nat_zero]; exact h 0
    have h1 : b / 256 = 0 := by
      apply ih (b / 256) (by omega)
      intro c
      by_cases hc : 0 ≤ c
      · rw [rd_div _ _ hc]; exact h _
      · exact rd_neg _ _ (by omega)
    omega

/-- A byte array whose bytes from index `n` on are 0 is below `256 ^ n`. -/
theorem lt_pow_of_rd (n : Nat) : ∀ b : Nat, (∀ c : Int, (n : Int) ≤ c → rd b c = 0) →
    b < 256 ^ n := by
  induction n with
  | zero =>
    intro b h
    have : b = 0 := eq_zero_of_rd b (fun c => by
      by_cases hc : 0 ≤ c
      · exact h c (by simpa using hc)
      · exact rd_neg _ _ (by omega))
    subst this
    simp
  | succ n ih =>
    intro b h
    have h1 : b / 256 < 256 ^ n := by
      apply ih
      intro c hc
      rw [rd_div _ _ (by omega)]
      exact h _ (by push_cast; omega)
    rw [pow_succ]
    omega

/-- Two byte arrays with the same bytes are equal. -/
theorem mem_ext (a : Nat) : ∀ b : Nat, (∀ c : Int, rd a c = rd b c) → a = b := by
  induction a using Nat.strong_induction_on with
  | _ a ih =>
    intro b h
    by_cases ha : a = 0
    · subst ha
      exact (eq_zero_of_rd b (fun c => by rw [← h c]; exact rd_zero c)).symm
    · have h0 : a % 256 = b % 256 := by rw [← rd_nat_zero, ← rd_nat_zero]; exact h 0
      have h1 : a / 256 = b / 256 := by
        apply ih (a / 256) (by omega)
        intro c
        by_cases hc : 0 ≤ c
        · rw [rd_div _ _ hc, rd_div _ _ hc]; exact h _
        · rw [rd_neg _ _ (by omega), rd_neg _ _ (by omega)]
      omega

/-- The cells of the pixels are the cells of the grid off its border. -/
theorem interior_iff (w h c : Int) :
    Interior w h c ↔ ∃ x y : Int, 1 ≤ x ∧ x ≤ w ∧ 1 ≤ y ∧ y ≤ h ∧ c = y * (w + 2) + x := by
  constructor
  · rintro ⟨x, y, h1, h2, h3, h4, rfl⟩
    exact ⟨x + 1, y + 1, by omega, by omega, by omega, by omega, by ring⟩
  · rintro ⟨x, y, h1, h2, h3, h4, rfl⟩
    exact ⟨x - 1, y - 1, by omega, by omega, by omega, by omega, by ring⟩

/-- In a padded mask every cell that is not `Background` is the cell of a
pixel. -/
theorem PaddedMask.ink {w h : Int} {mask : Nat} (hp : PaddedMask w h mask) (c : Int)
    (hc : rd mask c ≠ 0) : Interior w h c := by
  obtain ⟨hw, hh, hlt, hb⟩ := hp
  have h0 : 0 ≤ c := by
    by_contra hn
    exact hc (rd_neg _ _ (by omega))
  have hs : 0 < w + 2 := by omega
  have hN : c < (w + 2) * (h + 2) := by
    by_contra hn
    apply hc
    simp only [rd, if_pos h0]
    have : 256 ^ ((w + 2) * (h + 2)).toNat ≤ 256 ^ c.toNat :=
      Nat.pow_le_pow_right (by norm_num) (by omega)
    rw [Nat.div_eq_of_lt (by omega)]
  have e : c = (c / (w + 2)) * (w + 2) + c % (w + 2) := by
    have := Int.emod_add_ediv c (w + 2)
    linarith
  have hx0 : 0 ≤ c % (w + 2) := Int.emod_nonneg _ (by omega)
  have hx1 : c % (w + 2) < w + 2 := Int.emod_lt_of_pos _ hs
  have hy0 : 0 ≤ c / (w + 2) := Int.ediv_nonneg h0 (by omega)
  have hy1 : c / (w + 2) < h + 2 := Int.ediv_lt_of_lt_mul hs (by linarith)
  rw [interior_iff]
  refine ⟨c % (w + 2), c / (w + 2), ?_, ?_, ?_, ?_, e⟩
  all_goals
    by_contra hn
    apply hc
    rw [e]
    exact hb _ hx0 (by omega) _ hy0 (by omega) (by omega)

/-- A mask whose cells other than `Background` are cells of pixels is a padded
mask. -/
theorem PaddedMask.of_ink {w h : Int} {mask : Nat} (hw : 0 ≤ w) (hh : 0 ≤ h)
    (hi : ∀ c : Int, rd mask c ≠ 0 → Interior w h c) : PaddedMask w h mask := by
  refine ⟨hw, hh, ?_, ?_⟩
  · apply lt_pow_of_rd
    intro c hc
    by_contra hn
    obtain ⟨x, y, h1, h2, h3, h4, rfl⟩ := hi c hn
    have : (0:Int) ≤ (w + 2) * (h + 2) := by positivity
    rw [Int.toNat_of_nonneg this] at hc
    have : (y + 1) * (w + 2) ≤ (h + 1 - 1) * (w + 2) :=
      Int.mul_le_mul_of_nonneg_right (by omega) (by omega)
    nlinarith
  · intro x hx0 hx1 y hy0 hy1 hb
    by_contra hn
    obtain ⟨x', y', h1, h2, h3, h4, e⟩ := hi _ hn
    have e2 : (y - (y' + 1)) * (w + 2) = x' + 1 - x := by linarith
    have hy : y = y' + 1 := by
      by_contra hne
      rcases lt_or_gt_of_ne hne with hl | hg
      · have : (y - (y' + 1)) * (w + 2) ≤ (-1) * (w + 2) :=
          Int.mul_le_mul_of_nonneg_right (by omega) (by omega)
        omega
      · have : 1 * (w + 2) ≤ (y - (y' + 1)) * (w + 2) :=
          Int.mul_le_mul_of_nonneg_right (by omega) (by omega)
        omega
    subst hy
    simp at e2
    omega

/-! ## Mask builder -/

/-- The inner loop of the mask construction sets the cells `j - n + 1 .. j` by
the alpha bytes and leaves the other cells. -/
theorem maskCols_spec (data : Nat) (n : Nat) : ∀ (i j : Int) (b : Nat) (c : Int),
    (n : Int) ≤ j + 1 →
    rd (maskCols data n i j b) c =
      if j - n < c ∧ c ≤ j then (if rd data (i - 4 * (j - c) + 3) = 255 then 1 else 0)
      else rd b c := by
  induction n with
  | zero =>
    intro i j b c _
    have : ¬ (j - ((0 : Nat) : Int) < c ∧ c ≤ j) := by push_cast; omega
    rw [if_neg this]
    rfl
  | succ n ih =>
    intro i j b c hn
    simp only [maskCols]
    rw [ih _ _ _ c (by push_cast at hn; omega)]
    by_cases hc : c = j
    · subst hc
      have h1 : ¬ (c - 1 - (n : Int) < c ∧ c ≤ c - 1) := by omega
      have h2 : c - ((n + 1 : Nat) : Int) < c ∧ c ≤ c := by push_cast; omega
      rw [if_neg h1, if_pos h2, rd_wr_same _ _ _ (by push_cast at hn; omega)]
      have e : i - 4 * (c - c) + 3 = i + 3 := by ring
      rw [e]
      split <;> rfl
    · by_cases h1 : j - 1 - (n : Int) < c ∧ c ≤ j - 1
      · have h2 : j - ((n + 1 : Nat) : Int) < c ∧ c ≤ j := by push_cast; omega
        rw [if_pos h1, if_pos h2]
        have e : i - 4 - 4 * (j - 1 - c) + 3 = i - 4 * (j - c) + 3 := by ring
        rw [e]
      · have h2 : ¬ (j - ((n + 1 : Nat) : Int) < c ∧ c ≤ j) := by push_cast; omega
        rw [if_neg h1, if_neg h2, rd_wr_ne _ _ _ _ (Ne.symm hc)]

/-- The rows below row `n` are out of reach of the outer loop for the rows
`n - 1`, ..., `0`. -/
theorem maskRows_above (w : Int) (data : Nat) (hw : 0 ≤ w) (n : Nat) :
    ∀ (i : Int) (b : Nat) (c : Int), (n : Int) * (w + 2) + w < c →
      rd (maskRows w (w + 2) data n i b) c = rd b c := by
  induction n with
  | zero =>
    intro i b c _
    rfl
  | succ n ih =>
    intro i b c hc
    simp only [maskRows]
    have e : ((w.toNat : Nat) : Int) = w := Int.toNat_of_nonneg hw
    push_cast at hc
    rw [ih _ _ c (by nlinarith), maskCols_spec _ _ _ _ _ _ (by rw [e]; nlinarith)]
    rw [if_neg (by omega)]

/-- The outer loop of the mask construction: the cell of the pixel `(x, y)`,
`y < n`, gets the value of the test on its alpha byte. -/
theorem maskRows_spec (w : Int) (data : Nat) (hw : 0 ≤ w) (n : Nat) :
    ∀ (i : Int) (b : Nat), i = 4 * w * n - 4 →
      ∀ x y : Int, 0 ≤ x → x < w → 0 ≤ y → y < n →
        rd (maskRows w (w + 2) data n i b) ((y + 1) * (w + 2) + x + 1) =
          if rd data (4 * (y * w + x) + 3) = 255 then 1 else 0 := by
  induction n with
  | zero =>
    intro i b _ x y _ _ h1 h2
    exact absurd h2 (by push_cast; omega)
  | succ n ih =>
    intro i b hi x y x0 x1 y0 y1
    simp only [maskRows]
    by_cases hy : y < n
    · exact ih _ _ (by rw [hi]; push_cast; ring) x y x0 x1 y0 hy
    · have hyn : y = n := by push_cast at y1; omega
      subst hyn
      have e : ((w.toNat : Nat) : Int) = w := Int.toNat_of_nonneg hw
      have hnn : (0 : Int) ≤ (n : Int) * (w + 2) := by positivity
      rw [maskRows_above w data hw n _ _ _ (by linarith),
        maskCols_spec _ _ _ _ _ _ (by rw [e]; linarith)]
      rw [if_pos (by rw [e]; constructor <;> linarith)]
      have e2 : i - 4 * (((n : Int) + 1) * (w + 2) + w - (((n : Int) + 1) * (w + 2) + x + 1)) + 3
          = 4 * ((n : Int) * w + x) + 3 := by
        rw [hi]; push_cast; ring
      rw [e2]

/-- The mask construction as a whole. -/
theorem buildMask_spec (w h : Int) (data : Nat) (hw : 0 ≤ w) (hh : 0 ≤ h) :
    (∀ x y : Int, 0 ≤ x → x < w → 0 ≤ y → y < h →
      rd (buildMask w h data) ((y + 1) * (w + 2) + x + 1) =
        if rd data (4 * (y * w + x) + 3) = 255 then 1 else 0) ∧
    PaddedMask w h (buildMask w h data) := by
  constructor
  · intro x y x0 x1 y0 y1
    have e : ((h.toNat : Nat) : Int) = h := Int.toNat_of_nonneg hh
    exact maskRows_spec w data hw h.toNat _ _ (by rw [e]; ring) x y x0 x1 y0 (by rw [e]; exact y1)
  · exact PaddedMask.of_ink hw hh (buildMask_ink w h data hw hh)

/-! ## What a call changes in the mask -/

theorem Repaint.same (u v a : Nat) : Repaint u v a a := fun _ => Or.inl rfl

theorem Repaint.comp {u v a b d : Nat} (h1 : Repaint u v a b) (h2 : Repaint u v b d) :
    Repaint u v a d := by
  intro c
  rcases h2 c with e2 | ⟨e2, e3⟩
  · rcases h1 c with e1 | ⟨e1, e1'⟩
    · exact Or.inl (e2.trans e1)
    · exact Or.inr ⟨e1, e2.trans e1'⟩
  · rcases h1 c with e1 | ⟨e1, _⟩
    · exact Or.inr ⟨e1 ▸ e2, e3⟩
    · exact Or.inr ⟨e1, e3⟩

/-- A write of `v` to a cell that holds `u`. -/
theorem Repaint.write {u v : Nat} (a : Nat) (i : Int) (hv : v < 256) (h : rd a i = u) :
    Repaint u v a (wr a i v) := by
  intro c
  rw [rd_wr]
  by_cases hc : i = c ∧ 0 ≤ i
  · rw [if_pos hc, ← hc.1]
    exact Or.inr ⟨h, Nat.mod_eq_of_lt hv⟩
  · rw [if_neg hc]
    exact Or.inl rfl

/-- A write of the value the cell holds changes nothing. -/
theorem Repaint.rewrite {u v : Nat} (a : Nat) (i : Int) (h : rd a i = v) :
    Repaint u v a (wr a i v) := by
  intro c
  rw [rd_wr]
  by_cases hc : i = c ∧ 0 ≤ i
  · rw [if_pos hc, ← hc.1, h]
    left
    rw [← h]
    exact Nat.mod_eq_of_lt (rd_lt _ _)
  · rw [if_neg hc]
    exact Or.inl rfl

/-- A cell with a value other than `u` keeps it. -/
theorem Repaint.keeps {u v a b : Nat} (h : Repaint u v a b) (c : Int) (hc : rd a c ≠ u) :
    rd b c = rd a c := by
  rcases h c with e | ⟨e, _⟩
  · exact e
  · exact absurd e hc

theorem check_repaint (s : Fill) (i : Int) (cFrom cTo : Nat) (hto : cTo < 256) :
    Repaint cFrom cTo s.buffer (s.check i cFrom cTo).buffer := by
  unfold Fill.check
  split
  · rename_i h
    exact Repaint.write _ _ hto h
  · exact Repaint.same _ _ _

theorem fillLeft_repaint (bufferStride : Int) (cFrom cTo : Nat) (hto : cTo < 256) (fuel : Nat) :
    ∀ (i x : Int) (s : Fill),
      Repaint cFrom cTo s.buffer (fillLeft bufferStride cFrom cTo fuel i x s).buffer := by
  induction fuel with
  | zero => intro i x s; exact Repaint.same _ _ _
  | succ fuel ih =>
    intro i x s
    simp only [fillLeft]
    split
    · rename_i h
      refine Repaint.comp ?_ (ih _ _ _)
      refine Repaint.comp ?_ (check_repaint _ _ _ _ hto)
      refine Repaint.comp ?_ (check_repaint _ _ _ _ hto)
      exact Repaint.write _ _ hto h.2
    · exact Repaint.same _ _ _

theorem fillRight_repaint (w bufferStride : Int) (cFrom cTo : Nat) (hto : cTo < 256)
    (fuel : Nat) : ∀ (i x : Int) (s : Fill),
      Repaint cFrom cTo s.buffer (fillRight w bufferStride cFrom cTo fuel i x s).buffer := by
  induction fuel with
  | zero => intro i x s; exact Repaint.same _ _ _
  | succ fuel ih =>
    intro i x s
    simp only [fillRight]
    split
    · rename_i h
      refine Repaint.comp ?_ (ih _ _ _)
      refine Repaint.comp ?_ (check_repaint _ _ _ _ hto)
      refine Repaint.comp ?_ (check_repaint _ _ _ _ hto)
      exact Repaint.write _ _ hto h.2
    · exact Repaint.same _ _ _

theorem floodFillLoop_repaint (w bufferStride : Int) (cFrom cTo : Nat) (hto : cTo < 256)
    (fuel : Nat) : ∀ s : Fill,
      Repaint cFrom cTo s.buffer (floodFillLoop w bufferStride cFrom cTo fuel s).buffer := by
  induction fuel with
  | zero => intro s; exact Repaint.same _ _ _
  | succ fuel ih =>
    intro s
    simp only [floodFillLoop]
    split
    · exact Repaint.same _ _ _
    · refine Repaint.comp ?_ (ih _)
      unfold floodFillBody
      refine Repaint.comp ?_ (fillRight_repaint _ _ _ _ hto _ _ _ _)
      refine Repaint.comp ?_ (fillLeft_repaint _ _ _ hto _ _ _ _)
      refine Repaint.comp ?_ (check_repaint _ _ _ _ hto)
      exact check_repaint _ _ _ _ hto

/-- Whatever the mask and the stack, `floodFill` changes only cells of the
colour `cFrom`, to the colour `cTo`. -/
theorem floodFill_repaint (w h : Int) (buffer : Nat) (bufferStride : Int) (cFrom cTo : Nat)
    (stack : List Int) (hto : cTo < 256) :
    Repaint cFrom cTo buffer (floodFill w h buffer bufferStride cFrom cTo stack).buffer := by
  unfold floodFill
  exact floodFillLoop_repaint _ _ _ _ hto _ _

theorem erase1Loop_erases (off4 : List Int) (s : Int) (fuel : Nat) :
    ∀ (b : Nat) (st : List Int) (c : Int),
      rd (erase1Loop off4 s fuel b st) c = rd b c ∨ rd (erase1Loop off4 s fuel b st) c = 0 := by
  induction fuel with
  | zero => intro b st c; exact Or.inl rfl
  | succ fuel ih =>
    intro b st c
    cases st with
    | nil => exact Or.inl rfl
    | cons i rest =>
      simp only [erase1Loop]
      rcases ih (wr b i 0) _ c with e | e
      · by_cases hic : i = c
        · right
          rw [e, rd_wr_zero, if_pos hic]
        · left
          rw [e, rd_wr_ne _ _ _ _ hic]
      · exact Or.inr e

/-- On a mask of `Background` and `Foreground` cells `erase1` changes only
`Foreground` cells, to `Background`. -/
theorem erase1_repaint (j : Int) (off4 : List Int) (b : Nat) (s : Int)
    (hb : ∀ c : Int, rd b c ≤ 1) : Repaint 1 0 b (erase1 j off4 b s) := by
  intro c
  rcases erase1Loop_erases off4 s _ b [j] c with e | e
  · exact Or.inl e
  · have := hb c
    by_cases h0 : rd b c = 0
    · exact Or.inl (e.trans h0.symm)
    · exact Or.inr ⟨by omega, e⟩

theorem searchNew_some (prevI cwDir : Int) (off4 off8 : List Int) (b : Nat) (k0 : Int)
    (n : Nat) : ∀ (k : Int) (i d k1 : Int),
      searchNew prevI cwDir off4 off8 b k0 n k = (some (i, d), k1) → rd b i = 2 := by
  induction n with
  | zero => intro k i d k1 h; simp [searchNew] at h
  | succ n ih =>
    intro k i d k1 h
    simp only [searchNew] at h
    split at h
    · rename_i hn
      simp only [Prod.mk.injEq, Option.some.injEq] at h
      obtain ⟨⟨rfl, _⟩, _⟩ := h
      simp only [isNewEdgePixel4, Bool.and_eq_true, decide_eq_true_eq] at hn
      exact hn.1
    · split at h
      · exact ih _ _ _ _ h
      · simp at h

theorem searchTraced_some (prevI cwDir : Int) (off4 : List Int) (b : Nat) (k0 : Int)
    (n : Nat) : ∀ (k : Int) (i d : Int),
      searchTraced prevI cwDir off4 b k0 n k = some (i, d) → rd b i = 3 := by
  induction n with
  | zero => intro k i d h; simp [searchTraced] at h
  | succ n ih =>
    intro k i d h
    simp only [searchTraced] at h
    split at h
    · rename_i hn
      simp only [Option.some.injEq, Prod.mk.injEq] at h
      obtain ⟨rfl, _⟩ := h
      exact hn
    · split at h
      · exact ih _ _ _ h
      · simp at h

/-- The main loop of `trace4` turns `Visited` cells into `Traced` ones and
changes nothing else; the cells on its stack are `Traced`, and the stack only
grows. -/
theorem traceLoop_spec (initialI cwDir : Int) (off4 off8 : List Int) (fuel : Nat) :
    ∀ t : Trace, (∀ c ∈ t.stack, rd t.buffer c = 3) →
      Repaint 2 3 t.buffer (traceLoop initialI cwDir off4 off8 fuel t).1.buffer ∧
      (∀ c ∈ (traceLoop initialI cwDir off4 off8 fuel t).1.stack,
        rd (traceLoop initialI cwDir off4 off8 fuel t).1.buffer c = 3) ∧
      ∃ l, (traceLoop initialI cwDir off4 off8 fuel t).1.stack = t.stack ++ l := by
  induction fuel with
  | zero =>
    intro t ht
    exact ⟨Repaint.same _ _ _, ht, [], by simp [traceLoop]⟩
  | succ fuel ih =>
    intro t ht
    rw [traceLoop]
    split
    · rename_i nextI dir k1 hs
      have h2 := searchNew_some _ _ _ _ _ _ _ _ _ _ _ hs
      have hr : Repaint 2 3 t.buffer (wr t.buffer nextI 3) := Repaint.write _ _ (by norm_num) h2
      have h0 : 0 ≤ nextI := by
        by_contra hn
        rw [rd_neg _ _ (by omega)] at h2
        exact absurd h2 (by norm_num)
      obtain ⟨a1, a2, l, a3⟩ := ih ⟨wr t.buffer nextI 3, t.stack ++ [nextI], nextI, dir, 0⟩ (by
        intro c hc
        simp only [List.mem_append, List.mem_singleton] at hc
        rcases hc with hc | hc
        · show rd (wr t.buffer nextI 3) c = 3
          rw [hr.keeps c (by rw [ht c hc]; norm_num)]
          exact ht c hc
        · subst hc
          show rd (wr t.buffer c 3) c = 3
          rw [rd_wr_same _ _ _ h0])
      exact ⟨Repaint.comp hr a1, a2, [nextI] ++ l, by rw [a3]; simp⟩
    · rename_i k1 hs
      split
      · exact ⟨Repaint.same _ _ _, ht, [], by simp⟩
      · split
        · exact ⟨Repaint.same _ _ _, ht, [], by simp⟩
        · rename_i nextI dir hs2
          have h3 := searchTraced_some _ _ _ _ _ _ _ _ _ hs2
          split
          · exact ⟨Repaint.same _ _ _, ht, [], by simp⟩
          · have hr : Repaint 2 3 t.buffer (wr t.buffer nextI 3) := Repaint.rewrite _ _ h3
            have h0 : 0 ≤ nextI := by
              by_contra hn
              rw [rd_neg _ _ (by omega)] at h3
              exact absurd h3 (by norm_num)
            obtain ⟨a1, a2, l, a3⟩ := ih ⟨wr t.buffer nextI 3, t.stack ++ [nextI], nextI, dir,
                t.visitingAlreadyVisited + 1⟩ (by
              intro c hc
              simp only [List.mem_append, List.mem_singleton] at hc
              rcases hc with hc | hc
              · show rd (wr t.buffer nextI 3) c = 3
                rw [hr.keeps c (by rw [ht c hc]; norm_num)]
                exact ht c hc
              · subst hc
                show rd (wr t.buffer c 3) c = 3
                rw [rd_wr_same _ _ _ h0])
            exact ⟨Repaint.comp hr a1, a2, [nextI] ++ l, by rw [a3]; simp⟩

/-! ## The masks `processImage` goes through -/

theorem trace4_buffer (i cwDir : Int) (off4 off8 : List Int) (b : Nat) (s : Int)
    (pts : List Point) :
    (trace4 i cwDir off4 off8 b s pts).buffer =
      (traceLoop i cwDir off4 off8 ((memSize b + 1) * (maxRevisited.toNat + 2))
        ⟨wr b i 3, [i], i, 1, 0⟩).1.buffer := by
  unfold trace4
  simp only []
  split
  · split <;> rfl
  · rfl

theorem trace4_stack (i cwDir : Int) (off4 off8 : List Int) (b : Nat) (s : Int)
    (pts : List Point) :
    (trace4 i cwDir off4 off8 b s pts).stack =
      (traceLoop i cwDir off4 off8 ((memSize b + 1) * (maxRevisited.toNat + 2))
        ⟨wr b i 3, [i], i, 1, 0⟩).1.stack := by
  unfold trace4
  simp only []
  split
  · split <;> rfl
  · rfl

/-- Started on a `Visited` cell, `trace4` turns `Visited` cells into `Traced`
ones and changes nothing else; the cells it leaves on its stack are `Traced`,
the first of them the start cell. -/
theorem trace4_spec (i cwDir : Int) (off4 off8 : List Int) (b : Nat) (s : Int)
    (pts : List Point) (h2 : rd b i = 2) :
    Repaint 2 3 b (trace4 i cwDir off4 off8 b s pts).buffer ∧
    (∀ c ∈ (trace4 i cwDir off4 off8 b s pts).stack,
      rd (trace4 i cwDir off4 off8 b s pts).buffer c = 3) ∧
    ∃ l, (trace4 i cwDir off4 off8 b s pts).stack = i :: l := by
  have h0 : 0 ≤ i := by
    by_contra hn
    rw [rd_neg _ _ (by omega)] at h2
    exact absurd h2 (by norm_num)
  rw [trace4_buffer, trace4_stack]
  obtain ⟨a1, a2, l, a3⟩ := traceLoop_spec i cwDir off4 off8
    ((memSize b + 1) * (maxRevisited.toNat + 2)) ⟨wr b i 3, [i], i, 1, 0⟩ (by
      intro c hc
      simp only [List.mem_singleton] at hc
      subst hc
      show rd (wr b c 3) c = 3
      rw [rd_wr_same _ _ _ h0])
  exact ⟨Repaint.comp (Repaint.write _ _ (by norm_num) h2) a1, a2, l, by rw [a3]; rfl⟩

theorem undo_repaint (l : List Int) : ∀ b : Nat, (∀ c ∈ l, rd b c = 3 ∨ rd b c = 2) →
    Repaint 3 2 b (l.foldl (fun b i => wr b i 2) b) := by
  induction l with
  | nil => intro b _; exact Repaint.same _ _ _
  | cons i l ih =>
    intro b hb
    simp only [List.foldl_cons]
    have hr : Repaint 3 2 b (wr b i 2) := by
      rcases hb i (List.mem_cons_self _ _) with e | e
      · exact Repaint.write _ _ (by norm_num) e
      · exact Repaint.rewrite _ _ e
    refine Repaint.comp hr (ih _ (fun c hc => ?_))
    rcases hr c with e | ⟨_, e⟩
    · rw [e]; exact hb c (List.mem_cons_of_mem _ hc)
    · exact Or.inr e

/-- On a stack of `Traced` cells `traceUndo` turns `Traced` cells into
`Visited` ones and changes nothing else. -/
theorem traceUndo_repaint (b : Nat) (stack : List Int) (n : Int)
    (h : ∀ c ∈ stack, rd b c = 3) : Repaint 3 2 b (traceUndo b stack n) := by
  unfold traceUndo
  apply undo_repaint
  intro c hc
  exact Or.inl (h c (List.mem_of_mem_take (List.mem_reverse.mp hc)))

theorem chain_append {R : Nat → Nat → Prop} : ∀ (l1 l2 : List Nat) (a : Nat),
    List.Chain R a l1 → List.Chain R (l1.getLastD a) l2 → List.Chain R a (l1 ++ l2) := by
  intro l1
  induction l1 with
  | nil => intro l2 a _ h2; simpa using h2
  | cons b l ih =>
    intro l2 a h1 h2
    rw [List.chain_cons] at h1
    rw [List.cons_append, List.chain_cons]
    refine ⟨h1.1, ih l2 b h1.2 ?_⟩
    rw [List.getLastD_cons] at h2
    exact h2

theorem getLastD_append (l1 l2 : List Nat) (a : Nat) :
    (l1 ++ l2).getLastD a = l2.getLastD (l1.getLastD a) := by
  induction l1 generalizing a with
  | nil => rfl
  | cons b l ih => rw [List.cons_append, List.getLastD_cons, List.getLastD_cons, ih]

/-- The last of the masks of the body of the main scan is the mask the body
leaves. -/
theorem scanCellSteps_last (w h s i : Int) (st : Scan) :
    (scanCellSteps w h s i st).getLastD st.buffer = (scanCell w h s i st).buffer := by
  unfold scanCellSteps scanCell
  simp only []
  split
  · split
    · split <;> rfl
    · rfl
  · split
    · split <;> rfl
    · rfl

/-- Every write of the body of the main scan is a legal step. -/
theorem scanCellSteps_chain (w h s i : Int) (st : Scan) :
    List.Chain LegalStep st.buffer (scanCellSteps w h s i st) := by
  unfold scanCellSteps
  simp only []
  split
  · rename_i h1
    have h0 : 0 ≤ i := by
      by_contra hn
      rw [rd_neg _ _ (by omega)] at h1
      exact absurd h1 (by norm_num)
    have s1 : Repaint 1 2 st.buffer (wr st.buffer i 2) := Repaint.write _ _ (by norm_num) h1
    have s2 := floodFill_repaint w h (wr st.buffer i 2) s 1 2 [i] (by norm_num)
    have e2 : rd (floodFill w h (wr st.buffer i 2) s 1 2 [i]).buffer i = 2 := by
      rw [s2.keeps i (by rw [rd_wr_same _ _ _ h0]; norm_num), rd_wr_same _ _ _ h0]
    split
    · have ht := trace4_spec i 1 (cwNeighborOffsets4 s) (cwNeighborOffsets8 s)
        (floodFill w h (wr st.buffer i 2) s 1 2 [i]).buffer s st.points e2
      generalize trace4 i 1 (cwNeighborOffsets4 s) (cwNeighborOffsets8 s)
        (floodFill w h (wr st.buffer i 2) s 1 2 [i]).buffer s st.points = T at ht ⊢
      obtain ⟨t1, t2, l, t3⟩ := ht
      split
      · exact List.Chain.cons (Or.inr (Or.inl s1)) (List.Chain.cons (Or.inr (Or.inl s2))
          (List.Chain.cons (Or.inr (Or.inr (Or.inl t1))) List.Chain.nil))
      · have u1 := traceUndo_repaint T.buffer T.stack T.stackSize t2
        have u2 : Repaint 3 2 (traceUndo T.buffer T.stack T.stackSize)
            (wr (traceUndo T.buffer T.stack T.stackSize) i 2) := by
          rcases u1 i with e | ⟨_, e⟩
          · exact Repaint.write _ _ (by norm_num) (e.trans (t2 i (by rw [t3]; simp)))
          · exact Repaint.rewrite _ _ e
        exact List.Chain.cons (Or.inr (Or.inl s1)) (List.Chain.cons (Or.inr (Or.inl s2))
          (List.Chain.cons (Or.inr (Or.inr (Or.inl t1)))
            (List.Chain.cons (Or.inr (Or.inr (Or.inr (Or.inl u1))))
              (List.Chain.cons (Or.inr (Or.inr (Or.inr (Or.inl u2))))
                (List.Chain.cons
                  (Or.inr (Or.inr (Or.inr (Or.inr (floodFill_repaint _ _ _ _ _ _ _ (by norm_num))))))
                  List.Chain.nil)))))
    · exact List.Chain.cons (Or.inr (Or.inl s1)) (List.Chain.cons (Or.inr (Or.inl s2))
        (List.Chain.cons (Or.inr (Or.inr (Or.inr (Or.inr (Repaint.write _ _ (by norm_num) e2)))))
          (List.Chain.cons
            (Or.inr (Or.inr (Or.inr (Or.inr (floodFill_repaint _ _ _ _ _ _ _ (by norm_num))))))
            List.Chain.nil)))
  · split
    · rename_i h2
      exact List.Chain.cons (Or.inr (Or.inr (Or.inl (trace4_spec _ _ _ _ _ _ _ h2.1).1)))
        List.Chain.nil
    · exact List.Chain.nil

theorem scanColsSteps_spec (w h s : Int) (n : Nat) : ∀ (i : Int) (st : Scan),
    List.Chain LegalStep st.buffer (scanColsSteps w h s n i st) ∧
    (scanColsSteps w h s n i st).getLastD st.buffer = (scanCols w h s n i st).buffer := by
  induction n with
  | zero => intro i st; exact ⟨List.Chain.nil, rfl⟩
  | succ n ih =>
    intro i st
    simp only [scanColsSteps, scanCols]
    obtain ⟨a1, a2⟩ := ih (i + 1) (scanCell w h s i st)
    constructor
    · apply chain_append _ _ _ (scanCellSteps_chain w h s i st)
      rw [scanCellSteps_last]
      exact a1
    · rw [getLastD_append, scanCellSteps_last, a2]

theorem scanRowsSteps_spec (w h s : Int) (n : Nat) : ∀ (y : Int) (st : Scan),
    List.Chain LegalStep st.buffer (scanRowsSteps w h s n y st) ∧
    (scanRowsSteps w h s n y st).getLastD st.buffer = (scanRows w h s n y st).buffer := by
  induction n with
  | zero => intro y st; exact ⟨List.Chain.nil, rfl⟩
  | succ n ih =>
    intro y st
    simp only [scanRowsSteps, scanRows]
    obtain ⟨b1, b2⟩ := scanColsSteps_spec w h s w.toNat (y * s + 1) st
    obtain ⟨a1, a2⟩ := ih (y + 1) (scanCols w h s w.toNat (y * s + 1) st)
    constructor
    · apply chain_append _ _ _ b1
      rw [b2]
      exact a1
    · rw [getLastD_append, b2, a2]

/-- A legal step keeps the mask one of cells 0 and 1 when it is an erasure. -/
theorem bits_of_repaint {a b : Nat} (h : Repaint 1 0 a b) (ha : ∀ c : Int, rd a c ≤ 1) :
    ∀ c : Int, rd b c ≤ 1 := by
  intro c
  rcases h c with e | ⟨_, e⟩
  · rw [e]; exact ha c
  · rw [e]; norm_num

theorem spurColsSteps_spec (s : Int) (n : Nat) : ∀ (j : Int) (b : Nat),
    (∀ c : Int, rd b c ≤ 1) →
    List.Chain LegalStep b (spurColsSteps s n j b) ∧
    (spurColsSteps s n j b).getLastD b = spurCols s n j b ∧
    ∀ c : Int, rd (spurCols s n j b) c ≤ 1 := by
  induction n with
  | zero => intro j b hb; exact ⟨List.Chain.nil, rfl, hb⟩
  | succ n ih =>
    intro j b hb
    simp only [spurColsSteps, spurCols]
    split
    · have hr := erase1_repaint j (cwNeighborOffsets4 s) b s hb
      obtain ⟨a1, a2, a3⟩ := ih (j - 1) _ (bits_of_repaint hr hb)
      exact ⟨List.Chain.cons (Or.inl hr) a1, by rw [List.getLastD_cons]; exact a2, a3⟩
    · exact ih (j - 1) b hb

theorem spurRowsSteps_spec (w s : Int) (n : Nat) : ∀ b : Nat,
    (∀ c : Int, rd b c ≤ 1) →
    List.Chain LegalStep b (spurRowsSteps w s n b) ∧
    (spurRowsSteps w s n b).getLastD b = spurRows w s n b ∧
    ∀ c : Int, rd (spurRows w s n b) c ≤ 1 := by
  induction n with
  | zero => intro b hb; exact ⟨List.Chain.nil, rfl, hb⟩
  | succ n ih =>
    intro b hb
    simp only [spurRowsSteps, spurRows]
    obtain ⟨b1, b2, b3⟩ := spurColsSteps_spec s w.toNat (((n : Int) + 1) * s + w) b hb
    obtain ⟨a1, a2, a3⟩ := ih _ b3
    refine ⟨?_, ?_, a3⟩
    · apply chain_append _ _ _ b1
      rw [b2]
      exact a1
    · rw [getLastD_append, b2, a2]

theorem maskCols_bits (data : Nat) (n : Nat) : ∀ (i j : Int) (b : Nat),
    (∀ c : Int, rd b c ≤ 1) → ∀ c : Int, rd (maskCols data n i j b) c ≤ 1 := by
  induction n with
  | zero => intro i j b hb; exact hb
  | succ n ih =>
    intro i j b hb
    simp only [maskCols]
    apply ih
    intro c
    rw [rd_wr]
    split
    · split <;> norm_num
    · exact hb c

theorem maskRows_bits (w s : Int) (data : Nat) (n : Nat) : ∀ (i : Int) (b : Nat),
    (∀ c : Int, rd b c ≤ 1) → ∀ c : Int, rd (maskRows w s data n i b) c ≤ 1 := by
  induction n with
  | zero => intro i b hb; exact hb
  | succ n ih =>
    intro i b hb
    simp only [maskRows]
    exact ih _ _ (maskCols_bits data _ _ _ _ hb)

/-- The mask construction leaves `Background` and `Foreground` cells only. -/
theorem buildMask_bits (w h : Int) (data : Nat) (c : Int) : rd (buildMask w h data) c ≤ 1 := by
  unfold buildMask
  exact maskRows_bits w _ data _ _ 0 (fun c => by rw [rd_zero]; norm_num) c

/-- After the mask construction `processImage` changes the mask by legal
steps only, and the last of the masks it goes through is the one it leaves. -/
theorem maskSteps_spec (w h : Int) (data : Nat) (points : List Point) :
    List.Chain LegalStep (buildMask w h data) (maskSteps w h data points) ∧
    (maskSteps w h data points).getLastD (buildMask w h data) =
      (processImage w h data points).buffer := by
  obtain ⟨a1, a2, _⟩ := spurRowsSteps_spec w (w + 2) h.toNat (buildMask w h data)
    (buildMask_bits w h data)
  obtain ⟨b1, b2⟩ := scanRowsSteps_spec w h (w + 2) h.toNat 1
    { buffer := eraseSpurs w h (buildMask w h data), points := points, polygons := [] }
  unfold maskSteps
  constructor
  · apply chain_append _ _ _ a1
    rw [a2]
    exact b1
  · rw [getLastD_append, a2]
    exact b2

/-! ## Background stays background -/

/-- A legal step leaves the `Background` cells `Background`. -/
theorem LegalStep.background_stays {a b : Nat} (h : LegalStep a b) (c : Int) (hc : rd a c = 0) :
    rd b c = 0 := by
  rcases h with h | h | h | h | h
  all_goals
    rw [h.keeps c (by rw [hc]; norm_num)]
    exact hc

theorem chain_zero (l : List Nat) : ∀ a : Nat, List.Chain LegalStep a l →
    ∀ m ∈ l, ∀ c : Int, rd a c = 0 → rd m c = 0 := by
  induction l with
  | nil => intro a _ m hm; simp at hm
  | cons b l ih =>
    intro a h m hm c hc
    rw [List.chain_cons] at h
    rcases List.mem_cons.mp hm with e | e
    · rw [e]; exact h.1.background_stays c hc
    · exact ih b h.2 m e c (h.1.background_stays c hc)

theorem getLastD_mem (l : List Nat) (a : Nat) : l.getLastD a = a ∨ l.getLastD a ∈ l := by
  induction l generalizing a with
  | nil => exact Or.inl rfl
  | cons b l ih =>
    rw [List.getLastD_cons]
    rcases ih b with e | e
    · exact Or.inr (by rw [e]; exact List.mem_cons_self _ _)
    · exact Or.inr (List.mem_cons_of_mem _ e)

/-- No mask `processImage` goes through has a cell other than `Background`
where the mask construction left `Background`. -/
theorem maskSteps_zero (w h : Int) (data : Nat) (points : List Point) :
    ∀ m ∈ maskSteps w h data points, ∀ c : Int,
      rd (buildMask w h data) c = 0 → rd m c = 0 :=
  chain_zero _ _ (maskSteps_spec w h data points).1

theorem processImage_zero (w h : Int) (data : Nat) (points : List Point) (c : Int)
    (hc : rd (buildMask w h data) c = 0) : rd (processImage w h data points).buffer c = 0 := by
  rw [← (maskSteps_spec w h data points).2]
  rcases getLastD_mem (maskSteps w h data points) (buildMask w h data) with e | e
  · rw [e]; exact hc
  · exact maskSteps_zero w h data points _ e c hc

/-- The final mask has cells other than `Background` at cells of pixels with
alpha 255 only. -/
theorem processImage_ink (w h : Int) (data : Nat) (points : List Point) (hw : 0 ≤ w)
    (hh : 0 ≤ h) (c : Int) (hc : rd (processImage w h data points).buffer c ≠ 0) :
    Interior w h c :=
  buildMask_ink w h data hw hh c (fun e => hc (processImage_zero w h data points c e))

theorem processImage_alpha (w h : Int) (data : Nat) (points : List Point) (hw : 0 ≤ w)
    (hh : 0 ≤ h) (x y : Int) (x0 : 0 ≤ x) (x1 : x < w) (y0 : 0 ≤ y) (y1 : y < h)
    (hc : rd (processImage w h data points).buffer ((y + 1) * (w + 2) + x + 1) ≠ 0) :
    rd data (4 * (y * w + x) + 3) = 255 := by
  by_contra hn
  apply hc
  apply processImage_zero
  rw [(buildMask_spec w h data hw hh).1 x y x0 x1 y0 y1, if_neg hn]

theorem BorderClear.of_padded {w h : Int} {mask : Nat} (hp : PaddedMask w h mask) :
    BorderClear w h mask := hp.2.2.2

/-- The row and the column of the cell of a pixel. -/
theorem cellPoint_interior (w x y : Int) (x0 : 0 ≤ x) (x1 : x < w) (y0 : 0 ≤ y) :
    cellPoint (w + 2) ((y + 1) * (w + 2) + x + 1) = ⟨x + 1, y + 1⟩ := by
  have hs : 0 < w + 2 := by omega
  have hc : 0 ≤ (y + 1) * (w + 2) + x + 1 := by positivity
  have e : (y + 1) * (w + 2) + x + 1 = (x + 1) + (w + 2) * (y + 1) := by ring
  unfold cellPoint
  rw [Int.tmod_eq_emod hc (by omega), Int.tdiv_eq_ediv hc (by omega)]
  congr 1
  · rw [e, Int.add_mul_emod_self_left, Int.emod_eq_of_lt (by omega) (by omega)]
  · rw [e, Int.add_mul_ediv_left _ _ (by omega), Int.ediv_eq_zero_of_lt (by omega) (by omega)]
    simp

/-- The loop that computes `maxY` stops at the last cell that is not
`Background`. -/
theorem maxYLoop_spec (b : Nat) (s : Int) (n : Nat) : ∀ i : Int, (n : Int) = i + 1 →
    ((∀ c : Int, 0 ≤ c → c ≤ i → rd b c = 0) ∧ maxYLoop b s n i = 0) ∨
    ∃ j : Int, 0 ≤ j ∧ j ≤ i ∧ rd b j ≠ 0 ∧ (∀ c : Int, j < c → c ≤ i → rd b c = 0) ∧
      maxYLoop b s n i = Int.tdiv j s - 1 := by
  induction n with
  | zero =>
    intro i hi
    exact Or.inl ⟨fun c h0 h1 => by push_cast at hi; omega, rfl⟩
  | succ n ih =>
    intro i hi
    simp only [maxYLoop]
    by_cases hb : rd b i ≠ 0
    · rw [if_pos hb]
      exact Or.inr ⟨i, by push_cast at hi; omega, le_refl _, hb, fun c h0 h1 => by omega, rfl⟩
    · rw [if_neg hb]
      rcases ih (i - 1) (by push_cast at hi; omega) with ⟨a1, a2⟩ | ⟨j, j0, j1, j2, j3, j4⟩
      · refine Or.inl ⟨fun c h0 h1 => ?_, a2⟩
        by_cases e : c = i
        · rw [e]; simpa using hb
        · exact a1 c h0 (by omega)
      · refine Or.inr ⟨j, j0, by omega, j2, fun c h0 h1 => ?_, j4⟩
        by_cases e : c = i
        · rw [e]; simpa using hb
        · exact j3 c h0 (by omega)

/-- The value `processImage` returns, in terms of the final mask. -/
theorem processImage_maxY_spec (w h : Int) (data : Nat) (points : List Point) (hw : 0 ≤ w)
    (hh : 0 ≤ h) :
    ((∀ c : Int, rd (processImage w h data points).buffer c = 0) ∧
      (processImage w h data points).maxY = 0) ∨
    ∃ x y : Int, 0 ≤ x ∧ x < w ∧ 0 ≤ y ∧ y < h ∧
      rd (processImage w h data points).buffer ((y + 1) * (w + 2) + x + 1) ≠ 0 ∧
      (∀ c : Int, (y + 1) * (w + 2) + x + 1 < c →
        rd (processImage w h data points).buffer c = 0) ∧
      (processImage w h data points).maxY = y := by
  have hink := processImage_ink w h data points hw hh
  have hN : (0 : Int) ≤ h * (w + 2) + w := by positivity
  have hm : (processImage w h data points).maxY =
      maxYLoop (processImage w h data points).buffer (w + 2) (h * (w + 2) + w + 1).toNat
        (h * (w + 2) + w) := rfl
  have hbound : ∀ c : Int, h * (w + 2) + w < c →
      rd (processImage w h data points).buffer c = 0 := by
    intro c hc
    by_contra hn
    obtain ⟨x, y, x0, x1, y0, y1, rfl⟩ := hink c hn
    have : (y + 1) * (w + 2) ≤ h * (w + 2) := Int.mul_le_mul_of_nonneg_right (by omega) (by omega)
    omega
  rcases maxYLoop_spec (processImage w h data points).buffer (w + 2)
      (h * (w + 2) + w + 1).toNat (h * (w + 2) + w) (by omega) with ⟨a1, a2⟩ | ⟨j, j0, j1, j2, j3, j4⟩
  · left
    refine ⟨fun c => ?_, hm.trans a2⟩
    by_cases c0 : 0 ≤ c
    · by_cases c1 : c ≤ h * (w + 2) + w
      · exact a1 c c0 c1
      · exact hbound c (by omega)
    · exact rd_neg _ _ (by omega)
  · right
    obtain ⟨x, y, x0, x1, y0, y1, rfl⟩ := hink j j2
    refine ⟨x, y, x0, x1, y0, y1, j2, fun c hc => ?_, ?_⟩
    · by_cases c1 : c ≤ h * (w + 2) + w
      · exact j3 c hc c1
      · exact hbound c (by omega)
    · rw [hm, j4]
      have := cellPoint_interior w x y x0 x1 y0
      unfold cellPoint at this
      have e := congrArg Point.y this
      simp only at e
      rw [e]
      ring

/-! ## Overlay -/

/-- The body of the overlay loop writes the four bytes of its pixel only. -/
theorem overlayCell_frame (w h s : Int) (buf : Nat) (x y i j : Int) (data : Nat) (k : Int)
    (hk : k < i ∨ i + 3 < k) : rd (overlayCell w h s buf x y i j data) k = rd data k := by
  unfold overlayCell
  split
  · rw [rd_wr_ne _ _ _ _ (by omega), rd_wr_ne _ _ _ _ (by omega), rd_wr_ne _ _ _ _ (by omega),
      rd_wr_ne _ _ _ _ (by omega)]
  · split
    · rw [rd_wr_ne _ _ _ _ (by omega), rd_wr_ne _ _ _ _ (by omega), rd_wr_ne _ _ _ _ (by omega),
        rd_wr_ne _ _ _ _ (by omega)]
    · rfl

/-- The pixel of a `Background` cell is cleared. -/
theorem overlayCell_zero (w h s : Int) (buf : Nat) (x y i j : Int) (data : Nat) (hi : 0 ≤ i)
    (hj : rd buf j = 0) :
    rd (overlayCell w h s buf x y i j data) i = 0 ∧
    rd (overlayCell w h s buf x y i j data) (i + 1) = 0 ∧
    rd (overlayCell w h s buf x y i j data) (i + 2) = 0 ∧
    rd (overlayCell w h s buf x y i j data) (i + 3) = 0 := by
  unfold overlayCell
  rw [if_pos hj]
  refine ⟨?_, ?_, ?_, ?_⟩
  · rw [rd_wr_ne _ _ _ _ (by omega), rd_wr_ne _ _ _ _ (by omega), rd_wr_ne _ _ _ _ (by omega),
      rd_wr_same _ _ _ hi]
  · rw [rd_wr_ne _ _ _ _ (by omega), rd_wr_ne _ _ _ _ (by omega), rd_wr_same _ _ _ (by omega)]
  · rw [rd_wr_ne _ _ _ _ (by omega), rd_wr_same _ _ _ (by omega)]
  · rw [rd_wr_same _ _ _ (by omega)]

/-- The pixel of a cell that is not `Background` keeps an alpha of 255. -/
theorem overlayCell_alpha (w h s : Int) (buf : Nat) (x y i j : Int) (data : Nat) (hi : 0 ≤ i)
    (hj : rd buf j ≠ 0) (ha : rd data (i + 3) = 255) :
    rd (overlayCell w h s buf x y i j data) (i + 3) = 255 := by
  unfold overlayCell
  rw [if_neg hj]
  split
  · rw [rd_wr_same _ _ _ (by omega)]
  · exact ha

/-- The inner loop of the overlay, `n` pixels back from the pixel with data
index `i` and cell `j`. -/
theorem overlayCols_spec (w h s : Int) (buf : Nat) (y : Int) (n : Nat) :
    ∀ (i j : Int) (data : Nat), 4 * (n : Int) ≤ i + 4 →
      (∀ k : Int, k < i + 4 - 4 * n ∨ i + 3 < k →
        rd (overlayCols w h s buf y n i j data) k = rd data k) ∧
      ∀ m : Nat, m < n →
        (rd buf (j - m) = 0 →
          rd (overlayCols w h s buf y n i j data) (i - 4 * m) = 0 ∧
          rd (overlayCols w h s buf y n i j data) (i - 4 * m + 1) = 0 ∧
          rd (overlayCols w h s buf y n i j data) (i - 4 * m + 2) = 0 ∧
          rd (overlayCols w h s buf y n i j data) (i - 4 * m + 3) = 0) ∧
        (rd buf (j - m) ≠ 0 → rd data (i - 4 * m + 3) = 255 →
          rd (overlayCols w h s buf y n i j data) (i - 4 * m + 3) = 255) := by
  induction n with
  | zero =>
    intro i j data _
    exact ⟨fun k _ => rfl, fun m hm => absurd hm (by omega)⟩
  | succ n ih =>
    intro i j data hn
    push_cast at hn
    simp only [overlayCols]
    obtain ⟨f, g⟩ := ih (i - 4) (j - 1) (overlayCell w h s buf n y i j data) (by omega)
    constructor
    · intro k hk
      push_cast at hk
      rw [f k (by omega), overlayCell_frame _ _ _ _ _ _ _ _ _ _ (by omega)]
    · intro m hm
      cases m with
      | zero =>
        have e0 : i - 4 * ((0 : Nat) : Int) = i := by simp
        have j0 : j - ((0 : Nat) : Int) = j := by simp
        rw [e0, j0]
        constructor
        · intro hj
          obtain ⟨z0, z1, z2, z3⟩ := overlayCell_zero w h s buf n y i j data (by omega) hj
          rw [f _ (by omega), f _ (by omega), f _ (by omega), f _ (by omega)]
          exact ⟨z0, z1, z2, z3⟩
        · intro hj ha
          rw [f _ (by omega)]
          exact overlayCell_alpha w h s buf n y i j data (by omega) hj ha
      | succ m =>
        have e1 : i - 4 * ((m + 1 : Nat) : Int) = i - 4 - 4 * (m : Int) := by push_cast; ring
        have j1 : j - ((m + 1 : Nat) : Int) = j - 1 - (m : Int) := by push_cast; ring
        rw [e1, j1]
        obtain ⟨g1, g2⟩ := g m (by omega)
        refine ⟨g1, fun hj ha => g2 hj ?_⟩
        rw [overlayCell_frame _ _ _ _ _ _ _ _ _ _ (by omega)]
        exact ha

/-- The outer loop of the overlay over the rows `n - 1`, ..., `0`. -/
theorem overlayRows_spec (w h : Int) (buf : Nat) (hw : 0 ≤ w) (n : Nat) :
    ∀ (i : Int) (data : Nat), i = 4 * w * n - 4 →
      (∀ k : Int, 4 * w * n ≤ k →
        rd (overlayRows w h (w + 2) buf n i data) k = rd data k) ∧
      ∀ x y : Int, 0 ≤ x → x < w → 0 ≤ y → y < n →
        (rd buf ((y + 1) * (w + 2) + x + 1) = 0 →
          rd (overlayRows w h (w + 2) buf n i data) (4 * (y * w + x)) = 0 ∧
          rd (overlayRows w h (w + 2) buf n i data) (4 * (y * w + x) + 1) = 0 ∧
          rd (overlayRows w h (w + 2) buf n i data) (4 * (y * w + x) + 2) = 0 ∧
          rd (overlayRows w h (w + 2) buf n i data) (4 * (y * w + x) + 3) = 0) ∧
        (rd buf ((y + 1) * (w + 2) + x + 1) ≠ 0 → rd data (4 * (y * w + x) + 3) = 255 →
          rd (overlayRows w h (w + 2) buf n i data) (4 * (y * w + x) + 3) = 255) := by
  induction n with
  | zero =>
    intro i data _
    exact ⟨fun k _ => rfl, fun x y _ _ h0 h1 => absurd h1 (by push_cast; omega)⟩
  | succ n ih =>
    intro i data hi
    simp only [overlayRows]
    have e : ((w.toNat : Nat) : Int) = w := Int.toNat_of_nonneg hw
    have hwn : 0 ≤ w * (n : Int) := by positivity
    have hi2 : i = 4 * (w * n) + 4 * w - 4 := by rw [hi]; push_cast; ring
    obtain ⟨cf, cg⟩ := overlayCols_spec w h (w + 2) buf n w.toNat i
      (((n : Int) + 1) * (w + 2) + w) data (by rw [e]; omega)
    obtain ⟨rf, rg⟩ := ih (i - 4 * w) (overlayCols w h (w + 2) buf n w.toNat i
      (((n : Int) + 1) * (w + 2) + w) data) (by rw [hi]; push_cast; ring)
    rw [e] at cf
    constructor
    · intro k hk
      have hk2 : 4 * (w * n) + 4 * w ≤ k := by
        have : 4 * w * ((n + 1 : Nat) : Int) = 4 * (w * n) + 4 * w := by push_cast; ring
        omega
      rw [rf k (by have : 4 * w * (n : Int) = 4 * (w * n) := by ring
                   omega), cf k (by omega)]
    · intro x y x0 x1 y0 y1
      by_cases hy : y < n
      · obtain ⟨r1, r2⟩ := rg x y x0 x1 y0 hy
        refine ⟨r1, fun hj ha => r2 hj ?_⟩
        have : y * w ≤ ((n : Int) - 1) * w := Int.mul_le_mul_of_nonneg_right (by omega) hw
        have e3 : ((n : Int) - 1) * w = w * n - w := by ring
        rw [cf _ (by omega)]
        exact ha
      · have hyn : y = n := by push_cast at y1; omega
        subst hyn
        obtain ⟨c1, c2⟩ := cg (w - 1 - x).toNat (by omega)
        have em : (((w - 1 - x).toNat : Nat) : Int) = w - 1 - x := Int.toNat_of_nonneg (by omega)
        rw [em] at c1 c2
        have ej : ((n : Int) + 1) * (w + 2) + w - (w - 1 - x) = ((n : Int) + 1) * (w + 2) + x + 1 := by
          ring
        have ei : i - 4 * (w - 1 - x) = 4 * ((n : Int) * w + x) := by rw [hi2]; ring
        rw [ej, ei] at c1 c2
        have hfr : ∀ k : Int, 4 * ((n : Int) * w + x) ≤ k →
            rd (overlayRows w h (w + 2) buf n (i - 4 * w) (overlayCols w h (w + 2) buf n w.toNat i
              (((n : Int) + 1) * (w + 2) + w) data)) k =
            rd (overlayCols w h (w + 2) buf n w.toNat i
              (((n : Int) + 1) * (w + 2) + w) data) k := by
          intro k hk
          apply rf
          have : 4 * w * (n : Int) = 4 * ((n : Int) * w) := by ring
          omega
        rw [hfr _ (by omega), hfr _ (by omega), hfr _ (by omega), hfr _ (by omega)]
        exact ⟨c1, c2⟩

/-- The overlay of `processImage`, pixel by pixel. -/
theorem processImage_overlay (w h : Int) (data : Nat) (points : List Point) (hw : 0 ≤ w)
    (hh : 0 ≤ h) (x y : Int) (x0 : 0 ≤ x) (x1 : x < w) (y0 : 0 ≤ y) (y1 : y < h) :
    (rd (processImage w h data points).buffer ((y + 1) * (w + 2) + x + 1) = 0 →
      rd (processImage w h data points).data (4 * (y * w + x)) = 0 ∧
      rd (processImage w h data points).data (4 * (y * w + x) + 1) = 0 ∧
      rd (processImage w h data points).data (4 * (y * w + x) + 2) = 0 ∧
      rd (processImage w h data points).data (4 * (y * w + x) + 3) = 0) ∧
    (rd (processImage w h data points).buffer ((y + 1) * (w + 2) + x + 1) ≠ 0 →
      rd (processImage w h data points).data (4 * (y * w + x) + 3) = 255) := by
  have e : ((h.toNat : Nat) : Int) = h := Int.toNat_of_nonneg hh
  obtain ⟨_, g⟩ := overlayRows_spec w h (processImage w h data points).buffer hw h.toNat
    (w * h * 4 - 4) data (by rw [e]; ring)
  obtain ⟨g1, g2⟩ := g x y x0 x1 y0 (by rw [e]; exact y1)
  exact ⟨g1, fun hj => g2 hj (processImage_alpha w h data points hw hh x y x0 x1 y0 y1 hj)⟩

/-! ## Traced polygons -/

theorem cornerLoop_mem (s : Int) (P : Point → Prop) : ∀ (rest : List Int) (prev next : Point)
    (acc : List Point), (∀ p ∈ acc, P p) → P next → (∀ c ∈ rest, P (cellPoint s c)) →
    (∀ p ∈ (cornerLoop s rest prev next acc).1, P p) ∧ P (cornerLoop s rest prev next acc).2.2 := by
  intro rest
  induction rest with
  | nil => intro prev next acc h1 h2 _; exact ⟨h1, h2⟩
  | cons c rest ih =>
    intro prev next acc h1 h2 h3
    simp only [cornerLoop]
    apply ih
    · intro p hp
      split at hp
      · rcases List.mem_append.mp hp with e | e
        · exact h1 p e
        · rw [List.mem_singleton.mp e]; exact h2
      · exact h1 p hp
    · exact h3 c (List.mem_cons_self _ _)
    · intro d hd
      exact h3 d (List.mem_cons_of_mem _ hd)

/-- Every corner point is the coordinate pair of a cell of the path. -/
theorem cornerPoints_mem (s : Int) (i : Int) (l : List Int) :
    ∀ p ∈ cornerPoints s (i :: l), ∃ c ∈ i :: l, p = cellPoint s c := by
  have h := cornerLoop_mem s (fun p => ∃ c ∈ i :: l, p = cellPoint s c) l
    (cellPoint s ((i :: l).getLastD 0)) (cellPoint s i) [] (by simp)
    ⟨i, List.mem_cons_self _ _, rfl⟩ (fun c hc => ⟨c, List.mem_cons_of_mem _ hc, rfl⟩)
  intro p hp
  unfold cornerPoints at hp
  simp only [List.headD_cons, List.tail_cons] at hp
  split at hp
  · rcases List.mem_append.mp hp with e | e
    · exact h.1 p e
    · rw [List.mem_singleton.mp e]; exact h.2
  · exact h.1 p hp

theorem epsilon1_5_nonneg : exactDoubles.gt exactDoubles.zero epsilon1_5 = false := by
  decide

theorem getP_nat (l : List Point) (k : Nat) : getP l (k : Int) = l[k]?.getD ⟨0, 0⟩ := by
  unfold getP
  rw [if_pos (by omega)]
  simp [List.getD_eq_getElem?_getD]

/-- The points `trace4` reports, when it reports more than one: they lie in
the `points` array, and each is the coordinate pair of a cell of the path. -/
theorem trace4_points (i cwDir : Int) (off4 off8 : List Int) (b : Nat) (s : Int)
    (pts : List Point) (h2 : rd b i = 2)
    (hp : (trace4 i cwDir off4 off8 b s pts).pointCount > 1) :
    (trace4 i cwDir off4 off8 b s pts).pointCount.toNat ≤
      (trace4 i cwDir off4 off8 b s pts).points.length ∧
    ∀ p ∈ (trace4 i cwDir off4 off8 b s pts).points.take
        (trace4 i cwDir off4 off8 b s pts).pointCount.toNat,
      ∃ c ∈ (trace4 i cwDir off4 off8 b s pts).stack, p = cellPoint s c := by
  obtain ⟨_, _, l, hst⟩ := trace4_spec i cwDir off4 off8 b s pts h2
  rw [trace4_stack] at hst
  rw [trace4_stack]
  unfold trace4 at hp ⊢
  simp only [] at hp ⊢
  generalize traceLoop i cwDir off4 off8 ((memSize b + 1) * (maxRevisited.toNat + 2))
    { buffer := wr b i 3, stack := [i], prevI := i, dir := 1, visitingAlreadyVisited := 0 } = r
    at hp hst ⊢
  obtain ⟨t, ex⟩ := r
  simp only [] at hp hst ⊢
  cases ex with
  | closed =>
    simp only [] at hp ⊢
    split at hp
    · simp at hp
    · rename_i hcond
      rw [if_neg hcond]
      simp only [] at hp ⊢
      rw [hst] at hp ⊢
      have hcm := cornerPoints_mem s i l
      generalize cornerPoints s (i :: l) = corners at hp hcm ⊢
      have hlen : ((corners.length : Int) + 1 - 1) <
          ((corners ++ [getP (corners ++ List.drop corners.length pts) 0] ++
            List.drop (corners.length + 1) pts).length : Int) := by
        simp only [List.length_append, List.length_singleton]
        push_cast
        omega
      obtain ⟨m, out, idx, e, r⟩ := douglasPeuckerAux_spec exactDoubles epsilon1_5
        epsilon1_5_nonneg _ (corners ++ [getP (corners ++ List.drop corners.length pts) 0] ++
            List.drop (corners.length + 1) pts) 0 ((corners.length : Int) + 1 - 1) (le_refl 0)
        (by omega) hlen (le_refl _)
      unfold douglasPeucker at hp ⊢
      rw [e] at hp ⊢
      simp only [Option.getD_some] at hp ⊢
      obtain ⟨r1, r2, r3, r4, r5, r6, r7, r8⟩ := r
      have hm : (m : Int) ≤ corners.length + 1 := by
        have := (r6 0 (by omega)).2
        rw [r3] at this
        omega
      have hcl : corners.length + 1 ≤ out.length := by
        rw [r1]
        simp only [List.length_append, List.length_singleton]
        omega
      have hne : corners ≠ [] := by
        intro hnil
        rw [hnil] at hm
        simp at hm
        omega
      constructor
      · omega
      · intro p hpm
        obtain ⟨k, hk⟩ := List.mem_iff_getElem?.mp hpm
        rw [List.getElem?_take] at hk
        split at hk
        · rename_i hkn
          have hk1 : k < m - 1 := by omega
          have g := r7 k (by omega)
          rw [zero_add, getP_nat, hk, Option.getD_some] at g
          rw [g]
          have b1 := r6 k (by omega)
          have hi0 : 0 ≤ idx k := by omega
          have hi1 : idx k ≤ corners.length := by omega
          obtain ⟨j, hj⟩ := Int.eq_ofNat_of_zero_le hi0
          rw [hj] at hi1 ⊢
          have hpos : 0 < corners.length := List.length_pos.mpr hne
          rw [getP_nat]
          by_cases hjl : j < corners.length
          · rw [List.append_assoc, List.getElem?_append_left hjl,
              List.getElem?_eq_getElem hjl, Option.getD_some]
            exact hcm _ (List.getElem_mem _)
          · have hje : j = corners.length := by omega
            rw [List.getElem?_append_left (by simp; omega),
              List.getElem?_append_right (by omega), hje, Nat.sub_self]
            simp only [List.getElem?_cons_zero, Option.getD_some]
            have := getP_nat (corners ++ List.drop corners.length pts) 0
            simp only [Nat.cast_zero] at this
            rw [this, List.getElem?_append_left hpos, List.getElem?_eq_getElem hpos,
              Option.getD_some]
            exact hcm _ (List.getElem_mem _)
        · simp at hk
  | aborted => simp at hp
  | outOfFuel => simp at hp

/-! ## The main scan -/

/-- The points handed over by `polygonFound` are the first `pointCount`
points, moved by `(-1, -1)`. -/
theorem polygonFound_take (pts : List Point) (pc : Int) (h : pc.toNat ≤ pts.length) :
    (polygonFound pts pc).take pc.toNat =
      (pts.take pc.toNat).map (fun p => (⟨p.x - 1, p.y - 1⟩ : Point)) := by
  unfold polygonFound
  rw [List.take_append_of_le_length (by simp [h])]
  rw [List.take_of_length_le (by simp)]

/-- The body of the main scan hands over no polygon, or one polygon of at
least 2 points, each the coordinate pair, less `(1, 1)`, of a cell that is
`Traced` in the mask the body leaves; a polygon of a hole comes from a trace
with a stack size over 8. -/
theorem scanCell_emits (w h s i : Int) (st : Scan) :
    (scanCell w h s i st).polygons = st.polygons ∨
    ∃ (e : Emitted) (pts : List Point),
      (scanCell w h s i st).polygons = st.polygons ++ [e] ∧
      e.points = pts.map (fun p => (⟨p.x - 1, p.y - 1⟩ : Point)) ∧ 2 ≤ pts.length ∧
      (e.cwDir = 1 ∨ (e.cwDir = -1 ∧ 8 < e.stackSize)) ∧
      ∀ p ∈ pts, ∃ c : Int, rd (scanCell w h s i st).buffer c = 3 ∧ p = cellPoint s c := by
  unfold scanCell
  simp only []
  split
  · rename_i h1
    have h0 : 0 ≤ i := by
      by_contra hn
      rw [rd_neg _ _ (by omega)] at h1
      exact absurd h1 (by norm_num)
    have s2 := floodFill_repaint w h (wr st.buffer i 2) s 1 2 [i] (by norm_num)
    have e2 : rd (floodFill w h (wr st.buffer i 2) s 1 2 [i]).buffer i = 2 := by
      rw [s2.keeps i (by rw [rd_wr_same _ _ _ h0]; norm_num), rd_wr_same _ _ _ h0]
    split
    · have ht := trace4_spec i 1 (cwNeighborOffsets4 s) (cwNeighborOffsets8 s)
        (floodFill w h (wr st.buffer i 2) s 1 2 [i]).buffer s st.points e2
      have hq := trace4_points i 1 (cwNeighborOffsets4 s) (cwNeighborOffsets8 s)
        (floodFill w h (wr st.buffer i 2) s 1 2 [i]).buffer s st.points e2
      generalize trace4 i 1 (cwNeighborOffsets4 s) (cwNeighborOffsets8 s)
        (floodFill w h (wr st.buffer i 2) s 1 2 [i]).buffer s st.points = T at ht hq ⊢
      split
      · rename_i hpc
        obtain ⟨q1, q2⟩ := hq hpc
        right
        refine ⟨_, T.points.take T.pointCount.toNat, rfl, polygonFound_take _ _ q1, ?_,
          Or.inl rfl, fun p hp => ?_⟩
        · rw [List.length_take]
          omega
        · obtain ⟨c, hc, e⟩ := q2 p hp
          exact ⟨c, ht.2.1 c hc, e⟩
      · exact Or.inl rfl
    · exact Or.inl rfl
  · split
    · rename_i h2
      have ht := trace4_spec i (-1) (cwNeighborOffsets4 s) (cwNeighborOffsets8 s)
        st.buffer s st.points h2.1
      have hq := trace4_points i (-1) (cwNeighborOffsets4 s) (cwNeighborOffsets8 s)
        st.buffer s st.points h2.1
      generalize trace4 i (-1) (cwNeighborOffsets4 s) (cwNeighborOffsets8 s)
        st.buffer s st.points = T at ht hq ⊢
      split
      · rename_i hpc
        obtain ⟨q1, q2⟩ := hq hpc.1
        right
        refine ⟨_, T.points.take T.pointCount.toNat, rfl, polygonFound_take _ _ q1, ?_,
          Or.inr ⟨rfl, hpc.2⟩, fun p hp => ?_⟩
        · rw [List.length_take]
          omega
        · obtain ⟨c, hc, e⟩ := q2 p hp
          exact ⟨c, ht.2.1 c hc, e⟩
      · exact Or.inl rfl
    · exact Or.inl rfl

/-- The body of the main scan leaves the `Background` cells `Background`. -/
theorem scanCell_zero (w h s i : Int) (st : Scan) (c : Int) (hc : rd st.buffer c = 0) :
    rd (scanCell w h s i st).buffer c = 0 := by
  rw [← scanCellSteps_last]
  rcases getLastD_mem (scanCellSteps w h s i st) st.buffer with e | e
  · rw [e]; exact hc
  · exact chain_zero _ _ (scanCellSteps_chain w h s i st) _ e c hc

/-- A property of the scan state that the body of the main scan keeps holds
all along the inner loop. -/
theorem scanCols_induct (w h s : Int) (P : Scan → Prop)
    (hP : ∀ (i : Int) (st : Scan), P st → P (scanCell w h s i st)) (n : Nat) :
    ∀ (i : Int) (st : Scan), P st → P (scanCols w h s n i st) := by
  induction n with
  | zero => intro i st h0; exact h0
  | succ n ih => intro i st h0; exact ih _ _ (hP i st h0)

theorem scanRows_induct (w h s : Int) (P : Scan → Prop)
    (hP : ∀ (i : Int) (st : Scan), P st → P (scanCell w h s i st)) (n : Nat) :
    ∀ (y : Int) (st : Scan), P st → P (scanRows w h s n y st) := by
  induction n with
  | zero => intro y st h0; exact h0
  | succ n ih => intro y st h0; exact ih _ _ (scanCols_induct w h s P hP _ _ _ h0)

/-- A property that every polygon handed over by the body of the main scan
has, whatever the scan state, is a property of every polygon `processImage`
hands over. -/
theorem processImage_polygons_induct (w h : Int) (data : Nat) (points : List Point)
    (I : Nat → Prop) (Q : Emitted → Prop)
    (h0 : I (eraseSpurs w h (buildMask w h data)))
    (hI : ∀ (i : Int) (st : Scan), I st.buffer → I (scanCell w h (w + 2) i st).buffer)
    (hQ : ∀ (i : Int) (st : Scan) (e : Emitted), I st.buffer → I (scanCell w h (w + 2) i st).buffer →
      (scanCell w h (w + 2) i st).polygons = st.polygons ++ [e] → Q e) :
    ∀ e ∈ (processImage w h data points).polygons, Q e := by
  have key := scanRows_induct w h (w + 2) (fun st => I st.buffer ∧ ∀ e ∈ st.polygons, Q e)
    (fun i st hst => by
      refine ⟨hI i st hst.1, fun e he => ?_⟩
      rcases scanCell_emits w h (w + 2) i st with e1 | ⟨e', _, e1, _⟩
      · rw [e1] at he; exact hst.2 e he
      · rw [e1] at he
        rcases List.mem_append.mp he with e2 | e2
        · exact hst.2 e e2
        · rw [List.mem_singleton.mp e2]
          exact hQ i st e' hst.1 (hI i st hst.1) e1)
    h.toNat 1 { buffer := eraseSpurs w h (buildMask w h data), points := points, polygons := [] }
    ⟨h0, fun e he => by simp at he⟩
  exact key.2

/-- The last element appended to a list determines it. -/
theorem append_singleton_inj {l : List Emitted} {a b : Emitted} (h : l ++ [a] = l ++ [b]) :
    a = b := by
  have := List.append_cancel_left h
  simpa using this

/-- Every polygon `processImage` hands over has at least 2 points. -/
theorem processImage_polygons_length (w h : Int) (data : Nat) (points : List Point) :
    ∀ e ∈ (processImage w h data points).polygons, 2 ≤ e.points.length := by
  refine processImage_polygons_induct w h data points (fun _ => True)
    (fun e => 2 ≤ e.points.length) trivial (fun _ _ _ => trivial) ?_
  intro i st e _ _ he
  show 2 ≤ e.points.length
  rcases scanCell_emits w h (w + 2) i st with e1 | ⟨e', pts, e1, e2, e3, _, _⟩
  · rw [e1] at he
    have := congrArg List.length he
    simp at this
  · rw [e1] at he
    rw [← append_singleton_inj he, e2, List.length_map]
    exact e3

/-- Every polygon `processImage` hands over comes from an outer trace or from
a trace of a hole with a stack size over 8. -/
theorem processImage_polygons_kind (w h : Int) (data : Nat) (points : List Point) :
    ∀ e ∈ (processImage w h data points).polygons,
      e.cwDir = 1 ∨ (e.cwDir = -1 ∧ 8 < e.stackSize) := by
  refine processImage_polygons_induct w h data points (fun _ => True)
    (fun e => e.cwDir = 1 ∨ (e.cwDir = -1 ∧ 8 < e.stackSize)) trivial (fun _ _ _ => trivial) ?_
  intro i st e _ _ he
  show e.cwDir = 1 ∨ (e.cwDir = -1 ∧ 8 < e.stackSize)
  rcases scanCell_emits w h (w + 2) i st with e1 | ⟨e', pts, e1, e2, e3, e4, _⟩
  · rw [e1] at he
    have := congrArg List.length he
    simp at this
  · rw [e1] at he
    rw [← append_singleton_inj he]
    exact e4

theorem eraseSpurs_ink (w h : Int) (data : Nat) (hw : 0 ≤ w) (hh : 0 ≤ h) (c : Int)
    (hc : rd (eraseSpurs w h (buildMask w h data)) c ≠ 0) : Interior w h c := by
  have hink := buildMask_ink w h data hw hh
  obtain ⟨a1, _⟩ := spurRows_spec w h hw h.toNat (buildMask w h data) hink (fun c hc => by
    have hint := hink c ((isSpur_iff _ _ _).mp hc).1
    obtain ⟨x, y, x0, x1, y0, y1, rfl⟩ := hint
    have e : ((h.toNat : Nat) : Int) = h := Int.toNat_of_nonneg hh
    rw [e]
    have : (y + 1) * (w + 2) ≤ h * (w + 2) := Int.mul_le_mul_of_nonneg_right (by omega) (by omega)
    omega)
  exact a1 c hc

/-- Every point of every polygon `processImage` hands over is the coordinate
pair, less `(1, 1)`, of the cell of a pixel. -/
theorem processImage_points_cell (w h : Int) (data : Nat) (points : List Point) (hw : 0 ≤ w)
    (hh : 0 ≤ h) :
    ∀ e ∈ (processImage w h data points).polygons, ∀ p ∈ e.points,
      ∃ c : Int, Interior w h c ∧ p = ⟨(cellPoint (w + 2) c).x - 1, (cellPoint (w + 2) c).y - 1⟩ := by
  refine processImage_polygons_induct w h data points
    (fun b => ∀ c : Int, rd b c ≠ 0 → Interior w h c)
    (fun e => ∀ p ∈ e.points, ∃ c : Int, Interior w h c ∧
      p = ⟨(cellPoint (w + 2) c).x - 1, (cellPoint (w + 2) c).y - 1⟩)
    (eraseSpurs_ink w h data hw hh)
    (fun i st hst c hc => hst c (fun e => hc (scanCell_zero w h (w + 2) i st c e))) ?_
  intro i st e _ hI he p hp
  rcases scanCell_emits w h (w + 2) i st with e1 | ⟨e', pts, e1, e2, e3, e4, e5⟩
  · rw [e1] at he
    have := congrArg List.length he
    simp at this
  · rw [e1] at he
    rw [← append_singleton_inj he, e2] at hp
    obtain ⟨q, hq, rfl⟩ := List.mem_map.mp hp
    obtain ⟨c, hc, rfl⟩ := e5 q hq
    exact ⟨c, hI c (by rw [hc]; norm_num), rfl⟩

/-! ## Noise rejection -/

/-- The cells of a finished fill, counted. -/
theorem floodFill_cells (w h : Int) (mask : Nat) (cFrom cTo : Nat) (seed : Int) (rest : List Int)
    (hp : PaddedMask w h mask) (hf : cFrom = 1 ∨ cFrom = 2) (hne : cTo ≠ cFrom) (hto : cTo < 256)
    (hseed : rd mask seed = cFrom) :
    ∃ cells : List Int, cells.Nodup ∧
      (∀ c : Int, c ∈ cells ↔ Conn mask (w + 2) cFrom seed c) ∧
      (floodFill w h (wr mask seed cTo) (w + 2) cFrom cTo (seed :: rest)).area = cells.length := by
  have ctx := FillCtx.ofPadded hp cFrom cTo hf hne hto
  have d1 := floodFill_done w h mask cFrom cTo seed rest hp hf hne hto hseed
  refine ⟨recoloured mask
    (floodFill w h (wr mask seed cTo) (w + 2) cFrom cTo (seed :: rest)).buffer cFrom cTo
    ((w + 2) * (h + 2)).toNat, nodup_recoloured _ _ _ _ _, fun c => ?_, ?_⟩
  · rw [mem_recoloured]
    constructor
    · rintro ⟨_, _, a, b⟩
      by_contra hc
      rw [d1.2.2.1 c hc, a] at b
      exact hne b.symm
    · intro hc
      obtain ⟨a, b, _, _⟩ := ctx.interior c hc.colour
      exact ⟨a, b, hc.colour, d1.2.1 c hc⟩
  · have := length_recoloured (fun e => hne e.symm) d1 ((w + 2) * (h + 2)).toNat
    have c1 := d1.2.2.2
    omega

/-- A component of a mask lies in the component of a mask with more cells of
the colour. -/
theorem Conn.mono_mask {a b : Nat} {s : Int} {v : Nat} {seed c : Int}
    (hab : ∀ c : Int, rd a c = v → rd b c = v) (h : Conn a s v seed c) : Conn b s v seed c := by
  induction h with
  | seed h0 => exact Conn.seed (hab _ h0)
  | up _ h1 ih => exact Conn.up ih (hab _ h1)
  | down _ h1 ih => exact Conn.down ih (hab _ h1)
  | left _ h1 ih => exact Conn.left ih (hab _ h1)
  | right _ h1 ih => exact Conn.right ih (hab _ h1)

/-- A component recoloured as a whole is a component of the new colour. -/
theorem Conn.recolour {a b : Nat} {s : Int} {u v : Nat} {seed c : Int}
    (hab : ∀ c : Int, Conn a s u seed c → rd b c = v) (h : Conn a s u seed c) :
    Conn b s v seed c := by
  induction h with
  | seed h0 => exact Conn.seed (hab _ (Conn.seed h0))
  | up h0 h1 ih => exact Conn.up ih (hab _ (Conn.up h0 h1))
  | down h0 h1 ih => exact Conn.down ih (hab _ (Conn.down h0 h1))
  | left h0 h1 ih => exact Conn.left ih (hab _ (Conn.left h0 h1))
  | right h0 h1 ih => exact Conn.right ih (hab _ (Conn.right h0 h1))

/-- On an image of small regions only the body of the main scan erases the
region of its cell and hands over nothing. -/
theorem scanCell_noise (w h : Int) (mask0 : Nat) (hw : 0 ≤ w) (hh : 0 ≤ h)
    (hink : ∀ c : Int, rd mask0 c ≠ 0 → Interior w h c)
    (hsmall : ∀ (seed : Int) (cells : List Int), cells.Nodup →
      (∀ c ∈ cells, Conn mask0 (w + 2) 1 seed c) → cells.length ≤ 10)
    (i : Int) (st : Scan) (hst : NoiseInv mask0 st i) :
    NoiseInv mask0 (scanCell w h (w + 2) i st) (i + 1) := by
  have hp : PaddedMask w h st.buffer := PaddedMask.of_ink hw hh (fun c hc => by
    have := hst.bits c
    exact hink c (by rw [hst.sub c (by omega)]; norm_num))
  unfold scanCell
  simp only []
  by_cases h1 : rd st.buffer i = 1
  · rw [if_pos h1]
    have d1 := floodFill_done w h st.buffer 1 2 i [] hp (Or.inl rfl) (by norm_num) (by norm_num) h1
    obtain ⟨cells, c1, c2, c3⟩ := floodFill_cells w h st.buffer 1 2 i [] hp (Or.inl rfl)
      (by norm_num) (by norm_num) h1
    have hlen := hsmall i cells c1 (fun c hc => ((c2 c).mp hc).mono_mask hst.sub)
    have harea : ¬ (floodFill w h (wr st.buffer i 2) (w + 2) 1 2 [i]).area > 10 := by
      rw [c3]
      omega
    rw [if_neg harea]
    generalize hf : floodFill w h (wr st.buffer i 2) (w + 2) 1 2 [i] = f at d1
    have hpf : PaddedMask w h f.buffer := PaddedMask.of_ink hw hh (fun c hc => by
      by_cases hcc : Conn st.buffer (w + 2) 1 i c
      · exact hp.ink c (by rw [hcc.colour]; norm_num)
      · rw [d1.2.2.1 c hcc] at hc
        exact hp.ink c hc)
    have d2 := floodFill_done w h f.buffer 2 0 i [] hpf (Or.inr rfl) (by norm_num) (by norm_num)
      (d1.2.1 i (Conn.seed h1))
    have key : ∀ c : Int,
        (Conn st.buffer (w + 2) 1 i c →
          rd (floodFill w h (wr f.buffer i 0) (w + 2) 2 0 [i]).buffer c = 0) ∧
        (¬ Conn st.buffer (w + 2) 1 i c →
          rd (floodFill w h (wr f.buffer i 0) (w + 2) 2 0 [i]).buffer c = rd st.buffer c) := by
      intro c
      constructor
      · intro hcc
        exact d2.2.1 c (hcc.recolour d1.2.1)
      · intro hcc
        rw [← d1.2.2.1 c hcc]
        apply d2.2.2.1
        intro h2
        have e := h2.colour
        rw [d1.2.2.1 c hcc] at e
        have := hst.bits c
        omega
    refine ⟨fun c => ?_, fun c hc => ?_, hst.silent, fun c hc => ?_⟩
    · show rd (floodFill w h (wr f.buffer i 0) (w + 2) 2 0 [i]).buffer c ≤ 1
      by_cases hcc : Conn st.buffer (w + 2) 1 i c
      · rw [(key c).1 hcc]; norm_num
      · rw [(key c).2 hcc]; exact hst.bits c
    · have hc' : rd (floodFill w h (wr f.buffer i 0) (w + 2) 2 0 [i]).buffer c = 1 := hc
      by_cases hcc : Conn st.buffer (w + 2) 1 i c
      · rw [(key c).1 hcc] at hc'; exact absurd hc' (by norm_num)
      · rw [(key c).2 hcc] at hc'; exact hst.sub c hc'
    · have hc' : rd (floodFill w h (wr f.buffer i 0) (w + 2) 2 0 [i]).buffer c = 1 := hc
      by_cases hcc : Conn st.buffer (w + 2) 1 i c
      · rw [(key c).1 hcc] at hc'; exact absurd hc' (by norm_num)
      · rw [(key c).2 hcc] at hc'
        have := hst.ahead c hc'
        have : c ≠ i := fun e => hcc (e.symm ▸ Conn.seed h1)
        omega
  · rw [if_neg h1]
    have h2 : ¬ (rd st.buffer i = 2 ∧ rd st.buffer (i + (w + 2)) = 0) := by
      have := hst.bits i
      omega
    rw [if_neg h2]
    refine ⟨hst.bits, hst.sub, hst.silent, fun c hc => ?_⟩
    have := hst.ahead c hc
    have : c ≠ i := fun e => h1 (e ▸ hc)
    omega

theorem scanCols_noise (w h : Int) (mask0 : Nat) (hw : 0 ≤ w) (hh : 0 ≤ h)
    (hink : ∀ c : Int, rd mask0 c ≠ 0 → Interior w h c)
    (hsmall : ∀ (seed : Int) (cells : List Int), cells.Nodup →
      (∀ c ∈ cells, Conn mask0 (w + 2) 1 seed c) → cells.length ≤ 10) (n : Nat) :
    ∀ (i : Int) (st : Scan), NoiseInv mask0 st i →
      NoiseInv mask0 (scanCols w h (w + 2) n i st) (i + n) := by
  induction n with
  | zero => intro i st hst; simpa using hst
  | succ n ih =>
    intro i st hst
    simp only [scanCols]
    have := ih (i + 1) _ (scanCell_noise w h mask0 hw hh hink hsmall i st hst)
    have e : i + 1 + (n : Int) = i + ((n + 1 : Nat) : Int) := by push_cast; ring
    rw [e] at this
    exact this

theorem scanRows_noise (w h : Int) (mask0 : Nat) (hw : 0 ≤ w) (hh : 0 ≤ h)
    (hink : ∀ c : Int, rd mask0 c ≠ 0 → Interior w h c)
    (hsmall : ∀ (seed : Int) (cells : List Int), cells.Nodup →
      (∀ c ∈ cells, Conn mask0 (w + 2) 1 seed c) → cells.length ≤ 10) (n : Nat) :
    ∀ (y : Int) (st : Scan), NoiseInv mask0 st (y * (w + 2) + 1) →
      NoiseInv mask0 (scanRows w h (w + 2) n y st) ((y + n) * (w + 2) + 1) := by
  induction n with
  | zero => intro y st hst; simpa using hst
  | succ n ih =>
    intro y st hst
    simp only [scanRows]
    have hc := scanCols_noise w h mask0 hw hh hink hsmall w.toNat (y * (w + 2) + 1) st hst
    have e : ((w.toNat : Nat) : Int) = w := Int.toNat_of_nonneg hw
    rw [e] at hc
    have := ih (y + 1) _ ⟨hc.bits, hc.sub, hc.silent, fun c h1 => by
      have h2 := hc.ahead c h1
      obtain ⟨x', y', x0, x1, y0, y1, rfl⟩ := hink c (by rw [hc.sub c h1]; norm_num)
      have hy : y ≤ y' := by
        by_contra hcon
        have : (y' + 1) * (w + 2) ≤ y * (w + 2) :=
          Int.mul_le_mul_of_nonneg_right (by omega) (by omega)
        omega
      have : (y + 1) * (w + 2) ≤ (y' + 1) * (w + 2) :=
        Int.mul_le_mul_of_nonneg_right (by omega) (by omega)
      omega⟩
    have e2 : (y + 1 + (n : Int)) = (y + ((n + 1 : Nat) : Int)) := by push_cast; ring
    rw [e2] at this
    exact this

/-- The spur eraser leaves `Background` and `Foreground` cells only, the
latter among those of the mask construction. -/
theorem eraseSpurs_sub (w h : Int) (data : Nat) (c : Int) :
    rd (eraseSpurs w h (buildMask w h data)) c ≤ 1 ∧
    (rd (eraseSpurs w h (buildMask w h data)) c = 1 → rd (buildMask w h data) c = 1) := by
  obtain ⟨a1, a2, a3⟩ := spurRowsSteps_spec w (w + 2) h.toNat (buildMask w h data)
    (buildMask_bits w h data)
  refine ⟨a3 c, fun hc => ?_⟩
  have hb := buildMask_bits w h data c
  by_contra hn
  have h0 : rd (buildMask w h data) c = 0 := by omega
  have : rd (eraseSpurs w h (buildMask w h data)) c = 0 := by
    unfold eraseSpurs
    rw [← a2]
    rcases getLastD_mem (spurRowsSteps w (w + 2) h.toNat (buildMask w h data))
      (buildMask w h data) with e | e
    · rw [e]; exact h0
    · exact chain_zero _ _ a1 _ e c h0
  omega

/-- On an image of small regions only `processImage` hands over no polygon and
leaves an empty mask. -/
theorem processImage_noise (w h : Int) (data : Nat) (points : List Point) (hw : 0 ≤ w)
    (hh : 0 ≤ h)
    (hsmall : ∀ (seed : Int) (cells : List Int), cells.Nodup →
      (∀ c ∈ cells, Conn (buildMask w h data) (w + 2) 1 seed c) → cells.length ≤ 10) :
    (processImage w h data points).polygons = [] ∧
    ∀ c : Int, rd (processImage w h data points).buffer c = 0 := by
  have hink := buildMask_ink w h data hw hh
  have key := scanRows_noise w h (buildMask w h data) hw hh hink hsmall h.toNat 1
    { buffer := eraseSpurs w h (buildMask w h data), points := points, polygons := [] }
    ⟨fun c => (eraseSpurs_sub w h data c).1, fun c => (eraseSpurs_sub w h data c).2, rfl,
      fun c hc => by
        obtain ⟨x', y', x0, x1, y0, y1, rfl⟩ :=
          hink c (by rw [(eraseSpurs_sub w h data c).2 hc]; norm_num)
        have : 1 * (w + 2) ≤ (y' + 1) * (w + 2) :=
          Int.mul_le_mul_of_nonneg_right (by omega) (by omega)
        omega⟩
  refine ⟨key.silent, fun c => ?_⟩
  have hb := key.bits c
  by_contra hn
  have h1 : rd (scanRows w h (w + 2) h.toNat 1
    { buffer := eraseSpurs w h (buildMask w h data), points := points,
      polygons := [] }).buffer c = 1 := by
    have : rd (processImage w h data points).buffer c ≠ 0 := hn
    unfold processImage at this
    simp only [] at this
    omega
  have h2 := key.ahead c h1
  obtain ⟨x', y', x0, x1, y0, y1, rfl⟩ := hink c (by rw [key.sub c h1]; norm_num)
  have e : ((h.toNat : Nat) : Int) = h := Int.toNat_of_nonneg hh
  rw [e] at h2
  have : (y' + 1) * (w + 2) ≤ h * (w + 2) := Int.mul_le_mul_of_nonneg_right (by omega) (by omega)
  have e3 : (1 + h) * (w + 2) = h * (w + 2) + (w + 2) := by ring
  omega

/-! ## Consequences for the orchestrator -/

theorem BorderClear.of_zero {w h : Int} {a b : Nat} (ha : BorderClear w h a)
    (hab : ∀ c : Int, rd a c = 0 → rd b c = 0) : BorderClear w h b :=
  fun x x0 x1 y y0 y1 hb => hab _ (ha x x0 x1 y y0 y1 hb)

theorem Repaint.zero_stays {u v a b : Nat} (h : Repaint u v a b) (hu : u ≠ 0) (c : Int)
    (hc : rd a c = 0) : rd b c = 0 := by
  rw [h.keeps c (by rw [hc]; exact fun e => hu e.symm)]
  exact hc

/-- The mask construction writes nothing when the image has no pixel. -/
theorem buildMask_empty (w h : Int) (data : Nat) (hwh : w < 0 ∨ h < 0) (c : Int) :
    rd (buildMask w h data) c = 0 := by
  have key : ∀ (n : Nat) (i : Int) (b : Nat), w < 0 → maskRows w (w + 2) data n i b = b := by
    intro n
    induction n with
    | zero => intro i b _; rfl
    | succ n ih =>
      intro i b hw
      simp only [maskRows]
      rw [ih _ _ hw]
      have : w.toNat = 0 := by omega
      rw [this]
      rfl
  unfold buildMask
  rcases hwh with hw | hh
  · rw [key _ _ _ hw]; exact rd_zero c
  · have : h.toNat = 0 := by omega
    rw [this]
    exact rd_zero c

/-- The masks of two images with alpha 255 at the same pixels are equal. -/
theorem buildMask_congr (w h : Int) (d1 d2 : Nat) (hw : 0 ≤ w) (hh : 0 ≤ h)
    (hd : ∀ x y : Int, 0 ≤ x → x < w → 0 ≤ y → y < h →
      (rd d1 (4 * (y * w + x) + 3) = 255 ↔ rd d2 (4 * (y * w + x) + 3) = 255)) :
    buildMask w h d1 = buildMask w h d2 := by
  apply mem_ext
  intro c
  by_cases hc : Interior w h c
  · obtain ⟨x, y, x0, x1, y0, y1, rfl⟩ := hc
    rw [(buildMask_spec w h d1 hw hh).1 x y x0 x1 y0 y1,
      (buildMask_spec w h d2 hw hh).1 x y x0 x1 y0 y1]
    by_cases ha : rd d1 (4 * (y * w + x) + 3) = 255
    · rw [if_pos ha, if_pos ((hd x y x0 x1 y0 y1).mp ha)]
    · rw [if_neg ha, if_neg (fun e => ha ((hd x y x0 x1 y0 y1).mpr e))]
  · have e1 : rd (buildMask w h d1) c = 0 := by
      by_contra hn
      exact hc (buildMask_ink w h d1 hw hh c hn)
    have e2 : rd (buildMask w h d2) c = 0 := by
      by_contra hn
      exact hc (buildMask_ink w h d2 hw hh c hn)
    rw [e1, e2]

/-- The polygons depend on the image through its mask only. -/
theorem processImage_polygons_congr (w h : Int) (d1 d2 : Nat) (points : List Point)
    (hd : buildMask w h d1 = buildMask w h d2) :
    (processImage w h d1 points).polygons = (processImage w h d2 points).polygons := by
  have e : ∀ d : Nat, (processImage w h d points).polygons =
      (scanRows w h (w + 2) h.toNat 1
        { buffer := eraseSpurs w h (buildMask w h d), points := points,
          polygons := [] }).polygons := fun _ => rfl
  rw [e d1, e d2, hd]

/-- A pixel whose alpha is not 255 is cleared by the overlay. -/
theorem processImage_clears (w h : Int) (data : Nat) (points : List Point) (hw : 0 ≤ w)
    (hh : 0 ≤ h) (x y : Int) (x0 : 0 ≤ x) (x1 : x < w) (y0 : 0 ≤ y) (y1 : y < h)
    (ha : rd data (4 * (y * w + x) + 3) ≠ 255) :
    rd (processImage w h data points).data (4 * (y * w + x)) = 0 ∧
    rd (processImage w h data points).data (4 * (y * w + x) + 1) = 0 ∧
    rd (processImage w h data points).data (4 * (y * w + x) + 2) = 0 ∧
    rd (processImage w h data points).data (4 * (y * w + x) + 3) = 0 := by
  apply (processImage_overlay w h data points hw hh x y x0 x1 y0 y1).1
  apply processImage_zero
  rw [(buildMask_spec w h data hw hh).1 x y x0 x1 y0 y1, if_neg ha]

/-- A bound on the components of a mask all of whose `Foreground` cells are
in a list of at most 10 cells. -/
theorem small_of_cells (mask : Nat) (s : Int) (l : List Int) (hl : l.length ≤ 10)
    (hm : ∀ c : Int, rd mask c = 1 → c ∈ l) :
    ∀ (seed : Int) (cells : List Int), cells.Nodup →
      (∀ c ∈ cells, Conn mask s 1 seed c) → cells.length ≤ 10 := by
  intro seed cells hn hc
  have hsub : cells ⊆ l := fun c hcc => hm c (hc c hcc).colour
  exact le_trans (List.Subperm.length_le (List.subperm_of_subset hn hsub)) hl

/-! ## The claims about the orchestrator -/

/-- C12: noise rejection. For every input image (`w`, `h` not negative, any
RGBA bytes) in which every 4-connected component of alpha-255 pixels has at
most 10 pixels (every duplicate-free list of cells of one component of
`Foreground` cells of the constructed mask has at most 10 members),
`processImage` hands no polygon to the consumer, and every cell of the mask is
`Background` when it returns. -/
theorem noise_rejection (w h : Int) (data : Nat) (points : List Point) (hw : 0 ≤ w)
    (hh : 0 ≤ h)
    (hsmall : ∀ (seed : Int) (cells : List Int), cells.Nodup →
      (∀ c ∈ cells, Conn (buildMask w h data) (w + 2) 1 seed c) → cells.length ≤ 10) :
    (processImage w h data points).polygons = [] ∧
    ∀ c : Int, rd (processImage w h data points).buffer c = 0 :=
  processImage_noise w h data points hw hh hsmall

/-- C15: the mask builder. For every `w`, `h` and RGBA buffer, after the
thresholding loops the padded mask cell at index `(y + 1) * (w + 2) + x + 1`
is `Foreground` (1) when the alpha byte `data[4 * (y * w + x) + 3]` of the
pixel `(x, y)` is 255 and `Background` (0) otherwise, for all `0 ≤ x < w`,
`0 ≤ y < h`; and every cell of row 0, row `h + 1`, column 0 and column `w + 1`
is `Background`. -/
theorem buildMask_threshold (w h : Int) (data : Nat) :
    (∀ x y : Int, 0 ≤ x → x < w → 0 ≤ y → y < h →
      (rd data (4 * (y * w + x) + 3) = 255 →
        rd (buildMask w h data) ((y + 1) * (w + 2) + x + 1) = 1) ∧
      (rd data (4 * (y * w + x) + 3) ≠ 255 →
        rd (buildMask w h data) ((y + 1) * (w + 2) + x + 1) = 0)) ∧
    BorderClear w h (buildMask w h data) := by
  constructor
  · intro x y x0 x1 y0 y1
    have e := (buildMask_spec w h data (by omega) (by omega)).1 x y x0 x1 y0 y1
    exact ⟨fun ha => by rw [e, if_pos ha], fun ha => by rw [e, if_neg ha]⟩
  · by_cases hwh : w < 0 ∨ h < 0
    · exact fun x _ _ y _ _ _ => buildMask_empty w h data hwh _
    · exact BorderClear.of_padded (buildMask_spec w h data (by omega) (by omega)).2

/-- C16: the border invariant. For every input image (`w`, `h` not negative)
the border predicate (every cell in row 0, row `h + 1`, column 0 and column
`w + 1` is `Background`) holds after the mask construction; it is kept by
`erase1`, by `floodFill` from the colour 1 or 2, by `trace4` started on a
`Visited` cell and by `traceUndo` on the stack that trace leaves, on any mask;
it holds for every mask `processImage` goes through, and for the mask it
leaves when it returns. -/
theorem border_invariant (w h : Int) (data : Nat) (points : List Point) (hw : 0 ≤ w)
    (hh : 0 ≤ h) :
    BorderClear w h (buildMask w h data) ∧
    (∀ (mask : Nat) (j : Int), BorderClear w h mask →
      BorderClear w h (erase1 j (cwNeighborOffsets4 (w + 2)) mask (w + 2))) ∧
    (∀ (mask : Nat) (cFrom cTo : Nat) (stack : List Int), cFrom = 1 ∨ cFrom = 2 → cTo < 256 →
      BorderClear w h mask →
      BorderClear w h (floodFill w h mask (w + 2) cFrom cTo stack).buffer) ∧
    (∀ (mask : Nat) (i cwDir : Int) (pts : List Point), rd mask i = 2 → BorderClear w h mask →
      BorderClear w h (trace4 i cwDir (cwNeighborOffsets4 (w + 2)) (cwNeighborOffsets8 (w + 2))
        mask (w + 2) pts).buffer ∧
      BorderClear w h (traceUndo
        (trace4 i cwDir (cwNeighborOffsets4 (w + 2)) (cwNeighborOffsets8 (w + 2))
          mask (w + 2) pts).buffer
        (trace4 i cwDir (cwNeighborOffsets4 (w + 2)) (cwNeighborOffsets8 (w + 2))
          mask (w + 2) pts).stack
        (trace4 i cwDir (cwNeighborOffsets4 (w + 2)) (cwNeighborOffsets8 (w + 2))
          mask (w + 2) pts).stackSize)) ∧
    (∀ m ∈ maskSteps w h data points, BorderClear w h m) ∧
    BorderClear w h (processImage w h data points).buffer := by
  have hb : BorderClear w h (buildMask w h data) :=
    BorderClear.of_padded (buildMask_spec w h data hw hh).2
  refine ⟨hb, ?_, ?_, ?_, ?_, ?_⟩
  · intro mask j hm
    refine hm.of_zero (fun c hc => ?_)
    rcases erase1Loop_erases (cwNeighborOffsets4 (w + 2)) (w + 2) _ mask [j] c with e | e
    · exact e.trans hc
    · exact e
  · intro mask cFrom cTo stack hf hto hm
    exact hm.of_zero ((floodFill_repaint w h mask (w + 2) cFrom cTo stack hto).zero_stays (by omega))
  · intro mask i cwDir pts h2 hm
    obtain ⟨t1, t2, _⟩ := trace4_spec i cwDir (cwNeighborOffsets4 (w + 2))
      (cwNeighborOffsets8 (w + 2)) mask (w + 2) pts h2
    have h3 := hm.of_zero (t1.zero_stays (by norm_num))
    exact ⟨h3, h3.of_zero ((traceUndo_repaint _ _ _ t2).zero_stays (by norm_num))⟩
  · intro m hm
    exact hb.of_zero (maskSteps_zero w h data points m hm)
  · exact hb.of_zero (processImage_zero w h data points)

/-- C18: the value returned. For every input image (`w`, `h` not negative) the
value `processImage` returns is the greatest image row `y` (0-based, the
border offset removed) some cell of which is not `Background` in the mask left
by the main scan: no pixel cell of a row below it is other than `Background`,
and when the mask has a cell that is not `Background` the returned row is a
row of the image and has such a cell; when the mask is all `Background` it
returns 0. -/
theorem processImage_returns_maxY (w h : Int) (data : Nat) (points : List Point)
    (hw : 0 ≤ w) (hh : 0 ≤ h) :
    ((∀ c : Int, rd (processImage w h data points).buffer c = 0) →
      (processImage w h data points).maxY = 0) ∧
    (∀ x y : Int, 0 ≤ x → x < w → 0 ≤ y → y < h →
      rd (processImage w h data points).buffer ((y + 1) * (w + 2) + x + 1) ≠ 0 →
      y ≤ (processImage w h data points).maxY) ∧
    ((∃ c : Int, rd (processImage w h data points).buffer c ≠ 0) →
      0 ≤ (processImage w h data points).maxY ∧ (processImage w h data points).maxY < h ∧
      ∃ x : Int, 0 ≤ x ∧ x < w ∧
        rd (processImage w h data points).buffer
          (((processImage w h data points).maxY + 1) * (w + 2) + x + 1) ≠ 0) := by
  rcases processImage_maxY_spec w h data points hw hh with ⟨a1, a2⟩ |
    ⟨x0, y0, b1, b2, b3, b4, b5, b6, b7⟩
  · exact ⟨fun _ => a2, fun x y _ _ _ _ hc => absurd (a1 _) hc,
      fun ⟨c, hc⟩ => absurd (a1 c) hc⟩
  · refine ⟨fun hz => absurd (hz _) b5, fun x y x0' x1 y0' y1 hc => ?_, fun _ => ?_⟩
    · rw [b7]
      by_contra hlt
      apply hc
      apply b6
      have : (y0 + 2) * (w + 2) ≤ (y + 1) * (w + 2) :=
        Int.mul_le_mul_of_nonneg_right (by omega) (by omega)
      have e : (y0 + 2) * (w + 2) = (y0 + 1) * (w + 2) + (w + 2) := by ring
      omega
    · rw [b7]
      exact ⟨b3, b4, x0, b1, b2, b5⟩

/-- The two pushes of the main loop of `trace4` and the size of the stack.
With the stack array full (`stackSize ≥ maxStackSize`): a trip that finds no
new edge pixel leaves the loop by the test `stackSize >= maxStackSize` and
pushes nothing; a trip that finds a new edge pixel pushes it all the same,
the store `stack[stackSize++] = nextI` not being guarded, and the stack has
`stackSize + 1 > maxStackSize` entries after it. In `ImageInfo` the array
`stack` has `maxStackSize` entries and `data` follows it, so in the C run such
a push overwrites pixels of `data`. -/
theorem traceLoop_push_unguarded (initialI cwDir : Int) (off4 off8 : List Int) (fuel : Nat)
    (t : Trace) (hfull : (t.stack.length : Int) ≥ maxStackSize) :
    (∀ k : Int,
      searchNew t.prevI cwDir off4 off8 t.buffer ((t.dir - cwDir) % 4) 4 ((t.dir - cwDir) % 4) =
        (none, k) →
      traceLoop initialI cwDir off4 off8 (fuel + 1) t = (t, TraceExit.aborted)) ∧
    (∀ nextI dir k : Int,
      searchNew t.prevI cwDir off4 off8 t.buffer ((t.dir - cwDir) % 4) 4 ((t.dir - cwDir) % 4) =
        (some (nextI, dir), k) →
      traceLoop initialI cwDir off4 off8 (fuel + 1) t =
        traceLoop initialI cwDir off4 off8 fuel
          ⟨wr t.buffer nextI 3, t.stack ++ [nextI], nextI, dir, 0⟩ ∧
      ((t.stack ++ [nextI]).length : Int) > maxStackSize) := by
  constructor
  · intro k h
    rw [traceLoop]
    simp only [h]
    rw [if_pos (Or.inr hfull)]
  · intro nextI dir k h
    constructor
    · rw [traceLoop]
      simp only [h]
    · rw [List.length_append, List.length_singleton]
      push_cast
      omega

/-- The overlay of a run in which the stack of `trace4` stays within its
array, which is the run this model follows (its stack is a list of its own, so
that no store to it reaches `data`). For every input image (`w`, `h` not
negative) and every pixel `(x, y)`, at the end of such a run: if the mask cell
`(x + 1, y + 1)` is `Background`, the four bytes R, G, B, A of the pixel in
`data` are 0; if it is not `Background`, the alpha byte of the pixel is 255;
so the alpha byte is 0 exactly for the `Background` cells. A C run in which a
trace outgrows the stack array (`traceLoop_push_unguarded`) overwrites alpha
bytes and is not covered. -/
theorem overlay_clears_discarded (w h : Int) (data : Nat) (points : List Point) (hw : 0 ≤ w)
    (hh : 0 ≤ h) (x y : Int) (x0 : 0 ≤ x) (x1 : x < w) (y0 : 0 ≤ y) (y1 : y < h) :
    (rd (processImage w h data points).buffer ((y + 1) * (w + 2) + x + 1) = 0 →
      rd (processImage w h data points).data (4 * (y * w + x)) = 0 ∧
      rd (processImage w h data points).data (4 * (y * w + x) + 1) = 0 ∧
      rd (processImage w h data points).data (4 * (y * w + x) + 2) = 0 ∧
      rd (processImage w h data points).data (4 * (y * w + x) + 3) = 0) ∧
    (rd (processImage w h data points).buffer ((y + 1) * (w + 2) + x + 1) ≠ 0 →
      rd (processImage w h data points).data (4 * (y * w + x) + 3) = 255) ∧
    (rd (processImage w h data points).data (4 * (y * w + x) + 3) = 0 ↔
      rd (processImage w h data points).buffer ((y + 1) * (w + 2) + x + 1) = 0) := by
  obtain ⟨g1, g2⟩ := processImage_overlay w h data points hw hh x y x0 x1 y0 y1
  refine ⟨g1, g2, fun ha => ?_, fun hb => (g1 hb).2.2.2⟩
  by_contra hn
  rw [g2 hn] at ha
  exact absurd ha (by norm_num)

/-- C20: polygons are delivered in image coordinates. For every input image
(`w`, `h` not negative): every point of every polygon handed to the consumer
is the coordinate pair of the cell of a pixel in the padded mask, less
`(1, 1)`, and so has `0 ≤ x < w` and `0 ≤ y < h`; and at the moment the body
of the main scan hands a polygon over, every point of it is the coordinate
pair, less `(1, 1)`, of a cell that is `Traced` (3) in the mask. -/
theorem polygon_points_in_image (w h : Int) (data : Nat) (points : List Point) (hw : 0 ≤ w)
    (hh : 0 ≤ h) :
    (∀ e ∈ (processImage w h data points).polygons, ∀ p ∈ e.points,
      (∃ c : Int, Interior w h c ∧
        p = ⟨(cellPoint (w + 2) c).x - 1, (cellPoint (w + 2) c).y - 1⟩) ∧
      0 ≤ p.x ∧ p.x < w ∧ 0 ≤ p.y ∧ p.y < h) ∧
    (∀ (i : Int) (st : Scan) (e : Emitted),
      (scanCell w h (w + 2) i st).polygons = st.polygons ++ [e] →
      ∀ p ∈ e.points, ∃ c : Int, rd (scanCell w h (w + 2) i st).buffer c = 3 ∧
        p = ⟨(cellPoint (w + 2) c).x - 1, (cellPoint (w + 2) c).y - 1⟩) := by
  constructor
  · intro e he p hp
    obtain ⟨c, hc, rfl⟩ := processImage_points_cell w h data points hw hh e he p hp
    refine ⟨⟨c, hc, rfl⟩, ?_⟩
    obtain ⟨x, y, x0, x1, y0, y1, rfl⟩ := hc
    rw [cellPoint_interior w x y x0 x1 y0]
    simp only [add_sub_cancel_right]
    exact ⟨x0, x1, y0, y1⟩
  · intro i st e he p hp
    rcases scanCell_emits w h (w + 2) i st with e1 | ⟨e', pts, e1, e2, _, _, e5⟩
    · rw [e1] at he
      have := congrArg List.length he
      simp at this
    · rw [e1] at he
      rw [← append_singleton_inj he, e2] at hp
      obtain ⟨q, hq, rfl⟩ := List.mem_map.mp hp
      obtain ⟨c, hc, rfl⟩ := e5 q hq
      exact ⟨c, hc, rfl⟩

/-! ## Concrete runs of the orchestrator -/

set_option maxRecDepth 100000 in
/-- The run of `processImage` on the filled 6x2 rectangle. -/
theorem rect6x2_run :
    (processImage 6 2 (blockImage 6 2 0 6 0 2) []).polygons = [⟨1, 12, [⟨0, 0⟩, ⟨5, 1⟩]⟩] ∧
    rd (processImage 6 2 (blockImage 6 2 0 6 0 2) []).buffer 22 = 3 := by
  decide!

set_option maxRecDepth 100000 in
theorem square20_alpha : ∀ x : Int, 0 ≤ x → x < 20 → ∀ y : Int, 0 ≤ y → y < 20 →
    rd (blockImage 20 20 0 20 0 20) (4 * (y * 20 + x) + 3) = 255 := by
  decide!

set_option maxRecDepth 100000 in
/-- The first call of `erase1` of the run of `processImage` on
`spurExampleImage`: the spur scan meets its first spur at cell 25. -/
theorem spur_step_run :
    (maskSteps 4 4 spurExampleImage []).head? =
      some (erase1 25 (cwNeighborOffsets4 6) (buildMask 4 4 spurExampleImage) 6) ∧
    rd (buildMask 4 4 spurExampleImage) 25 = 1 ∧
    rd (erase1 25 (cwNeighborOffsets4 6) (buildMask 4 4 spurExampleImage) 6) 25 = 0 := by
  decide!

set_option maxRecDepth 100000 in
/-- The `Foreground` cells of the mask of the 7x7 image with a 2x5 block. -/
theorem block2x5_cells : ∀ c : Int, 0 ≤ c → c < 81 →
    rd (buildMask 7 7 (blockImage 7 7 1 6 2 4)) c = 1 →
      c ∈ [29, 30, 31, 32, 33, 38, 39, 40, 41, 42] := by
  decide!

set_option maxRecDepth 100000 in
/-- The `Foreground` cell of the mask of the 5x5 image with a single pixel. -/
theorem pixel1_cells : ∀ c : Int, 0 ≤ c → c < 49 →
    rd (buildMask 5 5 (blockImage 5 5 2 3 2 3)) c = 1 → c ∈ [24] := by
  decide!

/-- The cells of a padded mask lie in its grid. -/
theorem PaddedMask.lt_grid {w h : Int} {mask : Nat} (hp : PaddedMask w h mask) (c : Int)
    (hc : rd mask c ≠ 0) : 0 ≤ c ∧ c < (w + 2) * (h + 2) := by
  obtain ⟨x, y, x0, x1, y0, y1, rfl⟩ := hp.ink c hc
  have h1 : (y + 1) * (w + 2) ≤ h * (w + 2) :=
    Int.mul_le_mul_of_nonneg_right (by omega) (by omega)
  have h2 : (0 : Int) ≤ (y + 1) * (w + 2) := Int.mul_nonneg (by omega) (by omega)
  have e : (w + 2) * (h + 2) = h * (w + 2) + 2 * (w + 2) := by ring
  omega

/-! ## The main scan on cells with nothing to do -/

theorem scanCell_idle (w h s i : Int) (st : Scan) (hi : IdleAt st.buffer s i) :
    scanCell w h s i st = st := by
  unfold scanCell
  simp only []
  rw [if_neg hi.1, if_neg hi.2]

theorem scanCols_idle (w h s : Int) (n : Nat) (i : Int) (b : Nat) (pts : List Point)
    (pl : List Emitted) (hk : ∀ k : Nat, k < n → IdleAt b s (i + k)) :
    scanCols w h s n i ⟨b, pts, pl⟩ = ⟨b, pts, pl⟩ := by
  induction n generalizing i with
  | zero => rfl
  | succ n ih =>
    simp only [scanCols]
    have h0 := hk 0 (by omega)
    simp only [Nat.cast_zero, add_zero] at h0
    rw [scanCell_idle w h s i ⟨b, pts, pl⟩ h0]
    apply ih
    intro k hkn
    have := hk (k + 1) (by omega)
    push_cast at this
    rw [show i + 1 + (k : Int) = i + ((k : Int) + 1) from by ring]
    exact this

theorem scanRows_idle (w h s : Int) (m : Nat) (y : Int) (b : Nat) (pts : List Point)
    (pl : List Emitted)
    (hk : ∀ r : Nat, r < m → ∀ k : Nat, k < w.toNat → IdleAt b s ((y + r) * s + 1 + k)) :
    scanRows w h s m y ⟨b, pts, pl⟩ = ⟨b, pts, pl⟩ := by
  induction m generalizing y with
  | zero => rfl
  | succ m ih =>
    simp only [scanRows]
    rw [scanCols_idle w h s w.toNat (y * s + 1) b pts pl (fun k hkw => by
      have := hk 0 (by omega) k hkw
      simpa using this)]
    apply ih
    intro r hr k hkw
    have := hk (r + 1) (by omega) k hkw
    push_cast at this
    rw [show y + 1 + (r : Int) = y + ((r : Int) + 1) from by ring]
    exact this

theorem scanCols_add (w h s : Int) (a b : Nat) : ∀ (i : Int) (st : Scan),
    scanCols w h s (a + b) i st = scanCols w h s b (i + a) (scanCols w h s a i st) := by
  induction a with
  | zero => intro i st; simp [scanCols]
  | succ a ih =>
    intro i st
    rw [show a + 1 + b = (a + b) + 1 from by omega]
    simp only [scanCols]
    rw [ih]
    push_cast
    rw [show i + 1 + (a : Int) = i + ((a : Int) + 1) from by ring]

theorem scanRows_add (w h s : Int) (a b : Nat) : ∀ (y : Int) (st : Scan),
    scanRows w h s (a + b) y st = scanRows w h s b (y + a) (scanRows w h s a y st) := by
  induction a with
  | zero => intro y st; simp [scanRows]
  | succ a ih =>
    intro y st
    rw [show a + 1 + b = (a + b) + 1 from by omega]
    simp only [scanRows]
    rw [ih]
    push_cast
    rw [show y + 1 + (a : Int) = y + ((a : Int) + 1) from by ring]

/-- The main scan up to the first cell at which it has something to do: `a`
whole rows and `c` cells of the next row are skipped, the body runs at the
cell `i0`, and the scan goes on with the `n1` cells left in the row and the
`m` rows left. -/
theorem scanRows_first (w h s : Int) (n a m c n1 : Nat) (y ya y1 i0 i1 : Int) (b : Nat)
    (pts : List Point) (pl : List Emitted) (hn : n = a + (1 + m)) (hw : w.toNat = c + (1 + n1))
    (hya : ya = y + a) (hy1 : y1 = ya + 1) (hi0 : i0 = ya * s + 1 + c) (hi1 : i1 = i0 + 1)
    (hrows : ∀ r : Nat, r < a → ∀ k : Nat, k < w.toNat → IdleAt b s ((y + r) * s + 1 + k))
    (hcols : ∀ k : Nat, k < c → IdleAt b s (ya * s + 1 + k)) :
    scanRows w h s n y ⟨b, pts, pl⟩ =
      scanRows w h s m y1 (scanCols w h s n1 i1 (scanCell w h s i0 ⟨b, pts, pl⟩)) := by
  subst hn hy1 hi1 hi0
  rw [scanRows_add, scanRows_idle w h s a y b pts pl hrows, scanRows_add, ← hya]
  have e1 : scanRows w h s 1 ya ⟨b, pts, pl⟩ = scanCols w h s w.toNat (ya * s + 1) ⟨b, pts, pl⟩ :=
    rfl
  rw [e1, hw, scanCols_add, scanCols_idle w h s c (ya * s + 1) b pts pl hcols, scanCols_add]
  have e2 : scanCols w h s 1 (ya * s + 1 + (c : Int)) ⟨b, pts, pl⟩ =
      scanCell w h s (ya * s + 1 + (c : Int)) ⟨b, pts, pl⟩ := rfl
  rw [e2]
  simp only [Nat.cast_one]

theorem spurCols_idle (s : Int) (n : Nat) : ∀ (j : Int) (b : Nat),
    (∀ k : Nat, k < n → isSpur b s (j - k) = false) → spurCols s n j b = b := by
  induction n with
  | zero => intro j b _; rfl
  | succ n ih =>
    intro j b hk
    simp only [spurCols]
    have h0 := hk 0 (by omega)
    simp only [Nat.cast_zero, sub_zero] at h0
    rw [h0]
    simp only [Bool.false_eq_true, if_false]
    apply ih
    intro k hkn
    have := hk (k + 1) (by omega)
    push_cast at this
    rw [show j - 1 - (k : Int) = j - ((k : Int) + 1) from by ring]
    exact this

theorem spurRows_idle (w s : Int) (n : Nat) : ∀ b : Nat,
    (∀ r : Nat, r < n → ∀ k : Nat, k < w.toNat → isSpur b s (((r : Int) + 1) * s + w - k) = false) →
    spurRows w s n b = b := by
  induction n with
  | zero => intro b _; rfl
  | succ n ih =>
    intro b hk
    simp only [spurRows]
    rw [spurCols_idle s w.toNat _ b (fun k hkw => hk n (by omega) k hkw)]
    exact ih b (fun r hr k hkw => hk r (by omega) k hkw)

/-- The mask `processImage` scans is the padded mask `mask` when `mask` has
the cells of the mask construction and none of its cells is a spur. -/
theorem eraseSpurs_of_grid (w h : Int) (data mask : Nat) (hw : 0 ≤ w) (hh : 0 ≤ h)
    (hm : PaddedMask w h mask)
    (hg : ∀ x : Int, 0 ≤ x → x < w → ∀ y : Int, 0 ≤ y → y < h →
      rd mask ((y + 1) * (w + 2) + x + 1) = if rd data (4 * (y * w + x) + 3) = 255 then 1 else 0)
    (hs : ∀ r : Nat, r < h.toNat → ∀ k : Nat, k < w.toNat →
      isSpur mask (w + 2) (((r : Int) + 1) * (w + 2) + w - k) = false) :
    eraseSpurs w h (buildMask w h data) = mask := by
  have hb : buildMask w h data = mask := by
    apply mem_ext
    intro c
    by_cases hc : Interior w h c
    · obtain ⟨x, y, x0, x1, y0, y1, rfl⟩ := hc
      rw [(buildMask_spec w h data hw hh).1 x y x0 x1 y0 y1, hg x x0 x1 y y0 y1]
    · have e1 : rd (buildMask w h data) c = 0 := by
        by_contra hn
        exact hc (buildMask_ink w h data hw hh c hn)
      have e2 : rd mask c = 0 := by
        by_contra hn
        exact hc (hm.ink c hn)
      rw [e1, e2]
  rw [hb]
  exact spurRows_idle w (w + 2) _ mask hs

/-- The polygons are those of the main scan on the mask left by the spur
scan. -/
theorem processImage_polygons_eq (w h : Int) (data : Nat) (points : List Point) :
    (processImage w h data points).polygons =
      (scanRows w h (w + 2) h.toNat 1
        { buffer := eraseSpurs w h (buildMask w h data), points := points,
          polygons := [] }).polygons := rfl

/-! ### The 20x20 square in a 24x24 image -/

set_option maxRecDepth 100000 in
/-- The cells of the mask with the 20x20 square in the 24x24 grid. -/
theorem square24_grid :
    PaddedMask 24 24 square24Mask ∧
    ∀ x : Int, 0 ≤ x → x < 24 → ∀ y : Int, 0 ≤ y → y < 24 →
      rd square24Mask ((y + 1) * (24 + 2) + x + 1) =
        if 2 ≤ x ∧ x < 22 ∧ 2 ≤ y ∧ y < 22 then 1 else 0 := by
  decide!

set_option maxRecDepth 100000 in
/-- The mask with the 20x20 square has no spur. -/
theorem square24_no_spur : ∀ r : Nat, r < (24 : Int).toNat → ∀ k : Nat, k < (24 : Int).toNat →
    isSpur square24Mask (24 + 2) (((r : Int) + 1) * (24 + 2) + 24 - k) = false := by
  decide!

set_option maxRecDepth 100000 in
/-- The body of the main scan at the first cell of the square: the region is
visited and traced, and its polygon handed over. -/
theorem square24_cell :
    scanCell 24 24 (24 + 2) 81 { buffer := square24Mask, points := [], polygons := [] } =
      { buffer := square24Traced,
        points := [⟨2, 2⟩, ⟨21, 2⟩, ⟨21, 21⟩, ⟨2, 21⟩, ⟨3, 3⟩],
        polygons := [⟨1, 76, [⟨2, 2⟩, ⟨21, 2⟩, ⟨21, 21⟩, ⟨2, 21⟩]⟩] } := by
  decide!

set_option maxRecDepth 100000 in
/-- Before the first cell of the square the main scan has nothing to do. -/
theorem square24_before :
    (∀ r : Nat, r < 2 → ∀ k : Nat, k < (24 : Int).toNat →
      IdleAt square24Mask (24 + 2) ((1 + (r : Int)) * (24 + 2) + 1 + (k : Int))) ∧
    (∀ k : Nat, k < 2 → IdleAt square24Mask (24 + 2) (3 * (24 + 2) + 1 + (k : Int))) := by
  decide!

set_option maxRecDepth 100000 in
/-- After the first cell of the square the main scan has nothing to do. -/
theorem square24_after :
    (∀ k : Nat, k < 21 → IdleAt square24Traced (24 + 2) (82 + (k : Int))) ∧
    (∀ r : Nat, r < 21 → ∀ k : Nat, k < (24 : Int).toNat →
      IdleAt square24Traced (24 + 2) ((4 + (r : Int)) * (24 + 2) + 1 + (k : Int))) := by
  decide!

set_option maxRecDepth 100000 in
/-- The alpha bytes of the image of the 20x20 square in the 24x24 image. -/
theorem square24_alpha : ∀ x : Int, 0 ≤ x → x < 24 → ∀ y : Int, 0 ≤ y → y < 24 →
    (rd (blockImage 24 24 2 22 2 22) (4 * (y * 24 + x) + 3) = 255 ↔
      2 ≤ x ∧ x < 22 ∧ 2 ≤ y ∧ y < 22) := by
  decide!

set_option maxRecDepth 100000 in
/-- The pixel (0, 0) of the image of the 20x20 square in the 24x24 image. -/
theorem square24_pixel :
    rd (blockImage 24 24 2 22 2 22) (4 * (0 * 24 + 0)) = 200 ∧
    rd (blockImage 24 24 2 22 2 22) (4 * (0 * 24 + 0) + 3) ≠ 255 := by
  decide!

/-- The run of `processImage` on a 24x24 image with alpha 255 exactly in the
square of the pixels `2 ≤ x, y < 22`. -/
theorem square24_polygons (data : Nat)
    (hd : ∀ x : Int, 0 ≤ x → x < 24 → ∀ y : Int, 0 ≤ y → y < 24 →
      (rd data (4 * (y * 24 + x) + 3) = 255 ↔ 2 ≤ x ∧ x < 22 ∧ 2 ≤ y ∧ y < 22)) :
    (processImage 24 24 data []).polygons =
      [⟨1, 76, [⟨2, 2⟩, ⟨21, 2⟩, ⟨21, 21⟩, ⟨2, 21⟩]⟩] := by
  rw [processImage_polygons_eq, eraseSpurs_of_grid 24 24 data square24Mask (by norm_num)
    (by norm_num) square24_grid.1 (fun x x0 x1 y y0 y1 => by
      rw [square24_grid.2 x x0 x1 y y0 y1]
      by_cases ha : rd data (4 * (y * 24 + x) + 3) = 255
      · rw [if_pos ha, if_pos ((hd x x0 x1 y y0 y1).mp ha)]
      · rw [if_neg ha, if_neg (fun e => ha ((hd x x0 x1 y y0 y1).mpr e))]) square24_no_spur,
    scanRows_first 24 24 (24 + 2) (24 : Int).toNat 2 21 2 21 1 3 4 81 82 square24Mask [] []
      (by decide) (by decide) (by norm_num) (by norm_num) (by norm_num) (by norm_num)
      square24_before.1 square24_before.2,
    square24_cell, scanCols_idle 24 24 (24 + 2) 21 82 square24Traced _ _ square24_after.1,
    scanRows_idle 24 24 (24 + 2) 21 4 square24Traced _ _ square24_after.2]

/-! ### The filled 20x20 square -/

set_option maxRecDepth 100000 in
/-- The cells of the mask of the filled 20x20 square. -/
theorem square20_grid :
    PaddedMask 20 20 square20Mask ∧
    ∀ x : Int, 0 ≤ x → x < 20 → ∀ y : Int, 0 ≤ y → y < 20 →
      rd square20Mask ((y + 1) * (20 + 2) + x + 1) = 1 := by
  decide!

set_option maxRecDepth 100000 in
/-- The mask of the filled 20x20 square has no spur. -/
theorem square20_no_spur : ∀ r : Nat, r < (20 : Int).toNat → ∀ k : Nat, k < (20 : Int).toNat →
    isSpur square20Mask (20 + 2) (((r : Int) + 1) * (20 + 2) + 20 - k) = false := by
  decide!

set_option maxRecDepth 100000 in
/-- The body of the main scan at the first cell of the filled 20x20 square:
the region is visited and traced, and its polygon handed over. -/
theorem square20_cell :
    scanCell 20 20 (20 + 2) 23 { buffer := square20Mask, points := [], polygons := [] } =
      { buffer := square20Traced,
        points := [⟨0, 0⟩, ⟨19, 0⟩, ⟨19, 19⟩, ⟨0, 19⟩, ⟨1, 1⟩],
        polygons := [⟨1, 76, [⟨0, 0⟩, ⟨19, 0⟩, ⟨19, 19⟩, ⟨0, 19⟩]⟩] } := by
  decide!

set_option maxRecDepth 100000 in
/-- After its first cell the main scan of the filled 20x20 square has nothing
to do. -/
theorem square20_after :
    (∀ k : Nat, k < 19 → IdleAt square20Traced (20 + 2) (24 + (k : Int))) ∧
    (∀ r : Nat, r < 19 → ∀ k : Nat, k < (20 : Int).toNat →
      IdleAt square20Traced (20 + 2) ((2 + (r : Int)) * (20 + 2) + 1 + (k : Int))) := by
  decide!

/-- The run of `processImage` on a 20x20 image all of whose pixels have alpha
255. -/
theorem square20_polygons (data : Nat)
    (hd : ∀ x : Int, 0 ≤ x → x < 20 → ∀ y : Int, 0 ≤ y → y < 20 →
      rd data (4 * (y * 20 + x) + 3) = 255) :
    (processImage 20 20 data []).polygons =
      [⟨1, 76, [⟨0, 0⟩, ⟨19, 0⟩, ⟨19, 19⟩, ⟨0, 19⟩]⟩] := by
  rw [processImage_polygons_eq, eraseSpurs_of_grid 20 20 data square20Mask (by norm_num)
    (by norm_num) square20_grid.1 (fun x x0 x1 y y0 y1 => by
      rw [square20_grid.2 x x0 x1 y y0 y1, if_pos (hd x x0 x1 y y0 y1)]) square20_no_spur,
    scanRows_first 20 20 (20 + 2) (20 : Int).toNat 0 19 0 19 1 1 2 23 24 square20Mask [] []
      (by decide) (by decide) (by norm_num) (by norm_num) (by norm_num) (by norm_num)
      (fun r hr => absurd hr (by omega)) (fun k hk => absurd hk (by omega)),
    square20_cell, scanCols_idle 20 20 (20 + 2) 19 24 square20Traced _ _ square20_after.1,
    scanRows_idle 20 20 (20 + 2) 19 2 square20Traced _ _ square20_after.2]

/-! ### The 20x20 square with the 6x6 hole -/

set_option maxRecDepth 100000 in
/-- The cells of the mask of the 20x20 square with the 6x6 hole. -/
theorem annulus20_grid :
    PaddedMask 20 20 annulus20Mask ∧
    ∀ x : Int, 0 ≤ x → x < 20 → ∀ y : Int, 0 ≤ y → y < 20 →
      rd annulus20Mask ((y + 1) * (20 + 2) + x + 1) =
        if rd (annulusImage 20 7 13) (4 * (y * 20 + x) + 3) = 255 then 1 else 0 := by
  decide!

set_option maxRecDepth 100000 in
/-- The mask of the 20x20 square with the 6x6 hole has no spur. -/
theorem annulus20_no_spur : ∀ r : Nat, r < (20 : Int).toNat → ∀ k : Nat,
    k < (20 : Int).toNat →
    isSpur annulus20Mask (20 + 2) (((r : Int) + 1) * (20 + 2) + 20 - k) = false := by
  decide!

set_option maxRecDepth 100000 in
/-- The body of the main scan at the first cell of the region: the region is
visited and traced from outside, and the outer polygon handed over. -/
theorem annulus20_outer :
    scanCell 20 20 (20 + 2) 23 { buffer := annulus20Mask, points := [], polygons := [] } =
      { buffer := annulus20Outer,
        points := [⟨0, 0⟩, ⟨19, 0⟩, ⟨19, 19⟩, ⟨0, 19⟩, ⟨1, 1⟩],
        polygons := [⟨1, 76, [⟨0, 0⟩, ⟨19, 0⟩, ⟨19, 19⟩, ⟨0, 19⟩]⟩] } := by
  decide!

set_option maxRecDepth 100000 in
/-- The body of the main scan at the first cell above the hole: the hole is
traced, and its polygon handed over. -/
theorem annulus20_inner :
    scanCell 20 20 (20 + 2) 162
      { buffer := annulus20Outer,
        points := [⟨0, 0⟩, ⟨19, 0⟩, ⟨19, 19⟩, ⟨0, 19⟩, ⟨1, 1⟩],
        polygons := [⟨1, 76, [⟨0, 0⟩, ⟨19, 0⟩, ⟨19, 19⟩, ⟨0, 19⟩]⟩] } =
      { buffer := annulus20Inner,
        points := [⟨13, 6⟩, ⟨13, 13⟩, ⟨6, 13⟩, ⟨6, 6⟩, ⟨14, 7⟩],
        polygons := [⟨1, 76, [⟨0, 0⟩, ⟨19, 0⟩, ⟨19, 19⟩, ⟨0, 19⟩]⟩,
          ⟨-1, 28, [⟨13, 6⟩, ⟨13, 13⟩, ⟨6, 13⟩, ⟨6, 6⟩]⟩] } := by
  decide!

set_option maxRecDepth 100000 in
/-- Between the first cell of the region and the first cell above the hole
the main scan has nothing to do. -/
theorem annulus20_between :
    (∀ k : Nat, k < 19 → IdleAt annulus20Outer (20 + 2) (24 + (k : Int))) ∧
    (∀ r : Nat, r < 5 → ∀ k : Nat, k < (20 : Int).toNat →
      IdleAt annulus20Outer (20 + 2) ((2 + (r : Int)) * (20 + 2) + 1 + (k : Int))) ∧
    (∀ k : Nat, k < 7 → IdleAt annulus20Outer (20 + 2) (7 * (20 + 2) + 1 + (k : Int))) := by
  decide!

set_option maxRecDepth 100000 in
/-- After the first cell above the hole the main scan has nothing to do. -/
theorem annulus20_after :
    (∀ k : Nat, k < 12 → IdleAt annulus20Inner (20 + 2) (163 + (k : Int))) ∧
    (∀ r : Nat, r < 13 → ∀ k : Nat, k < (20 : Int).toNat →
      IdleAt annulus20Inner (20 + 2) ((8 + (r : Int)) * (20 + 2) + 1 + (k : Int))) := by
  decide!

/-- The polygons `processImage` emits for the 20x20 square with the centred
6x6 hole. -/
theorem annulus20_polygons :
    (processImage 20 20 (annulusImage 20 7 13) []).polygons =
      [⟨1, 76, [⟨0, 0⟩, ⟨19, 0⟩, ⟨19, 19⟩, ⟨0, 19⟩]⟩,
       ⟨-1, 28, [⟨13, 6⟩, ⟨13, 13⟩, ⟨6, 13⟩, ⟨6, 6⟩]⟩] := by
  rw [processImage_polygons_eq, eraseSpurs_of_grid 20 20 (annulusImage 20 7 13) annulus20Mask
      (by norm_num) (by norm_num) annulus20_grid.1 annulus20_grid.2 annulus20_no_spur,
    scanRows_first 20 20 (20 + 2) (20 : Int).toNat 0 19 0 19 1 1 2 23 24 annulus20Mask [] []
      (by decide) (by decide) (by norm_num) (by norm_num) (by norm_num) (by norm_num)
      (fun r hr => absurd hr (by omega)) (fun k hk => absurd hk (by omega)),
    annulus20_outer, scanCols_idle 20 20 (20 + 2) 19 24 annulus20Outer _ _ annulus20_between.1,
    scanRows_first 20 20 (20 + 2) 19 5 13 7 12 2 7 8 162 163 annulus20Outer _ _
      (by decide) (by decide) (by norm_num) (by norm_num) (by norm_num) (by norm_num)
      annulus20_between.2.1 annulus20_between.2.2,
    annulus20_inner, scanCols_idle 20 20 (20 + 2) 12 163 annulus20Inner _ _ annulus20_after.1,
    scanRows_idle 20 20 (20 + 2) 13 8 annulus20Inner _ _ annulus20_after.2]

/-! ## Concrete runs of the tracer and of the orchestrator -/

/-- The run of `trace4` on the filled 3x3 square. -/
theorem trace4_square3_run :
    trace4 6 1 (cwNeighborOffsets4 5) (cwNeighborOffsets8 5) square3Mask 5 [] =
      { buffer := packBytes [0, 0, 0, 0, 0, 0, 3, 3, 3, 0, 0, 3, 2, 3, 0, 0, 3, 3, 3, 0,
          0, 0, 0, 0, 0],
        stack := [6, 7, 8, 13, 18, 17, 16, 11],
        points := [⟨1, 1⟩, ⟨3, 3⟩, ⟨1, 1⟩, ⟨1, 1⟩, ⟨1, 1⟩],
        pointCount := 2, stackSize := 8, fallbacks := 1, exit := TraceExit.closed } := by
  decide!

/-- C8, counterexample: on the filled 3x3 square `trace4` does not report the
4 corners; it reports 2 points. -/
theorem trace4_square3_not_four_corners :
    ¬ ((trace4 6 1 (cwNeighborOffsets4 5) (cwNeighborOffsets8 5) square3Mask 5 []).pointCount = 4 ∧
      (trace4 6 1 (cwNeighborOffsets4 5) (cwNeighborOffsets8 5) square3Mask 5 []).points.take 4 =
        [⟨1, 1⟩, ⟨3, 1⟩, ⟨3, 3⟩, ⟨1, 3⟩]) := by
  rw [trace4_square3_run]
  decide

/-- C8, amended: on the 5x5 padded mask whose 3x3 interior is `Visited`,
`trace4` from the top-left interior cell with `cwDir = 1` closes its path
after recording the 8 border cells of the square, none of them revisited (the
reported stack size is the whole path; the fallback search is used once, for
the closing step that finds the start cell); the corner points it extracts from
the path are the 4 corners (1,1), (3,1), (3,3), (1,3) in clockwise order, and
the simplification with tolerance 1.5 leaves 2 of them: the trace reports the
2 points (1,1), (3,3). -/
theorem trace4_square3 :
    (trace4 6 1 (cwNeighborOffsets4 5) (cwNeighborOffsets8 5) square3Mask 5 []).exit =
        TraceExit.closed ∧
      (trace4 6 1 (cwNeighborOffsets4 5) (cwNeighborOffsets8 5) square3Mask 5 []).stack =
        [6, 7, 8, 13, 18, 17, 16, 11] ∧
      (trace4 6 1 (cwNeighborOffsets4 5) (cwNeighborOffsets8 5) square3Mask 5 []).stackSize = 8 ∧
      (trace4 6 1 (cwNeighborOffsets4 5) (cwNeighborOffsets8 5) square3Mask 5 []).fallbacks = 1 ∧
      cornerPoints 5 [6, 7, 8, 13, 18, 17, 16, 11] = [⟨1, 1⟩, ⟨3, 1⟩, ⟨3, 3⟩, ⟨1, 3⟩] ∧
      (trace4 6 1 (cwNeighborOffsets4 5) (cwNeighborOffsets8 5) square3Mask 5 []).pointCount = 2 ∧
      (trace4 6 1 (cwNeighborOffsets4 5) (cwNeighborOffsets8 5) square3Mask 5 []).points.take 2 =
        [⟨1, 1⟩, ⟨3, 3⟩] := by
  rw [trace4_square3_run]
  decide

set_option maxRecDepth 100000 in
/-- The 7x7 filled square with a 1x1 hole in its centre: `processImage` hands
over one polygon only, the outer one. -/
theorem annulus_small_hole_run :
    (processImage 7 7 (annulusImage 7 3 4) []).polygons =
      [⟨1, 24, [⟨0, 0⟩, ⟨6, 0⟩, ⟨6, 6⟩, ⟨0, 6⟩]⟩] := by
  decide!

/-- C10, counterexample: for the annulus image the shoelace sums of the two
emitted point sequences do not have opposite signs. -/
theorem annulus20_windings_not_opposite :
    ¬ ∃ outer inner : Emitted,
      (processImage 20 20 (annulusImage 20 7 13) []).polygons = [outer, inner] ∧
      shoelace2 outer.points * shoelace2 inner.points < 0 := by
  rintro ⟨outer, inner, h, hlt⟩
  rw [annulus20_polygons] at h
  injection h with h1 h2
  injection h2 with h2 _
  subst h1 h2
  revert hlt
  decide

/-- C10, amended: for the 20x20 filled square with the centred 6x6 hole the
point sequence emitted for the outer contour and the one emitted for the hole
contour are both in clockwise order: their shoelace sums, 722 and 98, are both
positive (image coordinates). The two polygons differ in the trace they come
from (`cwDir = 1`, then `cwDir = -1`), not in winding. -/
theorem annulus20_windings :
    (processImage 20 20 (annulusImage 20 7 13) []).polygons.map
      (fun e => (e.cwDir, shoelace2 e.points)) = [(1, 722), (-1, 98)] := by
  rw [annulus20_polygons]
  decide

/-! ## The claims settled on runs -/

/-- C11: the filled 20x20 square, end to end. For every 20x20 image all of
whose pixels have alpha 255 (whatever the colours), `processImage` hands
exactly one polygon to the consumer, from the outer trace, with exactly the 4
vertices (0,0), (19,0), (19,19), (0,19) after the simplification, in that
order. For every 24x24 image whose pixels with alpha 255 are those of the
20x20 square at the offset (2, 2), it hands over exactly one polygon with the
4 vertices (2,2), (21,2), (21,21), (2,21): the corners (0,0), (19,0), (19,19),
(0,19) relative to the square. And for every image, whatever its size and
wherever the square is in it, every pixel outside the square (every pixel
whose alpha is not 255) has its four bytes R, G, B, A set to 0 in the overlay:
it is fully transparent. -/
theorem square20_end_to_end :
    (∀ data : Nat,
      (∀ x : Int, 0 ≤ x → x < 20 → ∀ y : Int, 0 ≤ y → y < 20 →
        rd data (4 * (y * 20 + x) + 3) = 255) →
      (processImage 20 20 data []).polygons =
        [⟨1, 76, [⟨0, 0⟩, ⟨19, 0⟩, ⟨19, 19⟩, ⟨0, 19⟩]⟩]) ∧
    (∀ data : Nat,
      (∀ x : Int, 0 ≤ x → x < 24 → ∀ y : Int, 0 ≤ y → y < 24 →
        (rd data (4 * (y * 24 + x) + 3) = 255 ↔ 2 ≤ x ∧ x < 22 ∧ 2 ≤ y ∧ y < 22)) →
      (processImage 24 24 data []).polygons =
        [⟨1, 76, [⟨2, 2⟩, ⟨21, 2⟩, ⟨21, 21⟩, ⟨2, 21⟩]⟩]) ∧
    (∀ (w h : Int) (data : Nat) (points : List Point), 0 ≤ w → 0 ≤ h →
      ∀ x y : Int, 0 ≤ x → x < w → 0 ≤ y → y < h → rd data (4 * (y * w + x) + 3) ≠ 255 →
        rd (processImage w h data points).data (4 * (y * w + x)) = 0 ∧
        rd (processImage w h data points).data (4 * (y * w + x) + 1) = 0 ∧
        rd (processImage w h data points).data (4 * (y * w + x) + 2) = 0 ∧
        rd (processImage w h data points).data (4 * (y * w + x) + 3) = 0) := by
  refine ⟨square20_polygons, square24_polygons, ?_⟩
  intro w h data points hw hh x y x0 x1 y0 y1 ha
  exact processImage_clears w h data points hw hh x y x0 x1 y0 y1 ha

/-- C11, witness: the images of the filled 20x20 square with the colour
(200, 100, 50), alone and at the offset (2, 2) of a 24x24 image, and the
pixel (0, 0) of the latter, which lies outside the square. -/
theorem square20_end_to_end_witness :
    (processImage 20 20 (blockImage 20 20 0 20 0 20) []).polygons =
        [⟨1, 76, [⟨0, 0⟩, ⟨19, 0⟩, ⟨19, 19⟩, ⟨0, 19⟩]⟩] ∧
    (processImage 24 24 (blockImage 24 24 2 22 2 22) []).polygons =
        [⟨1, 76, [⟨2, 2⟩, ⟨21, 2⟩, ⟨21, 21⟩, ⟨2, 21⟩]⟩] ∧
    rd (blockImage 24 24 2 22 2 22) (4 * (0 * 24 + 0)) = 200 ∧
    rd (processImage 24 24 (blockImage 24 24 2 22 2 22) []).data (4 * (0 * 24 + 0)) = 0 ∧
    rd (processImage 24 24 (blockImage 24 24 2 22 2 22) []).data (4 * (0 * 24 + 0) + 3) = 0 :=
  ⟨square20_end_to_end.1 _ square20_alpha, square20_end_to_end.2.1 _ square24_alpha,
    square24_pixel.1,
    (square20_end_to_end.2.2 24 24 (blockImage 24 24 2 22 2 22) [] (by decide) (by decide) 0 0
      (by decide) (by decide) (by decide) (by decide) square24_pixel.2).1,
    (square20_end_to_end.2.2 24 24 (blockImage 24 24 2 22 2 22) [] (by decide) (by decide) 0 0
      (by decide) (by decide) (by decide) (by decide) square24_pixel.2).2.2.2⟩

/-- C12, witness: the 2x5 block, of area exactly 10, in a 7x7 image, and the
single pixel in a 5x5 image. -/
theorem noise_rejection_witness :
    ((processImage 7 7 (blockImage 7 7 1 6 2 4) []).polygons = [] ∧
      ∀ c : Int, rd (processImage 7 7 (blockImage 7 7 1 6 2 4) []).buffer c = 0) ∧
    ((processImage 5 5 (blockImage 5 5 2 3 2 3) []).polygons = [] ∧
      ∀ c : Int, rd (processImage 5 5 (blockImage 5 5 2 3 2 3) []).buffer c = 0) :=
  ⟨noise_rejection 7 7 (blockImage 7 7 1 6 2 4) [] (by decide) (by decide)
      (small_of_cells _ _ [29, 30, 31, 32, 33, 38, 39, 40, 41, 42] (by decide) (fun c hc => by
        have hb := (buildMask_spec 7 7 (blockImage 7 7 1 6 2 4) (by decide) (by decide)).2.lt_grid
          c (by rw [hc]; decide)
        exact block2x5_cells c hb.1 hb.2 hc)),
    noise_rejection 5 5 (blockImage 5 5 2 3 2 3) [] (by decide) (by decide)
      (small_of_cells _ _ [24] (by decide) (fun c hc => by
        have hb := (buildMask_spec 5 5 (blockImage 5 5 2 3 2 3) (by decide) (by decide)).2.lt_grid
          c (by rw [hc]; decide)
        exact pixel1_cells c hb.1 hb.2 hc))⟩

/-- C13, counterexample: for the thin 6x2 filled rectangle of area 12 the
outer trace reports 2 points, and `processImage` hands them to the consumer:
the polygon (0,0), (5,1) of 2 points is emitted. -/
theorem thin_rectangle_emitted :
    (processImage 6 2 (blockImage 6 2 0 6 0 2) []).polygons =
      [⟨1, 12, [⟨0, 0⟩, ⟨5, 1⟩]⟩] :=
  rect6x2_run.1

/-- C13, amended: every polygon emitted has at least 2 points. For every
input image, every polygon `processImage` hands to the consumer has at least 2
points; and in the body of the main scan, for a `Foreground` cell whose region
has more than 10 cells, the result of the outer trace is handed over when its
point count exceeds 1, and otherwise no polygon is handed over and the region
is undone (`traceUndo`) and erased (`floodFill` from 2 to 0). -/
theorem emitted_polygons_two_points (w h : Int) (data : Nat) (points : List Point) :
    (∀ e ∈ (processImage w h data points).polygons, 2 ≤ e.points.length) ∧
    ∀ (i : Int) (st : Scan), rd st.buffer i = 1 →
      (floodFill w h (wr st.buffer i 2) (w + 2) 1 2 [i]).area > 10 →
      ((trace4 i 1 (cwNeighborOffsets4 (w + 2)) (cwNeighborOffsets8 (w + 2))
          (floodFill w h (wr st.buffer i 2) (w + 2) 1 2 [i]).buffer (w + 2)
          st.points).pointCount > 1 →
        ∃ e : Emitted, e.cwDir = 1 ∧
          (scanCell w h (w + 2) i st).polygons = st.polygons ++ [e]) ∧
      (¬ (trace4 i 1 (cwNeighborOffsets4 (w + 2)) (cwNeighborOffsets8 (w + 2))
          (floodFill w h (wr st.buffer i 2) (w + 2) 1 2 [i]).buffer (w + 2)
          st.points).pointCount > 1 →
        (scanCell w h (w + 2) i st).polygons = st.polygons ∧
        (scanCell w h (w + 2) i st).buffer =
          (floodFill w h (wr (traceUndo
              (trace4 i 1 (cwNeighborOffsets4 (w + 2)) (cwNeighborOffsets8 (w + 2))
                (floodFill w h (wr st.buffer i 2) (w + 2) 1 2 [i]).buffer (w + 2)
                st.points).buffer
              (trace4 i 1 (cwNeighborOffsets4 (w + 2)) (cwNeighborOffsets8 (w + 2))
                (floodFill w h (wr st.buffer i 2) (w + 2) 1 2 [i]).buffer (w + 2)
                st.points).stack
              (trace4 i 1 (cwNeighborOffsets4 (w + 2)) (cwNeighborOffsets8 (w + 2))
                (floodFill w h (wr st.buffer i 2) (w + 2) 1 2 [i]).buffer (w + 2)
                st.points).stackSize) i 2) (w + 2) 2 0 [i]).buffer) := by
  refine ⟨processImage_polygons_length w h data points, fun i st h1 ha => ⟨fun hp => ?_,
    fun hp => ?_⟩⟩
  · refine ⟨⟨1, ?_, ?_⟩, rfl, ?_⟩
    pick_goal 3
    · unfold scanCell
      simp only []
      rw [if_pos h1, if_pos ha, if_pos hp]
      exact rfl
  · unfold scanCell
    simp only []
    rw [if_pos h1, if_pos ha, if_neg hp]
    exact ⟨rfl, rfl⟩

/-- C13, witness: the polygon of the thin 6x2 rectangle has exactly 2
points. -/
theorem emitted_polygons_two_points_witness :
    (⟨1, 12, [⟨0, 0⟩, ⟨5, 1⟩]⟩ : Emitted) ∈
        (processImage 6 2 (blockImage 6 2 0 6 0 2) []).polygons ∧
    2 ≤ (⟨1, 12, [⟨0, 0⟩, ⟨5, 1⟩]⟩ : Emitted).points.length :=
  ⟨by rw [rect6x2_run.1]; exact List.mem_singleton.mpr rfl,
    (emitted_polygons_two_points 6 2 (blockImage 6 2 0 6 0 2) []).1 _
      (by rw [rect6x2_run.1]; exact List.mem_singleton.mpr rfl)⟩

/-- C14: small holes are ignored. For every input image, every polygon
`processImage` hands to the consumer from an inner trace (`cwDir = -1`) comes
from a trace whose reported stack size is greater than 8; and in the body of
the main scan at the top inner edge of a hole (a `Visited` cell with
`Background` below), an inner trace that reports a stack size of at most 8
hands no polygon over, while one that reports a stack size over 8 and more
than one point hands its polygon over. -/
theorem small_holes_ignored (w h : Int) (data : Nat) (points : List Point) :
    (∀ e ∈ (processImage w h data points).polygons, e.cwDir = -1 → 8 < e.stackSize) ∧
    ∀ (i : Int) (st : Scan), rd st.buffer i = 2 → rd st.buffer (i + (w + 2)) = 0 →
      ((trace4 i (-1) (cwNeighborOffsets4 (w + 2)) (cwNeighborOffsets8 (w + 2)) st.buffer (w + 2)
          st.points).stackSize ≤ 8 →
        (scanCell w h (w + 2) i st).polygons = st.polygons) ∧
      ((trace4 i (-1) (cwNeighborOffsets4 (w + 2)) (cwNeighborOffsets8 (w + 2)) st.buffer (w + 2)
          st.points).stackSize > 8 →
        (trace4 i (-1) (cwNeighborOffsets4 (w + 2)) (cwNeighborOffsets8 (w + 2)) st.buffer (w + 2)
          st.points).pointCount > 1 →
        ∃ e : Emitted, e.cwDir = -1 ∧
          e.stackSize = (trace4 i (-1) (cwNeighborOffsets4 (w + 2)) (cwNeighborOffsets8 (w + 2))
            st.buffer (w + 2) st.points).stackSize ∧
          (scanCell w h (w + 2) i st).polygons = st.polygons ++ [e]) := by
  refine ⟨fun e he hc => ?_, fun i st h2 h0 => ?_⟩
  · rcases processImage_polygons_kind w h data points e he with h1 | ⟨_, h1⟩
    · rw [hc] at h1
      exact absurd h1 (by decide)
    · exact h1
  · have hn1 : ¬ rd st.buffer i = 1 := by rw [h2]; decide
    constructor
    · intro hs
      unfold scanCell
      simp only []
      rw [if_neg hn1, if_pos ⟨h2, h0⟩, if_neg (fun hc => by omega)]
    · intro hs hp
      refine ⟨⟨-1, _, ?_⟩, rfl, rfl, ?_⟩
      pick_goal 2
      · unfold scanCell
        simp only []
        rw [if_neg hn1, if_pos ⟨h2, h0⟩, if_pos ⟨hp, hs⟩]
        exact rfl

/-- C14, witness: the hole polygon of the 20x20 square with the 6x6 hole
comes from a trace with the stack size 28. -/
theorem small_holes_ignored_witness :
    (⟨-1, 28, [⟨13, 6⟩, ⟨13, 13⟩, ⟨6, 13⟩, ⟨6, 6⟩]⟩ : Emitted) ∈
        (processImage 20 20 (annulusImage 20 7 13) []).polygons ∧
    (8 : Int) < (⟨-1, 28, [⟨13, 6⟩, ⟨13, 13⟩, ⟨6, 13⟩, ⟨6, 6⟩]⟩ : Emitted).stackSize :=
  ⟨by rw [annulus20_polygons]; simp,
    (small_holes_ignored 20 20 (annulusImage 20 7 13) []).1 _
      (by rw [annulus20_polygons]; simp) rfl⟩

/-- C15, witness: the pixel (0, 3) of `spurExampleImage` has alpha 255, and
its cell 25 is `Foreground` after the mask construction. -/
theorem buildMask_threshold_witness :
    rd spurExampleImage (4 * (3 * 4 + 0) + 3) = 255 ∧
    rd (buildMask 4 4 spurExampleImage) ((3 + 1) * (4 + 2) + 0 + 1) = 1 :=
  ⟨by decide!, ((buildMask_threshold 4 4 spurExampleImage).1 0 3 (by decide) (by decide)
    (by decide) (by decide)).1 (by decide!)⟩

/-- C16, witness: the masks of the run on `spurExampleImage`. -/
theorem border_invariant_witness :
    (∀ m ∈ maskSteps 4 4 spurExampleImage [], BorderClear 4 4 m) ∧
    BorderClear 4 4 (processImage 4 4 spurExampleImage []).buffer :=
  (border_invariant 4 4 spurExampleImage [] (by decide) (by decide)).2.2.2.2

/-- C17, counterexample: in the run of `processImage` on `spurExampleImage`
the first change of the mask after its construction is the call of `erase1`
at the cell 25 (pixel C), and it takes the cell 25 from `Foreground` (1)
directly to `Background` (0), which is none of 0 to 1, 1 to 2, 2 to 3, 2 to 0;
and `traceUndo`, which `processImage` calls after a failed outer trace, takes
the cell 6 of the traced 3x3 square from `Traced` (3) back to `Visited` (2). -/
theorem cell_change_not_claimed :
    ((maskSteps 4 4 spurExampleImage []).head? =
        some (erase1 25 (cwNeighborOffsets4 6) (buildMask 4 4 spurExampleImage) 6) ∧
      rd (buildMask 4 4 spurExampleImage) 25 = 1 ∧
      rd (erase1 25 (cwNeighborOffsets4 6) (buildMask 4 4 spurExampleImage) 6) 25 = 0) ∧
    (rd (trace4 6 1 (cwNeighborOffsets4 5) (cwNeighborOffsets8 5) square3Mask 5 []).buffer 6 = 3 ∧
      rd (traceUndo
        (trace4 6 1 (cwNeighborOffsets4 5) (cwNeighborOffsets8 5) square3Mask 5 []).buffer
        (trace4 6 1 (cwNeighborOffsets4 5) (cwNeighborOffsets8 5) square3Mask 5 []).stack
        (trace4 6 1 (cwNeighborOffsets4 5) (cwNeighborOffsets8 5) square3Mask 5 []).stackSize)
        6 = 2) := by
  refine ⟨spur_step_run, ?_⟩
  rw [trace4_square3_run]
  decide!

/-- C17, amended: the per-cell state machine. For every input image: the mask
construction leaves every cell `Background` (0) or `Foreground` (1), so from
the cleared mask it changes cells from 0 to 1 only; and from then on every
write `processImage` makes to the mask (a call of `erase1` by the spur scan;
a store, or a call of `floodFill`, `trace4` or `traceUndo`, by the main scan)
changes the value of a cell only by one of 1 to 0 (spur erased), 1 to 2
(region visited), 2 to 3 (traced), 3 to 2 (trace undone), 2 to 0 (small or
untraceable region erased); the last of the masks so reached is the mask
`processImage` leaves. -/
theorem cell_changes (w h : Int) (data : Nat) (points : List Point) :
    (∀ c : Int, rd (buildMask w h data) c = 0 ∨ rd (buildMask w h data) c = 1) ∧
    List.Chain (fun a b : Nat => ∀ c : Int, rd b c = rd a c ∨ CellChange (rd a c) (rd b c))
      (buildMask w h data) (maskSteps w h data points) ∧
    (maskSteps w h data points).getLastD (buildMask w h data) =
      (processImage w h data points).buffer := by
  obtain ⟨a1, a2⟩ := maskSteps_spec w h data points
  refine ⟨fun c => ?_, List.Chain.imp (fun a b hab c => ?_) a1, a2⟩
  · have := buildMask_bits w h data c
    omega
  · rcases hab with h | h | h | h | h
    · exact (h c).imp id (fun e => Or.inl e)
    · exact (h c).imp id (fun e => Or.inr (Or.inl e))
    · exact (h c).imp id (fun e => Or.inr (Or.inr (Or.inl e)))
    · exact (h c).imp id (fun e => Or.inr (Or.inr (Or.inr (Or.inl e))))
    · exact (h c).imp id (fun e => Or.inr (Or.inr (Or.inr (Or.inr e))))

/-- C18, witness: the run on the filled 6x2 rectangle, whose last row 1 has
the cell 22 of the pixel (5, 1) `Traced`. -/
theorem processImage_returns_maxY_witness :
    rd (processImage 6 2 (blockImage 6 2 0 6 0 2) []).buffer ((1 + 1) * (6 + 2) + 5 + 1) ≠ 0 ∧
    1 ≤ (processImage 6 2 (blockImage 6 2 0 6 0 2) []).maxY ∧
    (processImage 6 2 (blockImage 6 2 0 6 0 2) []).maxY < 2 :=
  have hc : rd (processImage 6 2 (blockImage 6 2 0 6 0 2) []).buffer
      ((1 + 1) * (6 + 2) + 5 + 1) ≠ 0 := by
    rw [show ((1 : Int) + 1) * (6 + 2) + 5 + 1 = 22 from by norm_num, rect6x2_run.2]
    decide
  ⟨hc, (processImage_returns_maxY 6 2 (blockImage 6 2 0 6 0 2) [] (by decide) (by decide)).2.1
      5 1 (by decide) (by decide) (by decide) (by decide) hc,
    ((processImage_returns_maxY 6 2 (blockImage 6 2 0 6 0 2) [] (by decide) (by decide)).2.2
      ⟨_, hc⟩).2.1⟩

/-- The pixel (5, 1) of the filled 6x2 rectangle, whose cell is `Traced` at the
end, has alpha 255 in the overlay. -/
theorem overlay_clears_discarded_witness :
    rd (processImage 6 2 (blockImage 6 2 0 6 0 2) []).buffer ((1 + 1) * (6 + 2) + 5 + 1) ≠ 0 ∧
    rd (processImage 6 2 (blockImage 6 2 0 6 0 2) []).data (4 * (1 * 6 + 5) + 3) = 255 :=
  have hc : rd (processImage 6 2 (blockImage 6 2 0 6 0 2) []).buffer
      ((1 + 1) * (6 + 2) + 5 + 1) ≠ 0 := by
    rw [show ((1 : Int) + 1) * (6 + 2) + 5 + 1 = 22 from by norm_num, rect6x2_run.2]
    decide
  ⟨hc, (overlay_clears_discarded 6 2 (blockImage 6 2 0 6 0 2) [] (by decide) (by decide) 5 1
    (by decide) (by decide) (by decide) (by decide)).2.1 hc⟩

/-- C20, witness: the point (5, 1) of the polygon of the filled 6x2
rectangle. -/
theorem polygon_points_in_image_witness :
    (⟨1, 12, [⟨0, 0⟩, ⟨5, 1⟩]⟩ : Emitted) ∈
        (processImage 6 2 (blockImage 6 2 0 6 0 2) []).polygons ∧
    (∃ c : Int, Interior 6 2 c ∧
      (⟨5, 1⟩ : Point) = ⟨(cellPoint (6 + 2) c).x - 1, (cellPoint (6 + 2) c).y - 1⟩) ∧
    (0 : Int) ≤ (⟨5, 1⟩ : Point).x ∧ (⟨5, 1⟩ : Point).x < 6 ∧
    (0 : Int) ≤ (⟨5, 1⟩ : Point).y ∧ (⟨5, 1⟩ : Point).y < 2 :=
  ⟨by rw [rect6x2_run.1]; exact List.mem_singleton.mpr rfl,
    (polygon_points_in_image 6 2 (blockImage 6 2 0 6 0 2) [] (by decide) (by decide)).1 _
      (by rw [rect6x2_run.1]; exact List.mem_singleton.mpr rfl) ⟨5, 1⟩ (by simp)⟩

/-! ## Short ranges and termination of the simplifier -/

/-- A copy of a block onto itself leaves the array as it is. -/
theorem memcpyPoints_self (n : Nat) : ∀ (l : List Point) (i : Int),
    memcpyPoints n l i i = l := by
  induction n with
  | zero => intro l i; rfl
  | succ n ih =>
    intro l i
    simp only [memcpyPoints]
    rw [setP_getP_self]
    exact ih l (i + 1)

/-- A call on a range without interior point returns at once. -/
theorem douglasPeuckerAux_short (M : Doubles) (epsilon : M.D) (fuel : Nat) (pl : List Point)
    (start end_ : Int) (h : end_ - start ≤ 1) :
    douglasPeuckerAux M epsilon (fuel + 1) pl start end_ = some (end_ - start + 1, pl) := by
  rw [douglasPeuckerAux, if_pos h]

/-- The scan of a range with one interior point. -/
theorem dpScan_one (M : Doubles) (pl : List Point) (start end_ : Int) (h : end_ - start = 2) :
    dpScan M pl (getP pl start) (getP pl end_) (end_ - start - 1).toNat (start + 1)
        (M.zero, start) =
      if M.gt (chordDistance M pl start end_ (start + 1)) M.zero = true then
        (chordDistance M pl start end_ (start + 1), start + 1)
      else (M.zero, start) := by
  have e : (end_ - start - 1).toNat = 1 := by omega
  rw [e]
  rfl

/-- A call on a range with one interior point that is farther than 0 and than
the tolerance from the chord keeps the three points. -/
theorem douglasPeuckerAux_three (M : Doubles) (epsilon : M.D) (fuel : Nat) (pl : List Point)
    (start end_ : Int) (h : end_ - start = 2)
    (h0 : M.gt (chordDistance M pl start end_ (start + 1)) M.zero = true)
    (h1 : M.gt (chordDistance M pl start end_ (start + 1)) epsilon = true) :
    douglasPeuckerAux M epsilon (fuel + 2) pl start end_ = some (3, pl) := by
  rw [douglasPeuckerAux, if_neg (by omega)]
  simp only []
  rw [dpScan_one M pl start end_ h, if_pos h0]
  simp only []
  rw [if_pos h1, douglasPeuckerAux_short M epsilon fuel pl start (start + 1) (by omega)]
  simp only []
  rw [setP_getP_self, douglasPeuckerAux_short M epsilon fuel pl (start + 1) end_ (by omega)]
  simp only []
  have e1 : start + 1 - start + 1 - 1 + (end_ - (start + 1) + 1) = 3 := by omega
  have e2 : start + (start + 1 - start + 1 - 1) = start + 1 := by omega
  rw [e1, e2, memcpyPoints_self]

/-- A call on a range with one interior point that is not farther than the
tolerance from the chord, the tolerance not being negative, returns 2 and
stores the last point after the first. -/
theorem douglasPeuckerAux_three_collapse (M : Doubles) (epsilon : M.D) (fuel : Nat)
    (pl : List Point) (start end_ : Int) (h : end_ - start = 2)
    (hε : M.gt M.zero epsilon = false)
    (h1 : M.gt (chordDistance M pl start end_ (start + 1)) epsilon = false) :
    douglasPeuckerAux M epsilon (fuel + 1) pl start end_ =
      some (2, setP pl (start + 1) (getP pl end_)) := by
  rw [douglasPeuckerAux, if_neg (by omega)]
  simp only []
  rw [dpScan_one M pl start end_ h]
  by_cases h0 : M.gt (chordDistance M pl start end_ (start + 1)) M.zero = true
  · rw [if_pos h0]
    simp only []
    rw [h1]
    simp
  · rw [if_neg h0]
    simp only []
    rw [hε]
    simp

/-- When the scan of a range ends with a distance above a tolerance that is
not negative, the index it holds is strictly inside the range. -/
theorem dpScan_pivot (M : Doubles) (pl : List Point) (pS pE : Point) (start : Int) (n : Nat)
    (epsilon : M.D) (hε : M.gt M.zero epsilon = false)
    (h : M.gt (dpScan M pl pS pE n (start + 1) (M.zero, start)).1 epsilon = true) :
    start < (dpScan M pl pS pE n (start + 1) (M.zero, start)).2 ∧
      (dpScan M pl pS pE n (start + 1) (M.zero, start)).2 < start + 1 + n := by
  rcases dpScan_inv M pl pS pE start n (start + 1) (M.zero, start) (by omega) (Or.inl rfl) with
    hs | ⟨j, h1, h2, hs⟩
  · rw [hs] at h
    rw [hε] at h
    exact absurd h (by simp)
  · rw [hs]
    exact ⟨h1, h2⟩

/-- For a tolerance that is not negative the recursion of `douglasPeucker`
returns within `end - start + 1` nested calls, whatever the point list and the
range are. -/
theorem douglasPeuckerAux_returns (M : Doubles) (epsilon : M.D)
    (hε : M.gt M.zero epsilon = false) (fuel : Nat) :
    ∀ (pl : List Point) (start end_ : Int), (end_ - start).toNat + 1 ≤ fuel →
      ∃ r, douglasPeuckerAux M epsilon fuel pl start end_ = some r := by
  induction fuel with
  | zero => intro pl start end_ h; omega
  | succ fuel ih =>
    intro pl start end_ hf
    rw [douglasPeuckerAux]
    by_cases hshort : end_ - start ≤ 1
    · rw [if_pos hshort]
      exact ⟨_, rfl⟩
    · rw [if_neg hshort]
      simp only []
      by_cases hgt : M.gt (dpScan M pl (getP pl start) (getP pl end_) (end_ - start - 1).toNat
          (start + 1) (M.zero, start)).1 epsilon = true
      · rw [if_pos hgt]
        obtain ⟨p1, p2⟩ := dpScan_pivot M pl _ _ start _ epsilon hε hgt
        obtain ⟨r1, e1⟩ := ih pl start (dpScan M pl (getP pl start) (getP pl end_)
          (end_ - start - 1).toNat (start + 1) (M.zero, start)).2 (by omega)
        rw [e1]
        simp only []
        obtain ⟨r2, e2⟩ := ih (setP r1.2 (dpScan M pl (getP pl start) (getP pl end_)
            (end_ - start - 1).toNat (start + 1) (M.zero, start)).2
          (getP pl (dpScan M pl (getP pl start) (getP pl end_)
            (end_ - start - 1).toNat (start + 1) (M.zero, start)).2))
          (dpScan M pl (getP pl start) (getP pl end_)
            (end_ - start - 1).toNat (start + 1) (M.zero, start)).2 end_ (by omega)
        rw [e2]
        exact ⟨_, rfl⟩
      · rw [if_neg hgt]
        exact ⟨_, rfl⟩

/-- A recursion that returns within `fuel` nested calls returns the same with
any larger bound. -/
theorem douglasPeuckerAux_fuel (M : Doubles) (epsilon : M.D) (fuel : Nat) :
    ∀ (pl : List Point) (start end_ : Int) (r : Int × List Point),
      douglasPeuckerAux M epsilon fuel pl start end_ = some r →
      ∀ fuel1 : Nat, fuel ≤ fuel1 → douglasPeuckerAux M epsilon fuel1 pl start end_ = some r := by
  induction fuel with
  | zero => intro pl start end_ r h; simp [douglasPeuckerAux] at h
  | succ fuel ih =>
    intro pl start end_ r h fuel1 hf
    obtain ⟨f1, rfl⟩ : ∃ f1, fuel1 = f1 + 1 := ⟨fuel1 - 1, by omega⟩
    rw [douglasPeuckerAux] at h ⊢
    by_cases hshort : end_ - start ≤ 1
    · rw [if_pos hshort] at h ⊢
      exact h
    · rw [if_neg hshort] at h ⊢
      simp only [] at h ⊢
      by_cases hgt : M.gt (dpScan M pl (getP pl start) (getP pl end_) (end_ - start - 1).toNat
          (start + 1) (M.zero, start)).1 epsilon = true
      · rw [if_pos hgt] at h ⊢
        cases e1 : douglasPeuckerAux M epsilon fuel pl start (dpScan M pl (getP pl start)
            (getP pl end_) (end_ - start - 1).toNat (start + 1) (M.zero, start)).2 with
        | none => rw [e1] at h; simp at h
        | some r1 =>
          rw [e1] at h
          rw [ih _ _ _ _ e1 f1 (by omega)]
          simp only [] at h ⊢
          cases e2 : douglasPeuckerAux M epsilon fuel (setP r1.2 (dpScan M pl (getP pl start)
              (getP pl end_) (end_ - start - 1).toNat (start + 1) (M.zero, start)).2
              (getP pl (dpScan M pl (getP pl start) (getP pl end_)
                (end_ - start - 1).toNat (start + 1) (M.zero, start)).2))
              (dpScan M pl (getP pl start) (getP pl end_)
                (end_ - start - 1).toNat (start + 1) (M.zero, start)).2 end_ with
          | none => rw [e2] at h; simp at h
          | some r2 =>
            rw [e2] at h
            rw [ih _ _ _ _ e2 f1 (by omega)]
            exact h
      · rw [if_neg hgt] at h ⊢
        exact h

/-! ## The claims about short ranges, termination and the ink -/

/-- C24, counterexample: a range with one interior point (`end - start = 2`)
is not returned as it is when that point is within the tolerance: with the
tolerance 1.5 the call on (0, 0), (3, 1), (6, 0) returns 2, not 3, and
overwrites the middle point with the last one. -/
theorem douglasPeucker_three_points_collapse :
    (2 : Int) - 0 ≤ 2 ∧
    douglasPeucker exactDoubles [⟨0, 0⟩, ⟨3, 1⟩, ⟨6, 0⟩] 0 2 epsilon1_5 =
        some (2, [⟨0, 0⟩, ⟨6, 0⟩, ⟨6, 0⟩]) ∧
    douglasPeucker exactDoubles [⟨0, 0⟩, ⟨3, 1⟩, ⟨6, 0⟩] 0 2 epsilon1_5 ≠
        some (2 - 0 + 1, [⟨0, 0⟩, ⟨3, 1⟩, ⟨6, 0⟩]) := by
  decide!

/-- C24, amended: ranges without interior point are returned as they are. For
every model of the doubles, every point list, every tolerance and every range
with `end - start ≤ 1`, `douglasPeucker` returns `end - start + 1` and leaves
the point list as it was. A range with one interior point (`end - start = 2`)
is returned as it is (3 points, nothing changed) when the distance of that
point from the chord exceeds both 0 and the tolerance; when it does not
exceed the tolerance, the tolerance not being negative, the call returns 2
and stores the last point at `start + 1`. -/
theorem douglasPeucker_short_range (M : Doubles) (pointList : List Point) (start end_ : Int)
    (epsilon : M.D) :
    (end_ - start ≤ 1 →
      douglasPeucker M pointList start end_ epsilon = some (end_ - start + 1, pointList)) ∧
    (end_ - start = 2 →
      M.gt (chordDistance M pointList start end_ (start + 1)) M.zero = true →
      M.gt (chordDistance M pointList start end_ (start + 1)) epsilon = true →
      douglasPeucker M pointList start end_ epsilon = some (end_ - start + 1, pointList)) ∧
    (end_ - start = 2 → M.gt M.zero epsilon = false →
      M.gt (chordDistance M pointList start end_ (start + 1)) epsilon = false →
      douglasPeucker M pointList start end_ epsilon =
        some (2, setP pointList (start + 1) (getP pointList end_))) := by
  refine ⟨fun h1 => ?_, fun h2 h0 h1 => ?_, fun h2 hε h1 => ?_⟩
  · exact douglasPeuckerAux_short M epsilon _ pointList start end_ h1
  · unfold douglasPeucker
    have e : (end_ - start).toNat + 1 = 1 + 2 := by omega
    rw [e, douglasPeuckerAux_three M epsilon 1 pointList start end_ h2 h0 h1]
    congr 2
    omega
  · exact douglasPeuckerAux_three_collapse M epsilon _ pointList start end_ h2 hε h1

/-- C24, witness: the two points (0, 0), (3, 1) and the three points (0, 0),
(3, 3), (6, 0), whose middle point is at distance 3 from the chord, with the
tolerance 1.5. -/
theorem douglasPeucker_short_range_witness :
    douglasPeucker exactDoubles [⟨0, 0⟩, ⟨3, 1⟩] 0 1 epsilon1_5 =
      some (1 - 0 + 1, [⟨0, 0⟩, ⟨3, 1⟩]) ∧
    douglasPeucker exactDoubles [⟨0, 0⟩, ⟨3, 3⟩, ⟨6, 0⟩] 0 2 epsilon1_5 =
      some (2 - 0 + 1, [⟨0, 0⟩, ⟨3, 3⟩, ⟨6, 0⟩]) :=
  ⟨(douglasPeucker_short_range exactDoubles [⟨0, 0⟩, ⟨3, 1⟩] 0 1 epsilon1_5).1 (by decide),
    (douglasPeucker_short_range exactDoubles [⟨0, 0⟩, ⟨3, 3⟩, ⟨6, 0⟩] 0 2 epsilon1_5).2.1
      (by decide) (by decide) (by decide)⟩

/-- C30: `douglasPeucker` terminates for every tolerance that is not negative.
For every model of the doubles, every point list, every range and every
tolerance `epsilon ≥ 0`: the call returns; it returns the same whatever larger
bound is put on the depth of the recursion; and whenever the scan of a range
`[s, e]` ends with a distance above the tolerance, so that the call splits,
the pivot index lies strictly between `s` and `e`, so that both recursive
calls are on strictly shorter ranges. -/
theorem douglasPeucker_terminates (M : Doubles) (pointList : List Point) (start end_ : Int)
    (epsilon : M.D) (hε : M.gt M.zero epsilon = false) :
    (∃ r, douglasPeucker M pointList start end_ epsilon = some r) ∧
    (∀ fuel : Nat, (end_ - start).toNat + 1 ≤ fuel →
      douglasPeuckerAux M epsilon fuel pointList start end_ =
        douglasPeucker M pointList start end_ epsilon) ∧
    (∀ (pl : List Point) (s e : Int), 1 < e - s →
      M.gt (dpScan M pl (getP pl s) (getP pl e) (e - s - 1).toNat (s + 1) (M.zero, s)).1
        epsilon = true →
      s < (dpScan M pl (getP pl s) (getP pl e) (e - s - 1).toNat (s + 1) (M.zero, s)).2 ∧
      (dpScan M pl (getP pl s) (getP pl e) (e - s - 1).toNat (s + 1) (M.zero, s)).2 < e ∧
      ((dpScan M pl (getP pl s) (getP pl e) (e - s - 1).toNat (s + 1) (M.zero, s)).2 - s).toNat
        < (e - s).toNat ∧
      (e - (dpScan M pl (getP pl s) (getP pl e) (e - s - 1).toNat (s + 1) (M.zero, s)).2).toNat
        < (e - s).toNat) := by
  obtain ⟨r, hr⟩ := douglasPeuckerAux_returns M epsilon hε _ pointList start end_ (le_refl _)
  refine ⟨⟨r, hr⟩, fun fuel hf => ?_, fun pl s e hse hgt => ?_⟩
  · unfold douglasPeucker
    rw [hr]
    exact douglasPeuckerAux_fuel M epsilon _ pointList start end_ r hr fuel hf
  · obtain ⟨p1, p2⟩ := dpScan_pivot M pl _ _ s _ epsilon hε hgt
    refine ⟨p1, by omega, by omega, by omega⟩

/-- C30, witness: the closed path of the corners of a 20x20 square with the
tolerance 1.5 returns. -/
theorem douglasPeucker_terminates_witness :
    ∃ r, douglasPeucker exactDoubles [⟨1, 1⟩, ⟨20, 1⟩, ⟨20, 20⟩, ⟨1, 20⟩, ⟨1, 1⟩] 0 4
      epsilon1_5 = some r :=
  (douglasPeucker_terminates exactDoubles [⟨1, 1⟩, ⟨20, 1⟩, ⟨20, 20⟩, ⟨1, 20⟩, ⟨1, 1⟩] 0 4
    epsilon1_5 (by decide)).1

/-- C29: the mask never grows beyond the ink. For every input image (`w`, `h`
not negative): every mask cell that is not `Background` when `processImage`
returns is the cell of a pixel `(x, y)` of the image whose input alpha is
255; and every pixel whose input alpha is not 255 has a `Background` cell and
ends with its four bytes R, G, B, A equal to 0. -/
theorem mask_within_ink (w h : Int) (data : Nat) (points : List Point) (hw : 0 ≤ w)
    (hh : 0 ≤ h) :
    (∀ c : Int, rd (processImage w h data points).buffer c ≠ 0 →
      ∃ x y : Int, 0 ≤ x ∧ x < w ∧ 0 ≤ y ∧ y < h ∧ c = (y + 1) * (w + 2) + x + 1 ∧
        rd data (4 * (y * w + x) + 3) = 255) ∧
    (∀ x y : Int, 0 ≤ x → x < w → 0 ≤ y → y < h → rd data (4 * (y * w + x) + 3) ≠ 255 →
      rd (processImage w h data points).buffer ((y + 1) * (w + 2) + x + 1) = 0 ∧
      rd (processImage w h data points).data (4 * (y * w + x)) = 0 ∧
      rd (processImage w h data points).data (4 * (y * w + x) + 1) = 0 ∧
      rd (processImage w h data points).data (4 * (y * w + x) + 2) = 0 ∧
      rd (processImage w h data points).data (4 * (y * w + x) + 3) = 0) := by
  constructor
  · intro c hc
    obtain ⟨x, y, x0, x1, y0, y1, rfl⟩ := processImage_ink w h data points hw hh c hc
    exact ⟨x, y, x0, x1, y0, y1, rfl, processImage_alpha w h data points hw hh x y x0 x1 y0 y1 hc⟩
  · intro x y x0 x1 y0 y1 ha
    refine ⟨?_, processImage_clears w h data points hw hh x y x0 x1 y0 y1 ha⟩
    by_contra hc
    exact ha (processImage_alpha w h data points hw hh x y x0 x1 y0 y1 hc)

/-- C29, witness: in the 4x4 image of the spur comment the pixel (0, 0) has
alpha 0 and ends with its four bytes 0. -/
theorem mask_within_ink_witness :
    rd spurExampleImage (4 * (0 * 4 + 0) + 3) ≠ 255 ∧
    rd (processImage 4 4 spurExampleImage []).buffer ((0 + 1) * (4 + 2) + 0 + 1) = 0 ∧
    rd (processImage 4 4 spurExampleImage []).data (4 * (0 * 4 + 0)) = 0 ∧
    rd (processImage 4 4 spurExampleImage []).data (4 * (0 * 4 + 0) + 1) = 0 ∧
    rd (processImage 4 4 spurExampleImage []).data (4 * (0 * 4 + 0) + 2) = 0 ∧
    rd (processImage 4 4 spurExampleImage []).data (4 * (0 * 4 + 0) + 3) = 0 :=
  have ha : rd spurExampleImage (4 * (0 * 4 + 0) + 3) ≠ 255 := by decide!
  ⟨ha, (mask_within_ink 4 4 spurExampleImage [] (by decide) (by decide)).2 0 0 (by decide)
    (by decide) (by decide) (by decide) ha⟩

/-! ## The steps of the tracer -/

theorem searchNew_off (prevI cwDir : Int) (off4 off8 : List Int) (b : Nat) (k0 : Int)
    (n : Nat) : ∀ (k : Int), 0 ≤ k → k < 4 →
      (∀ i d k1 : Int, searchNew prevI cwDir off4 off8 b k0 n k = (some (i, d), k1) →
        i = prevI + offsetAt off4 d ∧ 0 ≤ d ∧ d < 4) ∧
      (∀ k1 : Int, searchNew prevI cwDir off4 off8 b k0 n k = (none, k1) → 0 ≤ k1 ∧ k1 < 4) := by
  induction n with
  | zero =>
    intro k h0 h1
    constructor
    · intro i d k1 h; simp [searchNew] at h
    · intro k1 h
      simp only [searchNew, Prod.mk.injEq, true_and] at h
      subst h
      exact ⟨h0, h1⟩
  | succ n ih =>
    intro k h0 h1
    have hn0 : 0 ≤ (k + cwDir) % 4 := Int.emod_nonneg _ (by norm_num)
    have hn1 : (k + cwDir) % 4 < 4 := Int.emod_lt_of_pos _ (by norm_num)
    constructor
    · intro i d k1 h
      simp only [searchNew] at h
      split at h
      · simp only [Prod.mk.injEq, Option.some.injEq] at h
        obtain ⟨⟨rfl, rfl⟩, _⟩ := h
        exact ⟨rfl, h0, h1⟩
      · split at h
        · exact (ih _ hn0 hn1).1 i d k1 h
        · simp at h
    · intro k1 h
      simp only [searchNew] at h
      split at h
      · simp at h
      · split at h
        · exact (ih _ hn0 hn1).2 k1 h
        · simp only [Prod.mk.injEq, true_and] at h
          subst h
          exact ⟨hn0, hn1⟩

theorem searchTraced_off (prevI cwDir : Int) (off4 : List Int) (b : Nat) (k0 : Int)
    (n : Nat) : ∀ (k : Int), 0 ≤ k → k < 4 →
      ∀ i d : Int, searchTraced prevI cwDir off4 b k0 n k = some (i, d) →
        i = prevI + offsetAt off4 d ∧ 0 ≤ d ∧ d < 4 := by
  induction n with
  | zero => intro k _ _ i d h; simp [searchTraced] at h
  | succ n ih =>
    intro k h0 h1 i d h
    simp only [searchTraced] at h
    split at h
    · simp only [Option.some.injEq, Prod.mk.injEq] at h
      obtain ⟨rfl, rfl⟩ := h
      exact ⟨rfl, h0, h1⟩
    · split at h
      · exact ih _ (Int.emod_nonneg _ (by norm_num)) (Int.emod_lt_of_pos _ (by norm_num)) i d h
      · simp at h

/-- Induction over the trips of the main loop of `trace4`: a property of the
loop variables that holds at the start and is kept by a step to a new edge
pixel and by a step to a `Traced` cell holds when the loop is left; when the
loop is left by `break`, the start cell is a `Traced` neighbour of the last
cell. -/
theorem traceLoop_induct (initialI cwDir : Int) (off4 off8 : List Int) (P : Trace → Prop)
    (hnew : ∀ (t : Trace) (nextI d : Int), P t → rd t.buffer nextI = 2 →
      nextI = t.prevI + offsetAt off4 d → 0 ≤ d → d < 4 →
      P ⟨wr t.buffer nextI 3, t.stack ++ [nextI], nextI, d, 0⟩)
    (hold : ∀ (t : Trace) (nextI d : Int), P t → rd t.buffer nextI = 3 →
      nextI = t.prevI + offsetAt off4 d → 0 ≤ d → d < 4 →
      t.visitingAlreadyVisited < maxRevisited → (t.stack.length : Int) < maxStackSize →
      nextI ≠ initialI →
      P ⟨wr t.buffer nextI 3, t.stack ++ [nextI], nextI, d, t.visitingAlreadyVisited + 1⟩)
    (fuel : Nat) : ∀ t : Trace, P t →
      ∃ t1 : Trace, P t1 ∧
        (traceLoop initialI cwDir off4 off8 fuel t = (t1, TraceExit.aborted) ∨
         traceLoop initialI cwDir off4 off8 fuel t = (t1, TraceExit.outOfFuel) ∨
         ∃ d : Int, 0 ≤ d ∧ d < 4 ∧ initialI = t1.prevI + offsetAt off4 d ∧
           rd t1.buffer initialI = 3 ∧
           traceLoop initialI cwDir off4 off8 fuel t =
             (⟨t1.buffer, t1.stack, t1.prevI, d, t1.visitingAlreadyVisited + 1⟩,
               TraceExit.closed)) := by
  induction fuel with
  | zero =>
    intro t ht
    exact ⟨t, ht, Or.inr (Or.inl rfl)⟩
  | succ fuel ih =>
    intro t ht
    have hk0 : 0 ≤ (t.dir - cwDir) % 4 := Int.emod_nonneg _ (by norm_num)
    have hk1 : (t.dir - cwDir) % 4 < 4 := Int.emod_lt_of_pos _ (by norm_num)
    have hoff := searchNew_off t.prevI cwDir off4 off8 t.buffer ((t.dir - cwDir) % 4) 4
      ((t.dir - cwDir) % 4) hk0 hk1
    rw [traceLoop]
    split
    · rename_i nextI dir k1 hs
      have h2 := searchNew_some _ _ _ _ _ _ _ _ _ _ _ hs
      obtain ⟨e1, e2, e3⟩ := hoff.1 _ _ _ hs
      exact ih _ (hnew t nextI dir ht h2 e1 e2 e3)
    · rename_i k1 hs
      obtain ⟨q0, q1⟩ := hoff.2 _ hs
      split
      · exact ⟨t, ht, Or.inl rfl⟩
      · rename_i hcap
        split
        · exact ⟨t, ht, Or.inl rfl⟩
        · rename_i nextI dir hs2
          have h3 := searchTraced_some _ _ _ _ _ _ _ _ _ hs2
          obtain ⟨e1, e2, e3⟩ := searchTraced_off _ _ _ _ _ _ _ q0 q1 _ _ hs2
          split
          · rename_i hclose
            subst hclose
            exact ⟨t, ht, Or.inr (Or.inr ⟨dir, e2, e3, e1, h3, rfl⟩)⟩
          · rename_i hne
            push_neg at hcap
            exact ih _ (hold t nextI dir ht h3 e1 e2 e3 (by omega) (by omega) hne)

/-- The state of the main loop of `trace4` when it is left. -/
theorem traceLoop_exit_cases (initialI cwDir : Int) (off4 off8 : List Int) (fuel : Nat)
    (t t1 : Trace)
    (h : traceLoop initialI cwDir off4 off8 fuel t = (t1, TraceExit.aborted) ∨
         traceLoop initialI cwDir off4 off8 fuel t = (t1, TraceExit.outOfFuel) ∨
         ∃ d : Int, 0 ≤ d ∧ d < 4 ∧ initialI = t1.prevI + offsetAt off4 d ∧
           rd t1.buffer initialI = 3 ∧
           traceLoop initialI cwDir off4 off8 fuel t =
             (⟨t1.buffer, t1.stack, t1.prevI, d, t1.visitingAlreadyVisited + 1⟩,
               TraceExit.closed)) :
    (traceLoop initialI cwDir off4 off8 fuel t).1.buffer = t1.buffer ∧
    (traceLoop initialI cwDir off4 off8 fuel t).1.stack = t1.stack ∧
    (traceLoop initialI cwDir off4 off8 fuel t).1.prevI = t1.prevI ∧
    ((traceLoop initialI cwDir off4 off8 fuel t).2 ≠ TraceExit.closed →
      (traceLoop initialI cwDir off4 off8 fuel t).1.visitingAlreadyVisited =
        t1.visitingAlreadyVisited) := by
  rcases h with h | h | ⟨d, _, _, _, _, h⟩ <;> simp [h]

/-! ## Termination of the tracer -/

/-- Writing a value other than `v` does not raise the number of `v` cells. -/
theorem cnt_wr_le (b v u : Nat) (i : Int) (hu : u % 256 ≠ v) (n : Nat) :
    cnt (wr b i u) v n ≤ cnt b v n := by
  induction n with
  | zero => simp [cnt]
  | succ n ih =>
    simp only [cnt]
    by_cases hin : i = n
    · rw [← hin]
      by_cases h0 : 0 ≤ i
      · rw [rd_wr_same _ _ _ h0, if_neg hu]
        omega
      · rw [wr_neg _ _ _ (by omega)]
    · rw [rd_wr_ne _ _ _ _ hin]
      omega

/-- With `cnt t.buffer 2 n * (maxRevisited + 1) + (maxRevisited -
visitingAlreadyVisited) + 1` trips at its disposal the main loop of `trace4`
is left by `break` or by `return`: a trip either turns a `Visited` cell into a
`Traced` one or raises `visitingAlreadyVisited`, which is below
`maxRevisited` when it is raised. -/
theorem traceLoop_ends (initialI cwDir : Int) (off4 off8 : List Int) (n : Nat) (fuel : Nat) :
    ∀ t : Trace, (∀ c : Int, rd t.buffer c = 2 → c < n) →
      0 ≤ t.visitingAlreadyVisited → t.visitingAlreadyVisited ≤ maxRevisited →
      cnt t.buffer 2 n * (maxRevisited.toNat + 1) +
        (maxRevisited - t.visitingAlreadyVisited).toNat + 1 ≤ fuel →
      (traceLoop initialI cwDir off4 off8 fuel t).2 ≠ TraceExit.outOfFuel := by
  induction fuel with
  | zero => intro t _ _ _ h; omega
  | succ fuel ih =>
    intro t hn hv0 hv1 hf
    rw [traceLoop]
    split
    · rename_i nextI dir k1 hs
      have h2 := searchNew_some _ _ _ _ _ _ _ _ _ _ _ hs
      have h0 : 0 ≤ nextI := by
        by_contra hneg
        rw [rd_neg _ _ (by omega)] at h2
        exact absurd h2 (by norm_num)
      have hc := cnt_wr t.buffer 2 3 nextI n h0 (hn nextI h2) h2 (by norm_num)
      apply ih
      · intro c hc2
        apply hn
        show rd t.buffer c = 2
        by_cases e : nextI = c
        · subst e
          rw [rd_wr_same _ _ _ h0] at hc2
          exact absurd hc2 (by norm_num)
        · rw [rd_wr_ne _ _ _ _ e] at hc2
          exact hc2
      · show (0 : Int) ≤ 0
        exact le_refl _
      · show (0 : Int) ≤ maxRevisited
        decide
      · show cnt (wr t.buffer nextI 3) 2 n * (maxRevisited.toNat + 1) +
          (maxRevisited - 0).toNat + 1 ≤ fuel
        have e : cnt t.buffer 2 n * (maxRevisited.toNat + 1) =
            cnt (wr t.buffer nextI 3) 2 n * (maxRevisited.toNat + 1) +
              (maxRevisited.toNat + 1) := by
          rw [← hc]
          ring
        have e2 : (maxRevisited - 0).toNat = maxRevisited.toNat := by simp
        omega
    · rename_i k1 hs
      split
      · simp
      · rename_i hcap
        split
        · simp
        · rename_i nextI dir hs2
          have h3 := searchTraced_some _ _ _ _ _ _ _ _ _ hs2
          split
          · simp
          · push_neg at hcap
            apply ih
            · intro c hc2
              apply hn
              show rd t.buffer c = 2
              by_cases e : nextI = c
              · subst e
                by_cases h0 : 0 ≤ nextI
                · rw [rd_wr_same _ _ _ h0] at hc2
                  exact absurd hc2 (by norm_num)
                · rw [wr_neg _ _ _ (by omega)] at hc2
                  exact hc2
              · rw [rd_wr_ne _ _ _ _ e] at hc2
                exact hc2
            · show (0 : Int) ≤ t.visitingAlreadyVisited + 1
              omega
            · show t.visitingAlreadyVisited + 1 ≤ maxRevisited
              omega
            · show cnt (wr t.buffer nextI 3) 2 n * (maxRevisited.toNat + 1) +
                (maxRevisited - (t.visitingAlreadyVisited + 1)).toNat + 1 ≤ fuel
              have e : cnt (wr t.buffer nextI 3) 2 n ≤ cnt t.buffer 2 n :=
                cnt_wr_le _ _ _ _ (by norm_num) _
              have e1 := Nat.mul_le_mul_right (maxRevisited.toNat + 1) e
              have e2 : (maxRevisited - (t.visitingAlreadyVisited + 1)).toNat + 1 =
                  (maxRevisited - t.visitingAlreadyVisited).toNat := by omega
              omega

/-- A main loop of `trace4` that is left by `break` or `return` within `fuel`
trips is left in the same way with any larger bound on the trips. -/
theorem traceLoop_fuel (initialI cwDir : Int) (off4 off8 : List Int) (fuel : Nat) :
    ∀ t : Trace, (traceLoop initialI cwDir off4 off8 fuel t).2 ≠ TraceExit.outOfFuel →
      ∀ fuel1 : Nat, fuel ≤ fuel1 →
        traceLoop initialI cwDir off4 off8 fuel1 t = traceLoop initialI cwDir off4 off8 fuel t := by
  induction fuel with
  | zero => intro t h; simp [traceLoop] at h
  | succ fuel ih =>
    intro t h fuel1 hf
    obtain ⟨f1, rfl⟩ : ∃ f1, fuel1 = f1 + 1 := ⟨fuel1 - 1, by omega⟩
    rw [traceLoop] at h ⊢
    rw [traceLoop]
    split
    · rename_i nextI dir k1 hs
      simp only [hs] at h
      exact ih _ h f1 (by omega)
    · rename_i k1 hs
      simp only [hs] at h
      split
      · rfl
      · rename_i hcap
        rw [if_neg hcap] at h
        split
        · rfl
        · rename_i nextI dir hs2
          simp only [hs2] at h
          split
          · rfl
          · rename_i hne
            rw [if_neg hne] at h
            exact ih _ h f1 (by omega)

/-- For `cwDir` 1 or -1 the first search loop of `trace4` is back at the
offset index it started from after 4 trips: a larger bound on the trips
changes nothing. -/
theorem searchNew_trips (prevI cwDir : Int) (off4 off8 : List Int) (b : Nat) (k0 : Int)
    (hc : cwDir = 1 ∨ cwDir = -1) (h0 : 0 ≤ k0) (h1 : k0 < 4) (m : Nat) :
    searchNew prevI cwDir off4 off8 b k0 (4 + m) k0 = searchNew prevI cwDir off4 off8 b k0 4 k0 := by
  have e : 4 + m = (m + 3) + 1 := by omega
  rw [e]
  have hk : k0 = 0 ∨ k0 = 1 ∨ k0 = 2 ∨ k0 = 3 := by omega
  rcases hc with rfl | rfl <;> rcases hk with rfl | rfl | rfl | rfl <;>
    simp [searchNew]

/-- For `cwDir` 1 or -1 the second search loop of `trace4` makes at most 4
trips as well. -/
theorem searchTraced_trips (prevI cwDir : Int) (off4 : List Int) (b : Nat) (k0 : Int)
    (hc : cwDir = 1 ∨ cwDir = -1) (h0 : 0 ≤ k0) (h1 : k0 < 4) (m : Nat) :
    searchTraced prevI cwDir off4 b k0 (4 + m) k0 = searchTraced prevI cwDir off4 b k0 4 k0 := by
  have e : 4 + m = (m + 3) + 1 := by omega
  rw [e]
  have hk : k0 = 0 ∨ k0 = 1 ∨ k0 = 2 ∨ k0 = 3 := by omega
  rcases hc with rfl | rfl <;> rcases hk with rfl | rfl | rfl | rfl <;>
    simp [searchTraced]

theorem searchNew_none_back (prevI cwDir : Int) (off4 off8 : List Int) (b : Nat) (k0 : Int)
    (hc : cwDir = 1 ∨ cwDir = -1) (n : Nat) : ∀ (k k1 : Int), 0 ≤ k → k < 4 →
      searchNew prevI cwDir off4 off8 b k0 n k = (none, k1) →
      k1 = k0 ∨ k1 = (k + n * cwDir) % 4 := by
  induction n with
  | zero =>
    intro k k1 h0 h1 h
    simp only [searchNew, Prod.mk.injEq, true_and] at h
    subst h
    right
    simp only [Nat.cast_zero, zero_mul, add_zero]
    omega
  | succ n ih =>
    intro k k1 h0 h1 h
    simp only [searchNew] at h
    split at h
    · simp at h
    · split at h
      · rcases ih _ _ (Int.emod_nonneg _ (by norm_num)) (Int.emod_lt_of_pos _ (by norm_num)) h
          with e | e
        · exact Or.inl e
        · right
          rw [e]
          push_cast
          rcases hc with rfl | rfl <;> omega
      · rename_i hb
        simp only [Prod.mk.injEq, true_and] at h
        push_neg at hb
        left
        rw [← h, hb]

/-- For `cwDir` 1 or -1 the first search loop of `trace4`, when it finds no
new edge pixel, leaves `offsetIndex` at the index it started from. -/
theorem searchNew_none_index (prevI cwDir : Int) (off4 off8 : List Int) (b : Nat) (k0 : Int)
    (hc : cwDir = 1 ∨ cwDir = -1) (h0 : 0 ≤ k0) (h1 : k0 < 4) (k1 : Int)
    (h : searchNew prevI cwDir off4 off8 b k0 4 k0 = (none, k1)) : k1 = k0 := by
  rcases searchNew_none_back prevI cwDir off4 off8 b k0 hc 4 k0 k1 h0 h1 h with e | e
  · exact e
  · rw [e]
    push_cast
    rcases hc with rfl | rfl <;> omega

/-! ## The path of the tracer -/

theorem offsetAt_four (s d : Int) (h0 : 0 ≤ d) (h1 : d < 4) (a : Int) :
    Adjacent4 s a (a + offsetAt (cwNeighborOffsets4 s) d) := by
  have hd : d = 0 ∨ d = 1 ∨ d = 2 ∨ d = 3 := by omega
  unfold Adjacent4
  rcases hd with rfl | rfl | rfl | rfl
  · left; simp [offsetAt, cwNeighborOffsets4]; ring
  · right; left; simp [offsetAt, cwNeighborOffsets4]
  · right; right; left; simp [offsetAt, cwNeighborOffsets4]
  · right; right; right; simp [offsetAt, cwNeighborOffsets4]; ring

theorem Walk4.snoc {s : Int} {l : List Int} (hl : Walk4 s l) (p n : Int)
    (hp : l.getLast? = some p) (hn : Adjacent4 s p n) : Walk4 s (l ++ [n]) := by
  intro k hk
  simp only [List.length_append, List.length_singleton] at hk
  by_cases hk1 : k + 1 < l.length
  · have := hl k hk1
    rw [List.getD_append _ _ _ _ (by omega), List.getD_append _ _ _ _ hk1]
    exact this
  · have hk2 : k + 1 = l.length := by omega
    have e1 : (l ++ [n]).getD k 0 = p := by
      rw [List.getD_append _ _ _ _ (by omega)]
      rw [List.getLast?_eq_getElem?] at hp
      rw [List.getD_eq_getElem?_getD]
      have : l.length - 1 = k := by omega
      rw [this] at hp
      rw [hp]
      rfl
    have e2 : (l ++ [n]).getD (k + 1) 0 = n := by
      rw [List.getD_append_right _ _ _ _ (by omega)]
      have : k + 1 - l.length = 0 := by omega
      rw [this]
      rfl
    rw [e1, e2]
    exact hn

/-- The main loop of `trace4` with the table `cwNeighborOffsets4`: the stack is
a walk from the start cell through 4-neighbours, its last entry is `prevI`. -/
theorem traceLoop_walk (initialI cwDir s : Int) (off8 : List Int) (fuel : Nat) (t : Trace)
    (h1 : t.stack.head? = some initialI) (h2 : t.stack.getLast? = some t.prevI)
    (h3 : Walk4 s t.stack) :
    (traceLoop initialI cwDir (cwNeighborOffsets4 s) off8 fuel t).1.stack.head? = some initialI ∧
    Walk4 s (traceLoop initialI cwDir (cwNeighborOffsets4 s) off8 fuel t).1.stack ∧
    ((traceLoop initialI cwDir (cwNeighborOffsets4 s) off8 fuel t).2 = TraceExit.closed →
      ∃ p, (traceLoop initialI cwDir (cwNeighborOffsets4 s) off8 fuel t).1.stack.getLast? = some p ∧
        Adjacent4 s p initialI) := by
  obtain ⟨t1, ⟨a1, a2, a3⟩, hx⟩ := traceLoop_induct initialI cwDir (cwNeighborOffsets4 s) off8
    (fun t => t.stack.head? = some initialI ∧ t.stack.getLast? = some t.prevI ∧ Walk4 s t.stack)
    (by
      rintro t nextI d ⟨b1, b2, b3⟩ _ e d0 d1
      refine ⟨?_, by simp, b3.snoc t.prevI nextI b2 (e ▸ offsetAt_four s d d0 d1 _)⟩
      show (t.stack ++ [nextI]).head? = some initialI
      rw [List.head?_append, b1]
      rfl)
    (by
      rintro t nextI d ⟨b1, b2, b3⟩ _ e d0 d1 _ _ _
      refine ⟨?_, by simp, b3.snoc t.prevI nextI b2 (e ▸ offsetAt_four s d d0 d1 _)⟩
      show (t.stack ++ [nextI]).head? = some initialI
      rw [List.head?_append, b1]
      rfl)
    fuel t ⟨h1, h2, h3⟩
  rcases hx with e | e | ⟨d, d0, d1, e1, _, e⟩
  · rw [e]
    exact ⟨a1, a3, fun h => by simp at h⟩
  · rw [e]
    exact ⟨a1, a3, fun h => by simp at h⟩
  · rw [e]
    exact ⟨a1, a3, fun _ => ⟨t1.prevI, a2, e1 ▸ offsetAt_four s d d0 d1 _⟩⟩

theorem trace4_exit (i cwDir : Int) (off4 off8 : List Int) (b : Nat) (s : Int)
    (pts : List Point) :
    (trace4 i cwDir off4 off8 b s pts).exit =
      (traceLoop i cwDir off4 off8 ((memSize b + 1) * (maxRevisited.toNat + 2))
        ⟨wr b i 3, [i], i, 1, 0⟩).2 := by
  unfold trace4
  simp only []
  split
  · split <;> rfl
  · rfl

/-- The bound `trace4` puts on the trips of its main loop is never reached. -/
theorem trace4_fuel (i cwDir : Int) (off4 off8 : List Int) (b : Nat) :
    (traceLoop i cwDir off4 off8 ((memSize b + 1) * (maxRevisited.toNat + 2))
        ⟨wr b i 3, [i], i, 1, 0⟩).2 ≠ TraceExit.outOfFuel := by
  apply traceLoop_ends i cwDir off4 off8 (memSize b)
  · intro c hc
    show c < (memSize b : Int)
    by_contra hn
    have h3 : rd (wr b i 3) c = 2 := hc
    by_cases e : i = c
    · subst e
      by_cases h0 : 0 ≤ i
      · rw [rd_wr_same _ _ _ h0] at h3
        exact absurd h3 (by norm_num)
      · rw [rd_neg _ _ (by omega)] at h3
        exact absurd h3 (by norm_num)
    · rw [rd_wr_ne _ _ _ _ e, rd_eq_zero_of_memSize_le b c (by omega)] at h3
      exact absurd h3 (by norm_num)
  · show (0 : Int) ≤ 0
    exact le_refl _
  · show (0 : Int) ≤ maxRevisited
    decide
  · show cnt (wr b i 3) 2 (memSize b) * (maxRevisited.toNat + 1) +
      (maxRevisited - 0).toNat + 1 ≤ (memSize b + 1) * (maxRevisited.toNat + 2)
    have e1 : cnt (wr b i 3) 2 (memSize b) ≤ memSize b :=
      le_trans (cnt_wr_le b 2 3 i (by norm_num) _) (cnt_le_memSize b 2 (by norm_num) _)
    have e2 := Nat.mul_le_mul_right (maxRevisited.toNat + 1) e1
    have e3 : (maxRevisited - 0).toNat = maxRevisited.toNat := by simp
    have e4 : (memSize b + 1) * (maxRevisited.toNat + 2) =
        memSize b * (maxRevisited.toNat + 1) + memSize b + (maxRevisited.toNat + 2) := by ring
    omega

/-- One trip of the main loop of `trace4`: the loop is left, or a `Visited`
cell becomes `Traced` and the fallback counter is reset, or the fallback
counter, which is below `maxRevisited`, is raised by one and the mask keeps
its cells. -/
theorem traceLoop_trip (initialI cwDir : Int) (off4 off8 : List Int) (fuel : Nat) (t : Trace) :
    traceLoop initialI cwDir off4 off8 (fuel + 1) t = (t, TraceExit.aborted) ∨
    (∃ d : Int, traceLoop initialI cwDir off4 off8 (fuel + 1) t =
      (⟨t.buffer, t.stack, t.prevI, d, t.visitingAlreadyVisited + 1⟩, TraceExit.closed)) ∨
    (∃ nextI d : Int, rd t.buffer nextI = 2 ∧ rd (wr t.buffer nextI 3) nextI = 3 ∧
      traceLoop initialI cwDir off4 off8 (fuel + 1) t =
        traceLoop initialI cwDir off4 off8 fuel
          ⟨wr t.buffer nextI 3, t.stack ++ [nextI], nextI, d, 0⟩) ∨
    (∃ nextI d : Int, rd t.buffer nextI = 3 ∧ (∀ c : Int, rd (wr t.buffer nextI 3) c = rd t.buffer c) ∧
      t.visitingAlreadyVisited < maxRevisited ∧ (t.stack.length : Int) < maxStackSize ∧
      traceLoop initialI cwDir off4 off8 (fuel + 1) t =
        traceLoop initialI cwDir off4 off8 fuel
          ⟨wr t.buffer nextI 3, t.stack ++ [nextI], nextI, d, t.visitingAlreadyVisited + 1⟩) := by
  rw [traceLoop]
  split
  · rename_i nextI dir k1 hs
    have h2 := searchNew_some _ _ _ _ _ _ _ _ _ _ _ hs
    have h0 : 0 ≤ nextI := by
      by_contra hneg
      rw [rd_neg _ _ (by omega)] at h2
      exact absurd h2 (by norm_num)
    exact Or.inr (Or.inr (Or.inl ⟨nextI, dir, h2, by rw [rd_wr_same _ _ _ h0], rfl⟩))
  · rename_i k1 hs
    split
    · exact Or.inl rfl
    · rename_i hcap
      split
      · exact Or.inl rfl
      · rename_i nextI dir hs2
        have h3 := searchTraced_some _ _ _ _ _ _ _ _ _ hs2
        split
        · exact Or.inr (Or.inl ⟨dir, rfl⟩)
        · push_neg at hcap
          refine Or.inr (Or.inr (Or.inr ⟨nextI, dir, h3, fun c => ?_, hcap.1, hcap.2, rfl⟩))
          by_cases e : nextI = c
          · subst e
            have h0 : 0 ≤ nextI := by
              by_contra hneg
              rw [rd_neg _ _ (by omega)] at h3
              exact absurd h3 (by norm_num)
            rw [rd_wr_same _ _ _ h0, h3]
          · exact rd_wr_ne _ _ _ _ e

/-! ## Trace and undo -/

theorem rd_undo (l : List Int) : ∀ (b : Nat) (c : Int), (∀ i ∈ l, 0 ≤ i) →
    rd (l.foldl (fun b i => wr b i 2) b) c = if c ∈ l then 2 else rd b c := by
  induction l with
  | nil => intro b c _; simp
  | cons i l ih =>
    intro b c hl
    simp only [List.foldl_cons]
    rw [ih (wr b i 2) c (fun j hj => hl j (List.mem_cons_of_mem _ hj))]
    by_cases hc : c ∈ l
    · rw [if_pos hc, if_pos (List.mem_cons_of_mem _ hc)]
    · rw [if_neg hc]
      by_cases e : i = c
      · subst e
        rw [rd_wr_same _ _ _ (hl i (List.mem_cons_self _ _)), if_pos (List.mem_cons_self _ _)]
      · rw [rd_wr_ne _ _ _ _ e, if_neg]
        intro h
        rcases List.mem_cons.mp h with h | h
        · exact e h.symm
        · exact hc h

theorem trace4_stackSize (i cwDir : Int) (off4 off8 : List Int) (b : Nat) (s : Int)
    (pts : List Point) :
    (trace4 i cwDir off4 off8 b s pts).stackSize =
      if (traceLoop i cwDir off4 off8 ((memSize b + 1) * (maxRevisited.toNat + 2))
          ⟨wr b i 3, [i], i, 1, 0⟩).2 = TraceExit.closed then
        (((traceLoop i cwDir off4 off8 ((memSize b + 1) * (maxRevisited.toNat + 2))
          ⟨wr b i 3, [i], i, 1, 0⟩).1.stack.length : Nat) : Int)
      else
        (((traceLoop i cwDir off4 off8 ((memSize b + 1) * (maxRevisited.toNat + 2))
          ⟨wr b i 3, [i], i, 1, 0⟩).1.stack.length : Nat) : Int) -
        (traceLoop i cwDir off4 off8 ((memSize b + 1) * (maxRevisited.toNat + 2))
          ⟨wr b i 3, [i], i, 1, 0⟩).1.visitingAlreadyVisited := by
  unfold trace4
  simp only []
  split
  · rename_i h
    rw [if_pos h]
    split <;> rfl
  · rename_i h
    rw [if_neg (fun hc => h hc)]

/-- The cells the main loop of `trace4` has turned to `Traced` are on the
stack below its last `visitingAlreadyVisited` entries. -/
theorem traceLoop_prefix (initialI cwDir : Int) (off4 off8 : List Int) (b0 : Nat) (fuel : Nat)
    (t : Trace) (h0 : 0 ≤ t.visitingAlreadyVisited)
    (h1 : t.visitingAlreadyVisited < t.stack.length)
    (h2 : ∀ c : Int, rd t.buffer c = 3 → rd b0 c = 3 ∨
      c ∈ t.stack.take (t.stack.length - t.visitingAlreadyVisited.toNat)) :
    ∃ t1 : Trace, (0 ≤ t1.visitingAlreadyVisited ∧
        t1.visitingAlreadyVisited < t1.stack.length ∧
        ∀ c : Int, rd t1.buffer c = 3 → rd b0 c = 3 ∨
          c ∈ t1.stack.take (t1.stack.length - t1.visitingAlreadyVisited.toNat)) ∧
      (traceLoop initialI cwDir off4 off8 fuel t = (t1, TraceExit.aborted) ∨
       traceLoop initialI cwDir off4 off8 fuel t = (t1, TraceExit.outOfFuel) ∨
       ∃ d : Int, 0 ≤ d ∧ d < 4 ∧ initialI = t1.prevI + offsetAt off4 d ∧
         rd t1.buffer initialI = 3 ∧
         traceLoop initialI cwDir off4 off8 fuel t =
           (⟨t1.buffer, t1.stack, t1.prevI, d, t1.visitingAlreadyVisited + 1⟩,
             TraceExit.closed)) := by
  apply traceLoop_induct initialI cwDir off4 off8
    (fun t => 0 ≤ t.visitingAlreadyVisited ∧ t.visitingAlreadyVisited < t.stack.length ∧
      ∀ c : Int, rd t.buffer c = 3 → rd b0 c = 3 ∨
        c ∈ t.stack.take (t.stack.length - t.visitingAlreadyVisited.toNat))
  · rintro t nextI d ⟨b1, b2, b3⟩ hn _ _ _
    refine ⟨le_refl _, ?_, ?_⟩
    · show (0 : Int) < ((t.stack ++ [nextI]).length : Nat)
      simp only [List.length_append, List.length_singleton]
      omega
    · intro c hc
      show rd b0 c = 3 ∨ c ∈ (t.stack ++ [nextI]).take ((t.stack ++ [nextI]).length - (0 : Int).toNat)
      have hc3 : rd (wr t.buffer nextI 3) c = 3 := hc
      simp only [Int.toNat_zero, Nat.sub_zero, List.take_length]
      by_cases e : nextI = c
      · subst e
        right
        simp
      · rw [rd_wr_ne _ _ _ _ e] at hc3
        rcases b3 c hc3 with h | h
        · exact Or.inl h
        · exact Or.inr (List.mem_append_left _ (List.mem_of_mem_take h))
  · rintro t nextI d ⟨b1, b2, b3⟩ hn _ _ _ _ _ _
    refine ⟨?_, ?_, ?_⟩
    · show (0 : Int) ≤ t.visitingAlreadyVisited + 1
      omega
    · show t.visitingAlreadyVisited + 1 < ((t.stack ++ [nextI]).length : Nat)
      simp only [List.length_append, List.length_singleton]
      omega
    · intro c hc
      show rd b0 c = 3 ∨ c ∈ (t.stack ++ [nextI]).take
        ((t.stack ++ [nextI]).length - (t.visitingAlreadyVisited + 1).toNat)
      have hc3 : rd (wr t.buffer nextI 3) c = 3 := hc
      have e1 : (t.stack ++ [nextI]).length - (t.visitingAlreadyVisited + 1).toNat =
          t.stack.length - t.visitingAlreadyVisited.toNat := by
        simp only [List.length_append, List.length_singleton]
        omega
      rw [e1, List.take_append_of_le_length (by omega)]
      apply b3
      by_cases e : nextI = c
      · subst e
        exact hn
      · rw [rd_wr_ne _ _ _ _ e] at hc3
        exact hc3
  · exact ⟨h0, h1, h2⟩

/-- The cells `trace4` has turned to `Traced` are among the first
`outStackSize` entries of its stack. -/
theorem trace4_prefix (i cwDir : Int) (off4 off8 : List Int) (b : Nat) (s : Int)
    (pts : List Point) (c : Int) (hc : rd (trace4 i cwDir off4 off8 b s pts).buffer c = 3) :
    rd b c = 3 ∨ c ∈ (trace4 i cwDir off4 off8 b s pts).stack.take
      (trace4 i cwDir off4 off8 b s pts).stackSize.toNat := by
  rw [trace4_stackSize, trace4_stack]
  rw [trace4_buffer] at hc
  obtain ⟨t1, ⟨a1, a2, a3⟩, hx⟩ := traceLoop_prefix i cwDir off4 off8 b
    ((memSize b + 1) * (maxRevisited.toNat + 2)) ⟨wr b i 3, [i], i, 1, 0⟩ (le_refl _)
    (by show (0 : Int) < (([i] : List Int).length : Nat); simp) (by
      intro c hc
      have hc3 : rd (wr b i 3) c = 3 := hc
      show rd b c = 3 ∨ c ∈ ([i] : List Int).take (([i] : List Int).length - (0 : Int).toNat)
      by_cases e : i = c
      · subst e
        right
        simp
      · rw [rd_wr_ne _ _ _ _ e] at hc3
        exact Or.inl hc3)
  rcases hx with e | e | ⟨d, _, _, _, _, e⟩
  · rw [e] at hc ⊢
    rw [if_neg (by simp)]
    rcases a3 c hc with h | h
    · exact Or.inl h
    · right
      have e2 : ((t1.stack.length : Int) - t1.visitingAlreadyVisited).toNat =
          t1.stack.length - t1.visitingAlreadyVisited.toNat := by omega
      show c ∈ t1.stack.take ((t1.stack.length : Int) - t1.visitingAlreadyVisited).toNat
      rw [e2]
      exact h
  · rw [e] at hc ⊢
    rw [if_neg (by simp)]
    rcases a3 c hc with h | h
    · exact Or.inl h
    · right
      have e2 : ((t1.stack.length : Int) - t1.visitingAlreadyVisited).toNat =
          t1.stack.length - t1.visitingAlreadyVisited.toNat := by omega
      show c ∈ t1.stack.take ((t1.stack.length : Int) - t1.visitingAlreadyVisited).toNat
      rw [e2]
      exact h
  · rw [e] at hc ⊢
    rw [if_pos rfl]
    rcases a3 c hc with h | h
    · exact Or.inl h
    · right
      show c ∈ t1.stack.take ((t1.stack.length : Nat) : Int).toNat
      rw [Int.toNat_ofNat, List.take_length]
      exact List.mem_of_mem_take h

/-- After `trace4` from a `Visited` cell, `traceUndo` with the stack and the
stack size `trace4` reported gives back the mask `trace4` started from,
provided the cells on the stack were `Visited` in it. -/
theorem trace4_undo (i cwDir : Int) (off4 off8 : List Int) (b : Nat) (s : Int)
    (pts : List Point) (h2 : rd b i = 2)
    (hst : ∀ c ∈ (trace4 i cwDir off4 off8 b s pts).stack, rd b c = 2) :
    traceUndo (trace4 i cwDir off4 off8 b s pts).buffer (trace4 i cwDir off4 off8 b s pts).stack
      (trace4 i cwDir off4 off8 b s pts).stackSize = b := by
  obtain ⟨hr, h3, _⟩ := trace4_spec i cwDir off4 off8 b s pts h2
  apply mem_ext
  intro c
  unfold traceUndo
  rw [rd_undo _ _ _ (by
    intro j hj
    have hj1 := List.mem_of_mem_take (List.mem_reverse.mp hj)
    have := h3 j hj1
    by_contra hn
    rw [rd_neg _ _ (by omega)] at this
    exact absurd this (by norm_num))]
  by_cases hc : c ∈ ((trace4 i cwDir off4 off8 b s pts).stack.take
      (trace4 i cwDir off4 off8 b s pts).stackSize.toNat).reverse
  · rw [if_pos hc]
    exact (hst c (List.mem_of_mem_take (List.mem_reverse.mp hc))).symm
  · rw [if_neg hc]
    rcases hr c with e | ⟨e1, e2⟩
    · exact e
    · exfalso
      rcases trace4_prefix i cwDir off4 off8 b s pts c e2 with h | h
      · rw [e1] at h
        exact absurd h (by norm_num)
      · exact hc (List.mem_reverse.mpr h)

/-- The stack of `trace4`, started on a `Visited` cell of a mask without
`Traced` cells, holds cells that were `Visited`. -/
theorem trace4_stack_visited (i cwDir : Int) (off4 off8 : List Int) (b : Nat) (s : Int)
    (pts : List Point) (h2 : rd b i = 2) (hno : ∀ c : Int, rd b c ≠ 3) :
    ∀ c ∈ (trace4 i cwDir off4 off8 b s pts).stack, rd b c = 2 := by
  obtain ⟨hr, h3, _⟩ := trace4_spec i cwDir off4 off8 b s pts h2
  intro c hc
  rcases hr c with e | ⟨e1, _⟩
  · rw [h3 c hc] at e
    exact absurd e.symm (hno c)
  · exact e1

theorem trace4_fallbacks (i cwDir : Int) (off4 off8 : List Int) (b : Nat) (s : Int)
    (pts : List Point) :
    (trace4 i cwDir off4 off8 b s pts).fallbacks =
      (traceLoop i cwDir off4 off8 ((memSize b + 1) * (maxRevisited.toNat + 2))
        ⟨wr b i 3, [i], i, 1, 0⟩).1.visitingAlreadyVisited := by
  unfold trace4
  simp only []
  split
  · split <;> rfl
  · rfl

/-- A trace given up inside its main loop reports no point. -/
theorem trace4_pointCount_open (i cwDir : Int) (off4 off8 : List Int) (b : Nat) (s : Int)
    (pts : List Point)
    (hx : (traceLoop i cwDir off4 off8 ((memSize b + 1) * (maxRevisited.toNat + 2))
        ⟨wr b i 3, [i], i, 1, 0⟩).2 ≠ TraceExit.closed) :
    (trace4 i cwDir off4 off8 b s pts).pointCount = 0 := by
  unfold trace4
  simp only []

/-- The 5x5 padded mask with the `Visited` 3x3 square has no `Traced` cell. -/
theorem square3_no_traced : ∀ c : Int, rd square3Mask c ≠ 3 := by
  intro c
  by_cases h0 : 0 ≤ c
  · by_cases h1 : c < 25
    · have key : ∀ c : Int, 0 ≤ c → c < 25 → rd square3Mask c ≠ 3 := by decide!
      exact key c h0 h1
    · have hm : memSize square3Mask ≤ 25 := by decide!
      rw [rd_eq_zero_of_memSize_le _ _ (by omega)]
      norm_num
  · rw [rd_neg _ _ (by omega)]
    norm_num

/-! ## The claims about the tracer -/

/-- C23: `trace4` always terminates. For every mask, every start cell and
`cwDir` 1 or -1: the main loop of `trace4` is left by `break` or by `return`
before the bound on its trips is reached, and a larger bound gives the same
run; a trip that does not leave the loop either turns a `Visited` cell into a
`Traced` one, or raises the fallback counter `visitingAlreadyVisited` by one,
which happens only while the counter is below `maxRevisited` and the stack is
below `maxStackSize`; and the two search loops inside a trip make at most 4
trips each. -/
theorem trace4_terminates (i cwDir : Int) (off4 off8 : List Int) (b : Nat) (s : Int)
    (pts : List Point) (hc : cwDir = 1 ∨ cwDir = -1) :
    (trace4 i cwDir off4 off8 b s pts).exit ≠ TraceExit.outOfFuel ∧
    (∀ fuel : Nat, (memSize b + 1) * (maxRevisited.toNat + 2) ≤ fuel →
      traceLoop i cwDir off4 off8 fuel ⟨wr b i 3, [i], i, 1, 0⟩ =
        traceLoop i cwDir off4 off8 ((memSize b + 1) * (maxRevisited.toNat + 2))
          ⟨wr b i 3, [i], i, 1, 0⟩) ∧
    (∀ (fuel : Nat) (t : Trace),
      traceLoop i cwDir off4 off8 (fuel + 1) t = (t, TraceExit.aborted) ∨
      (∃ d : Int, traceLoop i cwDir off4 off8 (fuel + 1) t =
        (⟨t.buffer, t.stack, t.prevI, d, t.visitingAlreadyVisited + 1⟩, TraceExit.closed)) ∨
      (∃ nextI d : Int, rd t.buffer nextI = 2 ∧ rd (wr t.buffer nextI 3) nextI = 3 ∧
        traceLoop i cwDir off4 off8 (fuel + 1) t =
          traceLoop i cwDir off4 off8 fuel
            ⟨wr t.buffer nextI 3, t.stack ++ [nextI], nextI, d, 0⟩) ∨
      (∃ nextI d : Int, rd t.buffer nextI = 3 ∧
        (∀ c : Int, rd (wr t.buffer nextI 3) c = rd t.buffer c) ∧
        t.visitingAlreadyVisited < maxRevisited ∧ (t.stack.length : Int) < maxStackSize ∧
        traceLoop i cwDir off4 off8 (fuel + 1) t =
          traceLoop i cwDir off4 off8 fuel
            ⟨wr t.buffer nextI 3, t.stack ++ [nextI], nextI, d,
              t.visitingAlreadyVisited + 1⟩)) ∧
    (∀ (prevI : Int) (buffer : Nat) (k0 : Int) (m : Nat), 0 ≤ k0 → k0 < 4 →
      searchNew prevI cwDir off4 off8 buffer k0 (4 + m) k0 =
        searchNew prevI cwDir off4 off8 buffer k0 4 k0 ∧
      searchTraced prevI cwDir off4 buffer k0 (4 + m) k0 =
        searchTraced prevI cwDir off4 buffer k0 4 k0) := by
  refine ⟨?_, fun fuel hf => ?_, fun fuel t => traceLoop_trip i cwDir off4 off8 fuel t,
    fun prevI buffer k0 m h0 h1 => ⟨searchNew_trips prevI cwDir off4 off8 buffer k0 hc h0 h1 m,
      searchTraced_trips prevI cwDir off4 buffer k0 hc h0 h1 m⟩⟩
  · rw [trace4_exit]
    exact trace4_fuel i cwDir off4 off8 b
  · exact traceLoop_fuel i cwDir off4 off8 _ _ (trace4_fuel i cwDir off4 off8 b) fuel hf

/-- C23, witness: the trace of the filled 3x3 square. -/
theorem trace4_terminates_witness :
    (trace4 6 1 (cwNeighborOffsets4 5) (cwNeighborOffsets8 5) square3Mask 5 []).exit ≠
      TraceExit.outOfFuel :=
  (trace4_terminates 6 1 (cwNeighborOffsets4 5) (cwNeighborOffsets8 5) square3Mask 5 []
    (Or.inl rfl)).1

/-- C26: the traced path is a 4-connected walk of `Traced` cells. For every
mask, stride, winding and start cell (an index that is not negative), when
`trace4` returns: `stack[0]` is the start cell; every later entry of the
recorded path is the neighbour above, right, below or left of the entry
before it; every recorded cell has the value `Traced` (3) in the mask; and
when the main loop was left by `break` (the trace closed), the last recorded
cell has the start cell as one of its 4 neighbours. -/
theorem trace4_walk (i cwDir : Int) (b : Nat) (s : Int) (pts : List Point) (h0 : 0 ≤ i) :
    (trace4 i cwDir (cwNeighborOffsets4 s) (cwNeighborOffsets8 s) b s pts).stack.head? = some i ∧
    (∀ k : Nat,
      k + 1 < (trace4 i cwDir (cwNeighborOffsets4 s) (cwNeighborOffsets8 s) b s pts).stack.length →
      Adjacent4 s
        ((trace4 i cwDir (cwNeighborOffsets4 s) (cwNeighborOffsets8 s) b s pts).stack.getD k 0)
        ((trace4 i cwDir (cwNeighborOffsets4 s) (cwNeighborOffsets8 s) b s pts).stack.getD
          (k + 1) 0)) ∧
    (∀ c ∈ (trace4 i cwDir (cwNeighborOffsets4 s) (cwNeighborOffsets8 s) b s pts).stack,
      rd (trace4 i cwDir (cwNeighborOffsets4 s) (cwNeighborOffsets8 s) b s pts).buffer c = 3) ∧
    ((trace4 i cwDir (cwNeighborOffsets4 s) (cwNeighborOffsets8 s) b s pts).exit =
        TraceExit.closed →
      ∃ p : Int,
        (trace4 i cwDir (cwNeighborOffsets4 s) (cwNeighborOffsets8 s) b s pts).stack.getLast? =
          some p ∧ Adjacent4 s p i) := by
  rw [trace4_stack, trace4_buffer, trace4_exit]
  obtain ⟨a1, a2, a3⟩ := traceLoop_walk i cwDir s (cwNeighborOffsets8 s)
    ((memSize b + 1) * (maxRevisited.toNat + 2)) ⟨wr b i 3, [i], i, 1, 0⟩ rfl rfl
    (fun k hk => by simp at hk)
  obtain ⟨_, a4, _⟩ := traceLoop_spec i cwDir (cwNeighborOffsets4 s) (cwNeighborOffsets8 s)
    ((memSize b + 1) * (maxRevisited.toNat + 2)) ⟨wr b i 3, [i], i, 1, 0⟩ (by
      intro c hc
      simp only [List.mem_singleton] at hc
      subst hc
      show rd (wr b c 3) c = 3
      rw [rd_wr_same _ _ _ h0])
  exact ⟨a1, a2, a4, a3⟩

/-- C26, witness: the path of the trace of the filled 3x3 square starts at
cell 6. -/
theorem trace4_walk_witness :
    (trace4 6 1 (cwNeighborOffsets4 5) (cwNeighborOffsets8 5) square3Mask 5 []).stack.head? =
      some 6 :=
  (trace4_walk 6 1 square3Mask 5 [] (by decide)).1

/-- C22: trace followed by undo is the identity on the mask. For every mask
without `Traced` cell, every `Visited` start cell, every winding and every
pair of offset tables: `traceUndo`, run on the mask `trace4` leaves with the
stack and the stack size `trace4` reported, gives back the mask as it was
before `trace4`, however the trace ended. When the trace was given up inside
its main loop it reports no point and the stack size less the final
`visitingAlreadyVisited` (the revisited entries at the end of the stack);
when the loop was left by `break` it reports the whole stack size. -/
theorem trace_undo_identity (i cwDir : Int) (off4 off8 : List Int) (b : Nat) (s : Int)
    (pts : List Point) (hno : ∀ c : Int, rd b c ≠ 3) (h2 : rd b i = 2) :
    traceUndo (trace4 i cwDir off4 off8 b s pts).buffer (trace4 i cwDir off4 off8 b s pts).stack
      (trace4 i cwDir off4 off8 b s pts).stackSize = b ∧
    ((trace4 i cwDir off4 off8 b s pts).exit ≠ TraceExit.closed →
      (trace4 i cwDir off4 off8 b s pts).pointCount = 0 ∧
      (trace4 i cwDir off4 off8 b s pts).stackSize =
        (trace4 i cwDir off4 off8 b s pts).stack.length -
          (trace4 i cwDir off4 off8 b s pts).fallbacks) ∧
    ((trace4 i cwDir off4 off8 b s pts).exit = TraceExit.closed →
      (trace4 i cwDir off4 off8 b s pts).stackSize =
        (trace4 i cwDir off4 off8 b s pts).stack.length) := by
  refine ⟨trace4_undo i cwDir off4 off8 b s pts h2
    (trace4_stack_visited i cwDir off4 off8 b s pts h2 hno), ?_, ?_⟩
  · intro hx
    rw [trace4_exit] at hx
    refine ⟨trace4_pointCount_open i cwDir off4 off8 b s pts hx, ?_⟩
    rw [trace4_stackSize, if_neg hx, trace4_stack, trace4_fallbacks]
  · intro hx
    rw [trace4_exit] at hx
    rw [trace4_stackSize, if_pos hx, trace4_stack]

/-- C22, witness: the trace of the filled 3x3 square, undone. -/
theorem trace_undo_identity_witness :
    traceUndo (trace4 6 1 (cwNeighborOffsets4 5) (cwNeighborOffsets8 5) square3Mask 5 []).buffer
      (trace4 6 1 (cwNeighborOffsets4 5) (cwNeighborOffsets8 5) square3Mask 5 []).stack
      (trace4 6 1 (cwNeighborOffsets4 5) (cwNeighborOffsets8 5) square3Mask 5 []).stackSize =
        square3Mask :=
  (trace_undo_identity 6 1 (cwNeighborOffsets4 5) (cwNeighborOffsets8 5) square3Mask 5 []
    square3_no_traced (by decide!)).1

/-! ## The spur eraser and the spur-free sets of cells -/

/-- A spur of a mask that holds a spur-free set `S` is not in `S`. -/
theorem SpurFree.not_spur {s : Int} {S : Int → Prop} (hS : SpurFree s S) (b : Nat)
    (hk : ∀ c : Int, S c → rd b c ≠ 0) (c : Int) (hc : isSpur b s c = true) : ¬ S c := by
  intro hsc
  obtain ⟨_, h1⟩ := (isSpur_iff _ _ _).mp hc
  obtain ⟨a1, a2⟩ := hS c hsc
  rcases h1 with ⟨x, y⟩ | ⟨x, y⟩
  · exact a1 ⟨fun q => hk _ q x, fun q => hk _ q y⟩
  · exact a2 ⟨fun q => hk _ q x, fun q => hk _ q y⟩

/-- The loop of `erase1` keeps the cells of a spur-free set, when the cells
on its stack are spurs or `Background` already. -/
theorem erase1Loop_keeps (off4 : List Int) (s : Int) (S : Int → Prop) (hS : SpurFree s S)
    (fuel : Nat) : ∀ (b : Nat) (st : List Int), (∀ c : Int, S c → rd b c ≠ 0) →
      (∀ e ∈ st, isSpur b s e = true ∨ rd b e = 0) →
      ∀ c : Int, S c → rd (erase1Loop off4 s fuel b st) c ≠ 0 := by
  induction fuel with
  | zero => intro b st hk _; exact hk
  | succ fuel ih =>
    intro b st hk hst
    cases st with
    | nil => exact hk
    | cons i rest =>
      simp only [erase1Loop]
      obtain ⟨P, eP, _, mP⟩ := erase1Push_eq off4 (wr b i 0) s i [0, 1, 2, 3] rest
      rw [eP]
      have hi : ¬ S i := by
        rcases hst i (List.mem_cons_self _ _) with h | h
        · exact hS.not_spur b hk i h
        · exact fun q => hk i q h
      apply ih
      · intro c hc
        have hic : i ≠ c := by
          rintro rfl
          exact hi hc
        rw [rd_wr_zero, if_neg hic]
        exact hk c hc
      · intro e he
        rcases List.mem_append.mp he with h | h
        · exact Or.inl ((mP e).mp h).2
        · by_cases hei : e = i
          · right
            rw [hei, rd_wr_zero, if_pos rfl]
          · rcases hst e (List.mem_cons_of_mem _ h) with h1 | h1
            · exact Or.inl (isSpur_mono b s i e h1 hei)
            · right
              rw [rd_wr_zero, if_neg (fun q => hei q.symm)]
              exact h1

theorem spurCols_keeps (s : Int) (S : Int → Prop) (hS : SpurFree s S) (n : Nat) :
    ∀ (j : Int) (b : Nat), (∀ c : Int, S c → rd b c ≠ 0) →
      ∀ c : Int, S c → rd (spurCols s n j b) c ≠ 0 := by
  induction n with
  | zero => intro j b hk; exact hk
  | succ n ih =>
    intro j b hk
    simp only [spurCols]
    apply ih
    split
    · rename_i hj
      unfold erase1
      exact erase1Loop_keeps _ s S hS _ b [j] hk (fun e he => by
        simp only [List.mem_singleton] at he
        subst he
        exact Or.inl hj)
    · exact hk

theorem spurRows_keeps (w s : Int) (S : Int → Prop) (hS : SpurFree s S) (n : Nat) :
    ∀ b : Nat, (∀ c : Int, S c → rd b c ≠ 0) →
      ∀ c : Int, S c → rd (spurRows w s n b) c ≠ 0 := by
  induction n with
  | zero => intro b hk; exact hk
  | succ n ih =>
    intro b hk
    simp only [spurRows]
    exact ih _ (spurCols_keeps s S hS _ _ b hk)

theorem spurCols_erases (s : Int) (n : Nat) : ∀ (j : Int) (b : Nat) (c : Int),
    rd (spurCols s n j b) c = rd b c ∨ rd (spurCols s n j b) c = 0 := by
  induction n with
  | zero => intro j b c; exact Or.inl rfl
  | succ n ih =>
    intro j b c
    simp only [spurCols]
    split
    · rcases ih (j - 1) (erase1 j (cwNeighborOffsets4 s) b s) c with e | e
      · rw [e]
        exact erase1Loop_erases _ s _ b [j] c
      · exact Or.inr e
    · exact ih (j - 1) b c

theorem spurRows_erases (w s : Int) (n : Nat) : ∀ (b : Nat) (c : Int),
    rd (spurRows w s n b) c = rd b c ∨ rd (spurRows w s n b) c = 0 := by
  induction n with
  | zero => intro b c; exact Or.inl rfl
  | succ n ih =>
    intro b c
    simp only [spurRows]
    rcases ih (spurCols s w.toNat (((n : Int) + 1) * s + w) b) c with e | e
    · rw [e]
      exact spurCols_erases s _ _ b c
    · exact Or.inr e

/-- After the spur-erasing phase on a mask whose cells other than
`Background` are cells of pixels, no cell is a spur. -/
theorem eraseSpurs_clean (w h : Int) (F : Nat) (hw : 0 ≤ w) (hh : 0 ≤ h)
    (hF : ∀ c : Int, rd F c ≠ 0 → Interior w h c) (c : Int) :
    isSpur (eraseSpurs w h F) (w + 2) c = false := by
  obtain ⟨a1, a2⟩ := spurRows_spec w h hw h.toNat F hF (fun c hc => by
    have hint := hF c ((isSpur_iff _ _ _).mp hc).1
    obtain ⟨x, y, x0, x1, y0, y1, rfl⟩ := hint
    have e : ((h.toNat : Nat) : Int) = h := Int.toNat_of_nonneg hh
    rw [e]
    have : (y + 1) * (w + 2) ≤ h * (w + 2) := Int.mul_le_mul_of_nonneg_right (by omega) (by omega)
    omega)
  by_contra hcon
  have hs : isSpur (eraseSpurs w h F) (w + 2) c = true := by
    simpa using hcon
  unfold eraseSpurs at hs
  have h1 := a2 c hs
  obtain ⟨x, y, x0, x1, y0, y1, rfl⟩ := a1 c ((isSpur_iff _ _ _).mp hs).1
  have : 1 * (w + 2) ≤ (y + 1) * (w + 2) := Int.mul_le_mul_of_nonneg_right (by omega) (by omega)
  omega

/-- The cells of a mask without spurs are a spur-free set. -/
theorem spurFree_of_clean (s : Int) (b : Nat) (hb : ∀ c : Int, isSpur b s c = false) :
    SpurFree s (fun c => rd b c ≠ 0) := by
  intro c hc
  have h := hb c
  constructor
  · intro hx
    have : isSpur b s c = true :=
      (isSpur_iff _ _ _).mpr ⟨hc, Or.inl ⟨not_not.mp hx.1, not_not.mp hx.2⟩⟩
    rw [h] at this
    exact absurd this (by simp)
  · intro hx
    have : isSpur b s c = true :=
      (isSpur_iff _ _ _).mpr ⟨hc, Or.inr ⟨not_not.mp hx.1, not_not.mp hx.2⟩⟩
    rw [h] at this
    exact absurd this (by simp)

/-! ## The claim about the spur eraser -/

/-- C25: the spur eraser computes the greatest spur-free subset. For every
mask `F` of a `w x h` image whose cells other than `Background` are cells of
pixels (such as every thresholded mask), with `E` the mask after the
spur-erasing phase: `E` differs from `F` only in erased cells; the set of the
cells of `E` that are not `Background` is spur-free (no cell of it has both
horizontal or both vertical neighbours outside it); every spur-free set of
cells that are not `Background` in `F` is contained in it; a set with these
properties is this set, so the result does not depend on the order in which
the cells are visited; and the phase run a second time changes nothing. -/
theorem eraseSpurs_greatest (w h : Int) (F : Nat) (hw : 0 ≤ w) (hh : 0 ≤ h)
    (hF : ∀ c : Int, rd F c ≠ 0 → Interior w h c) :
    (∀ c : Int, rd (eraseSpurs w h F) c = rd F c ∨ rd (eraseSpurs w h F) c = 0) ∧
    SpurFree (w + 2) (fun c => rd (eraseSpurs w h F) c ≠ 0) ∧
    (∀ S : Int → Prop, (∀ c : Int, S c → rd F c ≠ 0) → SpurFree (w + 2) S →
      ∀ c : Int, S c → rd (eraseSpurs w h F) c ≠ 0) ∧
    (∀ T : Int → Prop, (∀ c : Int, T c → rd F c ≠ 0) → SpurFree (w + 2) T →
      (∀ S : Int → Prop, (∀ c : Int, S c → rd F c ≠ 0) → SpurFree (w + 2) S →
        ∀ c : Int, S c → T c) →
      ∀ c : Int, T c ↔ rd (eraseSpurs w h F) c ≠ 0) ∧
    eraseSpurs w h (eraseSpurs w h F) = eraseSpurs w h F := by
  have hsub : ∀ c : Int, rd (eraseSpurs w h F) c = rd F c ∨ rd (eraseSpurs w h F) c = 0 :=
    fun c => spurRows_erases w (w + 2) _ F c
  have hne : ∀ c : Int, rd (eraseSpurs w h F) c ≠ 0 → rd F c ≠ 0 := by
    intro c hc
    rcases hsub c with e | e
    · rw [e] at hc; exact hc
    · exact absurd e hc
  have hfree := spurFree_of_clean (w + 2) _ (eraseSpurs_clean w h F hw hh hF)
  have hgreat : ∀ S : Int → Prop, (∀ c : Int, S c → rd F c ≠ 0) → SpurFree (w + 2) S →
      ∀ c : Int, S c → rd (eraseSpurs w h F) c ≠ 0 :=
    fun S h1 h2 => spurRows_keeps w (w + 2) S h2 _ F h1
  refine ⟨hsub, hfree, hgreat, fun T h1 h2 h3 c => ⟨hgreat T h1 h2 c, ?_⟩, ?_⟩
  · exact h3 _ hne hfree c
  · exact spurRows_idle w (w + 2) _ _ (fun r _ k _ => eraseSpurs_clean w h F hw hh hF _)

/-- C25, witness: the mask of the 4x4 image of the spur comment; the cell 14
stays, being in the spur-free set of the cells that are left. -/
theorem eraseSpurs_greatest_witness :
    rd (eraseSpurs 4 4 (buildMask 4 4 spurExampleImage)) 14 ≠ 0 ∧
    eraseSpurs 4 4 (eraseSpurs 4 4 (buildMask 4 4 spurExampleImage)) =
      eraseSpurs 4 4 (buildMask 4 4 spurExampleImage) :=
  ⟨by decide!,
    (eraseSpurs_greatest 4 4 (buildMask 4 4 spurExampleImage) (by decide) (by decide)
      (buildMask_ink 4 4 spurExampleImage (by decide) (by decide))).2.2.2.2⟩

/-! ## The scan of the simplifier under an ordered comparison -/

theorem Doubles.Ordered.irrefl {M : Doubles} (ho : M.Ordered) (a : M.D) : M.gt a a = false := by
  by_contra h
  have h1 : M.gt a a = true := by simpa using h
  have := ho.1 a a h1
  rw [h1] at this
  exact absurd this (by simp)

/-- From `a > c`: `a > b` or `b > c`. -/
theorem Doubles.Ordered.cotrans {M : Doubles} (ho : M.Ordered) (a b c : M.D)
    (h : M.gt a c = true) : M.gt a b = true ∨ M.gt b c = true := by
  by_contra hn
  push_neg at hn
  have h1 : M.gt a b = false := by simpa using hn.1
  have h2 : M.gt b c = false := by simpa using hn.2
  have := ho.2 a b c h1 h2
  rw [h] at this
  exact absurd this (by simp)

/-- The exact comparison of fractions is a strict weak order. -/
theorem exactDoubles_ordered : exactDoubles.Ordered := by
  constructor
  · intro a b h
    show Frac.lt a b = false
    have h1 : Frac.lt b a = true := h
    simp only [Frac.lt, decide_eq_true_eq, decide_eq_false_iff_not, not_lt] at h1 ⊢
    exact le_of_lt h1
  · intro a b c h1 h2
    show Frac.lt c a = false
    have g1 : Frac.lt b a = false := h1
    have g2 : Frac.lt c b = false := h2
    simp only [Frac.lt, decide_eq_false_iff_not, not_lt] at g1 g2 ⊢
    have ha := a.pos
    have hb := b.pos
    have hc := c.pos
    have e1 : a.num * b.den * c.den ≤ b.num * a.den * c.den :=
      Int.mul_le_mul_of_nonneg_right g1 hc.le
    have e2 : b.num * c.den * a.den ≤ c.num * b.den * a.den :=
      Int.mul_le_mul_of_nonneg_right g2 ha.le
    have e3 : a.num * c.den * b.den ≤ c.num * a.den * b.den := by nlinarith
    exact le_of_mul_le_mul_right e3 hb

/-- What the scan holds after the indices `lo + 1 .. i - 1`: nothing, no
distance having exceeded 0, or the first point whose distance exceeds 0 and
the distance of every point before it, and which no later point exceeds. -/
theorem dpScan_first_max (M : Doubles) (ho : M.Ordered) (pl : List Point) (pS pE : Point)
    (lo : Int) (n : Nat) : ∀ (i : Int) (acc : M.D × Int), lo < i →
    ((acc = (M.zero, lo) ∧ ∀ j : Int, lo < j → j < i →
        M.gt (M.perpendicularDistance (getP pl j).x (getP pl j).y pS.x pS.y pE.x pE.y)
          M.zero = false) ∨
      ∃ p : Int, lo < p ∧ p < i ∧
        acc = (M.perpendicularDistance (getP pl p).x (getP pl p).y pS.x pS.y pE.x pE.y, p) ∧
        M.gt (M.perpendicularDistance (getP pl p).x (getP pl p).y pS.x pS.y pE.x pE.y)
          M.zero = true ∧
        (∀ j : Int, lo < j → j < p →
          M.gt (M.perpendicularDistance (getP pl p).x (getP pl p).y pS.x pS.y pE.x pE.y)
            (M.perpendicularDistance (getP pl j).x (getP pl j).y pS.x pS.y pE.x pE.y) = true) ∧
        (∀ j : Int, p < j → j < i →
          M.gt (M.perpendicularDistance (getP pl j).x (getP pl j).y pS.x pS.y pE.x pE.y)
            (M.perpendicularDistance (getP pl p).x (getP pl p).y pS.x pS.y pE.x pE.y) = false)) →
    ((dpScan M pl pS pE n i acc = (M.zero, lo) ∧ ∀ j : Int, lo < j → j < i + n →
        M.gt (M.perpendicularDistance (getP pl j).x (getP pl j).y pS.x pS.y pE.x pE.y)
          M.zero = false) ∨
      ∃ p : Int, lo < p ∧ p < i + n ∧
        dpScan M pl pS pE n i acc =
          (M.perpendicularDistance (getP pl p).x (getP pl p).y pS.x pS.y pE.x pE.y, p) ∧
        M.gt (M.perpendicularDistance (getP pl p).x (getP pl p).y pS.x pS.y pE.x pE.y)
          M.zero = true ∧
        (∀ j : Int, lo < j → j < p →
          M.gt (M.perpendicularDistance (getP pl p).x (getP pl p).y pS.x pS.y pE.x pE.y)
            (M.perpendicularDistance (getP pl j).x (getP pl j).y pS.x pS.y pE.x pE.y) = true) ∧
        (∀ j : Int, p < j → j < i + n →
          M.gt (M.perpendicularDistance (getP pl j).x (getP pl j).y pS.x pS.y pE.x pE.y)
            (M.perpendicularDistance (getP pl p).x (getP pl p).y pS.x pS.y pE.x pE.y) = false)) := by
  induction n with
  | zero =>
    intro i acc _ h
    simpa [dpScan] using h
  | succ n ih =>
    intro i acc hlo h
    simp only [dpScan]
    have e : i + ((n + 1 : Nat) : Int) = i + 1 + n := by push_cast; ring
    rw [e]
    apply ih _ _ (by omega)
    by_cases hgt : M.gt (M.perpendicularDistance (getP pl i).x (getP pl i).y pS.x pS.y pE.x pE.y)
        acc.1 = true
    · rw [if_pos hgt]
      right
      rcases h with ⟨rfl, hz⟩ | ⟨p, p0, p1, rfl, pz, pb, pa⟩
      · refine ⟨i, hlo, by omega, rfl, hgt, fun j j0 j1 => ?_, fun j j0 j1 => by omega⟩
        rcases ho.cotrans _ (M.perpendicularDistance (getP pl j).x (getP pl j).y pS.x pS.y
            pE.x pE.y) _ hgt with g | g
        · exact g
        · rw [hz j j0 j1] at g
          exact absurd g (by simp)
      · refine ⟨i, by omega, by omega, rfl, ?_, fun j j0 j1 => ?_, fun j j0 j1 => by omega⟩
        · rcases ho.cotrans _ M.zero _ hgt with g | g
          · exact g
          · rw [ho.1 _ _ pz] at g
            exact absurd g (by simp)
        · by_cases hjp : j < p
          · rcases ho.cotrans _ (M.perpendicularDistance (getP pl j).x (getP pl j).y pS.x pS.y
              pE.x pE.y) _ hgt with g | g
            · exact g
            · rw [ho.1 _ _ (pb j j0 hjp)] at g
              exact absurd g (by simp)
          · by_cases hjp2 : j = p
            · subst hjp2
              exact hgt
            · rcases ho.cotrans _ (M.perpendicularDistance (getP pl j).x (getP pl j).y pS.x
                pS.y pE.x pE.y) _ hgt with g | g
              · exact g
              · rw [pa j (by omega) j1] at g
                exact absurd g (by simp)
    · rw [if_neg hgt]
      have hle : M.gt (M.perpendicularDistance (getP pl i).x (getP pl i).y pS.x pS.y pE.x pE.y)
          acc.1 = false := by simpa using hgt
      rcases h with ⟨rfl, hz⟩ | ⟨p, p0, p1, rfl, pz, pb, pa⟩
      · left
        refine ⟨rfl, fun j j0 j1 => ?_⟩
        by_cases hji : j = i
        · subst hji
          exact hle
        · exact hz j j0 (by omega)
      · right
        refine ⟨p, p0, by omega, rfl, pz, pb, fun j j0 j1 => ?_⟩
        by_cases hji : j = i
        · subst hji
          exact hle
        · exact pa j j0 (by omega)

theorem dpScan_add (M : Doubles) (pl : List Point) (pS pE : Point) (a b : Nat) :
    ∀ (i : Int) (acc : M.D × Int),
      dpScan M pl pS pE (a + b) i acc = dpScan M pl pS pE b (i + a) (dpScan M pl pS pE a i acc) := by
  induction a with
  | zero => intro i acc; simp [dpScan]
  | succ a ih =>
    intro i acc
    have e : a + 1 + b = (a + b) + 1 := by omega
    rw [e]
    simp only [dpScan]
    rw [ih]
    congr 1
    push_cast
    ring

/-- The scan keeps what it holds over points that do not exceed it. -/
theorem dpScan_idle (M : Doubles) (pl : List Point) (pS pE : Point) (n : Nat) :
    ∀ (i : Int) (acc : M.D × Int),
      (∀ j : Int, i ≤ j → j < i + n →
        M.gt (M.perpendicularDistance (getP pl j).x (getP pl j).y pS.x pS.y pE.x pE.y)
          acc.1 = false) →
      dpScan M pl pS pE n i acc = acc := by
  induction n with
  | zero => intro i acc _; rfl
  | succ n ih =>
    intro i acc h
    simp only [dpScan]
    rw [h i (le_refl _) (by push_cast; omega)]
    simp only [Bool.false_eq_true, if_false]
    exact ih (i + 1) acc (fun j j0 j1 => h j (by omega) (by push_cast; omega))

/-- The scan of a range ends at the point `q` whose distance exceeds 0 and the
distance of every point before it, and which no later point exceeds. -/
theorem dpScan_at_pivot (M : Doubles) (pl : List Point) (pS pE : Point) (lo q : Int) (n : Nat)
    (h0 : lo < q) (h1 : q < lo + 1 + n)
    (hz : M.gt (M.perpendicularDistance (getP pl q).x (getP pl q).y pS.x pS.y pE.x pE.y)
      M.zero = true)
    (hb : ∀ j : Int, lo < j → j < q →
      M.gt (M.perpendicularDistance (getP pl q).x (getP pl q).y pS.x pS.y pE.x pE.y)
        (M.perpendicularDistance (getP pl j).x (getP pl j).y pS.x pS.y pE.x pE.y) = true)
    (ha : ∀ j : Int, q < j → j < lo + 1 + n →
      M.gt (M.perpendicularDistance (getP pl j).x (getP pl j).y pS.x pS.y pE.x pE.y)
        (M.perpendicularDistance (getP pl q).x (getP pl q).y pS.x pS.y pE.x pE.y) = false) :
    dpScan M pl pS pE n (lo + 1) (M.zero, lo) =
      (M.perpendicularDistance (getP pl q).x (getP pl q).y pS.x pS.y pE.x pE.y, q) := by
  obtain ⟨a, ha1⟩ : ∃ a : Nat, (a : Int) = q - lo - 1 := ⟨(q - lo - 1).toNat, by omega⟩
  obtain ⟨b, hb1⟩ : ∃ b : Nat, n = a + (1 + b) := ⟨n - a - 1, by omega⟩
  rw [hb1, dpScan_add, dpScan_add]
  have e1 : lo + 1 + (a : Int) = q := by omega
  rw [e1]
  have hq : dpScan M pl pS pE 1 q (dpScan M pl pS pE a (lo + 1) (M.zero, lo)) =
      (M.perpendicularDistance (getP pl q).x (getP pl q).y pS.x pS.y pE.x pE.y, q) := by
    simp only [dpScan]
    rcases dpScan_inv M pl pS pE lo a (lo + 1) (M.zero, lo) (by omega) (Or.inl rfl) with
      hs | ⟨j, j0, j1, hs⟩
    · rw [hs]
      simp only [hz, if_true]
    · rw [hs]
      simp only [hb j j0 (by omega), if_true]
  rw [hq]
  apply dpScan_idle
  intro j j0 j1
  exact ha j (by push_cast at j0; omega) (by rw [hb1]; push_cast at j1 ⊢; omega)

/-- For a tolerance that is not negative and an ordered comparison the
recursion of `douglasPeucker` returns; what it leaves is a `DPResult` within
the error bound, and its kept points are left as they are by a second run. -/
theorem douglasPeuckerAux_full (M : Doubles) (epsilon : M.D)
    (hε : M.gt M.zero epsilon = false) (ho : M.Ordered) (fuel : Nat) :
    ∀ (pl : List Point) (start end_ : Int), 0 ≤ start → start ≤ end_ →
      end_ < pl.length → (end_ - start).toNat + 1 ≤ fuel →
      ∃ (m : Nat) (out : List Point) (idx : Nat → Int),
        douglasPeuckerAux M epsilon fuel pl start end_ = some ((m : Int), out) ∧
        DPResult pl start end_ m out idx ∧ DPBound M epsilon pl m idx ∧
        DPIdem M epsilon pl m idx := by
  induction fuel with
  | zero => intro pl start end_ _ _ _ h; omega
  | succ fuel ih =>
    intro pl start end_ h0 h1 h2 hf
    rw [douglasPeuckerAux]
    by_cases hshort : end_ - start ≤ 1
    · rw [if_pos hshort]
      refine ⟨(end_ - start + 1).toNat, pl, fun k => start + k, ?_,
        DPResult_base pl start end_ h1, ?_, ?_⟩
      · have : ((end_ - start + 1).toNat : Int) = end_ - start + 1 := by omega
        rw [this]
      · intro k hk j j0 j1
        exfalso
        simp only [] at j0 j1
        push_cast at j1
        omega
      · intro L s fuel2 hL hm
        obtain ⟨f, rfl⟩ : ∃ f, fuel2 = f + 1 := ⟨fuel2 - 1, by omega⟩
        have e : ((end_ - start + 1).toNat : Int) = end_ - start + 1 := by omega
        rw [douglasPeuckerAux_short M epsilon f L s _ (by rw [e]; omega)]
        congr 2
        omega
    · rw [if_neg hshort]
      simp only []
      have hend : start + 1 + ((end_ - start - 1).toNat : Int) = end_ := by omega
      have hscan := dpScan_first_max M ho pl (getP pl start) (getP pl end_) start
        (end_ - start - 1).toNat (start + 1) (M.zero, start) (by omega)
        (Or.inl ⟨rfl, fun j j0 j1 => by omega⟩)
      rw [hend] at hscan
      by_cases hgt : M.gt (dpScan M pl (getP pl start) (getP pl end_) (end_ - start - 1).toNat
          (start + 1) (M.zero, start)).1 epsilon = true
      · rw [if_pos hgt]
        rcases hscan with ⟨hs, _⟩ | ⟨mid, hm1, hm3, hs, pz, pb, pa⟩
        · rw [hs] at hgt
          rw [hε] at hgt
          exact absurd hgt (by simp)
        · rw [hs] at hgt ⊢
          simp only [] at hgt ⊢
          obtain ⟨m1, out1, idx1, e1, r1, b1, i1⟩ := ih pl start mid h0 (by omega) (by omega)
            (by omega)
          rw [e1]
          simp only []
          have l1 : out1.length = pl.length := r1.1
          obtain ⟨m2, out3, idx2, e2, r2, b2, i2⟩ := ih (setP out1 mid (getP pl mid)) mid end_
            (by omega) (by omega) (by rw [length_setP, l1]; exact h2) (by omega)
          rw [e2]
          simp only []
          have hsplice := DPResult_splice pl out1 out3 start mid end_ m1 m2 idx1 idx2
            h0 hm1 hm3 h2 r1 r2
          obtain ⟨_, p1, a1, z1, c1, d1, g1, f1⟩ := r1
          obtain ⟨_, p2, a2, z2, c2, d2, g2, f2⟩ := r2
          have hm1' : 2 ≤ m1 := by
            by_contra hc
            have : m1 = 1 := by omega
            subst this
            simp at z1
            omega
          have hm2' : 2 ≤ m2 := by
            by_contra hc
            have : m2 = 1 := by omega
            subst this
            simp at z2
            omega
          have agree : ∀ i : Int, mid ≤ i → getP (setP out1 mid (getP pl mid)) i = getP pl i := by
            intro i hi
            rw [getP_setP]
            split
            · rename_i h; rw [← h.1]
            · exact f1 i (Or.inr (by
                by_contra hc
                have : i = mid := by omega
                subst this
                rename_i h
                exact h ⟨rfl, by omega, by rw [l1]; omega⟩))
          have cast1 : ((m1 : Int) - 1 + (m2 : Int)) = ((m1 - 1 + m2 : Nat) : Int) := by omega
          refine ⟨m1 - 1 + m2, _, _, ?_, hsplice, ?_, ?_⟩
          · rw [cast1, Int.toNat_ofNat]
          · -- the error bound
            intro k hk j j0 j1
            simp only [] at j0 j1 ⊢
            by_cases hk1 : k + 1 < m1 - 1
            · rw [if_pos (show k < m1 - 1 by omega)] at j0 ⊢
              rw [if_pos hk1] at j1 ⊢
              exact b1 k (by omega) j j0 j1
            · by_cases hk2 : k < m1 - 1
              · have e : k + 1 - (m1 - 1) = 0 := by omega
                have e3 : idx2 0 = idx1 (k + 1) := by
                  rw [a2]
                  have : k + 1 = m1 - 1 := by omega
                  rw [this, z1]
                rw [if_pos hk2] at j0 ⊢
                rw [if_neg hk1, e, e3] at j1 ⊢
                exact b1 k (by omega) j j0 j1
              · have e : k + 1 - (m1 - 1) = (k - (m1 - 1)) + 1 := by omega
                rw [if_neg hk2] at j0 ⊢
                rw [if_neg hk1, e] at j1 ⊢
                have hb := b2 (k - (m1 - 1)) (by omega) j j0 j1
                have hlo := (d2 (k - (m1 - 1)) (by omega)).1
                have hhi := (d2 (k - (m1 - 1) + 1) (by omega)).1
                unfold chordDistance at hb ⊢
                rw [agree _ (by omega), agree _ (by omega), agree _ (by omega)] at hb
                exact hb
          · -- a second run
            intro L s fuel2 hL hm
            obtain ⟨f, rfl⟩ : ∃ f, fuel2 = f + 1 := ⟨fuel2 - 1, by omega⟩
            have hLs : getP L s = getP pl start := by
              have := hL 0 (by omega)
              simp only [Nat.cast_zero, add_zero, if_pos (show 0 < m1 - 1 by omega)] at this
              rw [this, a1]
            have hLe : getP L (s + ((m1 - 1 + m2 : Nat) : Int) - 1) = getP pl end_ := by
              have := hL (m1 - 1 + m2 - 1) (by omega)
              simp only [if_neg (show ¬ (m1 - 1 + m2 - 1 < m1 - 1) by omega)] at this
              have e : m1 - 1 + m2 - 1 - (m1 - 1) = m2 - 1 := by omega
              rw [e, z2] at this
              rw [← agree end_ (by omega)] at this
              rw [agree end_ (by omega)] at this
              rw [← this]
              congr 1
              omega
            have hLk : ∀ k : Nat, k < m1 - 1 + m2 → getP L (s + k) =
                getP pl (if k < m1 - 1 then idx1 k else idx2 (k - (m1 - 1))) := hL
            have hLq : getP L (s + ((m1 : Int) - 1)) = getP pl mid := by
              have := hLk (m1 - 1) (by omega)
              rw [if_neg (by omega), Nat.sub_self, a2] at this
              rw [← this]
              congr 1
              omega
            have hscanL : dpScan M L (getP L s) (getP L (s + ((m1 - 1 + m2 : Nat) : Int) - 1))
                (s + ((m1 - 1 + m2 : Nat) : Int) - 1 - s - 1).toNat (s + 1) (M.zero, s) =
                (M.perpendicularDistance (getP pl mid).x (getP pl mid).y (getP pl start).x
                  (getP pl start).y (getP pl end_).x (getP pl end_).y, s + ((m1 : Int) - 1)) := by
              rw [hLs, hLe, ← hLq]
              apply dpScan_at_pivot M L (getP pl start) (getP pl end_) s (s + ((m1 : Int) - 1))
              · omega
              · omega
              · rw [hLq]; exact pz
              · intro q q0 q1
                obtain ⟨k, hk⟩ : ∃ k : Nat, q = s + (k : Int) := ⟨(q - s).toNat, by omega⟩
                subst hk
                rw [hLq, hLk k (by omega), if_pos (by omega)]
                have hd := d1 k (by omega)
                exact pb (idx1 k) (by
                  have := c1
                  have h00 := d1 k (by omega)
                  by_contra hcon
                  have hk0 : k ≠ 0 := by omega
                  have := h00.1
                  omega) (by omega)
              · intro q q0 q1
                obtain ⟨k, hk⟩ : ∃ k : Nat, q = s + (k : Int) := ⟨(q - s).toNat, by omega⟩
                subst hk
                rw [hLq, hLk k (by omega), if_neg (by omega)]
                have hd := d2 (k - (m1 - 1)) (by omega)
                exact pa (idx2 (k - (m1 - 1))) (by omega) (by omega)
            rw [douglasPeuckerAux, if_neg (by omega)]
            simp only []
            rw [hscanL]
            simp only []
            rw [if_pos hgt]
            have hcall1 := i1 L s f (fun k hk => by
              by_cases hk1 : k < m1 - 1
              · rw [hLk k (by omega), if_pos hk1]
              · have : k = m1 - 1 := by omega
                subst this
                rw [z1, ← hLq]
                congr 1
                omega) (by omega)
            have e5 : s + ((m1 : Int) - 1) = s + (m1 : Int) - 1 := by ring
            rw [e5, hcall1]
            simp only []
            rw [setP_getP_self]
            have hcall2 := i2 L (s + (m1 : Int) - 1) f (fun k hk => by
              have := hLk (m1 - 1 + k) (by omega)
              rw [if_neg (by omega)] at this
              have e : m1 - 1 + k - (m1 - 1) = k := by omega
              rw [e] at this
              rw [agree _ (by have := (d2 k hk).1; omega), ← this]
              congr 1
              push_cast
              omega) (by omega)
            have e6 : s + ((m1 - 1 + m2 : Nat) : Int) - 1 = s + (m1 : Int) - 1 + (m2 : Int) - 1 := by
              omega
            rw [e6, hcall2]
            simp only []
            have e7 : s + ((m1 : Int) - 1) = s + (m1 : Int) - 1 := by ring
            rw [e7, Int.toNat_ofNat, memcpyPoints_self, cast1]
      · rw [if_neg hgt]
        have hle : M.gt (dpScan M pl (getP pl start) (getP pl end_) (end_ - start - 1).toNat
            (start + 1) (M.zero, start)).1 epsilon = false := by simpa using hgt
        refine ⟨2, _, _, rfl, DPResult_collapse pl start end_ h0 (by omega) h2, ?_, ?_⟩
        · intro k hk j j0 j1
          have hk0 : k = 0 := by omega
          subst hk0
          simp only [if_true, zero_add, one_ne_zero, if_false] at j0 j1 ⊢
          unfold chordDistance
          rcases hscan with ⟨hs, hz⟩ | ⟨mid, hm1, hm3, hs, pz, pb, pa⟩
          · exact ho.2 _ _ _ (hz j j0 j1) hε
          · rw [hs] at hle
            simp only [] at hle
            by_cases hj : j < mid
            · exact ho.2 _ _ _ (ho.1 _ _ (pb j j0 hj)) hle
            · by_cases hj2 : j = mid
              · subst hj2
                exact hle
              · exact ho.2 _ _ _ (pa j (by omega) j1) hle
        · intro L s fuel2 hL hm
          obtain ⟨f, rfl⟩ : ∃ f, fuel2 = f + 1 := ⟨fuel2 - 1, by omega⟩
          rw [douglasPeuckerAux_short M epsilon f L s _ (by push_cast; omega)]
          congr 2
          push_cast
          omega

/-- Between an index where a property holds and a later one where it fails
there are two consecutive indices where it holds and fails. -/
theorem exists_last_before (P : Nat → Prop) : ∀ t : Nat, P 0 → ¬ P t →
    ∃ k : Nat, k < t ∧ P k ∧ ¬ P (k + 1) := by
  intro t
  induction t with
  | zero => intro h0 hn; exact absurd h0 hn
  | succ t ih =>
    intro h0 hn
    by_cases ht : P t
    · exact ⟨t, by omega, ht, hn⟩
    · obtain ⟨k, hk, a, b⟩ := ih h0 ht
      exact ⟨k, by omega, a, b⟩

/-! ## The claims about the error and the second run of the simplifier -/

/-- C27: the error bound of the simplification. For every model of the
doubles whose comparison is a strict weak order, every point list, every range
`0 ≤ start < end < length` and every tolerance `epsilon ≥ 0`: the call returns
some `n` and keeps the points with the original indices
`start = idx 0 < ... < idx (n - 1) = end`; and every point of the original
range that is dropped (its index `j` is none of the `idx k`) lies between two
consecutive kept indices `idx k < j < idx (k + 1)`, and
`perpendicularDistance` from it to the segment that joins the output points
`pointList[start + k]` and `pointList[start + k + 1]` is not greater than
`epsilon`. -/
theorem douglasPeucker_error_bound (M : Doubles) (pointList : List Point) (start end_ : Int)
    (epsilon : M.D) (ho : M.Ordered) (h0 : 0 ≤ start) (h1 : start < end_)
    (h2 : end_ < pointList.length) (hε : M.gt M.zero epsilon = false) :
    ∃ (n : Nat) (out : List Point) (idx : Nat → Int),
      douglasPeucker M pointList start end_ epsilon = some ((n : Int), out) ∧
      idx 0 = start ∧ idx (n - 1) = end_ ∧
      (∀ k : Nat, k + 1 < n → idx k < idx (k + 1)) ∧
      (∀ k : Nat, k < n → getP out (start + k) = getP pointList (idx k)) ∧
      (∀ j : Int, start < j → j < end_ → (∀ k : Nat, k < n → idx k ≠ j) →
        ∃ k : Nat, k + 1 < n ∧ idx k < j ∧ j < idx (k + 1) ∧
          M.gt (M.perpendicularDistance (getP pointList j).x (getP pointList j).y
            (getP out (start + k)).x (getP out (start + k)).y
            (getP out (start + k + 1)).x (getP out (start + k + 1)).y) epsilon = false) := by
  obtain ⟨m, out, idx, e, r, b, _⟩ := douglasPeuckerAux_full M epsilon hε ho _ pointList start
    end_ h0 (le_of_lt h1) h2 (le_refl _)
  obtain ⟨_, p1, a1, z1, c1, d1, g1, _⟩ := r
  refine ⟨m, out, idx, e, a1, z1, c1, g1, fun j j0 j1 hj => ?_⟩
  obtain ⟨k, hk, ka, kb⟩ := exists_last_before (fun k => idx k < j) (m - 1)
    (by show idx 0 < j; rw [a1]; exact j0) (by show ¬ idx (m - 1) < j; rw [z1]; omega)
  have kb1 : j < idx (k + 1) := by
    have hne := hj (k + 1) (by omega)
    have : ¬ idx (k + 1) < j := kb
    omega
  refine ⟨k, by omega, ka, kb1, ?_⟩
  have hb := b k (by omega) j ka kb1
  unfold chordDistance at hb
  have e1 := g1 k (by omega)
  have e2 := g1 (k + 1) (by omega)
  push_cast at e2
  rw [← add_assoc] at e2
  rw [e1, e2]
  exact hb

/-- C27, witness: the points (0, 0), (3, 1), (6, 0), (9, 5), (12, 0) with the
tolerance 1.5 in exact arithmetic. -/
theorem douglasPeucker_error_bound_witness :
    ∃ (n : Nat) (out : List Point) (idx : Nat → Int),
      douglasPeucker exactDoubles [⟨0, 0⟩, ⟨3, 1⟩, ⟨6, 0⟩, ⟨9, 5⟩, ⟨12, 0⟩] 0 4 epsilon1_5 =
        some ((n : Int), out) ∧
      idx 0 = 0 ∧ idx (n - 1) = 4 ∧
      (∀ k : Nat, k + 1 < n → idx k < idx (k + 1)) ∧
      (∀ k : Nat, k < n → getP out (0 + k) =
        getP [⟨0, 0⟩, ⟨3, 1⟩, ⟨6, 0⟩, ⟨9, 5⟩, ⟨12, 0⟩] (idx k)) ∧
      (∀ j : Int, 0 < j → j < 4 → (∀ k : Nat, k < n → idx k ≠ j) →
        ∃ k : Nat, k + 1 < n ∧ idx k < j ∧ j < idx (k + 1) ∧
          exactDoubles.gt (exactDoubles.perpendicularDistance
            (getP [⟨0, 0⟩, ⟨3, 1⟩, ⟨6, 0⟩, ⟨9, 5⟩, ⟨12, 0⟩] j).x
            (getP [⟨0, 0⟩, ⟨3, 1⟩, ⟨6, 0⟩, ⟨9, 5⟩, ⟨12, 0⟩] j).y
            (getP out (0 + k)).x (getP out (0 + k)).y
            (getP out (0 + k + 1)).x (getP out (0 + k + 1)).y) epsilon1_5 = false) :=
  douglasPeucker_error_bound exactDoubles [⟨0, 0⟩, ⟨3, 1⟩, ⟨6, 0⟩, ⟨9, 5⟩, ⟨12, 0⟩] 0 4
    epsilon1_5 exactDoubles_ordered (by decide) (by decide) (by decide) (by decide)

/-- C28: `douglasPeucker` is idempotent. For every model of the doubles whose
comparison is a strict weak order, every point list, every range
`0 ≤ start ≤ end < length` and every tolerance `epsilon ≥ 0`: the call returns
some `n`, and the call on its output with the range `[start, start + n - 1]`
and the same tolerance returns `n` again and leaves the point list as the
first call left it. -/
theorem douglasPeucker_idempotent (M : Doubles) (pointList : List Point) (start end_ : Int)
    (epsilon : M.D) (ho : M.Ordered) (h0 : 0 ≤ start) (h1 : start ≤ end_)
    (h2 : end_ < pointList.length) (hε : M.gt M.zero epsilon = false) :
    ∃ (n : Int) (out : List Point),
      douglasPeucker M pointList start end_ epsilon = some (n, out) ∧
      douglasPeucker M out start (start + n - 1) epsilon = some (n, out) := by
  obtain ⟨m, out, idx, e, r, _, i⟩ := douglasPeuckerAux_full M epsilon hε ho _ pointList start
    end_ h0 h1 h2 (le_refl _)
  obtain ⟨_, p1, _, _, _, _, g1, _⟩ := r
  refine ⟨m, out, e, ?_⟩
  unfold douglasPeucker
  exact i out start _ g1 (by omega)

/-- C28, witness: the points (0, 0), (3, 1), (6, 0), (9, 5), (12, 0) with the
tolerance 1.5 in exact arithmetic. -/
theorem douglasPeucker_idempotent_witness :
    ∃ (n : Int) (out : List Point),
      douglasPeucker exactDoubles [⟨0, 0⟩, ⟨3, 1⟩, ⟨6, 0⟩, ⟨9, 5⟩, ⟨12, 0⟩] 0 4 epsilon1_5 =
        some (n, out) ∧
      douglasPeucker exactDoubles out 0 (0 + n - 1) epsilon1_5 = some (n, out) :=
  douglasPeucker_idempotent exactDoubles [⟨0, 0⟩, ⟨3, 1⟩, ⟨6, 0⟩, ⟨9, 5⟩, ⟨12, 0⟩] 0 4
    epsilon1_5 exactDoubles_ordered (by decide) (by decide) (by decide) (by decide)

/-! ## A fill from a seed that is not recoloured -/

/-- The block `if (buffer[x] == from) ...` in both fills. -/
theorem SeedSim.check_both {i : Int} {cFrom cTo : Nat} {A T : Fill} (h : SeedSim i cFrom cTo A T)
    (h0 : 0 ≤ i) (hto : cTo < 256) (hne : cFrom ≠ cTo) (x : Int) :
    SeedSim i cFrom cTo (A.check x cFrom cTo) (T.check x cFrom cTo) ∧
    seedDebt i cFrom (A.check x cFrom cTo) ≤ seedDebt i cFrom A ∧
    (x = i → rd (A.check x cFrom cTo).buffer i ≠ cFrom) ∧
    (∀ e ∈ A.stack, e ∈ (A.check x cFrom cTo).stack) ∧
    (rd A.buffer x = cFrom → x ∈ (A.check x cFrom cTo).stack) := by
  have hmod := Nat.mod_eq_of_lt hto
  unfold Fill.check seedDebt
  by_cases hx : x = i
  · subst hx
    rw [if_neg (show ¬ rd T.buffer x = cFrom by rw [h.seedT]; exact fun e => hne e.symm)]
    by_cases ha : rd A.buffer x = cFrom
    · rw [if_pos ha]
      have hnew : rd (wr A.buffer x cTo) x = cTo := by rw [rd_wr_same _ _ _ h0, hmod]
      refine ⟨⟨fun c hc => ?_, h.seedT, Or.inr hnew, ?_⟩, ?_, fun _ => ?_, fun e he => ?_,
        fun _ => ?_⟩
      · show rd T.buffer c = rd (wr A.buffer x cTo) c
        rw [rd_wr_ne _ _ _ _ (fun e => hc e.symm)]
        exact h.off c hc
      · show T.stack = (x :: A.stack).filter (fun c => decide (c ≠ x))
        rw [List.filter_cons_of_neg (by simp)]
        exact h.stack
      · show (x :: A.stack).count x + (if rd (wr A.buffer x cTo) x = cFrom then 1 else 0) ≤
          A.stack.count x + (if rd A.buffer x = cFrom then 1 else 0)
        rw [hnew, if_neg (fun e => hne e.symm), if_pos ha, List.count_cons_self]
      · show rd (wr A.buffer x cTo) x ≠ cFrom
        rw [hnew]
        exact fun e => hne e.symm
      · exact List.mem_cons_of_mem _ he
      · exact List.mem_cons_self _ _
    · rw [if_neg ha]
      exact ⟨h, le_refl _, fun _ => ha, fun e he => he, fun e => absurd e ha⟩
  · have hrd : rd T.buffer x = rd A.buffer x := h.off x hx
    by_cases ha : rd A.buffer x = cFrom
    · rw [if_pos ha, if_pos (hrd.trans ha)]
      refine ⟨⟨fun c hc => ?_, ?_, ?_, ?_⟩, ?_, fun e => absurd e hx, fun e he => ?_, fun _ => ?_⟩
      · show rd (wr T.buffer x cTo) c = rd (wr A.buffer x cTo) c
        rw [rd_wr, rd_wr]
        split
        · rfl
        · exact h.off c hc
      · show rd (wr T.buffer x cTo) i = cTo
        rw [rd_wr_ne _ _ _ _ hx]
        exact h.seedT
      · show rd (wr A.buffer x cTo) i = cFrom ∨ rd (wr A.buffer x cTo) i = cTo
        rw [rd_wr_ne _ _ _ _ hx]
        exact h.seedA
      · show x :: T.stack = (x :: A.stack).filter (fun c => decide (c ≠ i))
        rw [List.filter_cons_of_pos (by simpa using hx), h.stack]
      · show (x :: A.stack).count i + (if rd (wr A.buffer x cTo) i = cFrom then 1 else 0) ≤
          A.stack.count i + (if rd A.buffer i = cFrom then 1 else 0)
        rw [rd_wr_ne _ _ _ _ hx, List.count_cons_of_ne (fun e => hx e.symm)]
      · exact List.mem_cons_of_mem _ he
      · exact List.mem_cons_self _ _
    · rw [if_neg ha, if_neg (by rw [hrd]; exact ha)]
      exact ⟨h, le_refl _, fun e => absurd e hx, fun e he => he, fun e => absurd e ha⟩

/-- The store `buffer[x] = to; area++` of a walk at a cell other than the seed,
in both fills. -/
theorem SeedSim.paint_both {i : Int} {cFrom cTo : Nat} {A T : Fill} (h : SeedSim i cFrom cTo A T)
    (x : Int) (hx : x ≠ i) :
    SeedSim i cFrom cTo { A with buffer := wr A.buffer x cTo, area := A.area + 1 }
      { T with buffer := wr T.buffer x cTo, area := T.area + 1 } ∧
    seedDebt i cFrom { A with buffer := wr A.buffer x cTo, area := A.area + 1 } =
      seedDebt i cFrom A := by
  refine ⟨⟨fun c hc => ?_, ?_, ?_, h.stack⟩, ?_⟩
  · show rd (wr T.buffer x cTo) c = rd (wr A.buffer x cTo) c
    rw [rd_wr, rd_wr]
    split
    · rfl
    · exact h.off c hc
  · show rd (wr T.buffer x cTo) i = cTo
    rw [rd_wr_ne _ _ _ _ hx]
    exact h.seedT
  · show rd (wr A.buffer x cTo) i = cFrom ∨ rd (wr A.buffer x cTo) i = cTo
    rw [rd_wr_ne _ _ _ _ hx]
    exact h.seedA
  · unfold seedDebt
    show A.stack.count i + (if rd (wr A.buffer x cTo) i = cFrom then 1 else 0) =
      A.stack.count i + (if rd A.buffer i = cFrom then 1 else 0)
    rw [rd_wr_ne _ _ _ _ hx]

theorem fillLeft_stop (s : Int) (cFrom cTo : Nat) (fuel : Nat) (w x : Int) (A : Fill)
    (h : rd A.buffer w ≠ cFrom) : fillLeft s cFrom cTo fuel w x A = A := by
  cases fuel with
  | zero => rfl
  | succ fuel =>
    simp only [fillLeft]
    rw [if_neg (fun e => h e.2)]

theorem fillRight_stop (w s : Int) (cFrom cTo : Nat) (fuel : Nat) (c x : Int) (A : Fill)
    (h : rd A.buffer c ≠ cFrom) : fillRight w s cFrom cTo fuel c x A = A := by
  cases fuel with
  | zero => rfl
  | succ fuel =>
    simp only [fillRight]
    rw [if_neg (fun e => h e.2)]

/-- The walk to the left in both fills, from a cell left of the seed, or right
of it when the cell right of the seed has not the colour `cFrom`. -/
theorem SeedSim.walkLeft {i : Int} {cFrom cTo : Nat} (s : Int) (h0 : 0 ≤ i) (hto : cTo < 256)
    (hne : cFrom ≠ cTo) (fuel : Nat) : ∀ (c x : Int) (A T : Fill), SeedSim i cFrom cTo A T →
      (c < i ∨ (i < c ∧ rd A.buffer (i + 1) ≠ cFrom)) →
      SeedSim i cFrom cTo (fillLeft s cFrom cTo fuel c x A) (fillLeft s cFrom cTo fuel c x T) ∧
      seedDebt i cFrom (fillLeft s cFrom cTo fuel c x A) ≤ seedDebt i cFrom A ∧
      (∀ e ∈ A.stack, e ∈ (fillLeft s cFrom cTo fuel c x A).stack) := by
  induction fuel with
  | zero => intro c x A T h _; exact ⟨h, le_refl _, fun e he => he⟩
  | succ fuel ih =>
    intro c x A T h hc
    have hci : c ≠ i := by omega
    have hrd : rd T.buffer c = rd A.buffer c := h.off c hci
    simp only [fillLeft]
    by_cases hg : x ≥ 1 ∧ rd A.buffer c = cFrom
    · rw [if_pos hg, if_pos ⟨hg.1, hrd.trans hg.2⟩]
      obtain ⟨s1, d1⟩ := h.paint_both c hci
      obtain ⟨s2, d2, _, m2, _⟩ := s1.check_both h0 hto hne (c - s)
      obtain ⟨s3, d3, _, m3, _⟩ := s2.check_both h0 hto hne (c + s)
      have hr : Repaint cFrom cTo A.buffer
          ((({ A with buffer := wr A.buffer c cTo, area := A.area + 1 } : Fill).check (c - s)
            cFrom cTo).check (c + s) cFrom cTo).buffer :=
        Repaint.comp (Repaint.comp (Repaint.write _ _ hto hg.2) (check_repaint _ _ _ _ hto))
          (check_repaint _ _ _ _ hto)
      obtain ⟨s4, d4, m4⟩ := ih (c - 1) (x - 1) _ _ s3 (by
        rcases hc with hc | ⟨hc, hn⟩
        · exact Or.inl (by omega)
        · right
          have hc1 : c ≠ i + 1 := fun e => hn (e ▸ hg.2)
          refine ⟨by omega, ?_⟩
          rw [hr.keeps _ hn]
          exact hn)
      refine ⟨s4, by omega, fun e he => m4 e (m3 e (m2 e he))⟩
    · rw [if_neg hg, if_neg (by rw [hrd]; exact hg)]
      exact ⟨h, le_refl _, fun e he => he⟩

/-- The walk to the right in both fills, from a cell right of the seed, or
left of it when the cell left of the seed has not the colour `cFrom`. -/
theorem SeedSim.walkRight {i : Int} {cFrom cTo : Nat} (w s : Int) (h0 : 0 ≤ i) (hto : cTo < 256)
    (hne : cFrom ≠ cTo) (fuel : Nat) : ∀ (c x : Int) (A T : Fill), SeedSim i cFrom cTo A T →
      (i < c ∨ (c < i ∧ rd A.buffer (i - 1) ≠ cFrom)) →
      SeedSim i cFrom cTo (fillRight w s cFrom cTo fuel c x A)
        (fillRight w s cFrom cTo fuel c x T) ∧
      seedDebt i cFrom (fillRight w s cFrom cTo fuel c x A) ≤ seedDebt i cFrom A ∧
      (∀ e ∈ A.stack, e ∈ (fillRight w s cFrom cTo fuel c x A).stack) := by
  induction fuel with
  | zero => intro c x A T h _; exact ⟨h, le_refl _, fun e he => he⟩
  | succ fuel ih =>
    intro c x A T h hc
    have hci : c ≠ i := by omega
    have hrd : rd T.buffer c = rd A.buffer c := h.off c hci
    simp only [fillRight]
    by_cases hg : x ≤ w ∧ rd A.buffer c = cFrom
    · rw [if_pos hg, if_pos ⟨hg.1, hrd.trans hg.2⟩]
      obtain ⟨s1, d1⟩ := h.paint_both c hci
      obtain ⟨s2, d2, _, m2, _⟩ := s1.check_both h0 hto hne (c - s)
      obtain ⟨s3, d3, _, m3, _⟩ := s2.check_both h0 hto hne (c + s)
      have hr : Repaint cFrom cTo A.buffer
          ((({ A with buffer := wr A.buffer c cTo, area := A.area + 1 } : Fill).check (c - s)
            cFrom cTo).check (c + s) cFrom cTo).buffer :=
        Repaint.comp (Repaint.comp (Repaint.write _ _ hto hg.2) (check_repaint _ _ _ _ hto))
          (check_repaint _ _ _ _ hto)
      obtain ⟨s4, d4, m4⟩ := ih (c + 1) (x + 1) _ _ s3 (by
        rcases hc with hc | ⟨hc, hn⟩
        · exact Or.inl (by omega)
        · right
          have hc1 : c ≠ i - 1 := fun e => hn (e ▸ hg.2)
          refine ⟨by omega, ?_⟩
          rw [hr.keeps _ hn]
          exact hn)
      refine ⟨s4, by omega, fun e he => m4 e (m3 e (m2 e he))⟩
    · rw [if_neg hg, if_neg (by rw [hrd]; exact hg)]
      exact ⟨h, le_refl _, fun e he => he⟩

/-- A walk to the left that starts on the seed, the neighbours of the seed
having lost the colour `cFrom`: at most the seed is recoloured. -/
theorem SeedSim.walkLeft_seed {i : Int} {cFrom cTo : Nat} (s : Int) (h0 : 0 ≤ i)
    (hto : cTo < 256) (hne : cFrom ≠ cTo) (hs : s ≠ 0) (fuel : Nat) (x : Int) (A T : Fill)
    (h : SeedSim i cFrom cTo A T)
    (hu : rd A.buffer (i - s) ≠ cFrom) (hd : rd A.buffer (i + s) ≠ cFrom)
    (hl : rd A.buffer (i - 1) ≠ cFrom) :
    SeedSim i cFrom cTo (fillLeft s cFrom cTo fuel i x A) (fillLeft s cFrom cTo fuel i x T) ∧
    seedDebt i cFrom (fillLeft s cFrom cTo fuel i x A) ≤ seedDebt i cFrom A ∧
    (∀ e ∈ A.stack, e ∈ (fillLeft s cFrom cTo fuel i x A).stack) := by
  have hmod := Nat.mod_eq_of_lt hto
  rw [fillLeft_stop s cFrom cTo fuel i x T (by rw [h.seedT]; exact fun e => hne e.symm)]
  cases fuel with
  | zero => exact ⟨h, le_refl _, fun e he => he⟩
  | succ fuel =>
    simp only [fillLeft]
    by_cases hg : x ≥ 1 ∧ rd A.buffer i = cFrom
    · rw [if_pos hg]
      have e1 : ({ A with buffer := wr A.buffer i cTo, area := A.area + 1 } : Fill).check (i - s)
          cFrom cTo = { A with buffer := wr A.buffer i cTo, area := A.area + 1 } := by
        unfold Fill.check
        rw [if_neg]
        show rd (wr A.buffer i cTo) (i - s) ≠ cFrom
        rw [rd_wr_ne _ _ _ _ (by omega)]
        exact hu
      have e2 : ({ A with buffer := wr A.buffer i cTo, area := A.area + 1 } : Fill).check (i + s)
          cFrom cTo = { A with buffer := wr A.buffer i cTo, area := A.area + 1 } := by
        unfold Fill.check
        rw [if_neg]
        show rd (wr A.buffer i cTo) (i + s) ≠ cFrom
        rw [rd_wr_ne _ _ _ _ (by omega)]
        exact hd
      rw [e1, e2, fillLeft_stop _ _ _ _ _ _ _ (by
        show rd (wr A.buffer i cTo) (i - 1) ≠ cFrom
        rw [rd_wr_ne _ _ _ _ (by omega)]
        exact hl)]
      have hnew : rd (wr A.buffer i cTo) i = cTo := by rw [rd_wr_same _ _ _ h0, hmod]
      refine ⟨⟨fun c hc => ?_, h.seedT, Or.inr hnew, h.stack⟩, ?_, fun e he => he⟩
      · show rd T.buffer c = rd (wr A.buffer i cTo) c
        rw [rd_wr_ne _ _ _ _ (fun e => hc e.symm)]
        exact h.off c hc
      · unfold seedDebt
        show A.stack.count i + (if rd (wr A.buffer i cTo) i = cFrom then 1 else 0) ≤
          A.stack.count i + (if rd A.buffer i = cFrom then 1 else 0)
        rw [hnew, if_neg (fun e => hne e.symm)]
        omega
    · rw [if_neg hg]
      exact ⟨h, le_refl _, fun e he => he⟩

/-- A walk to the right that starts on the seed, the neighbours of the seed
having lost the colour `cFrom`: at most the seed is recoloured. -/
theorem SeedSim.walkRight_seed {i : Int} {cFrom cTo : Nat} (w s : Int) (h0 : 0 ≤ i)
    (hto : cTo < 256) (hne : cFrom ≠ cTo) (hs : s ≠ 0) (fuel : Nat) (x : Int) (A T : Fill)
    (h : SeedSim i cFrom cTo A T)
    (hu : rd A.buffer (i - s) ≠ cFrom) (hd : rd A.buffer (i + s) ≠ cFrom)
    (hr : rd A.buffer (i + 1) ≠ cFrom) :
    SeedSim i cFrom cTo (fillRight w s cFrom cTo fuel i x A)
      (fillRight w s cFrom cTo fuel i x T) ∧
    seedDebt i cFrom (fillRight w s cFrom cTo fuel i x A) ≤ seedDebt i cFrom A ∧
    (∀ e ∈ A.stack, e ∈ (fillRight w s cFrom cTo fuel i x A).stack) := by
  have hmod := Nat.mod_eq_of_lt hto
  rw [fillRight_stop w s cFrom cTo fuel i x T (by rw [h.seedT]; exact fun e => hne e.symm)]
  cases fuel with
  | zero => exact ⟨h, le_refl _, fun e he => he⟩
  | succ fuel =>
    simp only [fillRight]
    by_cases hg : x ≤ w ∧ rd A.buffer i = cFrom
    · rw [if_pos hg]
      have e1 : ({ A with buffer := wr A.buffer i cTo, area := A.area + 1 } : Fill).check (i - s)
          cFrom cTo = { A with buffer := wr A.buffer i cTo, area := A.area + 1 } := by
        unfold Fill.check
        rw [if_neg]
        show rd (wr A.buffer i cTo) (i - s) ≠ cFrom
        rw [rd_wr_ne _ _ _ _ (by omega)]
        exact hu
      have e2 : ({ A with buffer := wr A.buffer i cTo, area := A.area + 1 } : Fill).check (i + s)
          cFrom cTo = { A with buffer := wr A.buffer i cTo, area := A.area + 1 } := by
        unfold Fill.check
        rw [if_neg]
        show rd (wr A.buffer i cTo) (i + s) ≠ cFrom
        rw [rd_wr_ne _ _ _ _ (by omega)]
        exact hd
      rw [e1, e2, fillRight_stop _ _ _ _ _ _ _ _ (by
        show rd (wr A.buffer i cTo) (i + 1) ≠ cFrom
        rw [rd_wr_ne _ _ _ _ (by omega)]
        exact hr)]
      have hnew : rd (wr A.buffer i cTo) i = cTo := by rw [rd_wr_same _ _ _ h0, hmod]
      refine ⟨⟨fun c hc => ?_, h.seedT, Or.inr hnew, h.stack⟩, ?_, fun e he => he⟩
      · show rd T.buffer c = rd (wr A.buffer i cTo) c
        rw [rd_wr_ne _ _ _ _ (fun e => hc e.symm)]
        exact h.off c hc
      · unfold seedDebt
        show A.stack.count i + (if rd (wr A.buffer i cTo) i = cFrom then 1 else 0) ≤
          A.stack.count i + (if rd A.buffer i = cFrom then 1 else 0)
        rw [hnew, if_neg (fun e => hne e.symm)]
        omega
    · rw [if_neg hg]
      exact ⟨h, le_refl _, fun e he => he⟩

theorem floodFillBody_repaint (w s : Int) (cFrom cTo : Nat) (hto : cTo < 256) (c : Int)
    (A : Fill) : Repaint cFrom cTo A.buffer (floodFillBody w s cFrom cTo c A).buffer := by
  unfold floodFillBody
  refine Repaint.comp ?_ (fillRight_repaint _ _ _ _ hto _ _ _ _)
  refine Repaint.comp ?_ (fillLeft_repaint _ _ _ hto _ _ _ _)
  refine Repaint.comp ?_ (check_repaint _ _ _ _ hto)
  exact check_repaint _ _ _ _ hto

/-- One trip of the outer loop in both fills, for a popped cell `c` that is
the seed (the first trip) or any other cell once the four neighbours of the
seed have lost the colour `cFrom`. -/
theorem SeedSim.body_both {i : Int} {cFrom cTo : Nat} {A T : Fill} (h : SeedSim i cFrom cTo A T)
    (w s : Int) (h0 : 0 ≤ i) (hto : cTo < 256) (hne : cFrom ≠ cTo) (hs : s ≠ 0) (c : Int)
    (hc : c = i ∨ (rd A.buffer (i - s) ≠ cFrom ∧ rd A.buffer (i + s) ≠ cFrom ∧
      rd A.buffer (i - 1) ≠ cFrom ∧ rd A.buffer (i + 1) ≠ cFrom)) :
    SeedSim i cFrom cTo (floodFillBody w s cFrom cTo c A) (floodFillBody w s cFrom cTo c T) ∧
    seedDebt i cFrom (floodFillBody w s cFrom cTo c A) ≤ seedDebt i cFrom A ∧
    (∀ e ∈ A.stack, e ∈ (floodFillBody w s cFrom cTo c A).stack) ∧
    ((c = i - s ∨ c = i + s) → rd (floodFillBody w s cFrom cTo c A).buffer i ≠ cFrom) ∧
    (∀ d : Int, (d = c - s ∨ d = c + s) → rd A.buffer d = cFrom →
      d ∈ (floodFillBody w s cFrom cTo c A).stack) := by
  obtain ⟨s1, d1, f1, m1, p1⟩ := h.check_both h0 hto hne (c - s)
  obtain ⟨s2, d2, f2, m2, p2⟩ := s1.check_both h0 hto hne (c + s)
  have r1 : Repaint cFrom cTo A.buffer (A.check (c - s) cFrom cTo).buffer :=
    check_repaint _ _ _ _ hto
  have r2 : Repaint cFrom cTo A.buffer
      ((A.check (c - s) cFrom cTo).check (c + s) cFrom cTo).buffer :=
    Repaint.comp r1 (check_repaint _ _ _ _ hto)
  have hL : SeedSim i cFrom cTo
      (fillLeft s cFrom cTo (Int.tmod (c - 1) s).toNat (c - 1) (Int.tmod (c - 1) s)
        ((A.check (c - s) cFrom cTo).check (c + s) cFrom cTo))
      (fillLeft s cFrom cTo (Int.tmod (c - 1) s).toNat (c - 1) (Int.tmod (c - 1) s)
        ((T.check (c - s) cFrom cTo).check (c + s) cFrom cTo)) ∧
      seedDebt i cFrom
        (fillLeft s cFrom cTo (Int.tmod (c - 1) s).toNat (c - 1) (Int.tmod (c - 1) s)
          ((A.check (c - s) cFrom cTo).check (c + s) cFrom cTo)) ≤
        seedDebt i cFrom ((A.check (c - s) cFrom cTo).check (c + s) cFrom cTo) ∧
      (∀ e ∈ ((A.check (c - s) cFrom cTo).check (c + s) cFrom cTo).stack,
        e ∈ (fillLeft s cFrom cTo (Int.tmod (c - 1) s).toNat (c - 1) (Int.tmod (c - 1) s)
          ((A.check (c - s) cFrom cTo).check (c + s) cFrom cTo)).stack) := by
    by_cases e : c - 1 = i
    · rw [e]
      have hn := hc.resolve_left (by omega)
      exact SeedSim.walkLeft_seed s h0 hto hne hs _ _ _ _ s2
        (by rw [r2.keeps _ hn.1]; exact hn.1) (by rw [r2.keeps _ hn.2.1]; exact hn.2.1)
        (by rw [r2.keeps _ hn.2.2.1]; exact hn.2.2.1)
    · refine SeedSim.walkLeft s h0 hto hne _ _ _ _ _ s2 ?_
      by_cases e2 : c - 1 < i
      · exact Or.inl e2
      · have hn := hc.resolve_left (by omega)
        exact Or.inr ⟨by omega, by rw [r2.keeps _ hn.2.2.2]; exact hn.2.2.2⟩
  obtain ⟨s3, d3, m3⟩ := hL
  have r3 : Repaint cFrom cTo A.buffer
      (fillLeft s cFrom cTo (Int.tmod (c - 1) s).toNat (c - 1) (Int.tmod (c - 1) s)
        ((A.check (c - s) cFrom cTo).check (c + s) cFrom cTo)).buffer :=
    Repaint.comp r2 (fillLeft_repaint _ _ _ hto _ _ _ _)
  have hR : SeedSim i cFrom cTo (floodFillBody w s cFrom cTo c A)
      (floodFillBody w s cFrom cTo c T) ∧
      seedDebt i cFrom (floodFillBody w s cFrom cTo c A) ≤
        seedDebt i cFrom
          (fillLeft s cFrom cTo (Int.tmod (c - 1) s).toNat (c - 1) (Int.tmod (c - 1) s)
            ((A.check (c - s) cFrom cTo).check (c + s) cFrom cTo)) ∧
      (∀ e ∈ (fillLeft s cFrom cTo (Int.tmod (c - 1) s).toNat (c - 1) (Int.tmod (c - 1) s)
          ((A.check (c - s) cFrom cTo).check (c + s) cFrom cTo)).stack,
        e ∈ (floodFillBody w s cFrom cTo c A).stack) := by
    unfold floodFillBody
    simp only []
    by_cases e : c + 1 = i
    · rw [e]
      have hn := hc.resolve_left (by omega)
      exact SeedSim.walkRight_seed w s h0 hto hne hs _ _ _ _ s3
        (by rw [r3.keeps _ hn.1]; exact hn.1) (by rw [r3.keeps _ hn.2.1]; exact hn.2.1)
        (by rw [r3.keeps _ hn.2.2.2]; exact hn.2.2.2)
    · refine SeedSim.walkRight w s h0 hto hne _ _ _ _ _ s3 ?_
      by_cases e2 : i < c + 1
      · exact Or.inl e2
      · have hn := hc.resolve_left (by omega)
        exact Or.inr ⟨by omega, by rw [r3.keeps _ hn.2.2.1]; exact hn.2.2.1⟩
  obtain ⟨s4, d4, m4⟩ := hR
  have r34 : Repaint cFrom cTo ((A.check (c - s) cFrom cTo).check (c + s) cFrom cTo).buffer
      (floodFillBody w s cFrom cTo c A).buffer := by
    unfold floodFillBody
    exact Repaint.comp (fillLeft_repaint _ _ _ hto _ _ _ _) (fillRight_repaint _ _ _ _ hto _ _ _ _)
  refine ⟨s4, by omega, fun e he => m4 e (m3 e (m2 e (m1 e he))), ?_, ?_⟩
  · intro hcd
    have key : rd ((A.check (c - s) cFrom cTo).check (c + s) cFrom cTo).buffer i ≠ cFrom := by
      rcases hcd with e | e
      · exact f2 (by omega)
      · have := f1 (by omega)
        rw [(check_repaint (A.check (c - s) cFrom cTo) (c + s) cFrom cTo hto).keeps _ this]
        exact this
    rw [r34.keeps _ key]
    exact key
  · intro d hd hcol
    rcases hd with e | e
    · subst e
      exact m4 _ (m3 _ (m2 _ (p1 hcol)))
    · subst e
      by_cases hq : rd (A.check (c - s) cFrom cTo).buffer (c + s) = cFrom
      · exact m4 _ (m3 _ (p2 hq))
      · exfalso
        apply hq
        rw [r1.keeps]
        · exact hcol
        · intro hcon
          rcases r1 (c + s) with e1 | ⟨_, e1⟩
          · exact hq (e1.trans hcol)
          · unfold Fill.check at e1 hq
            by_cases hq2 : rd A.buffer (c - s) = cFrom
            · rw [if_pos hq2] at e1 hq
              simp only [] at e1 hq
              rw [rd_wr_ne _ _ _ _ (by omega)] at hq
              exact hq hcol
            · rw [if_neg hq2] at hq
              exact hq hcol

/-- The trip of the outer loop for the seed popped a second time does
nothing. -/
theorem floodFillBody_idle (w s : Int) (cFrom cTo : Nat) (i : Int) (A : Fill)
    (hu : rd A.buffer (i - s) ≠ cFrom) (hd : rd A.buffer (i + s) ≠ cFrom)
    (hl : rd A.buffer (i - 1) ≠ cFrom) (hr : rd A.buffer (i + 1) ≠ cFrom) :
    floodFillBody w s cFrom cTo i A = A := by
  unfold floodFillBody
  simp only []
  have e1 : A.check (i - s) cFrom cTo = A := by
    unfold Fill.check
    rw [if_neg hu]
  rw [e1]
  have e2 : A.check (i + s) cFrom cTo = A := by
    unfold Fill.check
    rw [if_neg hd]
  rw [e2, fillLeft_stop _ _ _ _ _ _ _ hl, fillRight_stop _ _ _ _ _ _ _ _ hr]

/-- The outer loop of a fill whose seed was not recoloured, beside the fill
whose seed was: it empties its stack, recolours the seed when a cell above or
below the seed is on the stack, and ends with the mask of the other fill. -/
theorem SeedSim.loop_both {B : Nat} {w s : Int} {cFrom cTo : Nat} {i : Int} {n : Nat}
    (ctx : FillCtx B w s cFrom cTo n) (h0 : 0 ≤ i) (d : Int) (hd : d = i - s ∨ d = i + s)
    (fuel : Nat) : ∀ A T : Fill, SeedSim i cFrom cTo A T → FillInv B s cFrom cTo i n [] T →
      (rd A.buffer i = cFrom → d ∈ A.stack) →
      2 * cnt T.buffer cFrom n + T.stack.length + seedDebt i cFrom A ≤ fuel →
      (floodFillLoop w s cFrom cTo fuel A).stack = [] ∧
      rd (floodFillLoop w s cFrom cTo fuel A).buffer i = cTo ∧
      ∃ TF : Fill, FillDone B s cFrom cTo i n TF ∧
        ∀ c : Int, c ≠ i → rd TF.buffer c = rd (floodFillLoop w s cFrom cTo fuel A).buffer c := by
  have hs : 0 < s := by
    have := ctx.hstride
    have := ctx.hw
    omega
  have hdi : d ≠ i := by omega
  -- the neighbours of the seed have lost the colour
  have hnb : ∀ A T : Fill, SeedSim i cFrom cTo A T → FillInv B s cFrom cTo i n [] T →
      rd A.buffer (i - s) ≠ cFrom ∧ rd A.buffer (i + s) ≠ cFrom ∧
      rd A.buffer (i - 1) ≠ cFrom ∧ rd A.buffer (i + 1) ≠ cFrom := by
    intro A T h hT
    have hni : i ∉ T.stack := by
      rw [h.stack]
      intro hmem
      have := (List.mem_filter.mp hmem).2
      simp at this
    rcases hT.closed i hT.seedDone.1 hT.seedDone.2 with e | e | e
    · simp at e
    · exact absurd e hni
    · obtain ⟨a, b, c, d⟩ := e
      rw [h.off _ (by omega)] at a b c d
      exact ⟨a, b, c, d⟩
  have fin : ∀ A T : Fill, SeedSim i cFrom cTo A T → FillInv B s cFrom cTo i n [] T →
      (rd A.buffer i = cFrom → d ∈ A.stack) → A.stack = [] →
      A.stack = [] ∧ rd A.buffer i = cTo ∧
      ∃ TF : Fill, FillDone B s cFrom cTo i n TF ∧
        ∀ c : Int, c ≠ i → rd TF.buffer c = rd A.buffer c := by
    intro A T h hT htr hst
    refine ⟨hst, ?_, T, hT.done (by rw [h.stack, hst]; rfl), h.off⟩
    rcases h.seedA with e | e
    · have := htr e
      rw [hst] at this
      simp at this
    · exact e
  induction fuel with
  | zero =>
    intro A T h hT htr hf
    have hst : A.stack = [] := by
      cases hA : A.stack with
      | nil => rfl
      | cons c rest =>
        exfalso
        by_cases hci : c = i
        · unfold seedDebt at hf
          rw [hA, hci, List.count_cons_self] at hf
          omega
        · have : T.stack = c :: rest.filter (fun c => decide (c ≠ i)) := by
            rw [h.stack, hA, List.filter_cons_of_pos (by simpa using hci)]
          rw [this] at hf
          simp only [List.length_cons] at hf
          omega
    simp only [floodFillLoop]
    exact fin A T h hT htr hst
  | succ fuel ih =>
    intro A T h hT htr hf
    simp only [floodFillLoop]
    cases hA : A.stack with
    | nil =>
      simp only []
      exact fin A T h hT htr hA
    | cons c rest =>
      simp only []
      obtain ⟨nu, nd, nl, nr⟩ := hnb A T h hT
      by_cases hci : c = i
      · subst hci
        rw [floodFillBody_idle w s cFrom cTo c { A with stack := rest } nu nd nl nr]
        refine ih _ T ⟨h.off, h.seedT, h.seedA, ?_⟩ hT ?_ ?_
        · show T.stack = rest.filter (fun x => decide (x ≠ c))
          rw [h.stack, hA, List.filter_cons_of_neg (by simp)]
        · intro hcol
          have := htr hcol
          rw [hA] at this
          rcases List.mem_cons.mp this with e | e
          · exact absurd e hdi
          · exact e
        · unfold seedDebt at hf ⊢
          rw [hA, List.count_cons_self] at hf
          show 2 * cnt T.buffer cFrom n + T.stack.length +
            (rest.count c + (if rd A.buffer c = cFrom then 1 else 0)) ≤ fuel
          omega
      · have hTs : T.stack = c :: rest.filter (fun x => decide (x ≠ i)) := by
          rw [h.stack, hA, List.filter_cons_of_pos (by simpa using hci)]
        obtain ⟨a, b⟩ := floodFillBody_spec ctx hT hTs
        have hpop : SeedSim i cFrom cTo { A with stack := rest }
            { T with stack := rest.filter (fun x => decide (x ≠ i)) } :=
          ⟨h.off, h.seedT, h.seedA, rfl⟩
        obtain ⟨s1, d1, m1, f1, _⟩ := hpop.body_both w s h0 ctx.hto ctx.hne (by omega) c
          (Or.inr ⟨nu, nd, nl, nr⟩)
        have rb := floodFillBody_repaint w s cFrom cTo ctx.hto c { A with stack := rest }
        refine ih _ _ s1 a ?_ ?_
        · intro hcol
          have hold : rd A.buffer i = cFrom := by
            rcases rb i with e | ⟨_, e⟩
            · exact e ▸ hcol
            · rw [hcol] at e
              exact absurd e ctx.hne
          have hdm := htr hold
          rw [hA] at hdm
          rcases List.mem_cons.mp hdm with e | e
          · exfalso
            exact f1 (by rcases hd with q | q <;> omega) hcol
          · exact m1 d e
        · have hm := b.measure
          simp only [] at hm
          rw [hTs] at hf
          simp only [List.length_cons] at hf
          have hdebt : seedDebt i cFrom { A with stack := rest } = seedDebt i cFrom A := by
            unfold seedDebt
            rw [hA, List.count_cons_of_ne (fun e => hci e.symm)]
          omega

/-- A fill of the colour `cFrom` from a seed that still has this colour (the
caller has not recoloured it): when the cell above or the cell below the seed
has the colour too, the fill recolours exactly the component of the seed, the
seed included. -/
theorem floodFill_unpainted (w h : Int) (mask : Nat) (cFrom cTo : Nat) (seed : Int)
    (rest : List Int) (hp : PaddedMask w h mask) (hf : cFrom = 1 ∨ cFrom = 2) (hne : cTo ≠ cFrom)
    (hto : cTo < 256) (hseed : rd mask seed = cFrom)
    (hv : rd mask (seed - (w + 2)) = cFrom ∨ rd mask (seed + (w + 2)) = cFrom) (c : Int) :
    (Conn mask (w + 2) cFrom seed c →
      rd (floodFill w h mask (w + 2) cFrom cTo (seed :: rest)).buffer c = cTo) ∧
    (¬ Conn mask (w + 2) cFrom seed c →
      rd (floodFill w h mask (w + 2) cFrom cTo (seed :: rest)).buffer c = rd mask c) := by
  have ctx := FillCtx.ofPadded hp cFrom cTo hf hne hto
  obtain ⟨h0, hn, _, _⟩ := ctx.interior seed hseed
  have hmod := Nat.mod_eq_of_lt hto
  have hs : (w + 2 : Int) ≠ 0 := by
    have := ctx.hw
    omega
  obtain ⟨d, hd, hdc⟩ : ∃ d : Int, (d = seed - (w + 2) ∨ d = seed + (w + 2)) ∧
      rd mask d = cFrom := by
    rcases hv with e | e
    · exact ⟨_, Or.inl rfl, e⟩
    · exact ⟨_, Or.inr rfl, e⟩
  have hT0 := FillInv.init ctx hseed
  obtain ⟨a, b⟩ := floodFillBody_spec ctx hT0
    (show ({ buffer := wr mask seed cTo, stack := [seed], area := 1 } : Fill).stack = seed :: []
      from rfl)
  have hsim0 : SeedSim seed cFrom cTo ({ buffer := mask, stack := [], area := 1 } : Fill)
      ({ buffer := wr mask seed cTo, stack := [], area := 1 } : Fill) :=
    ⟨fun c hc => rd_wr_ne _ _ _ _ (fun e => hc e.symm), by
      show rd (wr mask seed cTo) seed = cTo
      rw [rd_wr_same _ _ _ h0, hmod], Or.inl hseed, rfl⟩
  obtain ⟨s1, d1, m1, _, p1⟩ := hsim0.body_both w (w + 2) h0 hto (fun e => hne e.symm) hs seed
    (Or.inl rfl)
  have hloop := SeedSim.loop_both ctx h0 d hd (2 * memSize mask + 1) _ _ s1 a
    (fun _ => p1 d hd hdc) (by
      have hm := b.measure
      simp only [List.length_nil, add_zero] at hm
      have hcnt := cnt_wr mask cFrom cTo seed _ h0 hn hseed (by rw [hmod]; exact hne)
      have hle := cnt_le_memSize mask cFrom (by omega) ((w + 2) * (h + 2)).toNat
      have hdebt : seedDebt seed cFrom ({ buffer := mask, stack := [], area := 1 } : Fill) = 1 := by
        unfold seedDebt
        simp [hseed]
      omega)
  have hrun : floodFill w h mask (w + 2) cFrom cTo (seed :: rest) =
      floodFillLoop w (w + 2) cFrom cTo (2 * memSize mask + 1)
        (floodFillBody w (w + 2) cFrom cTo seed { buffer := mask, stack := [], area := 1 }) := by
    unfold floodFill
    simp only [List.take_succ_cons, List.take_zero]
    rfl
  rw [hrun]
  obtain ⟨_, hseedF, TF, hTF, hoff⟩ := hloop
  by_cases hci : c = seed
  · subst hci
    exact ⟨fun _ => hseedF, fun hc => absurd (Conn.seed hseed) hc⟩
  · rw [← hoff c hci]
    exact ⟨fun hc => hTF.2.1 c hc, fun hc => hTF.2.2.1 c hc⟩

/-! ## The failure branch of the outer trace -/

theorem Conn.seed_colour {mask : Nat} {s : Int} {v : Nat} {seed c : Int}
    (h : Conn mask s v seed c) : rd mask seed = v := by
  induction h with
  | seed h0 => exact h0
  | up _ _ ih => exact ih
  | down _ _ ih => exact ih
  | left _ _ ih => exact ih
  | right _ _ ih => exact ih

/-- A component holds the neighbours of its cells that have the colour. -/
theorem Conn.adjacent {mask : Nat} {s : Int} {v : Nat} {seed c n : Int}
    (h : Conn mask s v seed c) (ha : Adjacent4 s c n) (hn : rd mask n = v) :
    Conn mask s v seed n := by
  rcases ha with rfl | rfl | rfl | rfl
  · exact Conn.up h hn
  · exact Conn.right h hn
  · exact Conn.down h hn
  · exact Conn.left h hn

theorem Adjacent4.swap {s a b : Int} (h : Adjacent4 s a b) : Adjacent4 s b a := by
  unfold Adjacent4 at h ⊢
  omega

theorem Repaint.one_iff {u v a b : Nat} (h : Repaint u v a b) (hu : u ≠ 1) (hv : v ≠ 1)
    (c : Int) : rd b c = 1 ↔ rd a c = 1 := by
  rcases h c with e | ⟨e1, e2⟩
  · rw [e]
  · rw [e1, e2]
    exact ⟨fun q => absurd q hv, fun q => absurd q hu⟩

/-- Writing the value a cell has changes nothing. -/
theorem wr_same (b : Nat) (i : Int) (v : Nat) (h : rd b i = v) : wr b i v = b := by
  apply mem_ext
  intro c
  rw [rd_wr]
  split
  · rename_i e
    rw [← e.1, h, ← h]
    exact Nat.mod_eq_of_lt (rd_lt _ _)
  · rfl

/-- The path of `trace4` stays in a set of `Visited` cells that holds the
start cell and whose cells have only cells of the set and `Background` cells
as neighbours. -/
theorem trace4_stack_within (i cwDir : Int) (off8 : List Int) (b : Nat) (s : Int)
    (pts : List Point) (K : Int → Prop) (hi : K i) (hK : ∀ c : Int, K c → rd b c = 2)
    (hiso : ∀ c : Int, K c → ∀ n : Int, Adjacent4 s c n → K n ∨ rd b n = 0) :
    ∀ c ∈ (trace4 i cwDir (cwNeighborOffsets4 s) off8 b s pts).stack, K c := by
  rw [trace4_stack]
  have key := traceLoop_induct i cwDir (cwNeighborOffsets4 s) off8
    (fun t => (∀ c ∈ t.stack, K c) ∧ K t.prevI ∧ ∀ c : Int, rd b c = 0 → rd t.buffer c = 0)
    (by
      rintro t nextI d ⟨p1, p2, p3⟩ h2 hn d0 d1
      have hk : K nextI := by
        rcases hiso _ p2 nextI (hn ▸ offsetAt_four s d d0 d1 t.prevI) with q | q
        · exact q
        · rw [p3 _ q] at h2
          exact absurd h2 (by norm_num)
      refine ⟨fun c hc => ?_, hk, fun c hc => ?_⟩
      · rcases List.mem_append.mp hc with q | q
        · exact p1 c q
        · rw [List.mem_singleton.mp q]
          exact hk
      · show rd (wr t.buffer nextI 3) c = 0
        rw [rd_wr_ne _ _ _ _ (by
          rintro rfl
          rw [hK _ hk] at hc
          exact absurd hc (by norm_num))]
        exact p3 c hc)
    (by
      rintro t nextI d ⟨p1, p2, p3⟩ h3 hn d0 d1 _ _ _
      have hk : K nextI := by
        rcases hiso _ p2 nextI (hn ▸ offsetAt_four s d d0 d1 t.prevI) with q | q
        · exact q
        · rw [p3 _ q] at h3
          exact absurd h3 (by norm_num)
      refine ⟨fun c hc => ?_, hk, fun c hc => ?_⟩
      · rcases List.mem_append.mp hc with q | q
        · exact p1 c q
        · rw [List.mem_singleton.mp q]
          exact hk
      · show rd (wr t.buffer nextI 3) c = 0
        rw [rd_wr_ne _ _ _ _ (by
          rintro rfl
          rw [hK _ hk] at hc
          exact absurd hc (by norm_num))]
        exact p3 c hc)
    ((memSize b + 1) * (maxRevisited.toNat + 2)) ⟨wr b i 3, [i], i, 1, 0⟩
    ⟨fun c hc => by rw [List.mem_singleton.mp hc]; exact hi, hi, fun c hc => by
      show rd (wr b i 3) c = 0
      rw [rd_wr_ne _ _ _ _ (by
        rintro rfl
        rw [hK _ hi] at hc
        exact absurd hc (by norm_num))]
      exact hc⟩
  obtain ⟨t1, ⟨p1, _, _⟩, e | e | ⟨d, _, _, _, _, e⟩⟩ := key
  · rw [e]; exact p1
  · rw [e]; exact p1
  · rw [e]; exact p1

/-- The `Foreground` cells the body of the main scan at cell `i` leaves are
the `Foreground` cells outside the region of `i`. -/
theorem scanCell_fresh (w h i : Int) (st : Scan) (hp : PaddedMask w h st.buffer) (c : Int) :
    rd (scanCell w h (w + 2) i st).buffer c = 1 ↔
      rd st.buffer c = 1 ∧ ¬ Conn st.buffer (w + 2) 1 i c := by
  have hw := hp.1
  have hh := hp.2.1
  unfold scanCell
  simp only []
  by_cases h1 : rd st.buffer i = 1
  · rw [if_pos h1]
    have h0 : 0 ≤ i := by
      by_contra hn
      rw [rd_neg _ _ (by omega)] at h1
      exact absurd h1 (by norm_num)
    have d1 := floodFill_done w h st.buffer 1 2 i [] hp (Or.inl rfl) (by norm_num) (by norm_num) h1
    generalize hf : floodFill w h (wr st.buffer i 2) (w + 2) 1 2 [i] = f at d1
    have e2 : rd f.buffer i = 2 := d1.2.1 i (Conn.seed h1)
    have base : rd f.buffer c = 1 ↔ rd st.buffer c = 1 ∧ ¬ Conn st.buffer (w + 2) 1 i c := by
      by_cases hcc : Conn st.buffer (w + 2) 1 i c
      · rw [d1.2.1 c hcc]
        exact ⟨fun q => absurd q (by norm_num), fun q => absurd hcc q.2⟩
      · rw [d1.2.2.1 c hcc]
        exact ⟨fun q => ⟨q, hcc⟩, fun q => q.1⟩
    rw [← base]
    by_cases ha : f.area > 10
    · rw [if_pos ha]
      have ht := trace4_spec i 1 (cwNeighborOffsets4 (w + 2)) (cwNeighborOffsets8 (w + 2))
        f.buffer (w + 2) st.points e2
      generalize trace4 i 1 (cwNeighborOffsets4 (w + 2)) (cwNeighborOffsets8 (w + 2))
        f.buffer (w + 2) st.points = T at ht ⊢
      obtain ⟨t1, t2, l, t3⟩ := ht
      by_cases hpc : T.pointCount > 1
      · rw [if_pos hpc]
        exact t1.one_iff (by norm_num) (by norm_num) c
      · rw [if_neg hpc]
        have u1 := traceUndo_repaint T.buffer T.stack T.stackSize t2
        have u2 : Repaint 3 2 (traceUndo T.buffer T.stack T.stackSize)
            (wr (traceUndo T.buffer T.stack T.stackSize) i 2) := by
          rcases u1 i with e | ⟨_, e⟩
          · exact Repaint.write _ _ (by norm_num) (e.trans (t2 i (by rw [t3]; simp)))
          · exact Repaint.rewrite _ _ e
        have u3 := floodFill_repaint w h (wr (traceUndo T.buffer T.stack T.stackSize) i 2)
          (w + 2) 2 0 [i] (by norm_num)
        show rd (floodFill w h (wr (traceUndo T.buffer T.stack T.stackSize) i 2) (w + 2) 2 0
          [i]).buffer c = 1 ↔ _
        rw [u3.one_iff (by norm_num) (by norm_num), u2.one_iff (by norm_num) (by norm_num),
          u1.one_iff (by norm_num) (by norm_num), t1.one_iff (by norm_num) (by norm_num)]
    · rw [if_neg ha]
      have u3 := floodFill_repaint w h (wr f.buffer i 0) (w + 2) 2 0 [i] (by norm_num)
      have u2 : Repaint 2 0 f.buffer (wr f.buffer i 0) := Repaint.write _ _ (by norm_num) e2
      show rd (floodFill w h (wr f.buffer i 0) (w + 2) 2 0 [i]).buffer c = 1 ↔ _
      rw [u3.one_iff (by norm_num) (by norm_num), u2.one_iff (by norm_num) (by norm_num)]
  · rw [if_neg h1]
    have hnc : ¬ Conn st.buffer (w + 2) 1 i c := fun q => h1 q.seed_colour
    by_cases h2 : rd st.buffer i = 2 ∧ rd st.buffer (i + (w + 2)) = 0
    · rw [if_pos h2]
      have ht := trace4_spec i (-1) (cwNeighborOffsets4 (w + 2)) (cwNeighborOffsets8 (w + 2))
        st.buffer (w + 2) st.points h2.1
      generalize trace4 i (-1) (cwNeighborOffsets4 (w + 2)) (cwNeighborOffsets8 (w + 2))
        st.buffer (w + 2) st.points = T at ht ⊢
      have e : rd T.buffer c = 1 ↔ rd st.buffer c = 1 :=
        ht.1.one_iff (by norm_num) (by norm_num) c
      split
      · show rd T.buffer c = 1 ↔ _
        rw [e]
        exact ⟨fun q => ⟨q, hnc⟩, fun q => q.1⟩
      · show rd T.buffer c = 1 ↔ _
        rw [e]
        exact ⟨fun q => ⟨q, hnc⟩, fun q => q.1⟩
    · rw [if_neg h2]
      exact ⟨fun q => ⟨q, hnc⟩, fun q => q.1⟩

/-- The mask of a state of the main scan is a padded mask. -/
theorem RegionInv.padded {w h : Int} {mask0 : Nat} {st : Scan} {pos : Int}
    (hst : RegionInv w mask0 st pos) (hw : 0 ≤ w) (hh : 0 ≤ h)
    (hink : ∀ c : Int, rd mask0 c ≠ 0 → Interior w h c) : PaddedMask w h st.buffer :=
  PaddedMask.of_ink hw hh (fun c hc => hink c (fun q => hc (hst.blank c q)))

/-- The body of the main scan keeps the invariant of the scan. -/
theorem scanCell_region (w h : Int) (mask0 : Nat) (hw : 0 ≤ w) (hh : 0 ≤ h)
    (hink : ∀ c : Int, rd mask0 c ≠ 0 → Interior w h c) (i : Int) (st : Scan)
    (hst : RegionInv w mask0 st i) : RegionInv w mask0 (scanCell w h (w + 2) i st) (i + 1) := by
  have hp := hst.padded hw hh hink
  refine ⟨fun c hc => scanCell_zero w h (w + 2) i st c (hst.blank c hc), fun c hc n hn hm => ?_,
    fun c hc => ?_⟩
  · obtain ⟨a, b⟩ := (scanCell_fresh w h i st hp c).mp hc
    have hn1 := hst.whole c a n hn hm
    exact (scanCell_fresh w h i st hp n).mpr ⟨hn1, fun q => b (q.adjacent hn.swap a)⟩
  · obtain ⟨a, b⟩ := (scanCell_fresh w h i st hp c).mp hc
    have := hst.later c a
    have : c ≠ i := fun e => b (e ▸ Conn.seed (e ▸ a))
    omega

theorem scanCols_region (w h : Int) (mask0 : Nat) (hw : 0 ≤ w) (hh : 0 ≤ h)
    (hink : ∀ c : Int, rd mask0 c ≠ 0 → Interior w h c) (n : Nat) :
    ∀ (i : Int) (st : Scan), RegionInv w mask0 st i →
      RegionInv w mask0 (scanCols w h (w + 2) n i st) (i + n) := by
  induction n with
  | zero => intro i st hst; simpa using hst
  | succ n ih =>
    intro i st hst
    simp only [scanCols]
    have := ih (i + 1) _ (scanCell_region w h mask0 hw hh hink i st hst)
    have e : i + 1 + (n : Int) = i + ((n + 1 : Nat) : Int) := by push_cast; ring
    rw [e] at this
    exact this

theorem scanRows_region (w h : Int) (mask0 : Nat) (hw : 0 ≤ w) (hh : 0 ≤ h)
    (hink : ∀ c : Int, rd mask0 c ≠ 0 → Interior w h c) (n : Nat) :
    ∀ (y : Int) (st : Scan), RegionInv w mask0 st (y * (w + 2) + 1) →
      RegionInv w mask0 (scanRows w h (w + 2) n y st) ((y + n) * (w + 2) + 1) := by
  induction n with
  | zero => intro y st hst; simpa using hst
  | succ n ih =>
    intro y st hst
    simp only [scanRows]
    have hc := scanCols_region w h mask0 hw hh hink w.toNat (y * (w + 2) + 1) st hst
    have e : ((w.toNat : Nat) : Int) = w := Int.toNat_of_nonneg hw
    rw [e] at hc
    have := ih (y + 1) _ ⟨hc.blank, hc.whole, fun c h1 => by
      have h2 := hc.later c h1
      obtain ⟨x', y', x0, x1, y0, y1, rfl⟩ := hink c (fun q => by
        rw [hc.blank c q] at h1
        exact absurd h1 (by norm_num))
      have hy : y ≤ y' := by
        by_contra hcon
        have : (y' + 1) * (w + 2) ≤ y * (w + 2) :=
          Int.mul_le_mul_of_nonneg_right (by omega) (by omega)
        omega
      have : (y + 1) * (w + 2) ≤ (y' + 1) * (w + 2) :=
        Int.mul_le_mul_of_nonneg_right (by omega) (by omega)
      omega⟩
    have e2 : (y + 1 + (n : Int)) = (y + ((n + 1 : Nat) : Int)) := by push_cast; ring
    rw [e2] at this
    exact this

/-- The state in which the main scan of `processImage` reaches a pixel
satisfies the invariant of the scan. -/
theorem scanBefore_region (w h : Int) (data : Nat) (points : List Point) (hw : 0 ≤ w)
    (hh : 0 ≤ h) (x y : Nat) :
    RegionInv w (eraseSpurs w h (buildMask w h data)) (scanBefore w h data points x y)
      (((y : Int) + 1) * (w + 2) + 1 + x) := by
  have hink := eraseSpurs_ink w h data hw hh
  unfold scanBefore
  apply scanCols_region w h _ hw hh hink
  have := scanRows_region w h _ hw hh hink y 1
    { buffer := eraseSpurs w h (buildMask w h data), points := points, polygons := [] }
    ⟨fun c hc => hc, fun c _ n _ hm => hm, fun c hc => by
      obtain ⟨x', y', x0, x1, y0, y1, rfl⟩ := hink c (by
        have : rd (eraseSpurs w h (buildMask w h data)) c = 1 := hc
        rw [this]
        norm_num)
      have : 1 * (w + 2) ≤ (y' + 1) * (w + 2) :=
        Int.mul_le_mul_of_nonneg_right (by omega) (by omega)
      omega⟩
  rw [show ((y : Int) + 1) = 1 + y from by ring]
  exact this

/-- The failure branch of the body of the main scan: when the outer trace of
the region of cell `i` reports at most 1 point, the whole region, the cell `i`
included, is `Background` after the body, and no polygon is handed over. -/
theorem scanCell_failed (w h : Int) (mask0 : Nat) (hw : 0 ≤ w) (hh : 0 ≤ h)
    (hink : ∀ c : Int, rd mask0 c ≠ 0 → Interior w h c) (hbits : ∀ c : Int, rd mask0 c ≤ 1)
    (hspur : ∀ c : Int, isSpur mask0 (w + 2) c = false) (i : Int) (st : Scan)
    (hst : RegionInv w mask0 st i) (h1 : rd st.buffer i = 1)
    (harea : (floodFill w h (wr st.buffer i 2) (w + 2) 1 2 [i]).area > 10)
    (hfail : (trace4 i 1 (cwNeighborOffsets4 (w + 2)) (cwNeighborOffsets8 (w + 2))
      (floodFill w h (wr st.buffer i 2) (w + 2) 1 2 [i]).buffer (w + 2) st.points).pointCount
        ≤ 1) :
    (scanCell w h (w + 2) i st).polygons = st.polygons ∧
    ∀ c : Int, Conn st.buffer (w + 2) 1 i c → rd (scanCell w h (w + 2) i st).buffer c = 0 := by
  have hp := hst.padded hw hh hink
  have d1 := floodFill_done w h st.buffer 1 2 i [] hp (Or.inl rfl) (by norm_num) (by norm_num) h1
  unfold scanCell
  simp only []
  rw [if_pos h1, if_pos harea, if_neg (not_lt.mpr hfail)]
  generalize hf : floodFill w h (wr st.buffer i 2) (w + 2) 1 2 [i] = f at d1 harea hfail ⊢
  have e2 : rd f.buffer i = 2 := d1.2.1 i (Conn.seed h1)
  have hpf : PaddedMask w h f.buffer := PaddedMask.of_ink hw hh (fun c hc => by
    by_cases hcc : Conn st.buffer (w + 2) 1 i c
    · exact hp.ink c (by rw [hcc.colour]; norm_num)
    · rw [d1.2.2.1 c hcc] at hc
      exact hp.ink c hc)
  have hiso : ∀ c : Int, Conn st.buffer (w + 2) 1 i c → ∀ n : Int, Adjacent4 (w + 2) c n →
      Conn st.buffer (w + 2) 1 i n ∨ rd f.buffer n = 0 := by
    intro c hc n hn
    by_cases hm : rd mask0 n = 1
    · exact Or.inl (hc.adjacent hn (hst.whole c hc.colour n hn hm))
    · have hm0 : rd mask0 n = 0 := by
        have := hbits n
        omega
      have hb := hst.blank n hm0
      right
      rw [d1.2.2.1 n (fun q => by
        rw [q.colour] at hb
        exact absurd hb (by norm_num))]
      exact hb
  have hsw := trace4_stack_within i 1 (cwNeighborOffsets8 (w + 2)) f.buffer (w + 2) st.points
    (fun c => Conn st.buffer (w + 2) 1 i c) (Conn.seed h1) d1.2.1 hiso
  have hundo := trace4_undo i 1 (cwNeighborOffsets4 (w + 2)) (cwNeighborOffsets8 (w + 2))
    f.buffer (w + 2) st.points e2 (fun c hc => d1.2.1 c (hsw c hc))
  rw [hundo, wr_same _ _ _ e2]
  refine ⟨rfl, fun c hc => ?_⟩
  -- the cell below the seed is a cell of the region
  have hup : rd mask0 (i - (w + 2)) = 0 := by
    by_contra hn
    have hm : rd mask0 (i - (w + 2)) = 1 := by
      have := hbits (i - (w + 2))
      omega
    have := hst.later _ (hst.whole i h1 (i - (w + 2)) (Or.inl rfl) hm)
    omega
  have hi0 : rd mask0 i ≠ 0 := fun q => by
    rw [hst.blank i q] at h1
    exact absurd h1 (by norm_num)
  have hdown : rd mask0 (i + (w + 2)) = 1 := by
    have hs := hspur i
    have hb := hbits (i + (w + 2))
    by_contra hn
    have h0 : rd mask0 (i + (w + 2)) = 0 := by omega
    have : isSpur mask0 (w + 2) i = true := (isSpur_iff _ _ _).mpr ⟨hi0, Or.inr ⟨hup, h0⟩⟩
    rw [hs] at this
    exact absurd this (by simp)
  have hv : rd f.buffer (i + (w + 2)) = 2 :=
    d1.2.1 _ (Conn.down (Conn.seed h1)
      (hst.whole i h1 (i + (w + 2)) (Or.inr (Or.inr (Or.inl rfl))) hdown))
  exact (floodFill_unpainted w h f.buffer 2 0 i [] hpf (Or.inr rfl) (by norm_num) (by norm_num)
    e2 (Or.inr hv) c).1 (hc.recolour d1.2.1)

/-- A `Background` cell stays `Background` in the inner loop of the main scan. -/
theorem scanCols_blank (w h s : Int) (n : Nat) (i : Int) (st : Scan) (c : Int)
    (hc : rd st.buffer c = 0) : rd (scanCols w h s n i st).buffer c = 0 := by
  obtain ⟨a1, a2⟩ := scanColsSteps_spec w h s n i st
  rw [← a2]
  rcases getLastD_mem (scanColsSteps w h s n i st) st.buffer with e | e
  · rw [e]; exact hc
  · exact chain_zero _ _ a1 _ e c hc

/-- A `Background` cell stays `Background` in the main scan. -/
theorem scanRows_blank (w h s : Int) (n : Nat) (y : Int) (st : Scan) (c : Int)
    (hc : rd st.buffer c = 0) : rd (scanRows w h s n y st).buffer c = 0 := by
  obtain ⟨a1, a2⟩ := scanRowsSteps_spec w h s n y st
  rw [← a2]
  rcases getLastD_mem (scanRowsSteps w h s n y st) st.buffer with e | e
  · rw [e]; exact hc
  · exact chain_zero _ _ a1 _ e c hc

/-- The main scan, split at the pixel `(x, y)`: the rows and the cells before
it, the body at the cell of the pixel, the rest of the row and the rows left. -/
theorem scanRows_split (w h : Int) (ini : Scan) (x y : Nat) (hx : (x : Int) < w)
    (hy : (y : Int) < h) :
    scanRows w h (w + 2) h.toNat 1 ini =
      scanRows w h (w + 2) (h.toNat - y - 1) ((y : Int) + 2)
        (scanCols w h (w + 2) (w.toNat - x - 1) (((y : Int) + 1) * (w + 2) + 1 + x + 1)
          (scanCell w h (w + 2) (((y : Int) + 1) * (w + 2) + 1 + x)
            (scanCols w h (w + 2) x (((y : Int) + 1) * (w + 2) + 1)
              (scanRows w h (w + 2) y 1 ini)))) := by
  have e1 : h.toNat = y + (1 + (h.toNat - y - 1)) := by omega
  have e2 : w.toNat = x + (1 + (w.toNat - x - 1)) := by omega
  generalize h.toNat - y - 1 = m at e1
  generalize w.toNat - x - 1 = n1 at e2
  rw [e1, scanRows_add, scanRows_add]
  have e4 : scanRows w h (w + 2) 1 (1 + (y : Int)) (scanRows w h (w + 2) y 1 ini) =
      scanCols w h (w + 2) w.toNat ((1 + (y : Int)) * (w + 2) + 1)
        (scanRows w h (w + 2) y 1 ini) := rfl
  rw [e4, e2, scanCols_add, scanCols_add]
  have e5 : scanCols w h (w + 2) 1 ((1 + (y : Int)) * (w + 2) + 1 + (x : Int))
      (scanCols w h (w + 2) x ((1 + (y : Int)) * (w + 2) + 1) (scanRows w h (w + 2) y 1 ini)) =
      scanCell w h (w + 2) ((1 + (y : Int)) * (w + 2) + 1 + (x : Int))
        (scanCols w h (w + 2) x ((1 + (y : Int)) * (w + 2) + 1)
          (scanRows w h (w + 2) y 1 ini)) := rfl
  rw [e5]
  simp only [Nat.cast_one]
  rw [show (1 + (y : Int)) = (y : Int) + 1 from by ring,
    show (y : Int) + 1 + 1 = (y : Int) + 2 from by ring]

/-- The main scan of `processImage`, split at the pixel `(x, y)`: the state
`scanBefore`, the body at the cell of the pixel, the rest of the row and the
rows left. -/
theorem processImage_split (w h : Int) (data : Nat) (points : List Point) (x y : Nat)
    (hx : (x : Int) < w) (hy : (y : Int) < h) :
    (processImage w h data points).buffer =
      (scanRows w h (w + 2) (h.toNat - y - 1) ((y : Int) + 2)
        (scanCols w h (w + 2) (w.toNat - x - 1) (((y : Int) + 1) * (w + 2) + 1 + x + 1)
          (scanCell w h (w + 2) (((y : Int) + 1) * (w + 2) + 1 + x)
            (scanBefore w h data points x y)))).buffer :=
  congrArg Scan.buffer (scanRows_split w h _ x y hx hy)

/-- The region of a `Foreground` cell in a state of the main scan is its
region in the mask the spur scan left. -/
theorem RegionInv.component {w : Int} {mask0 : Nat} {st : Scan} {pos : Int}
    (hst : RegionInv w mask0 st pos) (hbits : ∀ c : Int, rd mask0 c ≤ 1) (i : Int)
    (h1 : rd st.buffer i = 1) (c : Int) :
    Conn mask0 (w + 2) 1 i c ↔ Conn st.buffer (w + 2) 1 i c := by
  constructor
  · intro hc
    induction hc with
    | seed _ => exact Conn.seed h1
    | up _ hm ih => exact Conn.up ih (hst.whole _ ih.colour _ (Or.inl rfl) hm)
    | down _ hm ih =>
      exact Conn.down ih (hst.whole _ ih.colour _ (Or.inr (Or.inr (Or.inl rfl))) hm)
    | left _ hm ih =>
      exact Conn.left ih (hst.whole _ ih.colour _ (Or.inr (Or.inr (Or.inr rfl))) hm)
    | right _ hm ih => exact Conn.right ih (hst.whole _ ih.colour _ (Or.inr (Or.inl rfl)) hm)
  · intro hc
    refine hc.mono_mask (fun d hd => ?_)
    have := hbits d
    by_contra hn
    have h0 : rd mask0 d = 0 := by omega
    rw [hst.blank d h0] at hd
    exact absurd hd (by norm_num)

/-- The failure branch of the outer trace in `processImage`. -/
theorem processImage_failed (w h : Int) (data : Nat) (points : List Point) (x y : Nat)
    (hx : (x : Int) < w) (hy : (y : Int) < h)
    (hseed : rd (scanBefore w h data points x y).buffer (((y : Int) + 1) * (w + 2) + 1 + x) = 1)
    (harea : (floodFill w h
      (wr (scanBefore w h data points x y).buffer (((y : Int) + 1) * (w + 2) + 1 + x) 2)
      (w + 2) 1 2 [((y : Int) + 1) * (w + 2) + 1 + x]).area > 10)
    (hfail : (trace4 (((y : Int) + 1) * (w + 2) + 1 + x) 1 (cwNeighborOffsets4 (w + 2))
      (cwNeighborOffsets8 (w + 2))
      (floodFill w h
        (wr (scanBefore w h data points x y).buffer (((y : Int) + 1) * (w + 2) + 1 + x) 2)
        (w + 2) 1 2 [((y : Int) + 1) * (w + 2) + 1 + x]).buffer (w + 2)
      (scanBefore w h data points x y).points).pointCount ≤ 1) :
    (scanCell w h (w + 2) (((y : Int) + 1) * (w + 2) + 1 + x)
      (scanBefore w h data points x y)).polygons = (scanBefore w h data points x y).polygons ∧
    ∀ c : Int,
      (Conn (eraseSpurs w h (buildMask w h data)) (w + 2) 1 (((y : Int) + 1) * (w + 2) + 1 + x) c ↔
        Conn (scanBefore w h data points x y).buffer (w + 2) 1
          (((y : Int) + 1) * (w + 2) + 1 + x) c) ∧
      (Conn (scanBefore w h data points x y).buffer (w + 2) 1
          (((y : Int) + 1) * (w + 2) + 1 + x) c →
        rd (scanCell w h (w + 2) (((y : Int) + 1) * (w + 2) + 1 + x)
          (scanBefore w h data points x y)).buffer c = 0 ∧
        rd (processImage w h data points).buffer c = 0) := by
  have hw : 0 ≤ w := by omega
  have hh : 0 ≤ h := by omega
  have hst := scanBefore_region w h data points hw hh x y
  have hbits : ∀ c : Int, rd (eraseSpurs w h (buildMask w h data)) c ≤ 1 :=
    fun c => (eraseSpurs_sub w h data c).1
  obtain ⟨a, b⟩ := scanCell_failed w h _ hw hh (eraseSpurs_ink w h data hw hh) hbits
    (eraseSpurs_no_spur w h data hw hh) _ _ hst hseed harea hfail
  refine ⟨a, fun c => ⟨hst.component hbits _ hseed c, fun hc => ⟨b c hc, ?_⟩⟩⟩
  rw [processImage_split w h data points x y hx hy]
  exact scanRows_blank _ _ _ _ _ _ _ (scanCols_blank _ _ _ _ _ _ _ (b c hc))

/-! ## A trace that is given up: the 5x5 square with a 1x1 hole -/

/-- The trips of the main loop of `trace4` add up: when the loop is not left
within `m` trips, `m + n` trips are the `n` trips from the state after the
first `m`. -/
theorem traceLoop_add (i cwDir : Int) (off4 off8 : List Int) (m n : Nat) :
    ∀ t t1 : Trace, traceLoop i cwDir off4 off8 m t = (t1, TraceExit.outOfFuel) →
      traceLoop i cwDir off4 off8 (m + n) t = traceLoop i cwDir off4 off8 n t1 := by
  induction m with
  | zero =>
    intro t t1 h
    simp only [traceLoop, Prod.mk.injEq, and_true] at h
    subst h
    rw [Nat.zero_add]
  | succ m ih =>
    intro t t1 h
    rw [show m + 1 + n = (m + n) + 1 from by omega]
    rw [traceLoop] at h ⊢
    split at h
    · exact ih _ _ h
    · split at h
      · simp at h
      · rename_i hcap
        rw [if_neg hcap]
        split at h
        · simp at h
        · split at h
          · simp at h
          · rename_i hne
            rw [if_neg hne]
            exact ih _ _ h

/-- A tracer caught in a cycle of `Traced` cells that avoids the start cell
gives the trace up: from a state of the cycle, with no new edge pixel around
any cell of the cycle, the main loop is left by the test on
`visitingAlreadyVisited`. -/
theorem traceLoop_cycle (i cwDir : Int) (off4 off8 : List Int) (b : Nat)
    (cyc : List (Int × Int))
    (hcyc : ∀ pd ∈ cyc,
      (searchNew pd.1 cwDir off4 off8 b ((pd.2 - cwDir) % 4) 4 ((pd.2 - cwDir) % 4)).1 = none ∧
      ∃ q ∈ cyc, searchTraced pd.1 cwDir off4 b ((pd.2 - cwDir) % 4) 4
          (searchNew pd.1 cwDir off4 off8 b ((pd.2 - cwDir) % 4) 4 ((pd.2 - cwDir) % 4)).2 =
            some q ∧ q.1 ≠ i ∧ rd b q.1 = 3)
    (n : Nat) : ∀ (stk : List Int) (v : Int) (pd : Int × Int), pd ∈ cyc →
      v + n = maxRevisited → (stk.length : Int) + n < maxStackSize → ∀ fuel : Nat, n < fuel →
      (traceLoop i cwDir off4 off8 fuel ⟨b, stk, pd.1, pd.2, v⟩).2 = TraceExit.aborted := by
  induction n with
  | zero =>
    intro stk v pd hpd hv _ fuel hfuel
    obtain ⟨f, rfl⟩ : ∃ f, fuel = f + 1 := ⟨fuel - 1, by omega⟩
    obtain ⟨a1, _⟩ := hcyc pd hpd
    rw [traceLoop]
    simp only []
    cases hs : searchNew pd.1 cwDir off4 off8 b ((pd.2 - cwDir) % 4) 4 ((pd.2 - cwDir) % 4) with
    | mk o k =>
      rw [hs] at a1
      simp only [] at a1
      subst a1
      simp only []
      rw [if_pos (Or.inl (by push_cast at hv; omega))]
  | succ n ih =>
    intro stk v pd hpd hv hlen fuel hfuel
    obtain ⟨f, rfl⟩ : ∃ f, fuel = f + 1 := ⟨fuel - 1, by omega⟩
    obtain ⟨a1, q, hq, a2, a3, a4⟩ := hcyc pd hpd
    rw [traceLoop]
    simp only []
    cases hs : searchNew pd.1 cwDir off4 off8 b ((pd.2 - cwDir) % 4) 4 ((pd.2 - cwDir) % 4) with
    | mk o k =>
      rw [hs] at a1 a2
      simp only [] at a1 a2
      subst a1
      simp only []
      rw [if_neg (by push_cast at hv hlen; omega), a2]
      simp only []
      rw [if_neg a3, wr_same _ _ _ a4]
      apply ih (stk ++ [q.1]) (v + 1) q hq
      · push_cast at hv ⊢
        omega
      · rw [List.length_append, List.length_singleton]
        push_cast at hlen ⊢
        omega
      · omega

set_option maxRecDepth 100000 in
/-- The cells of the mask of the 5x5 square with the 1x1 hole. -/
theorem ring5_grid :
    PaddedMask 5 5 ring5Mask ∧
    ∀ x : Int, 0 ≤ x → x < 5 → ∀ y : Int, 0 ≤ y → y < 5 →
      rd ring5Mask ((y + 1) * (5 + 2) + x + 1) =
        if rd (annulusImage 5 2 3) (4 * (y * 5 + x) + 3) = 255 then 1 else 0 := by
  decide!

set_option maxRecDepth 100000 in
/-- The mask of the 5x5 square with the 1x1 hole has no spur. -/
theorem ring5_no_spur : ∀ r : Nat, r < (5 : Int).toNat → ∀ k : Nat, k < (5 : Int).toNat →
    isSpur ring5Mask (5 + 2) (((r : Int) + 1) * (5 + 2) + 5 - k) = false := by
  decide!

/-- The mask the main scan starts from, for the 5x5 square with the 1x1
hole. -/
theorem ring5_mask : eraseSpurs 5 5 (buildMask 5 5 (annulusImage 5 2 3)) = ring5Mask :=
  eraseSpurs_of_grid 5 5 (annulusImage 5 2 3) ring5Mask (by norm_num) (by norm_num)
    ring5_grid.1 ring5_grid.2 ring5_no_spur

set_option maxRecDepth 100000 in
/-- The fill of the region of the 5x5 square with the 1x1 hole: 24 cells. -/
theorem ring5_fill :
    floodFill 5 5 (wr ring5Mask 8 2) (5 + 2) 1 2 [8] =
      { buffer := ring5Visited, stack := [], area := 24 } := by
  decide!

set_option maxRecDepth 100000 in
/-- The first 23 trips of the outer trace of the 5x5 square with the 1x1
hole: the tracer goes round the square and then round the hole, and has
traced every cell of the region when it is back beside the hole. -/
theorem ring5_trips :
    traceLoop 8 1 (cwNeighborOffsets4 (5 + 2)) (cwNeighborOffsets8 (5 + 2)) 23
        ⟨wr ring5Visited 8 3, [8], 8, 1, 0⟩ =
      (⟨ring5Traced, [8, 9, 10, 11, 12, 19, 26, 33, 40, 39, 38, 37, 36, 29, 22, 15, 16, 17, 18,
        25, 32, 31, 30, 23], 23, 0, 0⟩, TraceExit.outOfFuel) := by
  decide!

set_option maxRecDepth 100000 in
/-- Beside the hole the tracer is caught in the cycle 23, 22, 29, 30 of
`Traced` cells. -/
theorem ring5_cycle : ∀ pd ∈ [((23 : Int), (0 : Int)), (22, 3), (29, 2), (30, 1)],
    (searchNew pd.1 1 (cwNeighborOffsets4 (5 + 2)) (cwNeighborOffsets8 (5 + 2)) ring5Traced
      ((pd.2 - 1) % 4) 4 ((pd.2 - 1) % 4)).1 = none ∧
    ∃ q ∈ [((23 : Int), (0 : Int)), (22, 3), (29, 2), (30, 1)],
      searchTraced pd.1 1 (cwNeighborOffsets4 (5 + 2)) ring5Traced ((pd.2 - 1) % 4) 4
        (searchNew pd.1 1 (cwNeighborOffsets4 (5 + 2)) (cwNeighborOffsets8 (5 + 2)) ring5Traced
          ((pd.2 - 1) % 4) 4 ((pd.2 - 1) % 4)).2 = some q ∧ q.1 ≠ 8 ∧ rd ring5Traced q.1 = 3 := by
  decide!

set_option maxRecDepth 100000 in
/-- The trips allowed to the outer trace are more than the 23 + 1261 it
makes. -/
theorem ring5_fuel :
    23 + 1262 ≤ (memSize ring5Visited + 1) * (maxRevisited.toNat + 2) := by
  decide!

/-- The outer trace of the 5x5 square with the 1x1 hole is given up: it
reports no point. -/
theorem ring5_trace (pts : List Point) :
    (trace4 8 1 (cwNeighborOffsets4 (5 + 2)) (cwNeighborOffsets8 (5 + 2)) ring5Visited (5 + 2)
      pts).pointCount = 0 := by
  apply trace4_pointCount_open
  obtain ⟨k, hk⟩ : ∃ k, (memSize ring5Visited + 1) * (maxRevisited.toNat + 2) = 23 + k ∧
      1260 < k := ⟨(memSize ring5Visited + 1) * (maxRevisited.toNat + 2) - 23, by
    have := ring5_fuel
    omega⟩
  rw [hk.1, traceLoop_add _ _ _ _ 23 k _ _ ring5_trips]
  rw [traceLoop_cycle 8 1 _ _ ring5Traced _ ring5_cycle 1260 _ 0 (23, 0) (by simp) (by decide)
    (by decide) k hk.2]
  decide

/-- The state in which the main scan reaches the first pixel is the state it
starts from. -/
theorem scanBefore_zero (w h : Int) (data : Nat) (points : List Point) :
    scanBefore w h data points 0 0 =
      { buffer := eraseSpurs w h (buildMask w h data), points := points, polygons := [] } := rfl

/-- The first cell of the 5x5 square with the 1x1 hole is `Foreground` when
the main scan reaches it. -/
theorem ring5_seed : rd (scanBefore 5 5 (annulusImage 5 2 3) [] 0 0).buffer 8 = 1 := by
  rw [scanBefore_zero, ring5_mask]
  decide!

/-- The region of the 5x5 square with the 1x1 hole has an area above 10. -/
theorem ring5_area :
    (floodFill 5 5 (wr (scanBefore 5 5 (annulusImage 5 2 3) [] 0 0).buffer 8 2) (5 + 2) 1 2
      [8]).area > 10 := by
  rw [scanBefore_zero, ring5_mask]
  simp only []
  rw [ring5_fill]
  decide

/-- The outer trace of the region of the 5x5 square with the 1x1 hole reports
at most 1 point. -/
theorem ring5_fail :
    (trace4 8 1 (cwNeighborOffsets4 (5 + 2)) (cwNeighborOffsets8 (5 + 2))
      (floodFill 5 5 (wr (scanBefore 5 5 (annulusImage 5 2 3) [] 0 0).buffer 8 2) (5 + 2) 1 2
        [8]).buffer (5 + 2) (scanBefore 5 5 (annulusImage 5 2 3) [] 0 0).points).pointCount ≤ 1 := by
  rw [scanBefore_zero, ring5_mask]
  simp only []
  rw [ring5_fill]
  simp only []
  rw [ring5_trace]
  decide

/-- C21: a failed outer trace erases the whole region. For every image, when
the main scan of `processImage` reaches a pixel `(x, y)` whose cell is
`Foreground`, the region of that cell has an area above 10 and `trace4` on it
reports at most 1 point, then the body of the scan at that cell (`traceUndo`,
the seed marked `Visited` again, `floodFill` from `Visited` to `Background`)
hands over no polygon, the region of the cell in the scanned mask is its
region in the mask the spur scan left, and every cell of that 4-connected
region, the seed cell included, is `Background` after the body and in the mask
`processImage` leaves (so none is `Visited` or `Traced`). -/
theorem failed_trace_erases_region (w h : Int) (data : Nat) (points : List Point) (x y : Nat)
    (hx : (x : Int) < w) (hy : (y : Int) < h)
    (hseed : rd (scanBefore w h data points x y).buffer (((y : Int) + 1) * (w + 2) + 1 + x) = 1)
    (harea : (floodFill w h
      (wr (scanBefore w h data points x y).buffer (((y : Int) + 1) * (w + 2) + 1 + x) 2)
      (w + 2) 1 2 [((y : Int) + 1) * (w + 2) + 1 + x]).area > 10)
    (hfail : (trace4 (((y : Int) + 1) * (w + 2) + 1 + x) 1 (cwNeighborOffsets4 (w + 2))
      (cwNeighborOffsets8 (w + 2))
      (floodFill w h
        (wr (scanBefore w h data points x y).buffer (((y : Int) + 1) * (w + 2) + 1 + x) 2)
        (w + 2) 1 2 [((y : Int) + 1) * (w + 2) + 1 + x]).buffer (w + 2)
      (scanBefore w h data points x y).points).pointCount ≤ 1) :
    (scanCell w h (w + 2) (((y : Int) + 1) * (w + 2) + 1 + x)
      (scanBefore w h data points x y)).polygons = (scanBefore w h data points x y).polygons ∧
    ∀ c : Int,
      (Conn (eraseSpurs w h (buildMask w h data)) (w + 2) 1 (((y : Int) + 1) * (w + 2) + 1 + x) c ↔
        Conn (scanBefore w h data points x y).buffer (w + 2) 1
          (((y : Int) + 1) * (w + 2) + 1 + x) c) ∧
      (Conn (scanBefore w h data points x y).buffer (w + 2) 1
          (((y : Int) + 1) * (w + 2) + 1 + x) c →
        rd (scanCell w h (w + 2) (((y : Int) + 1) * (w + 2) + 1 + x)
          (scanBefore w h data points x y)).buffer c = 0 ∧
        rd (processImage w h data points).buffer c = 0) :=
  processImage_failed w h data points x y hx hy hseed harea hfail

/-- C21, witness: the 5x5 square with the 1x1 hole. Its region of 24 cells is
met at the cell 8; the outer trace is given up, and the seed cell is
`Background` in the mask `processImage` leaves. -/
theorem failed_trace_erases_region_witness :
    rd (scanBefore 5 5 (annulusImage 5 2 3) [] 0 0).buffer 8 = 1 ∧
    (floodFill 5 5 (wr (scanBefore 5 5 (annulusImage 5 2 3) [] 0 0).buffer 8 2) (5 + 2) 1 2
      [8]).area > 10 ∧
    (trace4 8 1 (cwNeighborOffsets4 (5 + 2)) (cwNeighborOffsets8 (5 + 2))
      (floodFill 5 5 (wr (scanBefore 5 5 (annulusImage 5 2 3) [] 0 0).buffer 8 2) (5 + 2) 1 2
        [8]).buffer (5 + 2) (scanBefore 5 5 (annulusImage 5 2 3) [] 0 0).points).pointCount ≤ 1 ∧
    rd (processImage 5 5 (annulusImage 5 2 3) []).buffer 8 = 0 :=
  ⟨ring5_seed, ring5_area, ring5_fail,
    (((failed_trace_erases_region 5 5 (annulusImage 5 2 3) [] 0 0 (by decide) (by decide)
      ring5_seed ring5_area ring5_fail).2 8).2 (Conn.seed ring5_seed)).2⟩

/-! ## A trace that follows a given path -/

theorem isNewEdgePixel4_of_ne (i : Int) (b : Nat) (off8 : List Int) (h : rd b i ≠ 2) :
    isNewEdgePixel4 i b off8 = false := by
  unfold isNewEdgePixel4
  simp [h]

theorem isNewEdgePixel4_of_zero (i : Int) (b : Nat) (off8 : List Int) (h2 : rd b i = 2)
    (q : Int) (hq0 : 0 ≤ q) (hq : q < 8) (hz : rd b (i + offsetAt off8 q) = 0) :
    isNewEdgePixel4 i b off8 = true := by
  unfold isNewEdgePixel4
  simp only [h2, decide_True, Bool.true_and, List.any_eq_true, decide_eq_true_eq]
  refine ⟨q, ?_, hz⟩
  have : q = 0 ∨ q = 1 ∨ q = 2 ∨ q = 3 ∨ q = 4 ∨ q = 5 ∨ q = 6 ∨ q = 7 := by omega
  rcases this with rfl | rfl | rfl | rfl | rfl | rfl | rfl | rfl <;> simp

theorem isNewEdgePixel4_of_full (i : Int) (b : Nat) (off8 : List Int)
    (h : ∀ q : Int, 0 ≤ q → q < 8 → rd b (i + offsetAt off8 q) ≠ 0) :
    isNewEdgePixel4 i b off8 = false := by
  unfold isNewEdgePixel4
  rw [Bool.and_eq_false_iff]
  right
  simp only [List.any_cons, List.any_nil, Bool.or_false, Bool.or_eq_false_iff,
    decide_eq_false_iff_not]
  exact ⟨h 7 (by norm_num) (by norm_num), h 6 (by norm_num) (by norm_num),
    h 5 (by norm_num) (by norm_num), h 4 (by norm_num) (by norm_num),
    h 3 (by norm_num) (by norm_num), h 2 (by norm_num) (by norm_num),
    h 1 (by norm_num) (by norm_num), h 0 (by norm_num) (by norm_num)⟩

/-- The offset index of trip `m + 1` of a search loop is that of trip `m`,
turned once. -/
theorem turn_succ (k cw : Int) (m : Nat) :
    ((k + (m : Int) * cw) % 4 + cw) % 4 = (k + ((m + 1 : Nat) : Int) * cw) % 4 := by
  rw [Int.emod_add_emod]
  congr 1
  push_cast
  ring

/-- Within its first four trips a search loop is not back at the offset index
it started from. -/
theorem turn_ne (k cw : Int) (hcw : cw = 1 ∨ cw = -1) (m : Nat)
    (hm0 : 1 ≤ m) (hm : m ≤ 3) : (k + (m : Int) * cw) % 4 ≠ k := by
  have : m = 1 ∨ m = 2 ∨ m = 3 := by omega
  rcases hcw with rfl | rfl <;> rcases this with rfl | rfl | rfl <;> push_cast <;> omega

theorem searchNew_found_aux (p cw : Int) (off4 off8 : List Int) (b : Nat) (k0 : Int)
    (hcw : cw = 1 ∨ cw = -1) (r : Nat) (hr : r ≤ 3)
    (hrej : ∀ m : Nat, m < r →
      isNewEdgePixel4 (p + offsetAt off4 ((k0 + (m : Int) * cw) % 4)) b off8 = false)
    (hacc : isNewEdgePixel4 (p + offsetAt off4 ((k0 + (r : Int) * cw) % 4)) b off8 = true) :
    ∀ (g j n : Nat), j + g = r → g < n →
      searchNew p cw off4 off8 b k0 n ((k0 + (j : Int) * cw) % 4) =
        (some (p + offsetAt off4 ((k0 + (r : Int) * cw) % 4), (k0 + (r : Int) * cw) % 4),
          (k0 + (r : Int) * cw) % 4) := by
  intro g
  induction g with
  | zero =>
    intro j n hj hn
    obtain ⟨n, rfl⟩ : ∃ n1, n = n1 + 1 := ⟨n - 1, by omega⟩
    have : j = r := by omega
    subst this
    rw [searchNew]
    simp only [hacc, if_true]
  | succ g ih =>
    intro j n hj hn
    obtain ⟨n, rfl⟩ : ∃ n1, n = n1 + 1 := ⟨n - 1, by omega⟩
    rw [searchNew]
    simp only [hrej j (by omega), Bool.false_eq_true, if_false]
    rw [turn_succ, if_pos (turn_ne k0 cw hcw (j + 1) (by omega) (by omega))]
    exact ih (j + 1) n (by omega) (by omega)

/-- The first search loop of `trace4` when its first `r` candidates are no
new edge pixels and the next one is: the loop is left with that candidate. -/
theorem searchNew_found (p cw : Int) (off4 off8 : List Int) (b : Nat) (k0 : Int)
    (hcw : cw = 1 ∨ cw = -1) (h0 : 0 ≤ k0) (h1 : k0 < 4) (r : Nat) (hr : r ≤ 3)
    (hrej : ∀ m : Nat, m < r →
      isNewEdgePixel4 (p + offsetAt off4 ((k0 + (m : Int) * cw) % 4)) b off8 = false)
    (hacc : isNewEdgePixel4 (p + offsetAt off4 ((k0 + (r : Int) * cw) % 4)) b off8 = true) :
    searchNew p cw off4 off8 b k0 4 k0 =
      (some (p + offsetAt off4 ((k0 + (r : Int) * cw) % 4), (k0 + (r : Int) * cw) % 4),
        (k0 + (r : Int) * cw) % 4) := by
  have h := searchNew_found_aux p cw off4 off8 b k0 hcw r hr hrej hacc r 0 4 (by omega)
    (by omega)
  rw [show (k0 + ((0 : Nat) : Int) * cw) % 4 = k0 from by push_cast; omega] at h
  exact h

theorem searchNew_none_aux (p cw : Int) (off4 off8 : List Int) (b : Nat) (k0 : Int)
    (hcw : cw = 1 ∨ cw = -1) (h0 : 0 ≤ k0) (h1 : k0 < 4)
    (hrej : ∀ m : Nat, m < 4 →
      isNewEdgePixel4 (p + offsetAt off4 ((k0 + (m : Int) * cw) % 4)) b off8 = false) :
    ∀ (g j : Nat), j + g = 3 →
      searchNew p cw off4 off8 b k0 (g + 1) ((k0 + (j : Int) * cw) % 4) = (none, k0) := by
  intro g
  induction g with
  | zero =>
    intro j hj
    rw [searchNew]
    simp only [hrej j (by omega), Bool.false_eq_true, if_false]
    rw [turn_succ]
    have : j = 3 := by omega
    subst this
    have e : (k0 + ((3 + 1 : Nat) : Int) * cw) % 4 = k0 := by
      rcases hcw with rfl | rfl <;> push_cast <;> omega
    rw [e]
    simp
  | succ g ih =>
    intro j hj
    rw [searchNew]
    simp only [hrej j (by omega), Bool.false_eq_true, if_false]
    rw [turn_succ, if_pos (turn_ne k0 cw hcw (j + 1) (by omega) (by omega))]
    exact ih (j + 1) (by omega)

/-- The first search loop of `trace4` when none of the four candidates is a
new edge pixel. -/
theorem searchNew_none (p cw : Int) (off4 off8 : List Int) (b : Nat) (k0 : Int)
    (hcw : cw = 1 ∨ cw = -1) (h0 : 0 ≤ k0) (h1 : k0 < 4)
    (hrej : ∀ m : Nat, m < 4 →
      isNewEdgePixel4 (p + offsetAt off4 ((k0 + (m : Int) * cw) % 4)) b off8 = false) :
    searchNew p cw off4 off8 b k0 4 k0 = (none, k0) := by
  have h := searchNew_none_aux p cw off4 off8 b k0 hcw h0 h1 hrej 3 0 (by omega)
  rw [show (k0 + ((0 : Nat) : Int) * cw) % 4 = k0 from by push_cast; omega] at h
  exact h

theorem searchTraced_found_aux (p cw : Int) (off4 : List Int) (b : Nat) (k0 : Int)
    (hcw : cw = 1 ∨ cw = -1) (r : Nat) (hr : r ≤ 3)
    (hrej : ∀ m : Nat, m < r → rd b (p + offsetAt off4 ((k0 + (m : Int) * cw) % 4)) ≠ 3)
    (hacc : rd b (p + offsetAt off4 ((k0 + (r : Int) * cw) % 4)) = 3) :
    ∀ (g j n : Nat), j + g = r → g < n →
      searchTraced p cw off4 b k0 n ((k0 + (j : Int) * cw) % 4) =
        some (p + offsetAt off4 ((k0 + (r : Int) * cw) % 4), (k0 + (r : Int) * cw) % 4) := by
  intro g
  induction g with
  | zero =>
    intro j n hj hn
    obtain ⟨n, rfl⟩ : ∃ n1, n = n1 + 1 := ⟨n - 1, by omega⟩
    have : j = r := by omega
    subst this
    rw [searchTraced]
    simp only [hacc, if_true]
  | succ g ih =>
    intro j n hj hn
    obtain ⟨n, rfl⟩ : ∃ n1, n = n1 + 1 := ⟨n - 1, by omega⟩
    rw [searchTraced]
    simp only [hrej j (by omega), if_false]
    rw [turn_succ, if_pos (turn_ne k0 cw hcw (j + 1) (by omega) (by omega))]
    exact ih (j + 1) n (by omega) (by omega)

/-- The fallback search loop of `trace4` when its first `r` candidates are
not `Traced` and the next one is. -/
theorem searchTraced_found (p cw : Int) (off4 : List Int) (b : Nat) (k0 : Int)
    (hcw : cw = 1 ∨ cw = -1) (h0 : 0 ≤ k0) (h1 : k0 < 4) (r : Nat) (hr : r ≤ 3)
    (hrej : ∀ m : Nat, m < r → rd b (p + offsetAt off4 ((k0 + (m : Int) * cw) % 4)) ≠ 3)
    (hacc : rd b (p + offsetAt off4 ((k0 + (r : Int) * cw) % 4)) = 3) :
    searchTraced p cw off4 b k0 4 k0 =
      some (p + offsetAt off4 ((k0 + (r : Int) * cw) % 4), (k0 + (r : Int) * cw) % 4) := by
  have h := searchTraced_found_aux p cw off4 b k0 hcw r hr hrej hacc r 0 4 (by omega)
    (by omega)
  rw [show (k0 + ((0 : Nat) : Int) * cw) % 4 = k0 from by push_cast; omega] at h
  exact h

/-- One trip of the main loop of `trace4` to a new edge pixel: the first `r`
candidates are no new edge pixels and the next one is. -/
theorem traceLoop_new (i cw : Int) (off4 off8 : List Int) (fuel : Nat) (t : Trace)
    (hcw : cw = 1 ∨ cw = -1) (r : Nat) (hr : r ≤ 3)
    (hrej : ∀ m : Nat, m < r →
      isNewEdgePixel4 (t.prevI + offsetAt off4 ((t.dir - cw + (m : Int) * cw) % 4)) t.buffer
        off8 = false)
    (hacc : isNewEdgePixel4 (t.prevI + offsetAt off4 ((t.dir - cw + (r : Int) * cw) % 4))
      t.buffer off8 = true) :
    traceLoop i cw off4 off8 (fuel + 1) t =
      traceLoop i cw off4 off8 fuel
        ⟨wr t.buffer (t.prevI + offsetAt off4 ((t.dir - cw + (r : Int) * cw) % 4)) 3,
          t.stack ++ [t.prevI + offsetAt off4 ((t.dir - cw + (r : Int) * cw) % 4)],
          t.prevI + offsetAt off4 ((t.dir - cw + (r : Int) * cw) % 4),
          (t.dir - cw + (r : Int) * cw) % 4, 0⟩ := by
  have e : ∀ m : Nat, ((t.dir - cw) % 4 + (m : Int) * cw) % 4 = (t.dir - cw + (m : Int) * cw) % 4 :=
    fun m => Int.emod_add_emod _ _ _
  have h := searchNew_found t.prevI cw off4 off8 t.buffer ((t.dir - cw) % 4) hcw
    (Int.emod_nonneg _ (by norm_num)) (Int.emod_lt_of_pos _ (by norm_num)) r hr
    (fun m hm => by rw [e]; exact hrej m hm) (by rw [e]; exact hacc)
  rw [e] at h
  rw [traceLoop]
  simp only [h]

/-- The trip of the main loop of `trace4` that closes the path: no candidate
is a new edge pixel, and the first `Traced` candidate is the start cell. -/
theorem traceLoop_close (i cw : Int) (off4 off8 : List Int) (fuel : Nat) (t : Trace)
    (hcw : cw = 1 ∨ cw = -1)
    (hrej : ∀ m : Nat, m < 4 →
      isNewEdgePixel4 (t.prevI + offsetAt off4 ((t.dir - cw + (m : Int) * cw) % 4)) t.buffer
        off8 = false)
    (hv : t.visitingAlreadyVisited < maxRevisited) (hs : (t.stack.length : Int) < maxStackSize)
    (r : Nat) (hr : r ≤ 3)
    (hn3 : ∀ m : Nat, m < r →
      rd t.buffer (t.prevI + offsetAt off4 ((t.dir - cw + (m : Int) * cw) % 4)) ≠ 3)
    (hi : t.prevI + offsetAt off4 ((t.dir - cw + (r : Int) * cw) % 4) = i)
    (h3 : rd t.buffer i = 3) :
    traceLoop i cw off4 off8 (fuel + 1) t =
      (⟨t.buffer, t.stack, t.prevI, (t.dir - cw + (r : Int) * cw) % 4,
        t.visitingAlreadyVisited + 1⟩, TraceExit.closed) := by
  have e : ∀ m : Nat, ((t.dir - cw) % 4 + (m : Int) * cw) % 4 = (t.dir - cw + (m : Int) * cw) % 4 :=
    fun m => Int.emod_add_emod _ _ _
  have k0 : 0 ≤ (t.dir - cw) % 4 := Int.emod_nonneg _ (by norm_num)
  have k1 : (t.dir - cw) % 4 < 4 := Int.emod_lt_of_pos _ (by norm_num)
  have h := searchNew_none t.prevI cw off4 off8 t.buffer ((t.dir - cw) % 4) hcw k0 k1
    (fun m hm => by rw [e]; exact hrej m hm)
  have g := searchTraced_found t.prevI cw off4 t.buffer ((t.dir - cw) % 4) hcw k0 k1 r hr
    (fun m hm => by rw [e]; exact hn3 m hm) (by rw [e, hi]; exact h3)
  rw [e, hi] at g
  rw [traceLoop]
  simp only [h]
  rw [if_neg (by omega), g]
  simp only [if_true]

/-- The main loop of `trace4` along a path of `Visited` cells `P 0`, ...,
`P L` of the mask `B`, entered with the directions `D 0`, ..., `D L`: when at
each cell `P j` the first `R j` candidates are `Background` and the next one
is `P (j + 1)`, a cell beside a `Background` cell, the loop is at `P m` after
`m` trips, with the cells `P 0`, ..., `P m` on the stack and `Traced`. -/
theorem traceLoop_follow (i cw : Int) (off4 off8 : List Int) (hcw : cw = 1 ∨ cw = -1) (B : Nat)
    (P D : Nat → Int) (R : Nat → Nat) (L : Nat)
    (hinj : ∀ a b : Nat, a < b → b ≤ L → P a ≠ P b)
    (hB : ∀ j : Nat, j ≤ L → rd B (P j) = 2)
    (hstep : ∀ j : Nat, j < L → R j ≤ 3 ∧
      (∀ m : Nat, m < R j → rd B (P j + offsetAt off4 ((D j - cw + (m : Int) * cw) % 4)) = 0) ∧
      P (j + 1) = P j + offsetAt off4 ((D j - cw + (R j : Int) * cw) % 4) ∧
      D (j + 1) = (D j - cw + (R j : Int) * cw) % 4 ∧
      ∃ q : Int, 0 ≤ q ∧ q < 8 ∧ rd B (P (j + 1) + offsetAt off8 q) = 0) :
    ∀ m : Nat, m ≤ L → ∃ b : Nat,
      (∀ j : Nat, j ≤ m → rd b (P j) = 3) ∧
      (∀ c : Int, (∀ j : Nat, j ≤ m → c ≠ P j) → rd b c = rd B c) ∧
      ∀ fuel : Nat, traceLoop i cw off4 off8 (fuel + m) ⟨wr B (P 0) 3, [P 0], P 0, D 0, 0⟩ =
        traceLoop i cw off4 off8 fuel ⟨b, (List.range (m + 1)).map P, P m, D m, 0⟩ := by
  have hpos : ∀ j : Nat, j ≤ L → 0 ≤ P j := by
    intro j hj
    by_contra hn
    have := hB j hj
    rw [rd_neg _ _ (by omega)] at this
    exact absurd this (by norm_num)
  intro m
  induction m with
  | zero =>
    intro _
    refine ⟨wr B (P 0) 3, ?_, ?_, ?_⟩
    · intro j hj
      have : j = 0 := by omega
      subst this
      rw [rd_wr_same _ _ _ (hpos 0 (by omega))]
    · intro c hc
      rw [rd_wr_ne _ _ _ _ (fun q => hc 0 (le_refl _) q.symm)]
    · intro fuel
      rfl
  | succ m ih =>
    intro hm
    obtain ⟨b, b1, b2, b3⟩ := ih (by omega)
    obtain ⟨s1, s2, s3, s4, q, q0, q1, qz⟩ := hstep m (by omega)
    have zero_of : ∀ c : Int, rd B c = 0 → rd b c = 0 := by
      intro c hc
      rw [b2 c (fun j hj e => by
        rw [e, hB j (by omega)] at hc
        exact absurd hc (by norm_num))]
      exact hc
    have hnew : rd b (P (m + 1)) = 2 := by
      rw [b2 _ (fun j hj e => hinj j (m + 1) (by omega) hm e.symm)]
      exact hB _ hm
    refine ⟨wr b (P (m + 1)) 3, ?_, ?_, ?_⟩
    · intro j hj
      by_cases e : j = m + 1
      · rw [e, rd_wr_same _ _ _ (hpos _ hm)]
      · rw [rd_wr_ne _ _ _ _ (hinj j (m + 1) (by omega) hm).symm]
        exact b1 j (by omega)
    · intro c hc
      rw [rd_wr_ne _ _ _ _ (fun q => hc (m + 1) (le_refl _) q.symm)]
      exact b2 c (fun j hj => hc j (by omega))
    · intro fuel
      rw [show fuel + (m + 1) = (fuel + 1) + m from by omega, b3 (fuel + 1)]
      have h := traceLoop_new i cw off4 off8 fuel
        ⟨b, (List.range (m + 1)).map P, P m, D m, 0⟩ hcw (R m) s1
        (fun k hk => isNewEdgePixel4_of_ne _ _ _ (by
          show rd b (P m + offsetAt off4 ((D m - cw + (k : Int) * cw) % 4)) ≠ 2
          rw [zero_of _ (s2 k hk)]
          norm_num))
        (by
          show isNewEdgePixel4 (P m + offsetAt off4 ((D m - cw + (R m : Int) * cw) % 4)) b off8
            = true
          rw [← s3]
          exact isNewEdgePixel4_of_zero _ _ _ hnew q q0 q1 (zero_of _ qz))
      simp only [] at h
      rw [← s3, ← s4] at h
      rw [h, @List.range_succ (m + 1), List.map_append, List.map_singleton]

/-- A main loop of `trace4` that is left by `break` within some number of
trips is left in the same state within the trips `trace4` allows. -/
theorem traceLoop_closed_fuel (i cw : Int) (off4 off8 : List Int) (b : Nat) (n : Nat)
    (t1 : Trace)
    (hrun : traceLoop i cw off4 off8 n ⟨wr b i 3, [i], i, 1, 0⟩ = (t1, TraceExit.closed)) :
    traceLoop i cw off4 off8 ((memSize b + 1) * (maxRevisited.toNat + 2))
      ⟨wr b i 3, [i], i, 1, 0⟩ = (t1, TraceExit.closed) := by
  rcases Nat.le_total n ((memSize b + 1) * (maxRevisited.toNat + 2)) with h | h
  · rw [traceLoop_fuel i cw off4 off8 n _ (by rw [hrun]; simp) _ h, hrun]
  · rw [← traceLoop_fuel i cw off4 off8 _ _ (trace4_fuel i cw off4 off8 b) n h, hrun]

/-! ## Cells by column and row -/

theorem cellAt_mod (s x y : Int) (h0 : 0 ≤ x) (h1 : x < s) : cellAt s x y % s = x := by
  unfold cellAt
  rw [add_comm, Int.add_mul_emod_self]
  exact Int.emod_eq_of_lt h0 h1

theorem cellAt_div (s x y : Int) (h0 : 0 ≤ x) (h1 : x < s) : cellAt s x y / s = y := by
  unfold cellAt
  rw [add_comm, Int.add_mul_ediv_right _ _ (by omega), Int.ediv_eq_zero_of_lt h0 h1, zero_add]

/-- Cells of different columns or rows are different cells. -/
theorem cellAt_inj (s x y x1 y1 : Int) (h0 : 0 ≤ x) (h1 : x < s) (g0 : 0 ≤ x1) (g1 : x1 < s)
    (h : cellAt s x y = cellAt s x1 y1) : x = x1 ∧ y = y1 := by
  constructor
  · rw [← cellAt_mod s x y h0 h1, h, cellAt_mod s x1 y1 g0 g1]
  · rw [← cellAt_div s x y h0 h1, h, cellAt_div s x1 y1 g0 g1]

theorem cellAt_up (s x y : Int) :
    cellAt s x y + offsetAt (cwNeighborOffsets4 s) 0 = cellAt s x (y - 1) := by
  rw [show offsetAt (cwNeighborOffsets4 s) 0 = -s from rfl]
  unfold cellAt
  ring

theorem cellAt_right (s x y : Int) :
    cellAt s x y + offsetAt (cwNeighborOffsets4 s) 1 = cellAt s (x + 1) y := by
  rw [show offsetAt (cwNeighborOffsets4 s) 1 = 1 from rfl]
  unfold cellAt
  ring

theorem cellAt_down (s x y : Int) :
    cellAt s x y + offsetAt (cwNeighborOffsets4 s) 2 = cellAt s x (y + 1) := by
  rw [show offsetAt (cwNeighborOffsets4 s) 2 = s from rfl]
  unfold cellAt
  ring

theorem cellAt_left (s x y : Int) :
    cellAt s x y + offsetAt (cwNeighborOffsets4 s) 3 = cellAt s (x - 1) y := by
  rw [show offsetAt (cwNeighborOffsets4 s) 3 = -1 from rfl]
  unfold cellAt
  ring

/-- The eight neighbours of a cell, by the index into `cwNeighborOffsets8`. -/
theorem cellAt_eight (s x y : Int) :
    cellAt s x y + offsetAt (cwNeighborOffsets8 s) 0 = cellAt s x (y - 1) ∧
    cellAt s x y + offsetAt (cwNeighborOffsets8 s) 1 = cellAt s (x + 1) (y - 1) ∧
    cellAt s x y + offsetAt (cwNeighborOffsets8 s) 2 = cellAt s (x + 1) y ∧
    cellAt s x y + offsetAt (cwNeighborOffsets8 s) 3 = cellAt s (x + 1) (y + 1) ∧
    cellAt s x y + offsetAt (cwNeighborOffsets8 s) 4 = cellAt s x (y + 1) ∧
    cellAt s x y + offsetAt (cwNeighborOffsets8 s) 5 = cellAt s (x - 1) (y + 1) ∧
    cellAt s x y + offsetAt (cwNeighborOffsets8 s) 6 = cellAt s (x - 1) y ∧
    cellAt s x y + offsetAt (cwNeighborOffsets8 s) 7 = cellAt s (x - 1) (y - 1) := by
  rw [show offsetAt (cwNeighborOffsets8 s) 0 = -s from rfl,
    show offsetAt (cwNeighborOffsets8 s) 1 = -s + 1 from rfl,
    show offsetAt (cwNeighborOffsets8 s) 2 = 1 from rfl,
    show offsetAt (cwNeighborOffsets8 s) 3 = s + 1 from rfl,
    show offsetAt (cwNeighborOffsets8 s) 4 = s from rfl,
    show offsetAt (cwNeighborOffsets8 s) 5 = s - 1 from rfl,
    show offsetAt (cwNeighborOffsets8 s) 6 = -1 from rfl,
    show offsetAt (cwNeighborOffsets8 s) 7 = -s - 1 from rfl]
  unfold cellAt
  refine ⟨?_, ?_, ?_, ?_, ?_, ?_, ?_, ?_⟩ <;> ring

/-- The neighbours of a cell with an index `0 ≤ q < 8` into
`cwNeighborOffsets8` are the cells of the columns and rows next to its own. -/
theorem cellAt_around (s x y q : Int) (h0 : 0 ≤ q) (h1 : q < 8) :
    ∃ dx dy : Int, -1 ≤ dx ∧ dx ≤ 1 ∧ -1 ≤ dy ∧ dy ≤ 1 ∧
      cellAt s x y + offsetAt (cwNeighborOffsets8 s) q = cellAt s (x + dx) (y + dy) := by
  obtain ⟨e0, e1, e2, e3, e4, e5, e6, e7⟩ := cellAt_eight s x y
  have : q = 0 ∨ q = 1 ∨ q = 2 ∨ q = 3 ∨ q = 4 ∨ q = 5 ∨ q = 6 ∨ q = 7 := by omega
  rcases this with rfl | rfl | rfl | rfl | rfl | rfl | rfl | rfl
  · exact ⟨0, -1, by norm_num, by norm_num, by norm_num, by norm_num, by rw [e0]; norm_num; rfl⟩
  · exact ⟨1, -1, by norm_num, by norm_num, by norm_num, by norm_num, by rw [e1]; rfl⟩
  · exact ⟨1, 0, by norm_num, by norm_num, by norm_num, by norm_num, by rw [e2]; norm_num⟩
  · exact ⟨1, 1, by norm_num, by norm_num, by norm_num, by norm_num, by rw [e3]⟩
  · exact ⟨0, 1, by norm_num, by norm_num, by norm_num, by norm_num, by rw [e4]; norm_num⟩
  · exact ⟨-1, 1, by norm_num, by norm_num, by norm_num, by norm_num, by rw [e5]; rfl⟩
  · exact ⟨-1, 0, by norm_num, by norm_num, by norm_num, by norm_num, by rw [e6]; norm_num; rfl⟩
  · exact ⟨-1, -1, by norm_num, by norm_num, by norm_num, by norm_num, by rw [e7]; rfl⟩

/-- The coordinate pair `trace4` computes for a cell. -/
theorem cellPoint_cellAt (s x y : Int) (h0 : 0 ≤ x) (h1 : x < s) (hy : 0 ≤ y) :
    cellPoint s (cellAt s x y) = ⟨x, y⟩ := by
  have hc : 0 ≤ cellAt s x y := by
    unfold cellAt
    have := mul_nonneg hy (by omega : 0 ≤ s)
    omega
  unfold cellPoint
  rw [Int.tmod_eq_emod hc (by omega), Int.tdiv_eq_ediv hc (by omega), cellAt_mod s x y h0 h1,
    cellAt_div s x y h0 h1]

/-! ## The path along the sides of a rectangle -/

theorem rect_top (x0 y0 a b j : Int) (h : j ≤ a) :
    rectX x0 a b j = x0 + j ∧ rectY y0 a b j = y0 ∧ rectDir a b j = 1 := by
  unfold rectX rectY rectDir
  rw [if_pos h, if_pos h, if_pos h]
  exact ⟨rfl, rfl, rfl⟩

theorem rect_right (x0 y0 a b j : Int) (h0 : a < j) (h : j ≤ a + b) :
    rectX x0 a b j = x0 + a ∧ rectY y0 a b j = y0 + (j - a) ∧ rectDir a b j = 2 := by
  unfold rectX rectY rectDir
  rw [if_neg (by omega), if_pos h, if_neg (by omega), if_pos h, if_neg (by omega), if_pos h]
  exact ⟨rfl, rfl, rfl⟩

theorem rect_bottom (x0 y0 a b j : Int) (hb : 0 ≤ b) (h0 : a + b < j) (h : j ≤ 2 * a + b) :
    rectX x0 a b j = x0 + a - (j - a - b) ∧ rectY y0 a b j = y0 + b ∧ rectDir a b j = 3 := by
  unfold rectX rectY rectDir
  rw [if_neg (by omega), if_neg (by omega), if_pos h, if_neg (by omega), if_neg (by omega),
    if_pos h, if_neg (by omega), if_neg (by omega), if_pos h]
  exact ⟨rfl, rfl, rfl⟩

theorem rect_left (x0 y0 a b j : Int) (ha : 0 ≤ a) (hb : 0 ≤ b) (h0 : 2 * a + b < j) :
    rectX x0 a b j = x0 ∧ rectY y0 a b j = y0 + b - (j - 2 * a - b) ∧ rectDir a b j = 0 := by
  have h1 : ¬ j ≤ a := by omega
  have h2 : ¬ j ≤ a + b := by omega
  have h3 : ¬ j ≤ 2 * a + b := by omega
  unfold rectX rectY rectDir
  simp only [h1, h2, h3, if_false, and_self]

/-- The cells of the path along the sides of a rectangle lie on its sides. -/
theorem rect_range (x0 y0 a b j : Int) (ha : 0 ≤ a) (hb : 0 ≤ b) (h0 : 0 ≤ j)
    (h1 : j ≤ 2 * a + 2 * b) :
    x0 ≤ rectX x0 a b j ∧ rectX x0 a b j ≤ x0 + a ∧ y0 ≤ rectY y0 a b j ∧
      rectY y0 a b j ≤ y0 + b ∧
      (rectX x0 a b j = x0 ∨ rectX x0 a b j = x0 + a ∨ rectY y0 a b j = y0 ∨
        rectY y0 a b j = y0 + b) := by
  unfold rectX rectY
  split_ifs <;> omega

/-! ## The traces round a rectangle -/

theorem cellAt_congr (s : Int) {x y x1 y1 : Int} (hx : x = x1) (hy : y = y1) :
    cellAt s x y = cellAt s x1 y1 := by
  rw [hx, hy]

/-- A cell is no new edge pixel after a trace along the path `P` when, before
it, the cell was not `Visited` or had no `Background` cell around it. -/
theorem isNewEdgePixel4_of_base (B b : Nat) (P : Nat → Int) (L : Nat) (off8 : List Int)
    (b1 : ∀ j : Nat, j ≤ L → rd b (P j) = 3)
    (b2 : ∀ c : Int, (∀ j : Nat, j ≤ L → c ≠ P j) → rd b c = rd B c) (c : Int)
    (h : rd B c ≠ 2 ∨ ∀ q : Int, 0 ≤ q → q < 8 → rd B (c + offsetAt off8 q) ≠ 0) :
    isNewEdgePixel4 c b off8 = false := by
  have key : ∀ d : Int, rd b d = 3 ∨ rd b d = rd B d := by
    intro d
    by_cases hd : ∃ j : Nat, j ≤ L ∧ d = P j
    · obtain ⟨j, hj, e⟩ := hd
      left
      rw [e]
      exact b1 j hj
    · right
      exact b2 d (fun j hj e => hd ⟨j, hj, e⟩)
  rcases key c with e | e
  · exact isNewEdgePixel4_of_ne _ _ _ (by rw [e]; norm_num)
  · rcases h with h | h
    · exact isNewEdgePixel4_of_ne _ _ _ (by rw [e]; exact h)
    · apply isNewEdgePixel4_of_full
      intro q q0 q1
      rcases key (c + offsetAt off8 q) with g | g
      · rw [g]; norm_num
      · rw [g]; exact h q q0 q1

/-- Different steps of one turn round a rectangle lead to different cells. -/
theorem rect_apart (x0 y0 a b i j : Int) (ha : 0 < a) (hb : 0 < b) (h0 : 0 ≤ i) (hij : i < j)
    (h2 : (0 < i ∧ j ≤ 2 * a + 2 * b) ∨ j < 2 * a + 2 * b) :
    ¬ (rectX x0 a b i = rectX x0 a b j ∧ rectY y0 a b i = rectY y0 a b j) := by
  unfold rectX rectY
  split_ifs <;> omega

theorem rectCell_apart (s x0 y0 a b j0 : Int) (i j : Nat) (ha : 0 < a) (hb : 0 < b)
    (hx0 : 0 ≤ x0) (hx1 : x0 + a < s) (h0 : 0 ≤ j0) (hij : i < j)
    (h1 : j0 + (j : Int) ≤ 2 * a + 2 * b) (h2 : 0 < j0 + (i : Int) ∨ j0 + (j : Int) < 2 * a + 2 * b) :
    rectCell s x0 y0 a b j0 i ≠ rectCell s x0 y0 a b j0 j := by
  intro e
  unfold rectCell at e
  have r1 := rect_range x0 y0 a b (j0 + i) (by omega) (by omega) (by omega) (by omega)
  have r2 := rect_range x0 y0 a b (j0 + j) (by omega) (by omega) (by omega) (by omega)
  have := cellAt_inj s _ _ _ _ (by omega) (by omega) (by omega) (by omega) e
  exact rect_apart x0 y0 a b (j0 + i) (j0 + j) ha hb (by omega) (by omega) (by omega) this

/-- Every cell on the sides of a rectangle is a cell of the path along its
sides. -/
theorem rect_onto (x0 y0 a b x y : Int) (ha : 0 < a) (hb : 0 < b) (h1 : x0 ≤ x)
    (h2 : x ≤ x0 + a) (h3 : y0 ≤ y) (h4 : y ≤ y0 + b)
    (h : x = x0 ∨ x = x0 + a ∨ y = y0 ∨ y = y0 + b) :
    ∃ j : Int, 1 ≤ j ∧ j ≤ 2 * a + 2 * b ∧ rectX x0 a b j = x ∧ rectY y0 a b j = y := by
  by_cases c1 : y = y0 ∧ x0 < x
  · exact ⟨x - x0, by omega, by omega, by unfold rectX; split_ifs <;> omega,
      by unfold rectY; split_ifs <;> omega⟩
  · by_cases c2 : x = x0 + a ∧ y0 < y
    · exact ⟨a + (y - y0), by omega, by omega, by unfold rectX; split_ifs <;> omega,
        by unfold rectY; split_ifs <;> omega⟩
    · by_cases c3 : y = y0 + b ∧ x < x0 + a
      · exact ⟨a + b + (x0 + a - x), by omega, by omega, by unfold rectX; split_ifs <;> omega,
          by unfold rectY; split_ifs <;> omega⟩
      · exact ⟨2 * a + b + (y0 + b - y), by omega, by omega,
          by unfold rectX; split_ifs <;> omega, by unfold rectY; split_ifs <;> omega⟩

/-- The outer trace round a rectangle of `Visited` cells. In a mask `B` in
which the cells on the sides of the rectangle of the columns `x0 .. x0 + a` and
the rows `x0 .. y0 + b` are `Visited`, the cells around the rectangle are
`Background`, and the cell diagonally inside the top left corner is no edge
pixel, the main loop of `trace4` with `cwDir = 1`, started at the top left
corner, goes once round the rectangle and is left by `break`: the stack holds
the `2 * a + 2 * b` cells of the sides in clockwise order, they are `Traced`,
and no other cell has changed. -/
theorem traceLoop_round (s x0 y0 a b : Int) (B : Nat) (L : Nat) (ha : 1 ≤ a) (hb : 3 ≤ b)
    (hx0 : 1 ≤ x0) (hx1 : x0 + a + 1 < s) (hL : (L : Int) = 2 * a + 2 * b - 1)
    (hcap : 2 * a + 2 * b < maxStackSize)
    (hRing : ∀ x y : Int, x0 ≤ x → x ≤ x0 + a → y0 ≤ y → y ≤ y0 + b →
      (x = x0 ∨ x = x0 + a ∨ y = y0 ∨ y = y0 + b) → rd B (cellAt s x y) = 2)
    (hOut : ∀ x y : Int, x0 - 1 ≤ x → x ≤ x0 + a + 1 → y0 - 1 ≤ y → y ≤ y0 + b + 1 →
      (x = x0 - 1 ∨ x = x0 + a + 1 ∨ y = y0 - 1 ∨ y = y0 + b + 1) → rd B (cellAt s x y) = 0)
    (hIn : rd B (cellAt s (x0 + 1) (y0 + 1)) ≠ 2 ∨ ∀ q : Int, 0 ≤ q → q < 8 →
      rd B (cellAt s (x0 + 1) (y0 + 1) + offsetAt (cwNeighborOffsets8 s) q) ≠ 0) :
    ∃ t1 : Trace,
      traceLoop (cellAt s x0 y0) 1 (cwNeighborOffsets4 s) (cwNeighborOffsets8 s) (L + 1)
        ⟨wr B (cellAt s x0 y0) 3, [cellAt s x0 y0], cellAt s x0 y0, 1, 0⟩ =
          (t1, TraceExit.closed) ∧
      t1.stack = (List.range (L + 1)).map (rectCell s x0 y0 a b 0) ∧
      (∀ j : Nat, j ≤ L → rd t1.buffer (rectCell s x0 y0 a b 0 j) = 3) ∧
      (∀ c : Int, (∀ j : Nat, j ≤ L → c ≠ rectCell s x0 y0 a b 0 j) → rd t1.buffer c = rd B c) := by
  have hP0 : rectCell s x0 y0 a b 0 0 = cellAt s x0 y0 := by
    obtain ⟨x1, y1, _⟩ := rect_top x0 y0 a b (0 + ((0 : Nat) : Int)) (by omega)
    unfold rectCell
    rw [x1, y1]
    exact cellAt_congr s (by omega) rfl
  have hD0 : rectHeading a b 0 0 = 1 := by
    obtain ⟨_, _, d1⟩ := rect_top x0 y0 a b (0 + ((0 : Nat) : Int)) (by omega)
    unfold rectHeading
    exact d1
  have hB : ∀ j : Nat, j ≤ L → rd B (rectCell s x0 y0 a b 0 j) = 2 := by
    intro j hj
    have r := rect_range x0 y0 a b (0 + j) (by omega) (by omega) (by omega) (by omega)
    unfold rectCell
    exact hRing _ _ r.1 r.2.1 r.2.2.1 r.2.2.2.1 r.2.2.2.2
  obtain ⟨bf, b1, b2, b3⟩ := traceLoop_follow (cellAt s x0 y0) 1 (cwNeighborOffsets4 s)
    (cwNeighborOffsets8 s) (Or.inl rfl) B (rectCell s x0 y0 a b 0) (rectHeading a b 0)
    (rectSkips a b 0 2) L
    (fun i j hij hj => rectCell_apart s x0 y0 a b 0 i j (by omega) (by omega) (by omega)
      (by omega) (le_refl _) hij (by omega) (Or.inr (by omega)))
    hB
    (by
      intro j hj
      have hc : (j : Int) < a ∨ (j : Int) = a ∨ (a < (j : Int) ∧ (j : Int) < a + b) ∨
          (j : Int) = a + b ∨ (a + b < (j : Int) ∧ (j : Int) < 2 * a + b) ∨
          (j : Int) = 2 * a + b ∨ 2 * a + b < (j : Int) := by omega
      rcases hc with hc | hc | hc | hc | hc | hc | hc
      · obtain ⟨x1, y1, d1⟩ := rect_top x0 y0 a b (0 + (j : Int)) (by omega)
        obtain ⟨x2, y2, d2⟩ := rect_top x0 y0 a b (0 + ((j + 1 : Nat) : Int)) (by omega)
        have hR : rectSkips a b 0 2 j = 1 := by unfold rectSkips; rw [if_neg (by omega)]
        unfold rectCell rectHeading
        rw [x1, y1, d1, x2, y2, d2, hR]
        refine ⟨by norm_num, ?_, ?_, ?_, ?_⟩
        · intro m hm
          have hm1 : m = 0 := by omega
          subst hm1
          rw [show ((1 : Int) - 1 + ((0 : Nat) : Int) * 1) % 4 = 0 from by norm_num, cellAt_up]
          exact hOut _ _ (by omega) (by omega) (by omega) (by omega) (by omega)
        · rw [show ((1 : Int) - 1 + ((1 : Nat) : Int) * 1) % 4 = 1 from by norm_num, cellAt_right]
          exact cellAt_congr s (by omega) (by omega)
        · rw [show ((1 : Int) - 1 + ((1 : Nat) : Int) * 1) % 4 = 1 from by norm_num]
        · refine ⟨0, by norm_num, by norm_num, ?_⟩
          rw [(cellAt_eight s _ _).1]
          exact hOut _ _ (by omega) (by omega) (by omega) (by omega) (by omega)
      · obtain ⟨x1, y1, d1⟩ := rect_top x0 y0 a b (0 + (j : Int)) (by omega)
        obtain ⟨x2, y2, d2⟩ := rect_right x0 y0 a b (0 + ((j + 1 : Nat) : Int)) (by omega) (by omega)
        have hR : rectSkips a b 0 2 j = 2 := by unfold rectSkips; rw [if_pos (by omega)]
        unfold rectCell rectHeading
        rw [x1, y1, d1, x2, y2, d2, hR]
        refine ⟨by norm_num, ?_, ?_, ?_, ?_⟩
        · intro m hm
          have hm1 : m = 0 ∨ m = 1 := by omega
          rcases hm1 with rfl | rfl
          · rw [show ((1 : Int) - 1 + ((0 : Nat) : Int) * 1) % 4 = 0 from by norm_num, cellAt_up]
            exact hOut _ _ (by omega) (by omega) (by omega) (by omega) (by omega)
          · rw [show ((1 : Int) - 1 + ((1 : Nat) : Int) * 1) % 4 = 1 from by norm_num, cellAt_right]
            exact hOut _ _ (by omega) (by omega) (by omega) (by omega) (by omega)
        · rw [show ((1 : Int) - 1 + ((2 : Nat) : Int) * 1) % 4 = 2 from by norm_num, cellAt_down]
          exact cellAt_congr s (by omega) (by omega)
        · rw [show ((1 : Int) - 1 + ((2 : Nat) : Int) * 1) % 4 = 2 from by norm_num]
        · refine ⟨2, by norm_num, by norm_num, ?_⟩
          rw [(cellAt_eight s _ _).2.2.1]
          exact hOut _ _ (by omega) (by omega) (by omega) (by omega) (by omega)
      · obtain ⟨x1, y1, d1⟩ := rect_right x0 y0 a b (0 + (j : Int)) (by omega) (by omega)
        obtain ⟨x2, y2, d2⟩ := rect_right x0 y0 a b (0 + ((j + 1 : Nat) : Int)) (by omega) (by omega)
        have hR : rectSkips a b 0 2 j = 1 := by unfold rectSkips; rw [if_neg (by omega)]
        unfold rectCell rectHeading
        rw [x1, y1, d1, x2, y2, d2, hR]
        refine ⟨by norm_num, ?_, ?_, ?_, ?_⟩
        · intro m hm
          have hm1 : m = 0 := by omega
          subst hm1
          rw [show ((2 : Int) - 1 + ((0 : Nat) : Int) * 1) % 4 = 1 from by norm_num, cellAt_right]
          exact hOut _ _ (by omega) (by omega) (by omega) (by omega) (by omega)
        · rw [show ((2 : Int) - 1 + ((1 : Nat) : Int) * 1) % 4 = 2 from by norm_num, cellAt_down]
          exact cellAt_congr s (by omega) (by omega)
        · rw [show ((2 : Int) - 1 + ((1 : Nat) : Int) * 1) % 4 = 2 from by norm_num]
        · refine ⟨2, by norm_num, by norm_num, ?_⟩
          rw [(cellAt_eight s _ _).2.2.1]
          exact hOut _ _ (by omega) (by omega) (by omega) (by omega) (by omega)
      · obtain ⟨x1, y1, d1⟩ := rect_right x0 y0 a b (0 + (j : Int)) (by omega) (by omega)
        obtain ⟨x2, y2, d2⟩ := rect_bottom x0 y0 a b (0 + ((j + 1 : Nat) : Int)) (by omega) (by omega) (by omega)
        have hR : rectSkips a b 0 2 j = 2 := by unfold rectSkips; rw [if_pos (by omega)]
        unfold rectCell rectHeading
        rw [x1, y1, d1, x2, y2, d2, hR]
        refine ⟨by norm_num, ?_, ?_, ?_, ?_⟩
        · intro m hm
          have hm1 : m = 0 ∨ m = 1 := by omega
          rcases hm1 with rfl | rfl
          · rw [show ((2 : Int) - 1 + ((0 : Nat) : Int) * 1) % 4 = 1 from by norm_num, cellAt_right]
            exact hOut _ _ (by omega) (by omega) (by omega) (by omega) (by omega)
          · rw [show ((2 : Int) - 1 + ((1 : Nat) : Int) * 1) % 4 = 2 from by norm_num, cellAt_down]
            exact hOut _ _ (by omega) (by omega) (by omega) (by omega) (by omega)
        · rw [show ((2 : Int) - 1 + ((2 : Nat) : Int) * 1) % 4 = 3 from by norm_num, cellAt_left]
          exact cellAt_congr s (by omega) (by omega)
        · rw [show ((2 : Int) - 1 + ((2 : Nat) : Int) * 1) % 4 = 3 from by norm_num]
        · refine ⟨4, by norm_num, by norm_num, ?_⟩
          rw [(cellAt_eight s _ _).2.2.2.2.1]
          exact hOut _ _ (by omega) (by omega) (by omega) (by omega) (by omega)
      · obtain ⟨x1, y1, d1⟩ := rect_bottom x0 y0 a b (0 + (j : Int)) (by omega) (by omega) (by omega)
        obtain ⟨x2, y2, d2⟩ := rect_bottom x0 y0 a b (0 + ((j + 1 : Nat) : Int)) (by omega) (by omega) (by omega)
        have hR : rectSkips a b 0 2 j = 1 := by unfold rectSkips; rw [if_neg (by omega)]
        unfold rectCell rectHeading
        rw [x1, y1, d1, x2, y2, d2, hR]
        refine ⟨by norm_num, ?_, ?_, ?_, ?_⟩
        · intro m hm
          have hm1 : m = 0 := by omega
          subst hm1
          rw [show ((3 : Int) - 1 + ((0 : Nat) : Int) * 1) % 4 = 2 from by norm_num, cellAt_down]
          exact hOut _ _ (by omega) (by omega) (by omega) (by omega) (by omega)
        · rw [show ((3 : Int) - 1 + ((1 : Nat) : Int) * 1) % 4 = 3 from by norm_num, cellAt_left]
          exact cellAt_congr s (by omega) (by omega)
        · rw [show ((3 : Int) - 1 + ((1 : Nat) : Int) * 1) % 4 = 3 from by norm_num]
        · refine ⟨4, by norm_num, by norm_num, ?_⟩
          rw [(cellAt_eight s _ _).2.2.2.2.1]
          exact hOut _ _ (by omega) (by omega) (by omega) (by omega) (by omega)
      · obtain ⟨x1, y1, d1⟩ := rect_bottom x0 y0 a b (0 + (j : Int)) (by omega) (by omega) (by omega)
        obtain ⟨x2, y2, d2⟩ := rect_left x0 y0 a b (0 + ((j + 1 : Nat) : Int)) (by omega) (by omega) (by omega)
        have hR : rectSkips a b 0 2 j = 2 := by unfold rectSkips; rw [if_pos (by omega)]
        unfold rectCell rectHeading
        rw [x1, y1, d1, x2, y2, d2, hR]
        refine ⟨by norm_num, ?_, ?_, ?_, ?_⟩
        · intro m hm
          have hm1 : m = 0 ∨ m = 1 := by omega
          rcases hm1 with rfl | rfl
          · rw [show ((3 : Int) - 1 + ((0 : Nat) : Int) * 1) % 4 = 2 from by norm_num, cellAt_down]
            exact hOut _ _ (by omega) (by omega) (by omega) (by omega) (by omega)
          · rw [show ((3 : Int) - 1 + ((1 : Nat) : Int) * 1) % 4 = 3 from by norm_num, cellAt_left]
            exact hOut _ _ (by omega) (by omega) (by omega) (by omega) (by omega)
        · rw [show ((3 : Int) - 1 + ((2 : Nat) : Int) * 1) % 4 = 0 from by norm_num, cellAt_up]
          exact cellAt_congr s (by omega) (by omega)
        · rw [show ((3 : Int) - 1 + ((2 : Nat) : Int) * 1) % 4 = 0 from by norm_num]
        · refine ⟨6, by norm_num, by norm_num, ?_⟩
          rw [(cellAt_eight s _ _).2.2.2.2.2.2.1]
          exact hOut _ _ (by omega) (by omega) (by omega) (by omega) (by omega)
      · obtain ⟨x1, y1, d1⟩ := rect_left x0 y0 a b (0 + (j : Int)) (by omega) (by omega) (by omega)
        obtain ⟨x2, y2, d2⟩ := rect_left x0 y0 a b (0 + ((j + 1 : Nat) : Int)) (by omega) (by omega) (by omega)
        have hR : rectSkips a b 0 2 j = 1 := by unfold rectSkips; rw [if_neg (by omega)]
        unfold rectCell rectHeading
        rw [x1, y1, d1, x2, y2, d2, hR]
        refine ⟨by norm_num, ?_, ?_, ?_, ?_⟩
        · intro m hm
          have hm1 : m = 0 := by omega
          subst hm1
          rw [show ((0 : Int) - 1 + ((0 : Nat) : Int) * 1) % 4 = 3 from by norm_num, cellAt_left]
          exact hOut _ _ (by omega) (by omega) (by omega) (by omega) (by omega)
        · rw [show ((0 : Int) - 1 + ((1 : Nat) : Int) * 1) % 4 = 0 from by norm_num, cellAt_up]
          exact cellAt_congr s (by omega) (by omega)
        · rw [show ((0 : Int) - 1 + ((1 : Nat) : Int) * 1) % 4 = 0 from by norm_num]
        · refine ⟨6, by norm_num, by norm_num, ?_⟩
          rw [(cellAt_eight s _ _).2.2.2.2.2.2.1]
          exact hOut _ _ (by omega) (by omega) (by omega) (by omega) (by omega))
    L (le_refl _)
  rw [hP0, hD0] at b3
  have zero_of : ∀ c : Int, rd B c = 0 → rd bf c = 0 := by
    intro c hc
    rw [b2 c (fun j hj e => by
      rw [e, hB j hj] at hc
      exact absurd hc (by norm_num))]
    exact hc
  obtain ⟨x1, y1, d1⟩ := rect_left x0 y0 a b (0 + (L : Int)) (by omega) (by omega) (by omega)
  have hPL : rectCell s x0 y0 a b 0 L = cellAt s x0 (y0 + 1) := by
    unfold rectCell
    rw [x1, y1]
    exact cellAt_congr s rfl (by omega)
  have hDL : rectHeading a b 0 L = 0 := d1
  have hPL1 : cellAt s x0 (y0 + 2) = rectCell s x0 y0 a b 0 (L - 1) := by
    obtain ⟨x2, y2, _⟩ := rect_left x0 y0 a b (0 + ((L - 1 : Nat) : Int)) (by omega) (by omega)
      (by omega)
    unfold rectCell
    rw [x2, y2]
    exact cellAt_congr s rfl (by omega)
  have hclose := traceLoop_close (cellAt s x0 y0) 1 (cwNeighborOffsets4 s) (cwNeighborOffsets8 s)
    0 ⟨bf, (List.range (L + 1)).map (rectCell s x0 y0 a b 0), rectCell s x0 y0 a b 0 L,
      rectHeading a b 0 L, 0⟩ (Or.inl rfl)
    (by
      intro m hm
      show isNewEdgePixel4 (rectCell s x0 y0 a b 0 L + offsetAt (cwNeighborOffsets4 s)
        ((rectHeading a b 0 L - 1 + (m : Int) * 1) % 4)) bf (cwNeighborOffsets8 s) = false
      rw [hPL, hDL]
      have hm1 : m = 0 ∨ m = 1 ∨ m = 2 ∨ m = 3 := by omega
      rcases hm1 with rfl | rfl | rfl | rfl
      · rw [show ((0 : Int) - 1 + ((0 : Nat) : Int) * 1) % 4 = 3 from by norm_num, cellAt_left]
        exact isNewEdgePixel4_of_ne _ _ _ (by
          rw [zero_of _ (hOut _ _ (by omega) (by omega) (by omega) (by omega) (by omega))]
          norm_num)
      · rw [show ((0 : Int) - 1 + ((1 : Nat) : Int) * 1) % 4 = 0 from by norm_num, cellAt_up,
          show y0 + 1 - 1 = y0 from by ring, ← hP0]
        exact isNewEdgePixel4_of_ne _ _ _ (by rw [b1 0 (by omega)]; norm_num)
      · rw [show ((0 : Int) - 1 + ((2 : Nat) : Int) * 1) % 4 = 1 from by norm_num, cellAt_right]
        exact isNewEdgePixel4_of_base B bf _ L _ b1 b2 _ hIn
      · rw [show ((0 : Int) - 1 + ((3 : Nat) : Int) * 1) % 4 = 2 from by norm_num, cellAt_down,
          show y0 + 1 + 1 = y0 + 2 from by ring, hPL1]
        exact isNewEdgePixel4_of_ne _ _ _ (by rw [b1 (L - 1) (by omega)]; norm_num))
    (show (0 : Int) < maxRevisited from by decide)
    (by
      show (((List.range (L + 1)).map (rectCell s x0 y0 a b 0)).length : Int) < maxStackSize
      rw [List.length_map, List.length_range]
      push_cast
      omega)
    1 (by norm_num)
    (by
      intro m hm
      show rd bf (rectCell s x0 y0 a b 0 L + offsetAt (cwNeighborOffsets4 s)
        ((rectHeading a b 0 L - 1 + (m : Int) * 1) % 4)) ≠ 3
      have : m = 0 := by omega
      subst this
      rw [hPL, hDL, show ((0 : Int) - 1 + ((0 : Nat) : Int) * 1) % 4 = 3 from by norm_num,
        cellAt_left, zero_of _ (hOut _ _ (by omega) (by omega) (by omega) (by omega) (by omega))]
      norm_num)
    (by
      show rectCell s x0 y0 a b 0 L + offsetAt (cwNeighborOffsets4 s)
        ((rectHeading a b 0 L - 1 + ((1 : Nat) : Int) * 1) % 4) = cellAt s x0 y0
      rw [hPL, hDL, show ((0 : Int) - 1 + ((1 : Nat) : Int) * 1) % 4 = 0 from by norm_num,
        cellAt_up]
      exact cellAt_congr s rfl (by omega))
    (by
      show rd bf (cellAt s x0 y0) = 3
      rw [← hP0]
      exact b1 0 (by omega))
  have h := b3 1
  rw [show 1 + L = L + 1 from by omega] at h
  exact ⟨⟨bf, (List.range (L + 1)).map (rectCell s x0 y0 a b 0), rectCell s x0 y0 a b 0 L,
    (rectHeading a b 0 L - 1 + ((1 : Nat) : Int) * 1) % 4, 0 + 1⟩, by rw [h, hclose], rfl, b1, b2⟩

/-- The inner trace round a hole. In a mask `B` in which the cells on the
sides of the rectangle of the columns `x0 .. x0 + a` and the rows
`y0 .. y0 + b` are `Visited`, the cells just inside its sides are `Background`
(they are cells of the hole), and the cells above and to the left of its top
left corner are no edge pixels, the main loop of `trace4` with `cwDir = -1`,
started at the cell to the right of the top left corner, goes once round the
rectangle, clockwise, and is left by `break`: the stack holds the
`2 * a + 2 * b` cells of the sides, they are `Traced`, and no other cell has
changed. -/
theorem traceLoop_round_hole (s x0 y0 a b : Int) (B : Nat) (L : Nat) (ha : 3 ≤ a) (hb : 3 ≤ b)
    (hx0 : 0 ≤ x0) (hx1 : x0 + a < s) (hL : (L : Int) = 2 * a + 2 * b - 1)
    (hcap : 2 * a + 2 * b < maxStackSize)
    (hRing : ∀ x y : Int, x0 ≤ x → x ≤ x0 + a → y0 ≤ y → y ≤ y0 + b →
      (x = x0 ∨ x = x0 + a ∨ y = y0 ∨ y = y0 + b) → rd B (cellAt s x y) = 2)
    (hHole : ∀ x y : Int, x0 + 1 ≤ x → x ≤ x0 + a - 1 → y0 + 1 ≤ y → y ≤ y0 + b - 1 →
      (x = x0 + 1 ∨ x = x0 + a - 1 ∨ y = y0 + 1 ∨ y = y0 + b - 1) → rd B (cellAt s x y) = 0)
    (hN : rd B (cellAt s x0 (y0 - 1)) ≠ 2 ∨ ∀ q : Int, 0 ≤ q → q < 8 →
      rd B (cellAt s x0 (y0 - 1) + offsetAt (cwNeighborOffsets8 s) q) ≠ 0)
    (hW : rd B (cellAt s (x0 - 1) y0) ≠ 2 ∨ ∀ q : Int, 0 ≤ q → q < 8 →
      rd B (cellAt s (x0 - 1) y0 + offsetAt (cwNeighborOffsets8 s) q) ≠ 0) :
    ∃ t1 : Trace,
      traceLoop (cellAt s (x0 + 1) y0) (-1) (cwNeighborOffsets4 s) (cwNeighborOffsets8 s) (L + 1)
        ⟨wr B (cellAt s (x0 + 1) y0) 3, [cellAt s (x0 + 1) y0], cellAt s (x0 + 1) y0, 1, 0⟩ =
          (t1, TraceExit.closed) ∧
      t1.stack = (List.range (L + 1)).map (rectCell s x0 y0 a b 1) ∧
      (∀ j : Nat, j ≤ L → rd t1.buffer (rectCell s x0 y0 a b 1 j) = 3) ∧
      (∀ c : Int, (∀ j : Nat, j ≤ L → c ≠ rectCell s x0 y0 a b 1 j) → rd t1.buffer c = rd B c) := by
  have hP0 : rectCell s x0 y0 a b 1 0 = cellAt s (x0 + 1) y0 := by
    obtain ⟨x1, y1, _⟩ := rect_top x0 y0 a b (1 + ((0 : Nat) : Int)) (by omega)
    unfold rectCell
    rw [x1, y1]
    exact cellAt_congr s (by omega) rfl
  have hD0 : rectHeading a b 1 0 = 1 := by
    obtain ⟨_, _, d1⟩ := rect_top x0 y0 a b (1 + ((0 : Nat) : Int)) (by omega)
    unfold rectHeading
    exact d1
  have hB : ∀ j : Nat, j ≤ L → rd B (rectCell s x0 y0 a b 1 j) = 2 := by
    intro j hj
    have r := rect_range x0 y0 a b (1 + j) (by omega) (by omega) (by omega) (by omega)
    unfold rectCell
    exact hRing _ _ r.1 r.2.1 r.2.2.1 r.2.2.2.1 r.2.2.2.2
  obtain ⟨bf, b1, b2, b3⟩ := traceLoop_follow (cellAt s (x0 + 1) y0) (-1) (cwNeighborOffsets4 s)
    (cwNeighborOffsets8 s) (Or.inr rfl) B (rectCell s x0 y0 a b 1) (rectHeading a b 1)
    (rectSkips a b 1 0) L
    (fun i j hij hj => rectCell_apart s x0 y0 a b 1 i j (by omega) (by omega) (by omega)
      (by omega) (by norm_num) hij (by omega) (Or.inl (by omega)))
    hB
    (by
      intro j hj
      have hc : 1 + (j : Int) < a ∨ 1 + (j : Int) = a ∨
          (a < 1 + (j : Int) ∧ 1 + (j : Int) < a + b) ∨
          1 + (j : Int) = a + b ∨ (a + b < 1 + (j : Int) ∧ 1 + (j : Int) < 2 * a + b) ∨
          1 + (j : Int) = 2 * a + b ∨ 2 * a + b < 1 + (j : Int) := by omega
      rcases hc with hc | hc | hc | hc | hc | hc | hc
      · obtain ⟨x1, y1, d1⟩ := rect_top x0 y0 a b (1 + (j : Int)) (by omega)
        obtain ⟨x2, y2, d2⟩ := rect_top x0 y0 a b (1 + ((j + 1 : Nat) : Int)) (by omega)
        have hR : rectSkips a b 1 0 j = 1 := by unfold rectSkips; rw [if_neg (by omega)]
        unfold rectCell rectHeading
        rw [x1, y1, d1, x2, y2, d2, hR]
        refine ⟨by norm_num, ?_, ?_, ?_, ?_⟩
        · intro m hm
          have hm1 : m = 0 := by omega
          subst hm1
          rw [show ((1 : Int) - -1 + ((0 : Nat) : Int) * -1) % 4 = 2 from by norm_num, cellAt_down]
          exact hHole _ _ (by omega) (by omega) (by omega) (by omega) (by omega)
        · rw [show ((1 : Int) - -1 + ((1 : Nat) : Int) * -1) % 4 = 1 from by norm_num, cellAt_right]
          exact cellAt_congr s (by omega) (by omega)
        · rw [show ((1 : Int) - -1 + ((1 : Nat) : Int) * -1) % 4 = 1 from by norm_num]
        · refine ⟨5, by norm_num, by norm_num, ?_⟩
          rw [(cellAt_eight s _ _).2.2.2.2.2.1]
          exact hHole _ _ (by omega) (by omega) (by omega) (by omega) (by omega)
      · obtain ⟨x1, y1, d1⟩ := rect_top x0 y0 a b (1 + (j : Int)) (by omega)
        obtain ⟨x2, y2, d2⟩ := rect_right x0 y0 a b (1 + ((j + 1 : Nat) : Int)) (by omega) (by omega)
        have hR : rectSkips a b 1 0 j = 0 := by unfold rectSkips; rw [if_pos (by omega)]
        unfold rectCell rectHeading
        rw [x1, y1, d1, x2, y2, d2, hR]
        refine ⟨by norm_num, ?_, ?_, ?_, ?_⟩
        · intro m hm
          omega
        · rw [show ((1 : Int) - -1 + ((0 : Nat) : Int) * -1) % 4 = 2 from by norm_num, cellAt_down]
          exact cellAt_congr s (by omega) (by omega)
        · rw [show ((1 : Int) - -1 + ((0 : Nat) : Int) * -1) % 4 = 2 from by norm_num]
        · refine ⟨6, by norm_num, by norm_num, ?_⟩
          rw [(cellAt_eight s _ _).2.2.2.2.2.2.1]
          exact hHole _ _ (by omega) (by omega) (by omega) (by omega) (by omega)
      · obtain ⟨x1, y1, d1⟩ := rect_right x0 y0 a b (1 + (j : Int)) (by omega) (by omega)
        obtain ⟨x2, y2, d2⟩ := rect_right x0 y0 a b (1 + ((j + 1 : Nat) : Int)) (by omega) (by omega)
        have hR : rectSkips a b 1 0 j = 1 := by unfold rectSkips; rw [if_neg (by omega)]
        unfold rectCell rectHeading
        rw [x1, y1, d1, x2, y2, d2, hR]
        refine ⟨by norm_num, ?_, ?_, ?_, ?_⟩
        · intro m hm
          have hm1 : m = 0 := by omega
          subst hm1
          rw [show ((2 : Int) - -1 + ((0 : Nat) : Int) * -1) % 4 = 3 from by norm_num, cellAt_left]
          exact hHole _ _ (by omega) (by omega) (by omega) (by omega) (by omega)
        · rw [show ((2 : Int) - -1 + ((1 : Nat) : Int) * -1) % 4 = 2 from by norm_num, cellAt_down]
          exact cellAt_congr s (by omega) (by omega)
        · rw [show ((2 : Int) - -1 + ((1 : Nat) : Int) * -1) % 4 = 2 from by norm_num]
        · refine ⟨7, by norm_num, by norm_num, ?_⟩
          rw [(cellAt_eight s _ _).2.2.2.2.2.2.2]
          exact hHole _ _ (by omega) (by omega) (by omega) (by omega) (by omega)
      · obtain ⟨x1, y1, d1⟩ := rect_right x0 y0 a b (1 + (j : Int)) (by omega) (by omega)
        obtain ⟨x2, y2, d2⟩ := rect_bottom x0 y0 a b (1 + ((j + 1 : Nat) : Int)) (by omega) (by omega) (by omega)
        have hR : rectSkips a b 1 0 j = 0 := by unfold rectSkips; rw [if_pos (by omega)]
        unfold rectCell rectHeading
        rw [x1, y1, d1, x2, y2, d2, hR]
        refine ⟨by norm_num, ?_, ?_, ?_, ?_⟩
        · intro m hm
          omega
        · rw [show ((2 : Int) - -1 + ((0 : Nat) : Int) * -1) % 4 = 3 from by norm_num, cellAt_left]
          exact cellAt_congr s (by omega) (by omega)
        · rw [show ((2 : Int) - -1 + ((0 : Nat) : Int) * -1) % 4 = 3 from by norm_num]
        · refine ⟨0, by norm_num, by norm_num, ?_⟩
          rw [(cellAt_eight s _ _).1]
          exact hHole _ _ (by omega) (by omega) (by omega) (by omega) (by omega)
      · obtain ⟨x1, y1, d1⟩ := rect_bottom x0 y0 a b (1 + (j : Int)) (by omega) (by omega) (by omega)
        obtain ⟨x2, y2, d2⟩ := rect_bottom x0 y0 a b (1 + ((j + 1 : Nat) : Int)) (by omega) (by omega) (by omega)
        have hR : rectSkips a b 1 0 j = 1 := by unfold rectSkips; rw [if_neg (by omega)]
        unfold rectCell rectHeading
        rw [x1, y1, d1, x2, y2, d2, hR]
        refine ⟨by norm_num, ?_, ?_, ?_, ?_⟩
        · intro m hm
          have hm1 : m = 0 := by omega
          subst hm1
          rw [show ((3 : Int) - -1 + ((0 : Nat) : Int) * -1) % 4 = 0 from by norm_num, cellAt_up]
          exact hHole _ _ (by omega) (by omega) (by omega) (by omega) (by omega)
        · rw [show ((3 : Int) - -1 + ((1 : Nat) : Int) * -1) % 4 = 3 from by norm_num, cellAt_left]
          exact cellAt_congr s (by omega) (by omega)
        · rw [show ((3 : Int) - -1 + ((1 : Nat) : Int) * -1) % 4 = 3 from by norm_num]
        · refine ⟨1, by norm_num, by norm_num, ?_⟩
          rw [(cellAt_eight s _ _).2.1]
          exact hHole _ _ (by omega) (by omega) (by omega) (by omega) (by omega)
      · obtain ⟨x1, y1, d1⟩ := rect_bottom x0 y0 a b (1 + (j : Int)) (by omega) (by omega) (by omega)
        obtain ⟨x2, y2, d2⟩ := rect_left x0 y0 a b (1 + ((j + 1 : Nat) : Int)) (by omega) (by omega) (by omega)
        have hR : rectSkips a b 1 0 j = 0 := by unfold rectSkips; rw [if_pos (by omega)]
        unfold rectCell rectHeading
        rw [x1, y1, d1, x2, y2, d2, hR]
        refine ⟨by norm_num, ?_, ?_, ?_, ?_⟩
        · intro m hm
          omega
        · rw [show ((3 : Int) - -1 + ((0 : Nat) : Int) * -1) % 4 = 0 from by norm_num, cellAt_up]
          exact cellAt_congr s (by omega) (by omega)
        · rw [show ((3 : Int) - -1 + ((0 : Nat) : Int) * -1) % 4 = 0 from by norm_num]
        · refine ⟨2, by norm_num, by norm_num, ?_⟩
          rw [(cellAt_eight s _ _).2.2.1]
          exact hHole _ _ (by omega) (by omega) (by omega) (by omega) (by omega)
      · obtain ⟨x1, y1, d1⟩ := rect_left x0 y0 a b (1 + (j : Int)) (by omega) (by omega) (by omega)
        obtain ⟨x2, y2, d2⟩ := rect_left x0 y0 a b (1 + ((j + 1 : Nat) : Int)) (by omega) (by omega) (by omega)
        have hR : rectSkips a b 1 0 j = 1 := by unfold rectSkips; rw [if_neg (by omega)]
        unfold rectCell rectHeading
        rw [x1, y1, d1, x2, y2, d2, hR]
        refine ⟨by norm_num, ?_, ?_, ?_, ?_⟩
        · intro m hm
          have hm1 : m = 0 := by omega
          subst hm1
          rw [show ((0 : Int) - -1 + ((0 : Nat) : Int) * -1) % 4 = 1 from by norm_num, cellAt_right]
          exact hHole _ _ (by omega) (by omega) (by omega) (by omega) (by omega)
        · rw [show ((0 : Int) - -1 + ((1 : Nat) : Int) * -1) % 4 = 0 from by norm_num, cellAt_up]
          exact cellAt_congr s (by omega) (by omega)
        · rw [show ((0 : Int) - -1 + ((1 : Nat) : Int) * -1) % 4 = 0 from by norm_num]
        · refine ⟨3, by norm_num, by norm_num, ?_⟩
          rw [(cellAt_eight s _ _).2.2.2.1]
          exact hHole _ _ (by omega) (by omega) (by omega) (by omega) (by omega))
    L (le_refl _)
  rw [hP0, hD0] at b3
  obtain ⟨x1, y1, d1⟩ := rect_left x0 y0 a b (1 + (L : Int)) (by omega) (by omega) (by omega)
  have hPL : rectCell s x0 y0 a b 1 L = cellAt s x0 y0 := by
    unfold rectCell
    rw [x1, y1]
    exact cellAt_congr s rfl (by omega)
  have hDL : rectHeading a b 1 L = 0 := d1
  have hPL1 : cellAt s x0 (y0 + 1) = rectCell s x0 y0 a b 1 (L - 1) := by
    obtain ⟨x2, y2, _⟩ := rect_left x0 y0 a b (1 + ((L - 1 : Nat) : Int)) (by omega) (by omega)
      (by omega)
    unfold rectCell
    rw [x2, y2]
    exact cellAt_congr s rfl (by omega)
  have hclose := traceLoop_close (cellAt s (x0 + 1) y0) (-1) (cwNeighborOffsets4 s)
    (cwNeighborOffsets8 s) 0
    ⟨bf, (List.range (L + 1)).map (rectCell s x0 y0 a b 1), rectCell s x0 y0 a b 1 L,
      rectHeading a b 1 L, 0⟩ (Or.inr rfl)
    (by
      intro m hm
      show isNewEdgePixel4 (rectCell s x0 y0 a b 1 L + offsetAt (cwNeighborOffsets4 s)
        ((rectHeading a b 1 L - -1 + (m : Int) * -1) % 4)) bf (cwNeighborOffsets8 s) = false
      rw [hPL, hDL]
      have hm1 : m = 0 ∨ m = 1 ∨ m = 2 ∨ m = 3 := by omega
      rcases hm1 with rfl | rfl | rfl | rfl
      · rw [show ((0 : Int) - -1 + ((0 : Nat) : Int) * -1) % 4 = 1 from by norm_num, cellAt_right,
          ← hP0]
        exact isNewEdgePixel4_of_ne _ _ _ (by rw [b1 0 (by omega)]; norm_num)
      · rw [show ((0 : Int) - -1 + ((1 : Nat) : Int) * -1) % 4 = 0 from by norm_num, cellAt_up]
        exact isNewEdgePixel4_of_base B bf _ L _ b1 b2 _ hN
      · rw [show ((0 : Int) - -1 + ((2 : Nat) : Int) * -1) % 4 = 3 from by norm_num, cellAt_left]
        exact isNewEdgePixel4_of_base B bf _ L _ b1 b2 _ hW
      · rw [show ((0 : Int) - -1 + ((3 : Nat) : Int) * -1) % 4 = 2 from by norm_num, cellAt_down,
          hPL1]
        exact isNewEdgePixel4_of_ne _ _ _ (by rw [b1 (L - 1) (by omega)]; norm_num))
    (show (0 : Int) < maxRevisited from by decide)
    (by
      show (((List.range (L + 1)).map (rectCell s x0 y0 a b 1)).length : Int) < maxStackSize
      rw [List.length_map, List.length_range]
      push_cast
      omega)
    0 (by norm_num)
    (by
      intro m hm
      omega)
    (by
      show rectCell s x0 y0 a b 1 L + offsetAt (cwNeighborOffsets4 s)
        ((rectHeading a b 1 L - -1 + ((0 : Nat) : Int) * -1) % 4) = cellAt s (x0 + 1) y0
      rw [hPL, hDL, show ((0 : Int) - -1 + ((0 : Nat) : Int) * -1) % 4 = 1 from by norm_num,
        cellAt_right])
    (by
      show rd bf (cellAt s (x0 + 1) y0) = 3
      rw [← hP0]
      exact b1 0 (by omega))
  have h := b3 1
  rw [show 1 + L = L + 1 from by omega] at h
  exact ⟨⟨bf, (List.range (L + 1)).map (rectCell s x0 y0 a b 1), rectCell s x0 y0 a b 1 L,
    (rectHeading a b 1 L - -1 + ((0 : Nat) : Int) * -1) % 4, 0 + 1⟩, by rw [h, hclose], rfl, b1, b2⟩

/-! ## The corner points of a closed path -/

/-- The corner points found so far stay. -/
theorem cornerLoop_grows (s : Int) : ∀ (rest : List Int) (prev next : Point) (acc : List Point)
    (p : Point), p ∈ acc → p ∈ (cornerLoop s rest prev next acc).1 := by
  intro rest
  induction rest with
  | nil => intro prev next acc p hp; exact hp
  | cons c rest ih =>
    intro prev next acc p hp
    simp only [cornerLoop]
    apply ih
    split
    · exact List.mem_append_left _ hp
    · exact hp

/-- A cell of the path at which the path turns is a corner point: for three
cells in a row of the list the loop goes through, with the middle one a
corner. -/
theorem cornerLoop_triple (s : Int) : ∀ (l : List Int) (m : Nat) (prev next : Point)
    (acc : List Point), m + 2 < l.length →
    isCorner (cellPoint s (l.getD m 0)) (cellPoint s (l.getD (m + 1) 0))
      (cellPoint s (l.getD (m + 2) 0)) = true →
    cellPoint s (l.getD (m + 1) 0) ∈ (cornerLoop s l prev next acc).1 := by
  intro l
  induction l with
  | nil => intro m prev next acc h; simp at h
  | cons x l ih =>
    intro m prev next acc h hc
    cases m with
    | zero =>
      match l, h, hc with
      | a :: b :: rest, _, hc =>
        simp only [List.getD_cons_zero, List.getD_cons_succ] at hc ⊢
        simp only [cornerLoop]
        apply cornerLoop_grows
        rw [if_pos hc]
        exact List.mem_append_right _ (List.mem_singleton_self _)
    | succ m =>
      simp only [List.getD_cons_succ] at hc ⊢
      simp only [cornerLoop]
      exact ih m _ _ _ (by simp only [List.length_cons] at h; omega) hc

/-- A cell of a closed path at which the path turns is one of its corner
points: for the cells `m`, `m + 1`, `m + 2` of the stack, `m ≥ 1`. -/
theorem cornerPoints_triple (s : Int) (stack : List Int) (m : Nat) (hm : 1 ≤ m)
    (h : m + 2 < stack.length)
    (hc : isCorner (cellPoint s (stack.getD m 0)) (cellPoint s (stack.getD (m + 1) 0))
      (cellPoint s (stack.getD (m + 2) 0)) = true) :
    cellPoint s (stack.getD (m + 1) 0) ∈ cornerPoints s stack := by
  obtain ⟨m, rfl⟩ : ∃ m1, m = m1 + 1 := ⟨m - 1, by omega⟩
  match stack, h, hc with
  | i0 :: tail, h, hc =>
    simp only [List.getD_cons_succ] at hc ⊢
    have key := cornerLoop_triple s tail m (cellPoint s ((i0 :: tail).getLastD 0))
      (cellPoint s i0) [] (by simp only [List.length_cons] at h; omega) hc
    unfold cornerPoints
    simp only [List.headD_cons, List.tail_cons]
    split
    · exact List.mem_append_left _ key
    · exact key

/-- The cell `m` of a stack that holds the cells `P 0`, ..., `P L`. -/
theorem getD_range_map (P : Nat → Int) (L m : Nat) (h : m ≤ L) :
    ((List.range (L + 1)).map P).getD m 0 = P m := by
  rw [List.getD_eq_getElem?_getD, List.getElem?_map, List.getElem?_range (by omega)]
  rfl

/-! ## A closed path with corners far apart reports more than one point -/

/-- A returning call of `douglasPeucker` on a range of more than one point
returns at least 2. -/
theorem DPResult.two {pl : List Point} {start end_ : Int} {m : Nat} {out : List Point}
    {idx : Nat → Int} (r : DPResult pl start end_ m out idx) (h : start < end_) : 2 ≤ m := by
  obtain ⟨_, r2, r3, r4, _⟩ := r
  by_contra hn
  have : m = 1 := by omega
  subst this
  simp only [Nat.sub_self] at r4
  omega

/-- A range with an interior point farther from the chord than the tolerance
is split: for a strict weak order of the doubles and a tolerance that is not
negative, `douglasPeucker` returns at least 3. -/
theorem douglasPeucker_keeps_far (M : Doubles) (ho : M.Ordered) (epsilon : M.D)
    (hε : M.gt M.zero epsilon = false) (pl : List Point) (e : Int) (h2 : e < pl.length)
    (j : Int) (hj0 : 0 < j) (hj1 : j < e)
    (hfar : M.gt (chordDistance M pl 0 e j) epsilon = true) :
    ∃ (m : Int) (out : List Point), douglasPeucker M pl 0 e epsilon = some (m, out) ∧ 3 ≤ m := by
  unfold douglasPeucker
  obtain ⟨f, hf⟩ : ∃ f : Nat, (e - 0).toNat + 1 = f + 1 ∧ (e - 0).toNat = f := ⟨_, rfl, rfl⟩
  rw [hf.1, douglasPeuckerAux, if_neg (by omega)]
  simp only []
  unfold chordDistance at hfar
  have hirr : ∀ a : M.D, M.gt a a = false := fun a => ho.irrefl a
  have hmax : ∃ p : Int, 0 < p ∧ p < e ∧
      dpScan M pl (getP pl 0) (getP pl e) (e - 0 - 1).toNat (0 + 1) (M.zero, 0) =
        (M.perpendicularDistance (getP pl p).x (getP pl p).y (getP pl 0).x (getP pl 0).y
          (getP pl e).x (getP pl e).y, p) ∧
      M.gt (M.perpendicularDistance (getP pl p).x (getP pl p).y (getP pl 0).x (getP pl 0).y
          (getP pl e).x (getP pl e).y) epsilon = true := by
    rcases dpScan_first_max M ho pl (getP pl 0) (getP pl e) 0 (e - 0 - 1).toNat (0 + 1)
      (M.zero, 0) (by omega) (Or.inl ⟨rfl, fun k k0 k1 => by omega⟩) with ⟨_, hall⟩ |
      ⟨p, p0, p1, ps, _, pb, pa⟩
    · exfalso
      rcases ho.cotrans _ M.zero _ hfar with q | q
      · rw [hall j hj0 (by omega)] at q
        exact absurd q (by simp)
      · rw [hε] at q
        exact absurd q (by simp)
    · refine ⟨p, p0, by omega, ps, ?_⟩
      rcases ho.cotrans _ (M.perpendicularDistance (getP pl p).x (getP pl p).y (getP pl 0).x
        (getP pl 0).y (getP pl e).x (getP pl e).y) _ hfar with q | q
      · exfalso
        rcases lt_trichotomy j p with c | c | c
        · rw [ho.1 _ _ (pb j hj0 c)] at q
          exact absurd q (by simp)
        · rw [c, hirr] at q
          exact absurd q (by simp)
        · rw [pa j c (by omega)] at q
          exact absurd q (by simp)
      · exact q
  obtain ⟨p, p0, p1, ps, pg⟩ := hmax
  rw [ps]
  simp only []
  rw [if_pos pg]
  obtain ⟨m1, out1, idx1, e1, r1⟩ := douglasPeuckerAux_spec M epsilon hε f pl 0 p (le_refl _)
    (by omega) (by omega) (by omega)
  rw [e1]
  simp only []
  have hlen : (setP out1 p (getP pl p)).length = pl.length := by
    rw [length_setP]
    exact r1.1
  obtain ⟨m2, out2, idx2, e2, r2⟩ := douglasPeuckerAux_spec M epsilon hε f
    (setP out1 p (getP pl p)) p e (by omega) (by omega) (by rw [hlen]; exact h2) (by omega)
  rw [e2]
  simp only []
  have t1 := r1.two p0
  have t2 := r2.two p1
  exact ⟨_, _, rfl, by omega⟩

/-- In exact arithmetic the distance of a point to a chord whose two ends are
the same point, at least 2 columns or 2 rows away, is over the tolerance
1.5. -/
theorem exactDoubles_far (x y x1 y1 : Int)
    (h : x + 2 ≤ x1 ∨ x1 + 2 ≤ x ∨ y + 2 ≤ y1 ∨ y1 + 2 ≤ y) :
    exactDoubles.gt (exactDoubles.perpendicularDistance x y x1 y1 x1 y1) epsilon1_5 = true := by
  simp only [exactDoubles, epsilon1_5, perpendicularDistanceSq, Frac.lt, Frac.ofInt, Frac.sub,
    Frac.mul, Frac.add, Frac.divPos, sub_self, mul_zero, add_zero, lt_self_iff_false,
    dite_false, decide_eq_true_eq]
  norm_num
  have hx := mul_self_nonneg (x - x1)
  have hy := mul_self_nonneg (y - y1)
  rcases h with h | h | h | h
  · nlinarith [mul_nonneg (by omega : (0 : Int) ≤ x1 - x - 2) (by omega : (0 : Int) ≤ x1 - x + 2)]
  · nlinarith [mul_nonneg (by omega : (0 : Int) ≤ x - x1 - 2) (by omega : (0 : Int) ≤ x - x1 + 2)]
  · nlinarith [mul_nonneg (by omega : (0 : Int) ≤ y1 - y - 2) (by omega : (0 : Int) ≤ y1 - y + 2)]
  · nlinarith [mul_nonneg (by omega : (0 : Int) ≤ y - y1 - 2) (by omega : (0 : Int) ≤ y - y1 + 2)]

/-- The closed point list of `trace4` (the corner points, the first of them
again, and what the `points` array held behind them) has a point over the
tolerance 1.5 from its two equal ends when two corner points are 3 columns or
3 rows apart: `douglasPeucker` returns at least 3 for it. -/
theorem douglasPeucker_closed (corners pts : List Point) (p q : Point) (hp : p ∈ corners)
    (hq : q ∈ corners)
    (hpq : p.x + 3 ≤ q.x ∨ q.x + 3 ≤ p.x ∨ p.y + 3 ≤ q.y ∨ q.y + 3 ≤ p.y) :
    ∃ (m : Int) (out : List Point),
      douglasPeucker exactDoubles
        (corners ++ [getP (corners ++ pts.drop corners.length) 0] ++
          pts.drop (corners.length + 1)) 0 ((corners.length : Int) + 1 - 1) epsilon1_5 =
        some (m, out) ∧ 3 ≤ m := by
  have hpos : 0 < corners.length := List.length_pos_of_mem hp
  have h0 : getP (corners ++ pts.drop corners.length) 0 = corners[0] := by
    have := getP_nat (corners ++ pts.drop corners.length) 0
    simp only [Nat.cast_zero] at this
    rw [this, List.getElem?_append_left hpos, List.getElem?_eq_getElem hpos, Option.getD_some]
  rw [h0]
  have hget : ∀ k : Nat, (hk : k < corners.length) →
      getP (corners ++ [corners[0]] ++ pts.drop (corners.length + 1)) (k : Int) = corners[k] := by
    intro k hk
    rw [getP_nat, List.append_assoc, List.getElem?_append_left hk, List.getElem?_eq_getElem hk,
      Option.getD_some]
  have hend : getP (corners ++ [corners[0]] ++ pts.drop (corners.length + 1))
      ((corners.length : Int) + 1 - 1) = corners[0] := by
    rw [show (corners.length : Int) + 1 - 1 = ((corners.length : Nat) : Int) from by ring,
      getP_nat, List.getElem?_append_left (by simp), List.getElem?_append_right (le_refl _),
      Nat.sub_self]
    rfl
  have hstart := hget 0 hpos
  simp only [Nat.cast_zero] at hstart
  -- one of the two corner points is far from the first one
  have key : ∃ k : Nat, ∃ hk : k < corners.length,
      corners[k].x + 2 ≤ corners[0].x ∨ corners[0].x + 2 ≤ corners[k].x ∨
        corners[k].y + 2 ≤ corners[0].y ∨ corners[0].y + 2 ≤ corners[k].y := by
    obtain ⟨ip, hip, ep⟩ := List.getElem_of_mem hp
    obtain ⟨iq, hiq, eq⟩ := List.getElem_of_mem hq
    by_cases c : corners[ip].x + 2 ≤ corners[0].x ∨ corners[0].x + 2 ≤ corners[ip].x ∨
        corners[ip].y + 2 ≤ corners[0].y ∨ corners[0].y + 2 ≤ corners[ip].y
    · exact ⟨ip, hip, c⟩
    · refine ⟨iq, hiq, ?_⟩
      rw [ep] at c
      rw [eq]
      omega
  obtain ⟨k, hk, hfar⟩ := key
  have hk0 : k ≠ 0 := by
    rintro rfl
    omega
  apply douglasPeucker_keeps_far exactDoubles exactDoubles_ordered epsilon1_5 epsilon1_5_nonneg _
    _ (by
      simp only [List.length_append, List.length_singleton]
      push_cast
      omega) (k : Int) (by omega) (by omega)
  unfold chordDistance
  rw [hget k hk, hstart, hend]
  exact exactDoubles_far _ _ _ _ (by omega)

/-- The result of `trace4` when its main loop is left by `break` with a path
of at least 3 cells, within the capacity of the `points` array, that has two
corner points 3 columns or 3 rows apart: the mask and the stack are those of
the loop, the reported stack size is the length of the path, and more than one
point is reported. -/
theorem trace4_closed (i cw : Int) (off4 off8 : List Int) (b : Nat) (s : Int)
    (pts : List Point) (n : Nat) (t1 : Trace)
    (hrun : traceLoop i cw off4 off8 n ⟨wr b i 3, [i], i, 1, 0⟩ = (t1, TraceExit.closed))
    (h3 : 3 ≤ t1.stack.length) (hcap : (t1.stack.length : Int) < maxPointCount)
    (p q : Point) (hp : p ∈ cornerPoints s t1.stack) (hq : q ∈ cornerPoints s t1.stack)
    (hpq : p.x + 3 ≤ q.x ∨ q.x + 3 ≤ p.x ∨ p.y + 3 ≤ q.y ∨ q.y + 3 ≤ p.y) :
    (trace4 i cw off4 off8 b s pts).buffer = t1.buffer ∧
    (trace4 i cw off4 off8 b s pts).stack = t1.stack ∧
    (trace4 i cw off4 off8 b s pts).stackSize = t1.stack.length ∧
    (trace4 i cw off4 off8 b s pts).pointCount > 1 := by
  have hF := traceLoop_closed_fuel i cw off4 off8 b n t1 hrun
  refine ⟨by rw [trace4_buffer, hF], by rw [trace4_stack, hF], ?_, ?_⟩
  · rw [trace4_stackSize, hF]
    simp
  · unfold trace4
    simp only [hF]
    rw [if_neg (by omega)]
    simp only []
    obtain ⟨m, out, e, hm⟩ := douglasPeucker_closed (cornerPoints s t1.stack) pts p q hp hq hpq
    rw [e]
    simp only [Option.getD_some]
    omega

/-! ## The two traces of `processImage` round a rectangle -/

/-- The cells of the path along the sides of a rectangle, by column and
row. -/
theorem rectCell_sides (s x0 y0 a b j0 : Int) (L : Nat) (ha : 0 < a) (hb : 0 < b)
    (hx0 : 0 ≤ x0) (hx1 : x0 + a < s) (hj0 : j0 = 0 ∨ j0 = 1)
    (hL : (L : Int) = 2 * a + 2 * b - 1) (x y : Int) (hx : 0 ≤ x) (hxs : x < s) :
    (∃ j : Nat, j ≤ L ∧ cellAt s x y = rectCell s x0 y0 a b j0 j) ↔
      (x0 ≤ x ∧ x ≤ x0 + a ∧ y0 ≤ y ∧ y ≤ y0 + b ∧
        (x = x0 ∨ x = x0 + a ∨ y = y0 ∨ y = y0 + b)) := by
  constructor
  · rintro ⟨j, hj, e⟩
    unfold rectCell at e
    have r := rect_range x0 y0 a b (j0 + j) (by omega) (by omega) (by omega) (by omega)
    obtain ⟨e1, e2⟩ := cellAt_inj s _ _ _ _ hx hxs (by omega) (by omega) e
    rw [e1, e2]
    exact r
  · rintro ⟨h1, h2, h3, h4, h5⟩
    obtain ⟨J, J1, J2, ex, ey⟩ := rect_onto x0 y0 a b x y ha hb h1 h2 h3 h4 h5
    rcases hj0 with rfl | rfl
    · by_cases hJ : J = 2 * a + 2 * b
      · refine ⟨0, by omega, ?_⟩
        unfold rectCell
        obtain ⟨x1, y1, _⟩ := rect_top x0 y0 a b (0 + ((0 : Nat) : Int)) (by omega)
        obtain ⟨x2, y2, _⟩ := rect_left x0 y0 a b J (by omega) (by omega) (by omega)
        rw [x1, y1]
        exact cellAt_congr s (by omega) (by omega)
      · refine ⟨J.toNat, by omega, ?_⟩
        unfold rectCell
        rw [show (0 : Int) + (J.toNat : Int) = J from by omega, ex, ey]
    · refine ⟨(J - 1).toNat, by omega, ?_⟩
      unfold rectCell
      rw [show (1 : Int) + ((J - 1).toNat : Int) = J from by omega, ex, ey]

/-- The coordinate pair of a cell of the path along the sides of a
rectangle. -/
theorem cellPoint_rectCell (s x0 y0 a b j0 : Int) (j : Nat) (ha : 0 ≤ a) (hb : 0 ≤ b)
    (hx0 : 0 ≤ x0) (hx1 : x0 + a < s) (hy0 : 0 ≤ y0) (h0 : 0 ≤ j0)
    (h1 : j0 + (j : Int) ≤ 2 * a + 2 * b) :
    cellPoint s (rectCell s x0 y0 a b j0 j) =
      ⟨rectX x0 a b (j0 + j), rectY y0 a b (j0 + j)⟩ := by
  have r := rect_range x0 y0 a b (j0 + j) ha hb (by omega) h1
  unfold rectCell
  exact cellPoint_cellAt s _ _ (by omega) (by omega) (by omega)

/-- The top right and the bottom right corner of the rectangle are corner
points of the path along its sides, from the step `j0` (0 or 1) on. -/
theorem cornerPoints_rect (s x0 y0 a b j0 : Int) (L : Nat) (ha : 3 ≤ a) (hb : 3 ≤ b)
    (hx0 : 0 ≤ x0) (hx1 : x0 + a < s) (hy0 : 0 ≤ y0) (hj0 : j0 = 0 ∨ j0 = 1)
    (hL : (L : Int) = 2 * a + 2 * b - 1) :
    (⟨x0 + a, y0⟩ : Point) ∈ cornerPoints s ((List.range (L + 1)).map (rectCell s x0 y0 a b j0)) ∧
    (⟨x0 + a, y0 + b⟩ : Point) ∈
      cornerPoints s ((List.range (L + 1)).map (rectCell s x0 y0 a b j0)) := by
  have hlen : ((List.range (L + 1)).map (rectCell s x0 y0 a b j0)).length = L + 1 := by
    rw [List.length_map, List.length_range]
  have pt : ∀ j : Nat, j ≤ L →
      cellPoint s (((List.range (L + 1)).map (rectCell s x0 y0 a b j0)).getD j 0) =
        ⟨rectX x0 a b (j0 + j), rectY y0 a b (j0 + j)⟩ := by
    intro j hj
    rw [getD_range_map _ _ _ hj]
    exact cellPoint_rectCell s x0 y0 a b j0 j (by omega) (by omega) hx0 hx1 hy0 (by omega)
      (by omega)
  have hj1 : 0 ≤ j0 ∧ j0 ≤ 1 := by omega
  constructor
  · obtain ⟨m, hm⟩ : ∃ m : Nat, (m : Int) = a - 1 - j0 :=
      ⟨(a - 1 - j0).toNat, Int.toNat_of_nonneg (by omega)⟩
    have key := cornerPoints_triple s ((List.range (L + 1)).map (rectCell s x0 y0 a b j0)) m
      (by omega) (by rw [hlen]; omega) (by
        rw [pt m (by omega), pt (m + 1) (by omega), pt (m + 2) (by omega)]
        obtain ⟨x1, y1, _⟩ := rect_top x0 y0 a b (j0 + (m : Int)) (by omega)
        obtain ⟨x2, y2, _⟩ := rect_top x0 y0 a b (j0 + ((m + 1 : Nat) : Int)) (by omega)
        obtain ⟨x3, y3, _⟩ := rect_right x0 y0 a b (j0 + ((m + 2 : Nat) : Int)) (by omega)
          (by omega)
        rw [x1, y1, x2, y2, x3, y3]
        unfold isCorner
        simp only [Bool.and_eq_true, Bool.or_eq_true, decide_eq_true_eq]
        constructor
        · left; omega
        · right; omega)
    rw [pt (m + 1) (by omega)] at key
    obtain ⟨x2, y2, _⟩ := rect_top x0 y0 a b (j0 + ((m + 1 : Nat) : Int)) (by omega)
    rw [x2, y2] at key
    rw [show x0 + a = x0 + (j0 + ((m + 1 : Nat) : Int)) from by omega]
    exact key
  · obtain ⟨m, hm⟩ : ∃ m : Nat, (m : Int) = a + b - 1 - j0 :=
      ⟨(a + b - 1 - j0).toNat, Int.toNat_of_nonneg (by omega)⟩
    have key := cornerPoints_triple s ((List.range (L + 1)).map (rectCell s x0 y0 a b j0)) m
      (by omega) (by rw [hlen]; omega) (by
        rw [pt m (by omega), pt (m + 1) (by omega), pt (m + 2) (by omega)]
        obtain ⟨x1, y1, _⟩ := rect_right x0 y0 a b (j0 + (m : Int)) (by omega) (by omega)
        obtain ⟨x2, y2, _⟩ := rect_right x0 y0 a b (j0 + ((m + 1 : Nat) : Int)) (by omega)
          (by omega)
        obtain ⟨x3, y3, _⟩ := rect_bottom x0 y0 a b (j0 + ((m + 2 : Nat) : Int)) (by omega)
          (by omega) (by omega)
        rw [x1, y1, x2, y2, x3, y3]
        unfold isCorner
        simp only [Bool.and_eq_true, Bool.or_eq_true, decide_eq_true_eq]
        constructor
        · right; omega
        · left; omega)
    rw [pt (m + 1) (by omega)] at key
    obtain ⟨x2, y2, _⟩ := rect_right x0 y0 a b (j0 + ((m + 1 : Nat) : Int)) (by omega) (by omega)
    rw [x2, y2] at key
    rw [show y0 + b = y0 + (j0 + ((m + 1 : Nat) : Int) - a) from by omega]
    exact key

/-- The outer trace of `trace4` round a rectangle of `Visited` cells with
`Background` around it (see `traceLoop_round`): it reports more than one point
and the stack size `2 * a + 2 * b`, the cells on the sides of the rectangle
are `Traced` after it, and no other cell has changed. -/
theorem trace4_round (s x0 y0 a b : Int) (B : Nat) (pts : List Point) (ha : 3 ≤ a) (hb : 3 ≤ b)
    (hx0 : 1 ≤ x0) (hx1 : x0 + a + 1 < s) (hy0 : 0 ≤ y0)
    (hcap : 2 * a + 2 * b < maxPointCount)
    (hRing : ∀ x y : Int, x0 ≤ x → x ≤ x0 + a → y0 ≤ y → y ≤ y0 + b →
      (x = x0 ∨ x = x0 + a ∨ y = y0 ∨ y = y0 + b) → rd B (cellAt s x y) = 2)
    (hOut : ∀ x y : Int, x0 - 1 ≤ x → x ≤ x0 + a + 1 → y0 - 1 ≤ y → y ≤ y0 + b + 1 →
      (x = x0 - 1 ∨ x = x0 + a + 1 ∨ y = y0 - 1 ∨ y = y0 + b + 1) → rd B (cellAt s x y) = 0)
    (hIn : rd B (cellAt s (x0 + 1) (y0 + 1)) ≠ 2 ∨ ∀ q : Int, 0 ≤ q → q < 8 →
      rd B (cellAt s (x0 + 1) (y0 + 1) + offsetAt (cwNeighborOffsets8 s) q) ≠ 0) :
    (trace4 (cellAt s x0 y0) 1 (cwNeighborOffsets4 s) (cwNeighborOffsets8 s) B s pts).pointCount
      > 1 ∧
    (trace4 (cellAt s x0 y0) 1 (cwNeighborOffsets4 s) (cwNeighborOffsets8 s) B s pts).stackSize =
      2 * a + 2 * b ∧
    ∀ x y : Int, 0 ≤ x → x < s →
      rd (trace4 (cellAt s x0 y0) 1 (cwNeighborOffsets4 s) (cwNeighborOffsets8 s) B s
        pts).buffer (cellAt s x y) =
        if x0 ≤ x ∧ x ≤ x0 + a ∧ y0 ≤ y ∧ y ≤ y0 + b ∧
          (x = x0 ∨ x = x0 + a ∨ y = y0 ∨ y = y0 + b) then 3 else rd B (cellAt s x y) := by
  obtain ⟨L, hL⟩ : ∃ L : Nat, (L : Int) = 2 * a + 2 * b - 1 := ⟨(2 * a + 2 * b - 1).toNat, by omega⟩
  obtain ⟨t1, hrun, hst, b1, b2⟩ := traceLoop_round s x0 y0 a b B L (by omega) hb hx0 hx1 hL
    (by
      have : maxPointCount ≤ maxStackSize := by decide
      omega) hRing hOut hIn
  have hlen : t1.stack.length = L + 1 := by rw [hst, List.length_map, List.length_range]
  obtain ⟨c1, c2⟩ := cornerPoints_rect s x0 y0 a b 0 L ha hb (by omega) (by omega) hy0
    (Or.inl rfl) hL
  rw [← hst] at c1 c2
  obtain ⟨r1, r2, r3, r4⟩ := trace4_closed (cellAt s x0 y0) 1 (cwNeighborOffsets4 s)
    (cwNeighborOffsets8 s) B s pts (L + 1) t1 hrun (by omega) (by rw [hlen]; push_cast; omega)
    _ _ c1 c2 (Or.inr (Or.inr (Or.inl (by show y0 + 3 ≤ y0 + b; omega))))
  refine ⟨r4, by rw [r3, hlen]; push_cast; omega, ?_⟩
  intro x y hx hxs
  rw [r1]
  have hiff := rectCell_sides s x0 y0 a b 0 L (by omega) (by omega) (by omega) (by omega)
    (Or.inl rfl) hL x y hx hxs
  split
  · rename_i hc
    obtain ⟨j, hj, e⟩ := hiff.mpr hc
    rw [e]
    exact b1 j hj
  · rename_i hc
    exact b2 _ (fun j hj e => hc (hiff.mp ⟨j, hj, e⟩))

/-- The inner trace of `trace4` round a hole (see `traceLoop_round_hole`): it
reports more than one point and the stack size `2 * a + 2 * b`, the cells on
the sides of the rectangle round the hole are `Traced` after it, and no other
cell has changed. -/
theorem trace4_round_hole (s x0 y0 a b : Int) (B : Nat) (pts : List Point) (ha : 3 ≤ a)
    (hb : 3 ≤ b) (hx0 : 0 ≤ x0) (hx1 : x0 + a < s) (hy0 : 0 ≤ y0)
    (hcap : 2 * a + 2 * b < maxPointCount)
    (hRing : ∀ x y : Int, x0 ≤ x → x ≤ x0 + a → y0 ≤ y → y ≤ y0 + b →
      (x = x0 ∨ x = x0 + a ∨ y = y0 ∨ y = y0 + b) → rd B (cellAt s x y) = 2)
    (hHole : ∀ x y : Int, x0 + 1 ≤ x → x ≤ x0 + a - 1 → y0 + 1 ≤ y → y ≤ y0 + b - 1 →
      (x = x0 + 1 ∨ x = x0 + a - 1 ∨ y = y0 + 1 ∨ y = y0 + b - 1) → rd B (cellAt s x y) = 0)
    (hN : rd B (cellAt s x0 (y0 - 1)) ≠ 2 ∨ ∀ q : Int, 0 ≤ q → q < 8 →
      rd B (cellAt s x0 (y0 - 1) + offsetAt (cwNeighborOffsets8 s) q) ≠ 0)
    (hW : rd B (cellAt s (x0 - 1) y0) ≠ 2 ∨ ∀ q : Int, 0 ≤ q → q < 8 →
      rd B (cellAt s (x0 - 1) y0 + offsetAt (cwNeighborOffsets8 s) q) ≠ 0) :
    (trace4 (cellAt s (x0 + 1) y0) (-1) (cwNeighborOffsets4 s) (cwNeighborOffsets8 s) B s
      pts).pointCount > 1 ∧
    (trace4 (cellAt s (x0 + 1) y0) (-1) (cwNeighborOffsets4 s) (cwNeighborOffsets8 s) B s
      pts).stackSize = 2 * a + 2 * b ∧
    ∀ x y : Int, 0 ≤ x → x < s →
      rd (trace4 (cellAt s (x0 + 1) y0) (-1) (cwNeighborOffsets4 s) (cwNeighborOffsets8 s) B s
        pts).buffer (cellAt s x y) =
        if x0 ≤ x ∧ x ≤ x0 + a ∧ y0 ≤ y ∧ y ≤ y0 + b ∧
          (x = x0 ∨ x = x0 + a ∨ y = y0 ∨ y = y0 + b) then 3 else rd B (cellAt s x y) := by
  obtain ⟨L, hL⟩ : ∃ L : Nat, (L : Int) = 2 * a + 2 * b - 1 := ⟨(2 * a + 2 * b - 1).toNat, by omega⟩
  obtain ⟨t1, hrun, hst, b1, b2⟩ := traceLoop_round_hole s x0 y0 a b B L ha hb hx0 hx1 hL
    (by
      have : maxPointCount ≤ maxStackSize := by decide
      omega) hRing hHole hN hW
  have hlen : t1.stack.length = L + 1 := by rw [hst, List.length_map, List.length_range]
  obtain ⟨c1, c2⟩ := cornerPoints_rect s x0 y0 a b 1 L ha hb hx0 hx1 hy0 (Or.inr rfl) hL
  rw [← hst] at c1 c2
  obtain ⟨r1, r2, r3, r4⟩ := trace4_closed (cellAt s (x0 + 1) y0) (-1) (cwNeighborOffsets4 s)
    (cwNeighborOffsets8 s) B s pts (L + 1) t1 hrun (by omega) (by rw [hlen]; push_cast; omega)
    _ _ c1 c2 (Or.inr (Or.inr (Or.inl (by show y0 + 3 ≤ y0 + b; omega))))
  refine ⟨r4, by rw [r3, hlen]; push_cast; omega, ?_⟩
  intro x y hx hxs
  rw [r1]
  have hiff := rectCell_sides s x0 y0 a b 1 L (by omega) (by omega) hx0 hx1 (Or.inr rfl) hL x y
    hx hxs
  split
  · rename_i hc
    obtain ⟨j, hj, e⟩ := hiff.mpr hc
    rw [e]
    exact b1 j hj
  · rename_i hc
    exact b2 _ (fun j hj e => hc (hiff.mp ⟨j, hj, e⟩))

/-! ## The filled square with a square hole -/

/-- The mask construction for a filled `n x n` square with the `k x k` hole
whose top left pixel is `(ax, ay)`: the cells of the square outside the hole
are `Foreground`, every other cell is `Background`. -/
theorem annulus_built (n k ax ay : Int) (data : Nat) (hn : 0 ≤ n)
    (hdata : ∀ x y : Int, 0 ≤ x → x < n → 0 ≤ y → y < n →
      (rd data (4 * (y * n + x) + 3) = 255 ↔ ¬ (ax ≤ x ∧ x < ax + k ∧ ay ≤ y ∧ y < ay + k)))
    (x y : Int) (hx : 0 ≤ x) (hxs : x < n + 2) :
    rd (buildMask n n data) (cellAt (n + 2) x y) =
      if 1 ≤ x ∧ x ≤ n ∧ 1 ≤ y ∧ y ≤ n ∧
        ¬ (ax + 1 ≤ x ∧ x ≤ ax + k ∧ ay + 1 ≤ y ∧ y ≤ ay + k) then 1 else 0 := by
  obtain ⟨hb, hp⟩ := buildMask_spec n n data hn hn
  by_cases hin : 1 ≤ x ∧ x ≤ n ∧ 1 ≤ y ∧ y ≤ n
  · have e : (y - 1 + 1) * (n + 2) + (x - 1) + 1 = cellAt (n + 2) x y := by
      unfold cellAt
      ring
    have h1 := hb (x - 1) (y - 1) (by omega) (by omega) (by omega) (by omega)
    rw [e] at h1
    rw [h1]
    have h2 := hdata (x - 1) (y - 1) (by omega) (by omega) (by omega) (by omega)
    by_cases ha : rd data (4 * ((y - 1) * n + (x - 1)) + 3) = 255
    · rw [if_pos ha, if_pos ⟨hin.1, hin.2.1, hin.2.2.1, hin.2.2.2, fun q => h2.mp ha (by omega)⟩]
    · rw [if_neg ha, if_neg (fun q => ha (h2.mpr (fun r => q.2.2.2.2 (by omega))))]
  · rw [if_neg (fun q => hin ⟨q.1, q.2.1, q.2.2.1, q.2.2.2.1⟩)]
    by_contra hne
    obtain ⟨x1, y1, a1, a2, a3, a4, a5⟩ := (interior_iff n n _).mp (hp.ink _ hne)
    have := cellAt_inj (n + 2) x y x1 y1 hx hxs (by omega) (by omega) a5
    omega

/-- The mask the main scan starts from, for a filled `n x n` square with a
`k x k` hole at least 2 pixels from every side: the spur scan erases
nothing. -/
theorem annulus_mask (n k ax ay : Int) (data : Nat) (hk : 0 ≤ k) (hax : 2 ≤ ax) (hay : 2 ≤ ay)
    (hbx : ax + k + 2 ≤ n) (hby : ay + k + 2 ≤ n)
    (hdata : ∀ x y : Int, 0 ≤ x → x < n → 0 ≤ y → y < n →
      (rd data (4 * (y * n + x) + 3) = 255 ↔ ¬ (ax ≤ x ∧ x < ax + k ∧ ay ≤ y ∧ y < ay + k)))
    (x y : Int) (hx : 0 ≤ x) (hxs : x < n + 2) :
    rd (eraseSpurs n n (buildMask n n data)) (cellAt (n + 2) x y) =
      if 1 ≤ x ∧ x ≤ n ∧ 1 ≤ y ∧ y ≤ n ∧
        ¬ (ax + 1 ≤ x ∧ x ≤ ax + k ∧ ay + 1 ≤ y ∧ y ≤ ay + k) then 1 else 0 := by
  have hn : 0 ≤ n := by omega
  have hbuilt := annulus_built n k ax ay data hn hdata
  obtain ⟨s1, s2⟩ := eraseSpurs_sub n n data (cellAt (n + 2) x y)
  split
  · rename_i hc
    have hS : SpurFree (n + 2) (fun c => ∃ x y : Int, (1 ≤ x ∧ x ≤ n ∧ 1 ≤ y ∧ y ≤ n ∧
        ¬ (ax + 1 ≤ x ∧ x ≤ ax + k ∧ ay + 1 ≤ y ∧ y ≤ ay + k)) ∧ c = cellAt (n + 2) x y) := by
      rintro c ⟨u, v, huv, rfl⟩
      constructor
      · rintro ⟨l, r⟩
        by_cases hl : 1 ≤ u - 1 ∧ ¬ (ax + 1 ≤ u - 1 ∧ u - 1 ≤ ax + k ∧ ay + 1 ≤ v ∧ v ≤ ay + k)
        · exact l ⟨u - 1, v, by omega, by unfold cellAt; ring⟩
        · exact r ⟨u + 1, v, by omega, by unfold cellAt; ring⟩
      · rintro ⟨l, r⟩
        by_cases hl : 1 ≤ v - 1 ∧ ¬ (ax + 1 ≤ u ∧ u ≤ ax + k ∧ ay + 1 ≤ v - 1 ∧ v - 1 ≤ ay + k)
        · exact l ⟨u, v - 1, by omega, by unfold cellAt; ring⟩
        · exact r ⟨u, v + 1, by omega, by unfold cellAt; ring⟩
    have keep := spurRows_keeps n (n + 2) _ hS n.toNat (buildMask n n data) (by
      rintro c ⟨u, v, huv, rfl⟩
      rw [hbuilt u v (by omega) (by omega), if_pos huv]
      norm_num) (cellAt (n + 2) x y) ⟨x, y, hc, rfl⟩
    have : rd (eraseSpurs n n (buildMask n n data)) (cellAt (n + 2) x y) ≠ 0 := keep
    omega
  · rename_i hc
    by_contra hne
    have h1 : rd (eraseSpurs n n (buildMask n n data)) (cellAt (n + 2) x y) = 1 := by omega
    have h2 := s2 h1
    rw [hbuilt x y hx hxs, if_neg hc] at h2
    exact absurd h2 (by norm_num)

/-- The fill of the region of a filled `n x n` square with a `k x k` hole at
least 2 pixels from the left and from the top, from the top left cell: the
region is the whole square outside the hole, of more than 10 cells, and it is
`Visited` after the fill. -/
theorem annulus_fill (n k ax ay : Int) (m : Nat) (hax : 2 ≤ ax) (hay : 2 ≤ ay) (hn : 6 ≤ n)
    (hp : PaddedMask n n m)
    (hm : ∀ x y : Int, 0 ≤ x → x < n + 2 → rd m (cellAt (n + 2) x y) =
      if 1 ≤ x ∧ x ≤ n ∧ 1 ≤ y ∧ y ≤ n ∧
        ¬ (ax + 1 ≤ x ∧ x ≤ ax + k ∧ ay + 1 ≤ y ∧ y ≤ ay + k) then 1 else 0) :
    (floodFill n n (wr m (cellAt (n + 2) 1 1) 2) (n + 2) 1 2 [cellAt (n + 2) 1 1]).area > 10 ∧
    ∀ x y : Int, 0 ≤ x → x < n + 2 →
      rd (floodFill n n (wr m (cellAt (n + 2) 1 1) 2) (n + 2) 1 2 [cellAt (n + 2) 1 1]).buffer
        (cellAt (n + 2) x y) =
        if 1 ≤ x ∧ x ≤ n ∧ 1 ≤ y ∧ y ≤ n ∧
          ¬ (ax + 1 ≤ x ∧ x ≤ ax + k ∧ ay + 1 ≤ y ∧ y ≤ ay + k) then 2 else 0 := by
  have one : ∀ x y : Int, (1 ≤ x ∧ x ≤ n ∧ 1 ≤ y ∧ y ≤ n ∧
      ¬ (ax + 1 ≤ x ∧ x ≤ ax + k ∧ ay + 1 ≤ y ∧ y ≤ ay + k)) → rd m (cellAt (n + 2) x y) = 1 := by
    intro x y h
    rw [hm x y (by omega) (by omega), if_pos h]
  have hseed : rd m (cellAt (n + 2) 1 1) = 1 := one 1 1 (by omega)
  have row1 : ∀ j : Nat, 1 + (j : Int) ≤ n →
      Conn m (n + 2) 1 (cellAt (n + 2) 1 1) (cellAt (n + 2) (1 + j) 1) := by
    intro j
    induction j with
    | zero => intro _; exact Conn.seed hseed
    | succ j ih =>
      intro hj
      have h := Conn.right (ih (by push_cast at hj; omega))
        (by
          rw [show cellAt (n + 2) (1 + (j : Int)) 1 + 1 = cellAt (n + 2) (1 + ((j + 1 : Nat) : Int)) 1
            from by unfold cellAt; push_cast; ring]
          exact one _ _ (by omega))
      rw [show cellAt (n + 2) (1 + (j : Int)) 1 + 1 = cellAt (n + 2) (1 + ((j + 1 : Nat) : Int)) 1
        from by unfold cellAt; push_cast; ring] at h
      exact h
  have col1 : ∀ j : Nat, 1 + (j : Int) ≤ n →
      Conn m (n + 2) 1 (cellAt (n + 2) 1 1) (cellAt (n + 2) 1 (1 + j)) := by
    intro j
    induction j with
    | zero => intro _; exact Conn.seed hseed
    | succ j ih =>
      intro hj
      have e : cellAt (n + 2) 1 (1 + (j : Int)) + (n + 2) =
          cellAt (n + 2) 1 (1 + ((j + 1 : Nat) : Int)) := by
        unfold cellAt; push_cast; ring
      have h := Conn.down (ih (by push_cast at hj; omega)) (by
        rw [e]
        exact one _ _ (by omega))
      rw [e] at h
      exact h
  have conn : ∀ x y : Int, (1 ≤ x ∧ x ≤ n ∧ 1 ≤ y ∧ y ≤ n ∧
      ¬ (ax + 1 ≤ x ∧ x ≤ ax + k ∧ ay + 1 ≤ y ∧ y ≤ ay + k)) →
      Conn m (n + 2) 1 (cellAt (n + 2) 1 1) (cellAt (n + 2) x y) := by
    intro x y h
    by_cases hc : ax + 1 ≤ x ∧ x ≤ ax + k
    · -- the row of the cell is clear of the hole: down the first column, then right
      have go : ∀ j : Nat, 1 + (j : Int) ≤ n →
          Conn m (n + 2) 1 (cellAt (n + 2) 1 1) (cellAt (n + 2) (1 + j) y) := by
        intro j
        induction j with
        | zero =>
          intro _
          have := col1 (y - 1).toNat (by omega)
          rw [show (1 : Int) + ((y - 1).toNat : Int) = y from by omega] at this
          exact this
        | succ j ih =>
          intro hj
          have e : cellAt (n + 2) (1 + (j : Int)) y + 1 =
              cellAt (n + 2) (1 + ((j + 1 : Nat) : Int)) y := by
            unfold cellAt; push_cast; ring
          have h1 := Conn.right (ih (by push_cast at hj; omega)) (by
            rw [e]
            exact one _ _ (by omega))
          rw [e] at h1
          exact h1
      have := go (x - 1).toNat (by omega)
      rw [show (1 : Int) + ((x - 1).toNat : Int) = x from by omega] at this
      exact this
    · -- the column of the cell is clear of the hole: along the first row, then down
      have go : ∀ j : Nat, 1 + (j : Int) ≤ n →
          Conn m (n + 2) 1 (cellAt (n + 2) 1 1) (cellAt (n + 2) x (1 + j)) := by
        intro j
        induction j with
        | zero =>
          intro _
          have := row1 (x - 1).toNat (by omega)
          rw [show (1 : Int) + ((x - 1).toNat : Int) = x from by omega] at this
          exact this
        | succ j ih =>
          intro hj
          have e : cellAt (n + 2) x (1 + (j : Int)) + (n + 2) =
              cellAt (n + 2) x (1 + ((j + 1 : Nat) : Int)) := by
            unfold cellAt; push_cast; ring
          have h1 := Conn.down (ih (by push_cast at hj; omega)) (by
            rw [e]
            exact one _ _ (by omega))
          rw [e] at h1
          exact h1
      have := go (y - 1).toNat (by omega)
      rw [show (1 : Int) + ((y - 1).toNat : Int) = y from by omega] at this
      exact this
  have d1 := floodFill_done n n m 1 2 (cellAt (n + 2) 1 1) [] hp (Or.inl rfl) (by norm_num)
    (by norm_num) hseed
  obtain ⟨cells, hnd, hmem, harea⟩ := floodFill_cells n n m 1 2 (cellAt (n + 2) 1 1) [] hp
    (Or.inl rfl) (by norm_num) (by norm_num) hseed
  constructor
  · rw [harea]
    have hsub : [cellAt (n + 2) 1 1, cellAt (n + 2) 2 1, cellAt (n + 2) 3 1, cellAt (n + 2) 4 1,
        cellAt (n + 2) 5 1, cellAt (n + 2) 6 1, cellAt (n + 2) 1 2, cellAt (n + 2) 2 2,
        cellAt (n + 2) 3 2, cellAt (n + 2) 4 2, cellAt (n + 2) 5 2] ⊆ cells := by
      intro c hc
      simp only [List.mem_cons, List.mem_singleton, List.not_mem_nil, or_false] at hc
      rw [hmem]
      rcases hc with rfl | rfl | rfl | rfl | rfl | rfl | rfl | rfl | rfl | rfl | rfl <;>
        exact conn _ _ (by omega)
    have hnd1 : [cellAt (n + 2) 1 1, cellAt (n + 2) 2 1, cellAt (n + 2) 3 1, cellAt (n + 2) 4 1,
        cellAt (n + 2) 5 1, cellAt (n + 2) 6 1, cellAt (n + 2) 1 2, cellAt (n + 2) 2 2,
        cellAt (n + 2) 3 2, cellAt (n + 2) 4 2, cellAt (n + 2) 5 2].Nodup := by
      unfold cellAt
      simp only [List.nodup_cons, List.mem_cons, List.mem_singleton, List.not_mem_nil,
        List.nodup_nil, not_or, or_false, not_false_eq_true, and_true]
      omega
    have := (List.Nodup.subperm hnd1 hsub).length_le
    simp only [List.length_cons, List.length_nil] at this
    omega
  · intro x y hx hxs
    split
    · rename_i hc
      exact d1.2.1 _ (conn x y hc)
    · rename_i hc
      have h0 : rd m (cellAt (n + 2) x y) = 0 := by rw [hm x y hx hxs, if_neg hc]
      rw [d1.2.2.1 _ (fun q => by
        rw [q.colour] at h0
        exact absurd h0 (by norm_num))]
      exact h0

/-- The body of the main scan at a `Foreground` cell whose region has more
than 10 cells and whose outer trace reports more than one point: the polygon
of the trace is handed over. -/
theorem scanCell_outer (w h s i : Int) (st : Scan) (h1 : rd st.buffer i = 1)
    (ha : (floodFill w h (wr st.buffer i 2) s 1 2 [i]).area > 10)
    (hpc : (trace4 i 1 (cwNeighborOffsets4 s) (cwNeighborOffsets8 s)
      (floodFill w h (wr st.buffer i 2) s 1 2 [i]).buffer s st.points).pointCount > 1) :
    ∃ (pts : List Point) (p : List Point),
      scanCell w h s i st =
        ⟨(trace4 i 1 (cwNeighborOffsets4 s) (cwNeighborOffsets8 s)
          (floodFill w h (wr st.buffer i 2) s 1 2 [i]).buffer s st.points).buffer, pts,
          st.polygons ++ [⟨1, (trace4 i 1 (cwNeighborOffsets4 s) (cwNeighborOffsets8 s)
            (floodFill w h (wr st.buffer i 2) s 1 2 [i]).buffer s st.points).stackSize, p⟩]⟩ := by
  unfold scanCell
  simp only []
  rw [if_pos h1, if_pos ha, if_pos hpc]
  exact ⟨_, _, rfl⟩

/-- The body of the main scan at a `Visited` cell with `Background` below
whose inner trace reports more than one point and a stack size over 8: the
polygon of the trace is handed over. -/
theorem scanCell_hole (w h s i : Int) (st : Scan) (h2 : rd st.buffer i = 2)
    (h0 : rd st.buffer (i + s) = 0)
    (hpc : (trace4 i (-1) (cwNeighborOffsets4 s) (cwNeighborOffsets8 s) st.buffer s
      st.points).pointCount > 1)
    (hss : (trace4 i (-1) (cwNeighborOffsets4 s) (cwNeighborOffsets8 s) st.buffer s
      st.points).stackSize > 8) :
    ∃ (pts : List Point) (p : List Point),
      scanCell w h s i st =
        ⟨(trace4 i (-1) (cwNeighborOffsets4 s) (cwNeighborOffsets8 s) st.buffer s
          st.points).buffer, pts,
          st.polygons ++ [⟨-1, (trace4 i (-1) (cwNeighborOffsets4 s) (cwNeighborOffsets8 s)
            st.buffer s st.points).stackSize, p⟩]⟩ := by
  unfold scanCell
  simp only []
  rw [if_neg (by rw [h2]; norm_num), if_pos ⟨h2, h0⟩, if_pos ⟨hpc, hss⟩]
  exact ⟨_, _, rfl⟩

/-- The polygons of a filled square with a square hole. For every `n x n`
image, `n ≤ baseWidth`, whose pixels have alpha 255 except those of a `k x k`
hole, `k ≥ 2`, that is at least 2 pixels from every side of the image and
whose top left pixel `(ax, ay)` is not `(2, 2)`: `processImage` hands over two
polygons, the first from the outer trace, with the stack size `4 * (n - 1)`,
the second from the inner trace of the hole, with the stack size
`4 * (k + 1)`. -/
theorem processImage_annulus (n k ax ay : Int) (data : Nat) (points : List Point) (hk : 2 ≤ k)
    (hax : 2 ≤ ax) (hay : 2 ≤ ay) (hbx : ax + k + 2 ≤ n) (hby : ay + k + 2 ≤ n)
    (hn : n ≤ baseWidth) (hcorner : ¬ (ax = 2 ∧ ay = 2))
    (hdata : ∀ x y : Int, 0 ≤ x → x < n → 0 ≤ y → y < n →
      (rd data (4 * (y * n + x) + 3) = 255 ↔ ¬ (ax ≤ x ∧ x < ax + k ∧ ay ≤ y ∧ y < ay + k))) :
    ∃ p1 p2 : List Point, (processImage n n data points).polygons =
      [⟨1, 4 * (n - 1), p1⟩, ⟨-1, 4 * (k + 1), p2⟩] := by
  have hn6 : 6 ≤ n := by omega
  have hbw : baseWidth = 420 := rfl
  have hmp : maxPointCount = 177662 := by decide
  rw [processImage_polygons_eq]
  have hmask := annulus_mask n k ax ay data (by omega) hax hay hbx hby hdata
  have hp0 : PaddedMask n n (eraseSpurs n n (buildMask n n data)) :=
    PaddedMask.of_ink (by omega) (by omega) (eraseSpurs_ink n n data (by omega) (by omega))
  generalize eraseSpurs n n (buildMask n n data) = m0 at hmask hp0 ⊢
  obtain ⟨farea, ffill⟩ := annulus_fill n k ax ay m0 hax hay hn6 hp0 hmask
  have hseed : rd m0 (cellAt (n + 2) 1 1) = 1 := by
    rw [hmask 1 1 (by omega) (by omega), if_pos (by omega)]
  -- the outer trace
  obtain ⟨t1, t2, t3⟩ := trace4_round (n + 2) 1 1 (n - 1) (n - 1)
    (floodFill n n (wr m0 (cellAt (n + 2) 1 1) 2) (n + 2) 1 2 [cellAt (n + 2) 1 1]).buffer points
    (by omega) (by omega) (by omega) (by omega) (by omega) (by omega)
    (fun x y a1 a2 a3 a4 a5 => by rw [ffill x y (by omega) (by omega), if_pos (by omega)])
    (fun x y a1 a2 a3 a4 a5 => by rw [ffill x y (by omega) (by omega), if_neg (by omega)])
    (Or.inr (fun q q0 q1 => by
      obtain ⟨dx, dy, d1, d2, d3, d4, e⟩ := cellAt_around (n + 2) (1 + 1) (1 + 1) q q0 q1
      rw [e, ffill _ _ (by omega) (by omega), if_pos (by omega)]
      norm_num))
  obtain ⟨pts1, p1, hcell1⟩ := scanCell_outer n n (n + 2) (cellAt (n + 2) 1 1) ⟨m0, points, []⟩
    hseed farea t1
  simp only [] at hcell1
  rw [t2] at hcell1
  have H1 : ∀ x y : Int, 0 ≤ x → x < n + 2 →
      rd (trace4 (cellAt (n + 2) 1 1) 1 (cwNeighborOffsets4 (n + 2)) (cwNeighborOffsets8 (n + 2))
        (floodFill n n (wr m0 (cellAt (n + 2) 1 1) 2) (n + 2) 1 2 [cellAt (n + 2) 1 1]).buffer
        (n + 2) points).buffer (cellAt (n + 2) x y) =
        if 1 ≤ x ∧ x ≤ n ∧ 1 ≤ y ∧ y ≤ n ∧ (x = 1 ∨ x = n ∨ y = 1 ∨ y = n) then 3
        else if 1 ≤ x ∧ x ≤ n ∧ 1 ≤ y ∧ y ≤ n ∧
          ¬ (ax + 1 ≤ x ∧ x ≤ ax + k ∧ ay + 1 ≤ y ∧ y ≤ ay + k) then 2 else 0 := by
    intro x y hx hxs
    rw [t3 x y hx hxs, ffill x y hx hxs]
    split_ifs <;> first | rfl | omega
  generalize (trace4 (cellAt (n + 2) 1 1) 1 (cwNeighborOffsets4 (n + 2))
    (cwNeighborOffsets8 (n + 2))
    (floodFill n n (wr m0 (cellAt (n + 2) 1 1) 2) (n + 2) 1 2 [cellAt (n + 2) 1 1]).buffer
    (n + 2) points).buffer = b1 at hcell1 H1
  have below : ∀ x y : Int, cellAt (n + 2) x y + (n + 2) = cellAt (n + 2) x (y + 1) := by
    intro x y
    unfold cellAt
    ring
  have idle1 : ∀ x y : Int, 1 ≤ x → x ≤ n → 1 ≤ y → y ≤ n → (y < ay ∨ (y = ay ∧ x ≤ ax)) →
      IdleAt b1 (n + 2) (cellAt (n + 2) x y) := by
    intro x y a1 a2 a3 a4 a5
    unfold IdleAt
    rw [below]
    constructor
    · rw [H1 x y (by omega) (by omega)]
      split_ifs <;> norm_num
    · rintro ⟨e2, e0⟩
      rw [H1 x y (by omega) (by omega)] at e2
      rw [H1 x (y + 1) (by omega) (by omega)] at e0
      split_ifs at e2 e0 <;> omega
  -- the inner trace
  obtain ⟨u1, u2, u3⟩ := trace4_round_hole (n + 2) ax ay (k + 1) (k + 1) b1 pts1
    (by omega) (by omega) (by omega) (by omega) (by omega) (by omega)
    (fun x y a1 a2 a3 a4 a5 => by
      rw [H1 x y (by omega) (by omega), if_neg (by omega), if_pos (by omega)])
    (fun x y a1 a2 a3 a4 a5 => by
      rw [H1 x y (by omega) (by omega), if_neg (by omega), if_neg (by omega)])
    (by
      by_cases c : ay - 1 = 1
      · left
        rw [H1 _ _ (by omega) (by omega), if_pos (by omega)]
        norm_num
      · right
        intro q q0 q1
        obtain ⟨dx, dy, d1, d2, d3, d4, e⟩ := cellAt_around (n + 2) ax (ay - 1) q q0 q1
        rw [e, H1 _ _ (by omega) (by omega)]
        split_ifs <;> omega)
    (by
      by_cases c : ax - 1 = 1
      · left
        rw [H1 _ _ (by omega) (by omega), if_pos (by omega)]
        norm_num
      · right
        intro q q0 q1
        obtain ⟨dx, dy, d1, d2, d3, d4, e⟩ := cellAt_around (n + 2) (ax - 1) ay q q0 q1
        rw [e, H1 _ _ (by omega) (by omega)]
        split_ifs <;> omega)
  obtain ⟨pts2, p2, hcell2⟩ := scanCell_hole n n (n + 2) (cellAt (n + 2) (ax + 1) ay)
    ⟨b1, pts1, [] ++ [⟨1, 2 * (n - 1) + 2 * (n - 1), p1⟩]⟩
    (by
      show rd b1 (cellAt (n + 2) (ax + 1) ay) = 2
      rw [H1 _ _ (by omega) (by omega), if_neg (by omega), if_pos (by omega)])
    (by
      show rd b1 (cellAt (n + 2) (ax + 1) ay + (n + 2)) = 0
      rw [below, H1 _ _ (by omega) (by omega), if_neg (by omega), if_neg (by omega)])
    u1 (by
      show (trace4 (cellAt (n + 2) (ax + 1) ay) (-1) (cwNeighborOffsets4 (n + 2))
        (cwNeighborOffsets8 (n + 2)) b1 (n + 2) pts1).stackSize > 8
      rw [u2]
      omega)
  simp only [] at hcell2
  rw [u2] at hcell2
  have H2 : ∀ x y : Int, 0 ≤ x → x < n + 2 →
      rd (trace4 (cellAt (n + 2) (ax + 1) ay) (-1) (cwNeighborOffsets4 (n + 2))
        (cwNeighborOffsets8 (n + 2)) b1 (n + 2) pts1).buffer (cellAt (n + 2) x y) =
        if ax ≤ x ∧ x ≤ ax + (k + 1) ∧ ay ≤ y ∧ y ≤ ay + (k + 1) ∧
          (x = ax ∨ x = ax + (k + 1) ∨ y = ay ∨ y = ay + (k + 1)) then 3
        else if 1 ≤ x ∧ x ≤ n ∧ 1 ≤ y ∧ y ≤ n ∧ (x = 1 ∨ x = n ∨ y = 1 ∨ y = n) then 3
        else if 1 ≤ x ∧ x ≤ n ∧ 1 ≤ y ∧ y ≤ n ∧
          ¬ (ax + 1 ≤ x ∧ x ≤ ax + k ∧ ay + 1 ≤ y ∧ y ≤ ay + k) then 2 else 0 := by
    intro x y hx hxs
    rw [u3 x y hx hxs, H1 x y hx hxs]
  generalize (trace4 (cellAt (n + 2) (ax + 1) ay) (-1) (cwNeighborOffsets4 (n + 2))
    (cwNeighborOffsets8 (n + 2)) b1 (n + 2) pts1).buffer = b2 at hcell2 H2
  have idle2 : ∀ x y : Int, 1 ≤ x → x ≤ n → 1 ≤ y → y ≤ n →
      IdleAt b2 (n + 2) (cellAt (n + 2) x y) := by
    intro x y a1 a2 a3 a4
    unfold IdleAt
    rw [below]
    constructor
    · rw [H2 x y (by omega) (by omega)]
      split_ifs <;> norm_num
    · rintro ⟨e2, e0⟩
      rw [H2 x y (by omega) (by omega)] at e2
      rw [H2 x (y + 1) (by omega) (by omega)] at e0
      split_ifs at e2 e0 <;> omega
  -- the scan
  obtain ⟨N, hN⟩ : ∃ N : Nat, (N : Int) = n := ⟨n.toNat, by omega⟩
  have hNt : n.toNat = N := by omega
  obtain ⟨A, hA⟩ : ∃ A : Nat, (A : Int) = ay - 2 := ⟨(ay - 2).toNat, by omega⟩
  obtain ⟨C, hC⟩ : ∃ C : Nat, (C : Int) = ax := ⟨ax.toNat, by omega⟩
  rw [hNt, scanRows_first n n (n + 2) N 0 (N - 1) 0 (N - 1) 1 1 2 (cellAt (n + 2) 1 1)
      (cellAt (n + 2) 1 1 + 1) m0 points [] (by omega) (by omega) (by norm_num) (by norm_num)
      (by unfold cellAt; push_cast; ring) rfl (fun r hr => absurd hr (by omega))
      (fun j hj => absurd hj (by omega)),
    hcell1,
    scanCols_idle n n (n + 2) (N - 1) (cellAt (n + 2) 1 1 + 1) b1 pts1 _ (fun j hj => by
      rw [show cellAt (n + 2) 1 1 + 1 + (j : Int) = cellAt (n + 2) (2 + j) 1 from by
        unfold cellAt; ring]
      exact idle1 _ _ (by omega) (by omega) (by omega) (by omega) (by omega)),
    scanRows_first n n (n + 2) (N - 1) A (N - 1 - A - 1) C (N - C - 1) 2 ay (ay + 1)
      (cellAt (n + 2) (ax + 1) ay) (cellAt (n + 2) (ax + 1) ay + 1) b1 pts1 _ (by omega)
      (by omega) (by omega) rfl (by unfold cellAt; rw [hC]; ring) rfl
      (fun r hr j hj => by
        rw [show (2 + (r : Int)) * (n + 2) + 1 + (j : Int) = cellAt (n + 2) (1 + j) (2 + r) from by
          unfold cellAt; ring]
        exact idle1 _ _ (by omega) (by omega) (by omega) (by omega) (by omega))
      (fun j hj => by
        rw [show ay * (n + 2) + 1 + (j : Int) = cellAt (n + 2) (1 + j) ay from by
          unfold cellAt; ring]
        exact idle1 _ _ (by omega) (by omega) (by omega) (by omega) (by omega)),
    hcell2,
    scanCols_idle n n (n + 2) (N - C - 1) (cellAt (n + 2) (ax + 1) ay + 1) b2 pts2 _
      (fun j hj => by
        rw [show cellAt (n + 2) (ax + 1) ay + 1 + (j : Int) = cellAt (n + 2) (ax + 2 + j) ay from by
          unfold cellAt; ring]
        exact idle2 _ _ (by omega) (by omega) (by omega) (by omega)),
    scanRows_idle n n (n + 2) (N - 1 - A - 1) (ay + 1) b2 pts2 _ (fun r hr j hj => by
      rw [show (ay + 1 + (r : Int)) * (n + 2) + 1 + (j : Int) =
        cellAt (n + 2) (1 + j) (ay + 1 + r) from by unfold cellAt; ring]
      exact idle2 _ _ (by omega) (by omega) (by omega) (by omega))]
  exact ⟨p1, p2, by
    show [] ++ [(⟨1, 2 * (n - 1) + 2 * (n - 1), p1⟩ : Emitted)] ++
      [⟨-1, 2 * (k + 1) + 2 * (k + 1), p2⟩] = _
    rw [show 2 * (n - 1) + 2 * (n - 1) = 4 * (n - 1) from by ring,
      show 2 * (k + 1) + 2 * (k + 1) = 4 * (k + 1) from by ring]
    rfl⟩

/-! ## Squares with a hole for which `processImage` does not hand over two polygons -/

set_option maxRecDepth 100000 in
/-- The 5x5 filled square with the 2x2 hole of the pixels `1 ≤ x, y < 3`, one
pixel from the left and from the top side: the spur scan opens the hole to the
outside, and `processImage` hands over one polygon. -/
theorem annulus_thin_wall_run :
    (processImage 5 5 (annulusImage 5 1 3) []).polygons =
      [⟨1, 16, [⟨3, 0⟩, ⟨4, 4⟩, ⟨0, 4⟩, ⟨3, 3⟩]⟩] := by
  decide!

set_option maxRecDepth 100000 in
/-- The cells of the mask of the 6x6 square with the 2x2 hole. -/
theorem ring6_grid :
    PaddedMask 6 6 ring6Mask ∧
    ∀ x : Int, 0 ≤ x → x < 6 → ∀ y : Int, 0 ≤ y → y < 6 →
      rd ring6Mask ((y + 1) * (6 + 2) + x + 1) =
        if rd (annulusImage 6 2 4) (4 * (y * 6 + x) + 3) = 255 then 1 else 0 := by
  decide!

set_option maxRecDepth 100000 in
/-- The mask of the 6x6 square with the 2x2 hole has no spur. -/
theorem ring6_no_spur : ∀ r : Nat, r < (6 : Int).toNat → ∀ k : Nat, k < (6 : Int).toNat →
    isSpur ring6Mask (6 + 2) (((r : Int) + 1) * (6 + 2) + 6 - k) = false := by
  decide!

/-- The mask the main scan starts from, for the 6x6 square with the 2x2
hole. -/
theorem ring6_mask : eraseSpurs 6 6 (buildMask 6 6 (annulusImage 6 2 4)) = ring6Mask :=
  eraseSpurs_of_grid 6 6 (annulusImage 6 2 4) ring6Mask (by norm_num) (by norm_num)
    ring6_grid.1 ring6_grid.2 ring6_no_spur

set_option maxRecDepth 100000 in
/-- The fill of the region of the 6x6 square with the 2x2 hole: 32 cells. -/
theorem ring6_fill :
    floodFill 6 6 (wr ring6Mask 9 2) (6 + 2) 1 2 [9] =
      { buffer := ring6Visited, stack := [], area := 32 } := by
  decide!

set_option maxRecDepth 100000 in
/-- The first 31 trips of the outer trace of the 6x6 square with the 2x2 hole
whose top left pixel is (2, 2): the tracer goes round the square and, back
below the start cell, turns to the cell (2, 2) of the mask, which has the hole
at its lower right, and on round the hole; it has traced every cell of the
region when it is back beside the hole. -/
theorem ring6_trips :
    traceLoop 9 1 (cwNeighborOffsets4 (6 + 2)) (cwNeighborOffsets8 (6 + 2)) 31
        ⟨wr ring6Visited 9 3, [9], 9, 1, 0⟩ =
      (⟨ring6Traced, [9, 10, 11, 12, 13, 14, 22, 30, 38, 46, 54, 53, 52, 51, 50, 49, 41, 33, 25,
        17, 18, 19, 20, 21, 29, 37, 45, 44, 43, 42, 34, 26], 26, 0, 0⟩,
        TraceExit.outOfFuel) := by
  decide!

set_option maxRecDepth 100000 in
/-- Beside the hole the tracer is caught in the cycle 26, 25, 33, 34 of
`Traced` cells. -/
theorem ring6_cycle : ∀ pd ∈ [((26 : Int), (0 : Int)), (25, 3), (33, 2), (34, 1)],
    (searchNew pd.1 1 (cwNeighborOffsets4 (6 + 2)) (cwNeighborOffsets8 (6 + 2)) ring6Traced
      ((pd.2 - 1) % 4) 4 ((pd.2 - 1) % 4)).1 = none ∧
    ∃ q ∈ [((26 : Int), (0 : Int)), (25, 3), (33, 2), (34, 1)],
      searchTraced pd.1 1 (cwNeighborOffsets4 (6 + 2)) ring6Traced ((pd.2 - 1) % 4) 4
        (searchNew pd.1 1 (cwNeighborOffsets4 (6 + 2)) (cwNeighborOffsets8 (6 + 2)) ring6Traced
          ((pd.2 - 1) % 4) 4 ((pd.2 - 1) % 4)).2 = some q ∧ q.1 ≠ 9 ∧ rd ring6Traced q.1 = 3 := by
  decide!

set_option maxRecDepth 100000 in
/-- The trips allowed to the outer trace are more than the 31 + 1261 it
makes. -/
theorem ring6_fuel :
    31 + 1262 ≤ (memSize ring6Visited + 1) * (maxRevisited.toNat + 2) := by
  decide!

/-- The outer trace of the 6x6 square with the 2x2 hole whose top left pixel
is (2, 2) is given up: it reports no point. -/
theorem ring6_trace (pts : List Point) :
    (trace4 9 1 (cwNeighborOffsets4 (6 + 2)) (cwNeighborOffsets8 (6 + 2)) ring6Visited (6 + 2)
      pts).pointCount = 0 := by
  apply trace4_pointCount_open
  obtain ⟨k, hk⟩ : ∃ k, (memSize ring6Visited + 1) * (maxRevisited.toNat + 2) = 31 + k ∧
      1260 < k := ⟨(memSize ring6Visited + 1) * (maxRevisited.toNat + 2) - 31, by
    have := ring6_fuel
    omega⟩
  rw [hk.1, traceLoop_add _ _ _ _ 31 k _ _ ring6_trips]
  rw [traceLoop_cycle 9 1 _ _ ring6Traced _ ring6_cycle 1260 _ 0 (26, 0) (by simp) (by decide)
    (by decide) k hk.2]
  decide

/-- The mask of the visited 6x6 square with the 2x2 hole has no `Traced`
cell. -/
theorem ring6_no_traced : ∀ c : Int, rd ring6Visited c ≠ 3 := by
  intro c
  by_cases h0 : 0 ≤ c
  · by_cases h1 : c < 64
    · have key : ∀ c : Int, 0 ≤ c → c < 64 → rd ring6Visited c ≠ 3 := by decide!
      exact key c h0 h1
    · have hm : memSize ring6Visited ≤ 64 := by decide!
      rw [rd_eq_zero_of_memSize_le _ _ (by omega)]
      norm_num
  · rw [rd_neg _ _ (by omega)]
    norm_num

set_option maxRecDepth 100000 in
/-- The fill that erases the region of the 6x6 square with the 2x2 hole. -/
theorem ring6_erase :
    (floodFill 6 6 (wr ring6Visited 9 2) (6 + 2) 2 0 [9]).buffer = 0 := by
  decide!

/-- The body of the main scan at the first cell of the 6x6 square with the 2x2
hole whose top left pixel is (2, 2): the outer trace is given up, the region
is erased, and no polygon is handed over. -/
theorem ring6_cell :
    ∃ pts : List Point, scanCell 6 6 (6 + 2) 9 ⟨ring6Mask, [], []⟩ = ⟨0, pts, []⟩ := by
  have h1 : rd ring6Mask 9 = 1 := by decide!
  have h2 : rd ring6Visited 9 = 2 := by decide!
  unfold scanCell
  simp only []
  rw [if_pos h1, ring6_fill]
  simp only []
  rw [if_pos (by decide), if_neg (by rw [ring6_trace]; decide),
    trace4_undo 9 1 _ _ ring6Visited (6 + 2) [] h2
      (trace4_stack_visited 9 1 _ _ ring6Visited (6 + 2) [] h2 ring6_no_traced),
    ring6_erase]
  exact ⟨_, rfl⟩

/-- The 6x6 filled square with the 2x2 hole of the pixels `2 ≤ x, y < 4`, two
pixels from every side: `processImage` hands over no polygon, the outer trace
being given up. -/
theorem annulus_corner_hole_run : (processImage 6 6 (annulusImage 6 2 4) []).polygons = [] := by
  obtain ⟨pts, hcell⟩ := ring6_cell
  have idle : ∀ i : Int, IdleAt 0 (6 + 2) i := by
    intro i
    unfold IdleAt
    rw [rd_zero]
    norm_num
  rw [processImage_polygons_eq, ring6_mask,
    scanRows_first 6 6 (6 + 2) (6 : Int).toNat 0 5 0 5 1 1 2 9 10 ring6Mask [] []
      (by decide) (by decide) (by norm_num) (by norm_num) (by norm_num) (by norm_num)
      (fun r hr => absurd hr (by omega)) (fun k hk => absurd hk (by omega)),
    hcell, scanCols_idle 6 6 (6 + 2) 5 10 0 _ _ (fun k _ => idle _),
    scanRows_idle 6 6 (6 + 2) 5 2 0 _ _ (fun r _ k _ => idle _)]

set_option maxRecDepth 100000 in
/-- The alpha bytes of the 20x20 square with the centred 6x6 hole. -/
theorem annulus20_alpha : ∀ x : Int, 0 ≤ x → x < 20 → ∀ y : Int, 0 ≤ y → y < 20 →
    (rd (annulusImage 20 7 13) (4 * (y * 20 + x) + 3) = 255 ↔
      ¬ (7 ≤ x ∧ x < 7 + 6 ∧ 7 ≤ y ∧ y < 7 + 6)) := by
  decide!

/-- C9, counterexample: three filled squares with a square hole strictly
inside for which `processImage` does not hand over two polygons. The 7x7
square with a 1x1 hole in its centre gives one polygon, the outer one: the
trace of the hole has 8 cells and is ignored. The 5x5 square with the 2x2 hole
of the pixels `1 ≤ x, y < 3`, one pixel from the top and from the left side,
gives one polygon: the spur scan erases the wall of one pixel and opens the
hole. The 6x6 square with the 2x2 hole whose top left pixel is (2, 2), two
pixels from every side, gives no polygon: the outer trace, back below its
start cell, turns to the cell beside the hole instead of closing, and is given
up. -/
theorem annulus_not_two_polygons :
    (processImage 7 7 (annulusImage 7 3 4) []).polygons =
      [⟨1, 24, [⟨0, 0⟩, ⟨6, 0⟩, ⟨6, 6⟩, ⟨0, 6⟩]⟩] ∧
    (processImage 5 5 (annulusImage 5 1 3) []).polygons =
      [⟨1, 16, [⟨3, 0⟩, ⟨4, 4⟩, ⟨0, 4⟩, ⟨3, 3⟩]⟩] ∧
    (processImage 6 6 (annulusImage 6 2 4) []).polygons = [] :=
  ⟨annulus_small_hole_run, annulus_thin_wall_run, annulus_corner_hole_run⟩

/-- C9, amended: a filled square with a square hole yields exactly two
polygons when the hole is at least 2x2, at least 2 pixels from every side, and
does not have its top left pixel at (2, 2). For every `n x n` image,
`n ≤ baseWidth`, whose pixels have alpha 255 except those of the `k x k` hole
with the top left pixel `(ax, ay)` (whatever the colours, and whatever the
`points` array holds), with `k ≥ 2`, `2 ≤ ax`, `2 ≤ ay`, `ax + k + 2 ≤ n`,
`ay + k + 2 ≤ n` and `(ax, ay) ≠ (2, 2)`: `processImage` hands exactly two
polygons to the consumer, the first from the outer trace (`cwDir = 1`, stack
size `4 * (n - 1)`), the second from the inner trace of the hole
(`cwDir = -1`), whose reported stack size `4 * (k + 1)` is greater than 8. -/
theorem annulus_two_polygons (n k ax ay : Int) (data : Nat) (points : List Point) (hk : 2 ≤ k)
    (hax : 2 ≤ ax) (hay : 2 ≤ ay) (hbx : ax + k + 2 ≤ n) (hby : ay + k + 2 ≤ n)
    (hn : n ≤ baseWidth) (hcorner : ¬ (ax = 2 ∧ ay = 2))
    (hdata : ∀ x y : Int, 0 ≤ x → x < n → 0 ≤ y → y < n →
      (rd data (4 * (y * n + x) + 3) = 255 ↔ ¬ (ax ≤ x ∧ x < ax + k ∧ ay ≤ y ∧ y < ay + k))) :
    ∃ outer inner : Emitted,
      (processImage n n data points).polygons = [outer, inner] ∧
      outer.cwDir = 1 ∧ outer.stackSize = 4 * (n - 1) ∧
      inner.cwDir = -1 ∧ inner.stackSize = 4 * (k + 1) ∧ 8 < inner.stackSize := by
  obtain ⟨p1, p2, h⟩ := processImage_annulus n k ax ay data points hk hax hay hbx hby hn hcorner
    hdata
  exact ⟨_, _, h, rfl, rfl, rfl, rfl, by show 8 < 4 * (k + 1); omega⟩

/-- C9, witness: the 20x20 filled square with the centred 6x6 hole of the
pixels `7 ≤ x, y < 13`. -/
theorem annulus_two_polygons_witness :
    ∃ outer inner : Emitted,
      (processImage 20 20 (annulusImage 20 7 13) []).polygons = [outer, inner] ∧
      outer.cwDir = 1 ∧ outer.stackSize = 4 * (20 - 1) ∧
      inner.cwDir = -1 ∧ inner.stackSize = 4 * (6 + 1) ∧ 8 < inner.stackSize :=
  annulus_two_polygons 20 6 7 7 (annulusImage 20 7 13) [] (by decide) (by decide) (by decide)
    (by decide) (by decide) (by decide) (by decide)
    (fun x y hx0 hx1 hy0 hy1 => annulus20_alpha x hx0 hx1 y hy0 hy1)

end Pixel
